import Mathlib

/-!
# The plant scheduler (`1000-213bPW/2-Fabryka/ab12345/plant/solution.c`)

The C program keeps the whole plant in global variables that are read and
written only while the single mutex is held.  The embedding below carries those
globals in the record `Plant` and turns every critical section into a function
on `Plant`.  The clock value read by `time(NULL)` and the outcome of the
allocations are inputs of the functions that use them.

* `size_t` values are natural numbers; the decrement `--x` wraps at zero as it
  does on a 64 bit machine (`size_dec`), and the one sum that can wrap is taken
  modulo `2 ^ 64`.  Counters that grow by one per allocated entry are plain
  natural numbers.
* A pointer to a task entry is the index of the entry in `task_ex_ptrs` (entries
  are appended and never moved).  A pointer to a worker entry is named by the
  slot the entry currently occupies in `worker_ex_ptrs`.
* The arrays `stations_ex`, `task_ex_ptrs` and `worker_ex_ptrs` are lists; the
  globals `num_stations`, `num_tasks` and `num_total_workers` are their lengths.
-/

namespace Fabryka

/-! ## Data model -/

/-- The two values returned by the interface functions. Modelled from the spec:
`plant.h`, which defines `PLANTOK` and `ERROR`, is not among the sources; the
spec gives "status ∈ {OK, ERROR}". -/
inductive plant_status where
  | PLANTOK
  | ERROR
deriving DecidableEq, Repr

/-- The decrement of a `size_t` variable: `0` wraps to `2 ^ 64 - 1`. -/
def size_dec (x : Nat) : Nat := if x = 0 then 2 ^ 64 - 1 else x - 1

/-- The conversion of an `int` to `size_t`. -/
def size_of_int (x : Int) : Nat := (x % 2 ^ 64).toNat

/-- Extended station type. -/
structure station_ex_t where
  capacity : Nat
  num_workers : Nat
deriving DecidableEq, Repr

inductive task_status where
  | PENDING
  | IN_PROGRESS
  | FINISHED
deriving DecidableEq, Repr

/-- The base task record. Modelled from the spec: `plant.h` is not among the
sources; the spec gives "Task (identifier, required capacity, start, result-slot
array)", the capacity being a number of workers. A result slot is `none` until
an executor stores the value of the work callback in it. -/
structure task_t where
  id : Int
  start : Int
  capacity : Nat
  results : List (Option Int)
deriving DecidableEq, Repr

/-- Extended task type (the two condition variables carry no data). -/
structure task_ex_t where
  task : task_t
  id : Int
  status : task_status
  is_skipped : Bool
  num_waiting : Nat
deriving DecidableEq, Repr

inductive worker_status where
  | IDLE
  | WORKING
deriving DecidableEq, Repr

/-- The base worker record. Modelled from the spec: `plant.h` is not among the
sources; the spec gives "Worker (identifier, start, end, work callback)". The
value returned by the callback is an input of `do_work`. -/
structure worker_t where
  id : Int
  start : Int
  end_ : Int
deriving DecidableEq, Repr

/-- The argument record of an executor thread: `t_ex_ptr` is the index of the
task entry; `w_ex_ptr` always points back to the owning worker entry. -/
structure work_args_t where
  t_ex_ptr : Nat
  station_index : Nat
  i : Nat
deriving DecidableEq, Repr

/-- Extended worker type. -/
structure worker_ex_t where
  worker : worker_t
  id : Int
  status : worker_status
  work_args : work_args_t
deriving DecidableEq, Repr

/-- The global variables of `solution.c`. -/
structure Plant where
  stations_ex : List station_ex_t
  max_station_capacity : Nat
  task_ex_ptrs : List task_ex_t
  size_tasks : Nat
  num_pending_tasks : Nat
  num_in_progress_tasks : Nat
  worker_ex_ptrs : List worker_ex_t
  num_active_workers : Nat
  num_workers_to_come : Nat
  is_plant_initialized : Bool
  is_plant_being_destroyed : Bool
  next_alarm_time : Int
deriving DecidableEq, Repr

def Plant.num_stations (p : Plant) : Nat := p.stations_ex.length

def Plant.num_tasks (p : Plant) : Nat := p.task_ex_ptrs.length

def Plant.num_total_workers (p : Plant) : Nat := p.worker_ex_ptrs.length

/-! ## Entity registry -/

/-- The index of the first entry satisfying `q`, as found by a loop
`for (i = 0; i < n; ++i) if (q(a[i])) return a[i];`. -/
def find_first {α : Type} (q : α → Bool) : List α → Option Nat
  | [] => none
  | a :: l => if q a then some 0 else (find_first q l).map (fun i => i + 1)

/-- Replaces the entry at index `i` by `f` of it (a write through a pointer). -/
def update_at {α : Type} (l : List α) (i : Nat) (f : α → α) : List α :=
  match l[i]? with
  | some a => l.set i (f a)
  | none => l

def task_ex_ptrs_find (p : Plant) (t : task_t) : Option Nat :=
  find_first (fun e => decide (e.id = t.id)) p.task_ex_ptrs

/-- The initialisation of a new task entry in `task_ex_ptrs_append`. -/
def task_ex_init (t : task_t) : task_ex_t :=
  { task := t, id := t.id, status := .PENDING, is_skipped := false, num_waiting := 0 }

/-- The plant after `task_ex_ptrs_append` has appended the entry of `t`: the
table doubles its allocated size when it is full. -/
def task_appended (p : Plant) (t : task_t) : Plant :=
  { p with
    size_tasks := if p.task_ex_ptrs.length = p.size_tasks then 2 * p.size_tasks else p.size_tasks
    task_ex_ptrs := p.task_ex_ptrs ++ [task_ex_init t]
    num_pending_tasks := p.num_pending_tasks + 1 }

/-- Appends a new entry with status `PENDING`; `none` is the `NULL` returned
when `malloc` or `realloc` fails (`alloc = false`), which leaves the plant as it
was. -/
def task_ex_ptrs_append (alloc : Bool) (p : Plant) (t : task_t) : Option Plant :=
  if alloc then some (task_appended p t) else none

def worker_ex_ptrs_find (p : Plant) (w : worker_t) : Option Nat :=
  find_first (fun e => decide (e.id = w.id)) p.worker_ex_ptrs

/-- The initialisation of a new worker entry in `worker_ex_ptrs_append`; the
fields of `work_args` that it leaves unset are `0`. -/
def worker_ex_init (w : worker_t) : worker_ex_t :=
  { worker := w, id := w.id, status := .IDLE,
    work_args := { t_ex_ptr := 0, station_index := 0, i := 0 } }

/-- The plant after `worker_ex_ptrs_append` has added the entry of `w` at the end
of the active prefix: the first inactive entry moves to the end of the table and
the new entry takes its slot. When there is no inactive entry the slot copied is
the still unwritten slot `num_total_workers` itself, which the second assignment
overwrites. `init_plant` allocates the table for `n_workers` entries; the list
has no such bound, so the function is defined for every registration. -/
def worker_appended (p : Plant) (w : worker_t) : Plant :=
  { p with
    worker_ex_ptrs :=
      (p.worker_ex_ptrs ++
        [(p.worker_ex_ptrs[p.num_active_workers]?).getD (worker_ex_init w)]).set
        p.num_active_workers (worker_ex_init w)
    num_workers_to_come := size_dec p.num_workers_to_come
    num_active_workers := p.num_active_workers + 1 }

/-- Appends a new entry with status `IDLE`; `none` is the `NULL` returned when
`malloc` fails (`alloc = false`), which leaves the plant as it was. -/
def worker_ex_ptrs_append (alloc : Bool) (p : Plant) (w : worker_t) : Option Plant :=
  if alloc then some (worker_appended p w) else none

/-! ## The matching engine: `tick_plant` -/

/-- Swaps two slots of the worker table. -/
def swap_workers (ws : List worker_ex_t) (i j : Nat) : List worker_ex_t :=
  match ws[i]?, ws[j]? with
  | some a, some b => (ws.set i b).set j a
  | _, _ => ws

/-- The expiry loops of `tick_plant`. The loop state `(i, num_active_workers)`
is carried as `i` and the distance `n = num_active_workers - i`: an iteration of
the inner `while` swaps slot `i` with slot `num_active_workers - 1` and lowers
`num_active_workers`, and when the `while` stops the `for` advances `i`; either
way `n` drops by one. The result is the table and the new
`num_active_workers`. -/
def expire_loop (now : Int) : Nat → Nat → List worker_ex_t → List worker_ex_t × Nat
  | 0, i, ws => (ws, i)
  | n + 1, i, ws =>
    match ws[i]? with
    | some w =>
      if now ≥ w.worker.end_ then expire_loop now n i (swap_workers ws i (i + n))
      else expire_loop now n (i + 1) ws
    | none => (ws, i + n + 1)

def expire_workers (now : Int) (p : Plant) : Plant :=
  let r := expire_loop now p.num_active_workers 0 p.worker_ex_ptrs
  { p with worker_ex_ptrs := r.1, num_active_workers := r.2 }

/-- The test of the retire loop on one task entry. -/
def unsatisfiable (max_num_workers max_station_capacity : Nat) (t : task_ex_t) : Bool :=
  decide (t.status = .PENDING) &&
    (decide (max_num_workers < t.task.capacity) ||
      decide (max_station_capacity < t.task.capacity))

/-- The retire loop of `tick_plant` over the task table, threading
`num_pending_tasks`. -/
def retire_loop (max_num_workers max_station_capacity : Nat) :
    List task_ex_t → Nat → List task_ex_t × Nat
  | [], np => ([], np)
  | t :: ts, np =>
    if unsatisfiable max_num_workers max_station_capacity t then
      let r := retire_loop max_num_workers max_station_capacity ts (size_dec np)
      ({ t with status := .FINISHED, is_skipped := true } :: r.1, r.2)
    else
      let r := retire_loop max_num_workers max_station_capacity ts np
      (t :: r.1, r.2)

def retire_tasks (p : Plant) : Plant :=
  let r := retire_loop ((p.num_active_workers + p.num_workers_to_come) % 2 ^ 64)
    p.max_station_capacity p.task_ex_ptrs p.num_pending_tasks
  { p with task_ex_ptrs := r.1, num_pending_tasks := r.2 }

/-- A worker that is able to work: `now >= start` and status `IDLE`. -/
def is_available (now : Int) (w : worker_ex_t) : Bool :=
  decide (now ≥ w.worker.start) && decide (w.status = .IDLE)

/-- The number of workers in `[0, num_active_workers)` that are able to work. -/
def count_available (now : Int) (num_active_workers : Nat) (ws : List worker_ex_t) : Nat :=
  (ws.take num_active_workers).countP (is_available now)

/-- The station loop: `best` is `(station_index, *station_ex_ptr)` so far and
`i` the index of the head of the list. -/
def pick_station_from :
    List station_ex_t → Nat → Option (Nat × station_ex_t) → Option (Nat × station_ex_t)
  | [], _, best => best
  | s :: ss, i, best =>
    if s.num_workers = 0 then
      match best with
      | none => pick_station_from ss (i + 1) (some (i, s))
      | some b =>
        if b.2.capacity < s.capacity then pick_station_from ss (i + 1) (some (i, s))
        else pick_station_from ss (i + 1) best
    else pick_station_from ss (i + 1) best

def pick_station (stations : List station_ex_t) : Option (Nat × station_ex_t) :=
  pick_station_from stations 0 none

/-- The test of the task loop on one task entry. -/
def can_take (now : Int) (num_workers station_capacity : Nat) (t : task_ex_t) : Bool :=
  decide (t.status = .PENDING) && decide (now ≥ t.task.start) &&
    (decide (num_workers ≥ t.task.capacity) && decide (station_capacity ≥ t.task.capacity))

/-- The task loop: the first entry that passes the test, with its index. -/
def pick_task_from (now : Int) (num_workers station_capacity : Nat) :
    List task_ex_t → Nat → Option (Nat × task_ex_t)
  | [], _ => none
  | t :: ts, i =>
    if can_take now num_workers station_capacity t then some (i, t)
    else pick_task_from now num_workers station_capacity ts (i + 1)

/-- The assignment loop `for (i = 0; i < num_active_workers && capacity_cpy > 0; ++i)`:
the first argument is `num_active_workers - i`, the second `capacity_cpy`, the
list the table from slot `i` on. -/
def assign_workers (now : Int) (t_ex station_index : Nat) :
    Nat → Nat → List worker_ex_t → List worker_ex_t
  | 0, _, ws => ws
  | _, _, [] => []
  | n + 1, c, w :: ws =>
    if c = 0 then w :: ws
    else if is_available now w then
      { w with
        status := .WORKING
        work_args := { t_ex_ptr := t_ex, station_index := station_index, i := c - 1 } } ::
        assign_workers now t_ex station_index n (c - 1) ws
    else w :: assign_workers now t_ex station_index n c ws

/-- One iteration of the `while (true)` loop; `none` is a `break`. -/
def greedy_step (now : Int) (p : Plant) : Option Plant :=
  match pick_station p.stations_ex with
  | none => none
  | some (station_index, st) =>
    match pick_task_from now (count_available now p.num_active_workers p.worker_ex_ptrs)
        st.capacity p.task_ex_ptrs 0 with
    | none => none
    | some (ti, t) =>
      some { p with
        stations_ex := p.stations_ex.set station_index { st with num_workers := t.task.capacity }
        task_ex_ptrs := p.task_ex_ptrs.set ti { t with status := .IN_PROGRESS }
        num_pending_tasks := size_dec p.num_pending_tasks
        num_in_progress_tasks := p.num_in_progress_tasks + 1
        worker_ex_ptrs :=
          (assign_workers now ti station_index p.num_active_workers t.task.capacity
            p.worker_ex_ptrs) }

/-- The `while (true)` loop, run for at most `fuel` iterations. -/
def greedy_loop (now : Int) : Nat → Plant → Plant
  | 0, p => p
  | fuel + 1, p =>
    match greedy_step now p with
    | none => p
    | some q => greedy_loop now fuel q

/-- One update of `min_future_action_time` by the time `x`. -/
def min_future (now : Int) (m x : Int) : Int :=
  if now < x then (if m = 0 ∨ m > x then x else m) else m

def min_future_action_time (now : Int) (p : Plant) : Int :=
  let m := (p.worker_ex_ptrs.take p.num_active_workers).foldl
    (fun m w => min_future now (min_future now m w.worker.start) w.worker.end_) 0
  p.task_ex_ptrs.foldl (fun m t => min_future now m t.task.start) m

def update_alarm (now : Int) (p : Plant) : Plant :=
  let m := min_future_action_time now p
  if m ≠ 0 ∧ (p.next_alarm_time = 0 ∨ m < p.next_alarm_time) then
    { p with next_alarm_time := m }
  else p

/-- Updates the plant state at clock value `now`. Every iteration of the greedy
loop that does not break turns one `PENDING` task `IN_PROGRESS`, so `num_tasks`
iterations are enough (`greedy_loop_stops`). -/
def tick_plant (now : Int) (p : Plant) : Plant :=
  let p2 := retire_tasks (expire_workers now p)
  if p2.num_pending_tasks = 0 ∧ p2.num_in_progress_tasks = 0 then p2
  else update_alarm now (greedy_loop now p2.task_ex_ptrs.length p2)

/-! ## The work executor -/

/-- The executor `do_work(w_ex, t_ex, station_index, i)`: the callback returns
`v`, which is stored in result slot `i`; then, under the mutex, the worker
becomes `IDLE`, the station loses one worker and the plant is ticked at clock
value `now`. The unlocked store and the critical section are one step: nothing
else reads or writes the result slots. -/
def do_work (now : Int) (v : Int) (p : Plant) (w_ex t_ex station_index i : Nat) : Plant :=
  let p0 := { p with
    task_ex_ptrs := (update_at p.task_ex_ptrs t_ex
      (fun t => { t with task := { t.task with results := t.task.results.set i (some v) } })) }
  let p1 := { p0 with
    worker_ex_ptrs := (update_at p0.worker_ex_ptrs w_ex (fun w => { w with status := .IDLE })) }
  match p1.stations_ex[station_index]? with
  | none => tick_plant now p1
  | some st =>
    let p2 := { p1 with
      stations_ex := p1.stations_ex.set station_index
        { st with num_workers := size_dec st.num_workers } }
    if size_dec st.num_workers = 0 then
      tick_plant now { p2 with
        task_ex_ptrs := (update_at p2.task_ex_ptrs t_ex (fun t => { t with status := .FINISHED }))
        num_in_progress_tasks := size_dec p2.num_in_progress_tasks }
    else tick_plant now p2

/-- The thread started for the worker in slot `w_ex` runs `do_work` on the
arguments stored in that worker's `work_args`. -/
def do_work_pthread_wrap (now : Int) (v : Int) (p : Plant) (w_ex : Nat) : Plant :=
  match p.worker_ex_ptrs[w_ex]? with
  | some w => do_work now v p w_ex w.work_args.t_ex_ptr w.work_args.station_index w.work_args.i
  | none => p

/-! ## The alarm thread -/

/-- The branch of `alarm_thread_func` taken when the timed wait runs out. -/
def alarm_timeout (now : Int) (p : Plant) : Plant :=
  if p.is_plant_initialized then tick_plant now { p with next_alarm_time := 0 } else p

/-! ## Lifecycle controller -/

/-- The maximum loop of `init_plant`. -/
def max_capacity : List station_ex_t → Nat → Nat
  | [], m => m
  | s :: ss, m => max_capacity ss (if s.capacity > m then s.capacity else m)

def init_plant (alloc : Bool) (p : Plant) (stations : List Int) (n_workers : Int) :
    plant_status × Plant :=
  if p.is_plant_initialized then (.ERROR, p)
  else if !alloc then (.ERROR, p)
  else
    let sts : List station_ex_t :=
      stations.map (fun c => { capacity := size_of_int c, num_workers := 0 })
    (.PLANTOK,
      { stations_ex := sts
        max_station_capacity := max_capacity sts 0
        task_ex_ptrs := []
        size_tasks := 1
        num_pending_tasks := 0
        num_in_progress_tasks := 0
        worker_ex_ptrs := []
        num_active_workers := 0
        num_workers_to_come := size_of_int n_workers
        is_plant_initialized := true
        is_plant_being_destroyed := false
        next_alarm_time := 0 })

def add_worker (alloc : Bool) (now : Int) (p : Plant) (w : worker_t) : plant_status × Plant :=
  if !p.is_plant_initialized || p.is_plant_being_destroyed then (.ERROR, p)
  else
    match worker_ex_ptrs_find p w with
    | some _ => (.PLANTOK, p)
    | none =>
      match worker_ex_ptrs_append alloc p w with
      | none => (.ERROR, p)
      | some q => (.PLANTOK, tick_plant now q)

def add_task (alloc : Bool) (now : Int) (p : Plant) (t : task_t) : plant_status × Plant :=
  if !p.is_plant_initialized || p.is_plant_being_destroyed then (.ERROR, p)
  else
    match task_ex_ptrs_find p t with
    | some _ => (.PLANTOK, p)
    | none =>
      match task_ex_ptrs_append alloc p t with
      | none => (.ERROR, p)
      | some q => (.PLANTOK, tick_plant now q)

/-- What a call of `collect_task` has done when it gives up the mutex: it has
returned a status, or it sleeps in `pthread_cond_wait` on the task entry `idx`. -/
inductive collect_outcome where
  | returned (ret : plant_status)
  | blocked (idx : Nat)
deriving DecidableEq, Repr

/-- The loop `while (status != FINISHED) { num_waiting++; wait; num_waiting--; }`
from its test up to the next point where the mutex is given up, followed by the
code after the loop. -/
def collect_wait (p : Plant) (idx : Nat) : collect_outcome × Plant :=
  match p.task_ex_ptrs[idx]? with
  | none => (.returned .ERROR, p)
  | some e =>
    if e.status ≠ .FINISHED then
      (.blocked idx,
        { p with
          task_ex_ptrs := p.task_ex_ptrs.set idx { e with num_waiting := e.num_waiting + 1 } })
    else (.returned (if e.is_skipped then .ERROR else .PLANTOK), p)

/-- A call of `collect_task` up to its return or its first wait. -/
def collect_task (p : Plant) (t : task_t) : collect_outcome × Plant :=
  if !p.is_plant_initialized || p.is_plant_being_destroyed then (.returned .ERROR, p)
  else
    match task_ex_ptrs_find p t with
    | none => (.returned .ERROR, p)
    | some idx => collect_wait p idx

/-- A sleeping call of `collect_task` is woken and owns the mutex again:
`num_waiting--`, then the loop test. -/
def collect_wakeup (p : Plant) (idx : Nat) : collect_outcome × Plant :=
  collect_wait
    { p with
      task_ex_ptrs :=
        (update_at p.task_ex_ptrs idx (fun e => { e with num_waiting := size_dec e.num_waiting })) }
    idx

/-! ## Runs of the plant -/

/-- One critical section of the running plant: a registration, a tick forced by
the alarm thread (which waits with a deadline only when one is armed), or the
completion of the executor of a worker that is `WORKING`. The clock value is
not constrained. -/
inductive Step : Plant → Plant → Prop where
  | add_worker (alloc : Bool) (now : Int) (p : Plant) (w : worker_t) :
      Step p (add_worker alloc now p w).2
  | add_task (alloc : Bool) (now : Int) (p : Plant) (t : task_t) :
      Step p (add_task alloc now p t).2
  | alarm (now : Int) (p : Plant) :
      p.next_alarm_time ≠ 0 → Step p (alarm_timeout now p)
  | do_work (now : Int) (v : Int) (p : Plant) (w_ex : Nat) (w : worker_ex_t) :
      p.worker_ex_ptrs[w_ex]? = some w → w.status = .WORKING →
      Step p (do_work_pthread_wrap now v p w_ex)

/-- The states of the plant between critical sections, from a successful
`init_plant` on. -/
inductive Reachable : Plant → Prop where
  | init (p0 : Plant) (stations : List Int) (n_workers : Int) :
      p0.is_plant_initialized = false →
      Reachable (init_plant true p0 stations n_workers).2
  | step (p q : Plant) : Reachable p → Step p q → Reachable q

/-! ## What a tick does to the task table -/

/-- The effect of one tick at clock value `now`, in a plant with `m` registered
workers, on one task entry: nothing, a start (only of a `PENDING` task whose
start time has come and which needs at most `m` workers), or a retirement (only
of a `PENDING` task). -/
def tick_task (now : Int) (m : Nat) (t t' : task_ex_t) : Prop :=
  t' = t ∨
  (t.status = .PENDING ∧ t.task.start ≤ now ∧ t.task.capacity ≤ m ∧
    t' = { t with status := .IN_PROGRESS }) ∨
  (t.status = .PENDING ∧ t' = { t with status := .FINISHED, is_skipped := true })

/-- Two tables of the same length whose entries are related slot by slot. -/
def TasksRel (R : task_ex_t → task_ex_t → Prop) (ts ts' : List task_ex_t) : Prop :=
  ts'.length = ts.length ∧
    ∀ (i : Nat) (t : task_ex_t), ts[i]? = some t → ∃ t', ts'[i]? = some t' ∧ R t t'

/-- The retire loop on one entry. -/
def retire_one (a b : Nat) (t : task_ex_t) : task_ex_t :=
  if unsatisfiable a b t then { t with status := .FINISHED, is_skipped := true } else t


/-! ## The invariant of the running plant -/

/-- A worker entry that is `WORKING` for station `s`. -/
def works_at (s : Nat) (w : worker_ex_t) : Bool :=
  decide (w.status = .WORKING) && decide (w.work_args.station_index = s)

def is_pending (t : task_ex_t) : Bool := decide (t.status = .PENDING)

def is_in_progress (t : task_ex_t) : Bool := decide (t.status = .IN_PROGRESS)

/-- The facts that hold of the plant whenever the mutex is free. -/
structure Inv (p : Plant) : Prop where
  occ_le : ∀ (s : Nat) (st : station_ex_t), p.stations_ex[s]? = some st →
    st.num_workers ≤ st.capacity
  occ_count : ∀ (s : Nat) (st : station_ex_t), p.stations_ex[s]? = some st →
    p.worker_ex_ptrs.countP (works_at s) = st.num_workers
  working : ∀ w ∈ p.worker_ex_ptrs, w.status = .WORKING →
    ∃ st t, p.stations_ex[w.work_args.station_index]? = some st ∧
      p.task_ex_ptrs[w.work_args.t_ex_ptr]? = some t ∧ t.status = .IN_PROGRESS ∧
      st.num_workers ≤ t.task.capacity
  same_task : ∀ w1 ∈ p.worker_ex_ptrs, ∀ w2 ∈ p.worker_ex_ptrs,
    w1.status = .WORKING → w2.status = .WORKING →
    (w1.work_args.t_ex_ptr = w2.work_args.t_ex_ptr ↔
      w1.work_args.station_index = w2.work_args.station_index)
  skipped : ∀ t ∈ p.task_ex_ptrs, t.is_skipped = true → t.status = .FINISHED
  pending : p.num_pending_tasks = p.task_ex_ptrs.countP is_pending
  in_progress : p.num_in_progress_tasks = p.task_ex_ptrs.countP is_in_progress
  staffed : ∀ (i : Nat) (t : task_ex_t), p.task_ex_ptrs[i]? = some t →
    t.status = .IN_PROGRESS → 0 < t.task.capacity →
    ∃ w ∈ p.worker_ex_ptrs, w.status = .WORKING ∧ w.work_args.t_ex_ptr = i

/-- The worker entry `w` after the assignment loop has bound it to task `t_ex`,
station `s` and result slot `i`. -/
def mark (t_ex s i : Nat) (w : worker_ex_t) : worker_ex_t :=
  { w with
    status := .WORKING
    work_args := { t_ex_ptr := t_ex, station_index := s, i := i } }

/-- The state in which `do_work` calls `tick_plant`, spelled out for the worker
entry `w` in slot `k`, its station entry `st` and its task entry `t`. -/
def finish_state (v : Int) (p : Plant) (k : Nat) (w : worker_ex_t) (st : station_ex_t)
    (t : task_ex_t) : Plant :=
  { p with
    worker_ex_ptrs := p.worker_ex_ptrs.set k { w with status := .IDLE }
    stations_ex := p.stations_ex.set w.work_args.station_index
      { st with num_workers := size_dec st.num_workers }
    task_ex_ptrs := p.task_ex_ptrs.set w.work_args.t_ex_ptr
      { t with
        task := { t.task with results := t.task.results.set w.work_args.i (some v) }
        status := if size_dec st.num_workers = 0 then .FINISHED else t.status }
    num_in_progress_tasks :=
      if size_dec st.num_workers = 0 then size_dec p.num_in_progress_tasks
      else p.num_in_progress_tasks }

/-! ## Concrete runs -/

/-- The globals before the first `init_plant`. -/
def plant0 : Plant :=
  { stations_ex := [], max_station_capacity := 0, task_ex_ptrs := [], size_tasks := 0,
    num_pending_tasks := 0, num_in_progress_tasks := 0, worker_ex_ptrs := [],
    num_active_workers := 0, num_workers_to_come := 0, is_plant_initialized := false,
    is_plant_being_destroyed := false, next_alarm_time := 0 }

def worker_a : worker_t := { id := 1, start := 0, end_ := 100 }

def worker_b : worker_t := { id := 2, start := 0, end_ := 100 }

/-- A task that needs two workers from time `0` on. -/
def task_two : task_t := { id := 7, start := 0, capacity := 2, results := [none, none] }

/-- One station of capacity 2 and two registered workers, at time `0`. -/
def two_workers : Plant :=
  (add_worker true 0 (add_worker true 0 (init_plant true plant0 [2] 2).2 worker_a).2 worker_b).2

/-- The state `two_workers` with `task_two` appended, before the tick of `add_task`. -/
def two_workers_task : Plant :=
  { two_workers with
    task_ex_ptrs := [task_ex_init task_two]
    num_pending_tasks := 1 }

/-- Then `task_two` is registered at time `0`; both workers start on it. -/
def two_at_work : Plant := (add_task true 0 two_workers task_two).2

/-- Then the executor of the worker in slot `0` completes at time `5`. -/
def one_done : Plant := do_work_pthread_wrap 5 42 two_at_work 0

/-! ## What steps keep of a task entry -/

/-- What every step of the plant keeps of a task entry: the identifier, the
base task's identifier, start and capacity, the waiter count and, once the task
is `FINISHED`, the status and the skipped flag. -/
def keeps (t t' : task_ex_t) : Prop :=
  t'.id = t.id ∧ t'.num_waiting = t.num_waiting ∧ t'.task.id = t.task.id ∧
    t'.task.start = t.task.start ∧ t'.task.capacity = t.task.capacity ∧
    (t.status = .FINISHED → t'.status = .FINISHED ∧ t'.is_skipped = t.is_skipped)

/-- Every entry of `ts` has a related entry in the same slot of `ts'`, which may
be longer. -/
def TasksExt (R : task_ex_t → task_ex_t → Prop) (ts ts' : List task_ex_t) : Prop :=
  ∀ (i : Nat) (t : task_ex_t), ts[i]? = some t → ∃ t', ts'[i]? = some t' ∧ R t t'

/-- Finitely many steps of the plant. -/
inductive Steps : Plant → Plant → Prop where
  | refl (p : Plant) : Steps p p
  | tail (p q r : Plant) : Steps p q → Step q r → Steps p r

/-- One station of capacity 1, initialised for one worker. -/
def small_plant : Plant := (init_plant true plant0 [1] 1).2

/-! ## A run with a sleeping call of `collect_task` -/

/-- In `two_at_work` a caller collects `task_two` and goes to sleep on it. -/
def waiting : Plant := (collect_task two_at_work task_two).2

/-- Then both executors complete, at times `5` and `6`. -/
def both_done : Plant := do_work_pthread_wrap 6 43 (do_work_pthread_wrap 5 42 waiting 0) 1

/-- The moves a step of the plant may make on the status and the skipped flag of
a task entry: none, `PENDING` to `IN_PROGRESS`, `IN_PROGRESS` to `FINISHED` (both
with the flag `false` before and after), or `PENDING` to `FINISHED` with the flag
set. -/
def status_step (t t' : task_ex_t) : Prop :=
  (t'.status = t.status ∧ t'.is_skipped = t.is_skipped) ∨
  (t.status = .PENDING ∧ t'.status = .IN_PROGRESS ∧ t.is_skipped = false ∧
    t'.is_skipped = false) ∨
  (t.status = .IN_PROGRESS ∧ t'.status = .FINISHED ∧ t.is_skipped = false ∧
    t'.is_skipped = false) ∨
  (t.status = .PENDING ∧ t'.status = .FINISHED ∧ t'.is_skipped = true)

/-- One station of capacity 2, the plant initialised for one worker; `worker_a`
is registered at time `now1`, then `task_two` at time `now2`. -/
def one_worker_run (now1 now2 : Int) : Plant :=
  (add_task true now2 (add_worker true now1 (init_plant true plant0 [2] 1).2 worker_a).2
    task_two).2

/-- The same registrations in the other order. -/
def one_worker_run_task_first (now1 now2 : Int) : Plant :=
  (add_worker true now2 (add_task true now1 (init_plant true plant0 [2] 1).2 task_two).2
    worker_a).2

/-- A task that needs more workers than `m` is `PENDING` or retired as skipped. -/
def never_started (m : Nat) (e : task_ex_t) : Prop :=
  m < e.task.capacity → e.status = .PENDING ∨ (e.status = .FINISHED ∧ e.is_skipped = true)

/-- A worker entry that is `WORKING` on task `T` at station `s`. -/
def works_on (T s : Nat) (w : worker_ex_t) : Bool :=
  decide (w.status = .WORKING) && decide (w.work_args.t_ex_ptr = T) &&
    decide (w.work_args.station_index = s)

/-- The result slots bound by an assignment: the values `work_args.i` of the
entries that were `IDLE` before and are `WORKING` after, in table order. -/
def new_slots : List worker_ex_t → List worker_ex_t → List Nat
  | w :: ws, w' :: ws' =>
    if w.status = .IDLE ∧ w'.status = .WORKING then w'.work_args.i :: new_slots ws ws'
    else new_slots ws ws'
  | _, _ => []

/-- The number of workers able to work in the slots before slot `k`. -/
def available_before (now : Int) (ws : List worker_ex_t) (k : Nat) : Nat :=
  (ws.take k).countP (is_available now)

/-! ## Runs with the log of result-slot writes -/

/-- The runs of the plant together with the log of the result slots written:
every executor completion logs the pair (task index, result slot) it has stored
a value in. -/
inductive Run : Plant → List (Nat × Nat) → Prop where
  | init (p0 : Plant) (stations : List Int) (n_workers : Int) :
      p0.is_plant_initialized = false → Run (init_plant true p0 stations n_workers).2 []
  | add_worker (alloc : Bool) (now : Int) (p : Plant) (w : worker_t) (log : List (Nat × Nat)) :
      Run p log → Run (add_worker alloc now p w).2 log
  | add_task (alloc : Bool) (now : Int) (p : Plant) (t : task_t) (log : List (Nat × Nat)) :
      Run p log → Run (add_task alloc now p t).2 log
  | alarm (now : Int) (p : Plant) (log : List (Nat × Nat)) :
      Run p log → p.next_alarm_time ≠ 0 → Run (alarm_timeout now p) log
  | do_work (now : Int) (v : Int) (p : Plant) (w_ex : Nat) (w : worker_ex_t)
      (log : List (Nat × Nat)) :
      Run p log → p.worker_ex_ptrs[w_ex]? = some w → w.status = .WORKING →
      Run (do_work_pthread_wrap now v p w_ex)
        ((w.work_args.t_ex_ptr, w.work_args.i) :: log)

/-- A worker entry whose executor is still to write result slot `j` of task `T`. -/
def bound_to (T j : Nat) (w : worker_ex_t) : Bool :=
  decide (w.status = .WORKING) && decide (w.work_args.t_ex_ptr = T) &&
    decide (w.work_args.i = j)

/-- Whether result slot `j` of a task entry is to be written in the life of the
task: `1` for the slots below the required capacity of a task that has been
started, `0` otherwise. -/
def slot_due_of (e : task_ex_t) (j : Nat) : Nat :=
  if (e.status = .IN_PROGRESS ∨ (e.status = .FINISHED ∧ e.is_skipped = false)) ∧
      j < e.task.capacity then 1 else 0

def slot_due (ts : List task_ex_t) (T j : Nat) : Nat :=
  match ts[T]? with
  | some e => slot_due_of e j
  | none => 0

/-- Every due slot is either written once already or bound to exactly one
executor still at work, and no other slot is written or bound. -/
def Ledger (p : Plant) (log : List (Nat × Nat)) : Prop :=
  ∀ T j, log.count (T, j) + p.worker_ex_ptrs.countP (bound_to T j) = slot_due p.task_ex_ptrs T j

/-! ## `destroy_plant` -/

/-- What a call of `destroy_plant` has done when it gives up the mutex: it has
returned a status, it sleeps on `plant_idle`, or it sleeps on the condition
`none_waiting` of the task entry `i`. -/
inductive destroy_outcome where
  | returned (ret : plant_status)
  | waits_plant_idle
  | waits_none_waiting (i : Nat)
deriving DecidableEq, Repr

/-- The end of `destroy_plant`: the entries and the three tables are freed and
the two flags cleared. The other globals keep their values; what the freed
tables held is no longer read (every interface function tests
`is_plant_initialized` first, and `init_plant` sets every global anew). -/
def destroy_free (p : Plant) : Plant :=
  { p with is_plant_initialized := false, is_plant_being_destroyed := false }

/-- The loop `for (i = i0; i < num_tasks; ++i) while (num_waiting > 0) wait;` up
to its first wait: the index of the first task entry at or after `i0` with
`num_waiting > 0`, or `none` when the loop runs to its end. -/
def destroy_scan (ts : List task_ex_t) (i0 : Nat) : Option Nat :=
  (find_first (fun e => decide (e.num_waiting > 0)) (ts.drop i0)).map (fun j => i0 + j)

/-- The part of `destroy_plant` from the test of the wait on task entry `i0` on:
it sleeps on the first task that still has waiters, or frees the plant and
returns `PLANTOK`. -/
def destroy_resume_tasks (p : Plant) (i0 : Nat) : destroy_outcome × Plant :=
  match destroy_scan p.task_ex_ptrs i0 with
  | some i => (.waits_none_waiting i, p)
  | none => (.returned .PLANTOK, destroy_free p)

/-- The part of `destroy_plant` from the test of the loop
`while (num_pending_tasks > 0 || num_in_progress_tasks > 0)` on. -/
def destroy_resume_idle (p : Plant) : destroy_outcome × Plant :=
  if p.num_pending_tasks > 0 ∨ p.num_in_progress_tasks > 0 then (.waits_plant_idle, p)
  else destroy_resume_tasks p 0

/-- A call of `destroy_plant` up to its return or its first wait. -/
def destroy_plant (p : Plant) : destroy_outcome × Plant :=
  if !p.is_plant_initialized || p.is_plant_being_destroyed then (.returned .ERROR, p)
  else destroy_resume_idle { p with is_plant_being_destroyed := true }

/-! ## The plant with its callers -/

/-- Where the call of `destroy_plant` that has set `is_plant_being_destroyed`
stands: there is none, it sleeps on `plant_idle`, or it sleeps on the condition
`none_waiting` of task entry `i`. -/
inductive destroy_pc where
  | idle
  | wait_plant_idle
  | wait_none_waiting (i : Nat)
deriving DecidableEq, Repr

def pc_of : destroy_outcome → destroy_pc
  | .returned _ => .idle
  | .waits_plant_idle => .wait_plant_idle
  | .waits_none_waiting i => .wait_none_waiting i

/-- The plant together with the threads that sleep inside its interface:
`sleepers` lists, for every call of `collect_task` asleep in
`pthread_cond_wait`, the task entry it sleeps on. -/
structure Sys where
  plant : Plant
  sleepers : List Nat
  destroyer : destroy_pc

/-- One critical section of the plant with its callers: a step of the running
plant, a call of `collect_task` (which returns or goes to sleep), the wake-up of
a sleeping call of `collect_task`, a call of `destroy_plant`, the wake-up of the
sleeping call of `destroy_plant`, or `init_plant` on a plant that is not
initialised. -/
inductive SysStep : Sys → Sys → Prop where
  | plant (s : Sys) (q : Plant) : Step s.plant q → SysStep s { s with plant := q }
  | collect_return (s : Sys) (t : task_t) (ret : plant_status) (q : Plant) :
      collect_task s.plant t = (.returned ret, q) → SysStep s { s with plant := q }
  | collect_sleep (s : Sys) (t : task_t) (idx : Nat) (q : Plant) :
      collect_task s.plant t = (.blocked idx, q) →
      SysStep s { s with plant := q, sleepers := idx :: s.sleepers }
  | wake_return (s : Sys) (idx : Nat) (ret : plant_status) (q : Plant) :
      idx ∈ s.sleepers → collect_wakeup s.plant idx = (.returned ret, q) →
      SysStep s { s with plant := q, sleepers := s.sleepers.erase idx }
  | wake_sleep (s : Sys) (idx : Nat) (q : Plant) :
      idx ∈ s.sleepers → collect_wakeup s.plant idx = (.blocked idx, q) →
      SysStep s { s with plant := q }
  | destroy_call (s : Sys) (o : destroy_outcome) (q : Plant) :
      s.destroyer = .idle → destroy_plant s.plant = (o, q) →
      SysStep s { s with plant := q, destroyer := pc_of o }
  | destroy_rejected (s : Sys) (q : Plant) :
      destroy_plant s.plant = (.returned .ERROR, q) → SysStep s { s with plant := q }
  | destroy_wake_idle (s : Sys) (o : destroy_outcome) (q : Plant) :
      s.destroyer = .wait_plant_idle → destroy_resume_idle s.plant = (o, q) →
      SysStep s { s with plant := q, destroyer := pc_of o }
  | destroy_wake_task (s : Sys) (i : Nat) (o : destroy_outcome) (q : Plant) :
      s.destroyer = .wait_none_waiting i → destroy_resume_tasks s.plant i = (o, q) →
      SysStep s { s with plant := q, destroyer := pc_of o }
  | init (s : Sys) (alloc : Bool) (stations : List Int) (n_workers : Int) :
      SysStep s { s with plant := (init_plant alloc s.plant stations n_workers).2 }

/-- The states of the plant with its callers, from a successful `init_plant`
on. -/
inductive SysReachable : Sys → Prop where
  | init (p0 : Plant) (stations : List Int) (n_workers : Int) :
      p0.is_plant_initialized = false →
      SysReachable
        { plant := (init_plant true p0 stations n_workers).2, sleepers := [],
          destroyer := .idle }
  | step (s s' : Sys) : SysReachable s → SysStep s s' → SysReachable s'

/-- The number of waiters recorded in task entry `j` (`0` when there is no such
entry). -/
def waiting_of (ts : List task_ex_t) (j : Nat) : Nat :=
  match ts[j]? with
  | some e => e.num_waiting
  | none => 0

/-- The facts that hold of the plant with its callers between critical
sections. -/
structure SysInv (s : Sys) : Prop where
  inv : Inv s.plant
  counted : ∀ j, s.sleepers.count j = waiting_of s.plant.task_ex_ptrs j
  quiet : s.plant.is_plant_initialized = false → s.sleepers = [] ∧ s.destroyer = .idle
  destroying : s.destroyer ≠ .idle →
    s.plant.is_plant_initialized = true ∧ s.plant.is_plant_being_destroyed = true
  scanned : ∀ i, s.destroyer = .wait_none_waiting i →
    s.plant.num_pending_tasks = 0 ∧ s.plant.num_in_progress_tasks = 0 ∧
      ∀ j, j < i → waiting_of s.plant.task_ex_ptrs j = 0

/-- The plant is drained: no task is pending or in progress, no task has waiters
and no call of `collect_task` sleeps. -/
def drained (s : Sys) : Prop :=
  s.plant.num_pending_tasks = 0 ∧ s.plant.num_in_progress_tasks = 0 ∧
    (∀ e ∈ s.plant.task_ex_ptrs, e.num_waiting = 0) ∧ s.sleepers = []

/-! ### A run with a sleeping collector and a shutdown -/

/-- The task `task_two` registered and `FINISHED` in a plant that is being
destroyed. -/
def finished_destroying : Plant :=
  { both_done with is_plant_being_destroyed := true }

/-- The plant `two_at_work` with no caller inside it. -/
def sys_at_work : Sys := { plant := two_at_work, sleepers := [], destroyer := .idle }

/-- Then a caller collects `task_two` and goes to sleep on it. -/
def sys_collecting : Sys :=
  { sys_at_work with
    plant := (collect_task sys_at_work.plant task_two).2
    sleepers := 0 :: sys_at_work.sleepers }

/-- Then `destroy_plant` is called and goes to sleep on `plant_idle`. -/
def sys_destroying : Sys :=
  { sys_collecting with
    plant := (destroy_plant sys_collecting.plant).2
    destroyer := pc_of (destroy_plant sys_collecting.plant).1 }

/-- Then both executors complete, at times `5` and `6`. -/
def sys_both_done : Sys :=
  { sys_destroying with
    plant := do_work_pthread_wrap 6 43 (do_work_pthread_wrap 5 42 sys_destroying.plant 0) 1 }

/-- Then `destroy_plant` is woken and goes to sleep on the condition
`none_waiting` of the task. -/
def sys_scanning : Sys :=
  { sys_both_done with
    plant := (destroy_resume_idle sys_both_done.plant).2
    destroyer := pc_of (destroy_resume_idle sys_both_done.plant).1 }

/-- Then the collector is woken and returns. -/
def sys_collected : Sys :=
  { sys_scanning with
    plant := (collect_wakeup sys_scanning.plant 0).2
    sleepers := sys_scanning.sleepers.erase 0 }

/-- Then `destroy_plant` is woken again and frees the plant. -/
def sys_freed : Sys :=
  { sys_collected with
    plant := (destroy_resume_tasks sys_collected.plant 0).2
    destroyer := pc_of (destroy_resume_tasks sys_collected.plant 0).1 }

/-! ## The steps of a tick -/

/-- The state of the plant when `tick_plant` reaches the alarm step, after the
greedy loop has stopped. -/
def before_alarm (now : Int) (p : Plant) : Plant :=
  let p2 := retire_tasks (expire_workers now p)
  greedy_loop now p2.task_ex_ptrs.length p2

/-- The times which the two loops of the alarm step read, in the order in which
they read them: the start and the end of every active worker, then the start of
every task entry. -/
def action_times (p : Plant) : List Int :=
  (p.worker_ex_ptrs.take p.num_active_workers).foldr
      (fun w l => w.worker.start :: w.worker.end_ :: l) [] ++
    p.task_ex_ptrs.map (fun t => t.task.start)

/-- The times read by the alarm step that lie after `now`. -/
def future_action_times (now : Int) (p : Plant) : List Int :=
  (action_times p).filter (fun x => decide (now < x))

/-- The candidate times in the words of the specification: the start and end
times of the active workers and the start times of the tasks that are not
`FINISHED`, as far as they lie after `now`. -/
def unresolved_future_times (now : Int) (p : Plant) : List Int :=
  ((p.worker_ex_ptrs.take p.num_active_workers).foldr
      (fun w l => w.worker.start :: w.worker.end_ :: l) [] ++
    (p.task_ex_ptrs.filter (fun t => decide (t.status ≠ .FINISHED))).map
      (fun t => t.task.start)).filter (fun x => decide (now < x))

/-- A task that needs five workers from time `100` on. -/
def task_five : task_t :=
  { id := 8, start := 100, capacity := 5, results := [none, none, none, none, none] }

/-- A task that needs one worker from time `0` on. -/
def task_one : task_t := { id := 9, start := 0, capacity := 1, results := [none] }

/-- In `small_plant`, `task_five` is registered at time `0` and retired as
skipped by the tick of `add_task`. -/
def five_skipped : Plant := (add_task true 0 small_plant task_five).2

/-- Then `task_one` is appended by `add_task`: the state before the tick of
that call. -/
def five_skipped_one_appended : Plant := task_appended five_skipped task_one

/-- The state `two_workers_task` after one iteration of the greedy loop at time
`0`. -/
def two_started : Plant := greedy_loop 0 1 two_workers_task

/-! ## The critical section of the executor -/

/-- The store `t_ex->task->results[i] = ...` of `do_work`, which happens before
the mutex is taken. -/
def do_work_store (v : Int) (p : Plant) (t_ex i : Nat) : Plant :=
  { p with
    task_ex_ptrs := (update_at p.task_ex_ptrs t_ex
      (fun t => { t with task := { t.task with results := t.task.results.set i (some v) } })) }

/-- The critical section of `do_work` up to the call of `tick_plant`: the state
in which `tick_plant` is called, and whether `pthread_cond_signal(&plant_idle)`
has been called. -/
def do_work_locked (p : Plant) (w_ex t_ex station_index : Nat) : Plant × Bool :=
  let p1 := { p with
    worker_ex_ptrs := (update_at p.worker_ex_ptrs w_ex (fun w => { w with status := .IDLE })) }
  match p1.stations_ex[station_index]? with
  | none => (p1, false)
  | some st =>
    let p2 := { p1 with
      stations_ex := p1.stations_ex.set station_index
        { st with num_workers := size_dec st.num_workers } }
    if size_dec st.num_workers = 0 then
      ({ p2 with
          task_ex_ptrs :=
            (update_at p2.task_ex_ptrs t_ex (fun t => { t with status := .FINISHED }))
          num_in_progress_tasks := size_dec p2.num_in_progress_tasks },
        decide (size_dec p2.num_in_progress_tasks = 0) && decide (p2.num_pending_tasks = 0))
    else (p2, false)

/-! ## A call of `collect_task` among the other callers -/

/-- A call of `collect_task` that sleeps on the task entry `idx` in the system
`s` returns `ret` in the system `s'`. The list `sleepers` of `s` holds the other
calls of `collect_task` that are asleep. While the call sleeps the other threads
take any steps of the system: steps of the plant, calls and wake-ups of
`collect_task`, calls and wake-ups of `destroy_plant`, `init_plant`. Each time
the call is woken it lowers `num_waiting`, tests the status again and returns or
goes back to sleep. -/
inductive SysCollectSleep (idx : Nat) : Sys → plant_status → Sys → Prop where
  | step (s s1 s' : Sys) (ret : plant_status) :
      SysStep s s1 → SysCollectSleep idx s1 ret s' → SysCollectSleep idx s ret s'
  | wake_return (s : Sys) (q : Plant) (ret : plant_status) :
      collect_wakeup s.plant idx = (.returned ret, q) →
      SysCollectSleep idx s ret { s with plant := q }
  | wake_sleep (s : Sys) (q : Plant) (s' : Sys) (ret : plant_status) :
      collect_wakeup s.plant idx = (.blocked idx, q) →
      SysCollectSleep idx { s with plant := q } ret s' → SysCollectSleep idx s ret s'

/-- A call `collect_task(t)` entered in the system `s`, whose `sleepers` are the
other calls of `collect_task` asleep at that time, returns `ret` in the system
`s'`. -/
inductive SysCollectCall (t : task_t) : Sys → plant_status → Sys → Prop where
  | immediate (s : Sys) (q : Plant) (ret : plant_status) :
      collect_task s.plant t = (.returned ret, q) →
      SysCollectCall t s ret { s with plant := q }
  | slept (s : Sys) (q : Plant) (s' : Sys) (idx : Nat) (ret : plant_status) :
      collect_task s.plant t = (.blocked idx, q) →
      SysCollectSleep idx { s with plant := q } ret s' → SysCollectCall t s ret s'

/-! ### Two overlapping calls of `collect_task` -/

/-- In `two_at_work` a caller collects `task_two` and goes to sleep; no other
call of `collect_task` is asleep. -/
def sys_one_asleep : Sys := { plant := waiting, sleepers := [], destroyer := .idle }

/-- Two callers have collected `task_two` and have gone to sleep: the plant after
the two calls, with the other of the two calls in `sleepers`. -/
def sys_two_asleep : Sys :=
  { plant := (collect_task waiting task_two).2, sleepers := [0], destroyer := .idle }

/-- Then the executor of the worker in slot `0` completes at time `5`. -/
def sys_two_asleep_one_done : Sys :=
  { sys_two_asleep with plant := do_work_pthread_wrap 5 42 sys_two_asleep.plant 0 }

/-- Then the executor of the worker in slot `1` completes at time `6`. -/
def sys_two_asleep_done : Sys :=
  { sys_two_asleep with plant := do_work_pthread_wrap 6 43 sys_two_asleep_one_done.plant 1 }

/-- Then the call under observation is woken and returns, the other call still
asleep. -/
def sys_one_returned : Sys :=
  { sys_two_asleep_done with plant := (collect_wakeup sys_two_asleep_done.plant 0).2 }

/-- Or the other call is woken first and returns. -/
def sys_other_returned : Sys :=
  { sys_two_asleep_done with
    plant := (collect_wakeup sys_two_asleep_done.plant 0).2
    sleepers := sys_two_asleep_done.sleepers.erase 0 }

/-- Then the call under observation is woken and returns as well. -/
def sys_both_returned : Sys :=
  { sys_other_returned with plant := (collect_wakeup sys_other_returned.plant 0).2 }

/-! ### More workers than `init_plant` was told -/

end Fabryka

/-! # Event streams (`7-Strumienie-zdarzen/eventstream.h`)

A stream is a callable object: called with an observer and a state it calls the
observer with its events, threading the state, and returns the last state. An
observer may change variables that it has captured by reference (as
`take_observer` does with `remaining`); their values are the component `H` that
every call of an observer takes and returns. A value of `stream_t` is the
first call of a stream object; what `generate` keeps in its captures for later
calls is the subject of `generate_call`. The depth of the recursion of
`generate` is bounded by an argument `fuel`, which the other streams pass on;
`none` is a call that has run out of it. -/

namespace Eventstream

inductive control where
  | continue_
  | stop
deriving DecidableEq, Repr

/-- An observer: called with an event and a state it returns the pair of the
new state and a control value. -/
abbrev observer_t (H E S : Type) := E → S → H → (S × control) × H

abbrev stream_t (E : Type) :=
  (H S : Type) → Nat → observer_t H E S → S → H → Option (S × H)

def emit {E : Type} (x : E) : stream_t E :=
  fun _ _ _ observer state h => some ((observer x state h).1.1, (observer x state h).2)

/-- The recursive lambda `feed` of `generate`. -/
def generate_feed {H E S : Type} (step : E → Option E) (observer : observer_t H E S) :
    Nat → E → S → H → Option (S × H)
  | 0, _, _, _ => none
  | fuel + 1, event, state_, h =>
    match observer event state_ h with
    | ((next_state, .stop), h1) => some (next_state, h1)
    | ((next_state, .continue_), h1) =>
      match step event with
      | some x => generate_feed step observer fuel x next_state h1
      | none => some (next_state, h1)

/-- The first call of `generate(init, step)`: `was_invoked` is `false` and
`init_store` holds `init`. -/
def generate {E : Type} (init : E) (step : E → Option E) : stream_t E :=
  fun _ _ fuel observer state h => generate_feed step observer fuel init state h

/-- The captures `init_store` and `was_invoked` of the lambda that `generate`
returns. -/
structure generate_captures (E : Type) where
  init_store : Option E
  was_invoked : Bool
deriving DecidableEq, Repr

/-- The recursive lambda `feed` of `generate` together with what it leaves in
`init_store`. -/
def generate_feed_store {H E S : Type} (step : E → Option E) (observer : observer_t H E S) :
    Nat → E → S → H → Option E → Option ((S × H) × Option E)
  | 0, _, _, _, _ => none
  | fuel + 1, event, state_, h, init_store =>
    match observer event state_ h with
    | ((next_state, .stop), h1) => some ((next_state, h1), init_store)
    | ((next_state, .continue_), h1) =>
      match step event with
      | some x => generate_feed_store step observer fuel x next_state h1 (some x)
      | none => some ((next_state, h1), none)

/-- A call of the lambda that `generate` returns, with its captures before and
after. `init_store.value()` on an empty `init_store` throws; that is `none`
here too, and does not happen, since `init_store` is not empty before the first
call. -/
def generate_call {H E S : Type} (step : E → Option E) (c : generate_captures E) (fuel : Nat)
    (observer : observer_t H E S) (state : S) (h : H) :
    Option ((S × H) × generate_captures E) :=
  if c.was_invoked then
    match c.init_store with
    | some v =>
      match step v with
      | some x =>
        (generate_feed_store step observer fuel x state h (some x)).map
          (fun r => (r.1, { init_store := r.2, was_invoked := true }))
      | none => some ((state, h), c)
    | none => some ((state, h), c)
  else
    match c.init_store with
    | some v =>
      (generate_feed_store step observer fuel v state h c.init_store).map
        (fun r => (r.1, { init_store := r.2, was_invoked := true }))
    | none => none

/-- The `step` of `counter`, on `int` values. -/
def counter_step (x : Int) : Option Int :=
  if x = 2 ^ 31 - 1 then some (-(2 ^ 31)) else some (x + 1)

def counter : stream_t Int := generate 1 counter_step

def map {E F : Type} (f : E → F) (s : stream_t E) : stream_t F :=
  fun H S fuel observer state h =>
    s H S fuel (fun event state_ h1 => observer (f event) state_ h1) state h

def filter {E : Type} (pred : E → Bool) (s : stream_t E) : stream_t E :=
  fun H S fuel observer state h =>
    s H S fuel
      (fun event state_ h1 =>
        if pred event then observer event state_ h1 else ((state_, .continue_), h1))
      state h

/-- The value of a `std::size_t` variable after `--`. -/
def pre_decrement (x : Nat) : Nat := if x = 0 then 2 ^ 64 - 1 else x - 1

/-- The lambda `take_observer` of `take`; the first component of its captures is
`remaining`. -/
def take_observer {H E S : Type} (observer : observer_t H E S) : observer_t (Nat × H) E S :=
  fun event state_ c =>
    if pre_decrement c.1 = 0 then
      (((observer event state_ c.2).1.1, .stop), (pre_decrement c.1, (observer event state_ c.2).2))
    else ((observer event state_ c.2).1, (pre_decrement c.1, (observer event state_ c.2).2))

def take {E : Type} (n : Nat) (s : stream_t E) : stream_t E :=
  fun H S fuel observer state h =>
    if n = 0 then some (state, h)
    else (s (Nat × H) S fuel (take_observer observer) state (n, h)).map (fun r => (r.1, r.2.2))

/-! ## The events of a stream -/

/-- The calls of an observer with the events of a list, in order, up to the
first call that answers `stop`: the last state, the captures, and whether the
observer has answered `stop`. -/
def feed {H E S : Type} (observer : observer_t H E S) : List E → S → H → (S × H) × Bool
  | [], state, h => ((state, h), false)
  | e :: es, state, h =>
    match observer e state h with
    | ((next_state, .stop), h1) => ((next_state, h1), true)
    | ((next_state, .continue_), h1) => feed observer es next_state h1

/-- The events that `feed` passes to the observer. -/
def passed {H E S : Type} (observer : observer_t H E S) : List E → S → H → List E
  | [], _, _ => []
  | e :: es, state, h =>
    match observer e state h with
    | ((_, .stop), _) => [e]
    | ((next_state, .continue_), h1) => e :: passed observer es next_state h1

/-- An observer that also appends every event it is called with to a list in
its captures. -/
def logged {H E S : Type} (observer : observer_t H E S) : observer_t (List E × H) E S :=
  fun event state_ c =>
    ((observer event state_ c.2).1, (c.1 ++ [event], (observer event state_ c.2).2))

/-- The first `k` events of the sequence `src` from position `i` on; the
sequence ends at the first `none`. -/
def first_events {E : Type} (src : Nat → Option E) : Nat → Nat → List E
  | 0, _ => []
  | k + 1, i =>
    match src i with
    | none => []
    | some e => e :: first_events src k (i + 1)

/-- The stream `s` has the events `src` and delivers no further event once its
observer has answered `stop`: whenever, for some `k`, the observer answers
`stop` within the first `k` events or there are fewer than `k` events, a call of
`s` with enough fuel returns what the calls of the observer with those events
leave. -/
def Obeys {E : Type} (s : stream_t E) (src : Nat → Option E) : Prop :=
  ∀ (H S : Type) (observer : observer_t H E S) (state : S) (h : H) (k : Nat),
    ((feed observer (first_events src k 0) state h).2 = true ∨
      (first_events src k 0).length < k) →
    ∃ fuel0, ∀ fuel, fuel0 ≤ fuel →
      s H S fuel observer state h = some (feed observer (first_events src k 0) state h).1

/-- The events of `generate(init, step)`. -/
def generate_events {E : Type} (init : E) (step : E → Option E) : Nat → Option E
  | 0 => some init
  | i + 1 => (generate_events init step i).bind step

/-- The observer `print_observer` of `eventstream_example.cpp`; the state is
what has been written to the output stream. -/
def print_observer : observer_t Unit Int (List Int) :=
  fun value state h => ((state ++ [value], .continue_), h)

/-- An observer that answers `stop` at once. -/
def stop_observer : observer_t Unit Int (List Int) :=
  fun value state h => ((state ++ [value], .stop), h)

/-- The `step` of the third example. -/
def double_step (x : Int) : Option Int := if x > 100 then none else some (x * 2)

/-! ## Memoization -/

/-- The value `cache.find(args_tp)->second`, `none` when `find` returns
`end()`. The cache is the list of its entries in the order of insertion, which
`operator()` does not observe. -/
def cache_find {A R : Type} [DecidableEq A] (cache : List (A × R)) (args : A) : Option R :=
  (cache.find? (fun e => decide (e.1 = args))).map (fun e => e.2)

/-- The cache after `cache.emplace(args_tp, result)` together with the value
`.first->second`. -/
def cache_emplace {A R : Type} [DecidableEq A] (cache : List (A × R)) (args : A) (result : R) :
    List (A × R) × R :=
  match cache_find cache args with
  | some r => (cache, r)
  | none => (cache ++ [(args, result)], result)

/-- The `operator()` of `memoize_wrapper` for a function `f` with a result. A
call of `f` takes and returns the state `W` of what `f` reads and writes. -/
def memoize_call {A R W : Type} [DecidableEq A] (f : A → W → R × W) (args : A)
    (cache : List (A × R)) (w : W) : R × List (A × R) × W :=
  match cache_find cache args with
  | some r => (r, cache, w)
  | none =>
    ((cache_emplace cache args (f args w).1).2, (cache_emplace cache args (f args w).1).1,
      (f args w).2)

/-- A sequence of calls of `mf = memoize(f)`: the values returned, the cache and
the state afterwards. -/
def memoize_calls {A R W : Type} [DecidableEq A] (f : A → W → R × W) :
    List A → List (A × R) → W → List R × List (A × R) × W
  | [], cache, w => ([], cache, w)
  | args :: rest, cache, w =>
    ((memoize_call f args cache w).1 ::
        (memoize_calls f rest (memoize_call f args cache w).2.1
          (memoize_call f args cache w).2.2).1,
      (memoize_calls f rest (memoize_call f args cache w).2.1
        (memoize_call f args cache w).2.2).2)

/-- The function `f` with a record of its calls: every call appends its
argument and the value it returns. -/
def recorded {A R W : Type} (f : A → W → R × W) : A → W × List (A × R) → R × (W × List (A × R)) :=
  fun args c => ((f args c.1).1, ((f args c.1).2, c.2 ++ [(args, (f args c.1).1)]))

/-- The function `f` of the example: `calls` is the state. -/
def square_counting (x : Int) (calls : Nat) : Int × Nat := (x * x, calls + 1)

end Eventstream

/-! # The game Mastermind (`1-Gra-Mastermind/mastermind.cpp`)

Colours, counts and the game parameters are C++ `int`s, modelled by `Int`; the
counts of `compare_sequences` stay below the length of the sequences. The
32-bit unsigned accumulator of `validate_parameters` is a `Nat` reduced modulo
`2 ^ 32` after every multiplication. A `std::vector<int>` is a `List Int`. -/

namespace Mastermind

/-- A `std::unordered_map<int, int>` as the list of its entries, in the order in
which the keys were inserted. -/
abbrev unordered_map := List (Int × Int)

/-- The value `m[c]` (`0` when `c` is not a key: `operator[]` then inserts a
value-initialised entry, which nothing reads as a key afterwards). -/
def unordered_map.at : unordered_map → Int → Int
  | [], _ => 0
  | (c', v) :: m, c => if c' = c then v else unordered_map.at m c

/-- The map after `m[c]++`. -/
def unordered_map.incr : unordered_map → Int → unordered_map
  | [], c => [(c, 1)]
  | (c', v) :: m, c => if c' = c then (c', v + 1) :: m else (c', v) :: unordered_map.incr m c

/-- The first loop of `compare_sequences` on the remaining positions, with the
values of `b`, `unpaired_sequence` and `unpaired_target`. -/
def compare_loop :
    List Int → List Int → Int × unordered_map × unordered_map → Int × unordered_map × unordered_map
  | s :: sequence, t :: target, (b, unpaired_sequence, unpaired_target) =>
    if s = t then compare_loop sequence target (b + 1, unpaired_sequence, unpaired_target)
    else
      compare_loop sequence target
        (b, unpaired_sequence.incr s, unpaired_target.incr t)
  | _, _, st => st

/-- The function `compare_sequences(sequence, target)`, which asserts that both
have the same size: the pair `(b, w)`. -/
def compare_sequences (sequence target : List Int) : Int × Int :=
  match compare_loop sequence target (0, [], []) with
  | (b, unpaired_sequence, unpaired_target) =>
    (b, unpaired_sequence.foldl (fun w elem => w + min elem.2 (unpaired_target.at elem.1)) 0)

namespace Codebreaker

/-- The recursion of `get_every_sequence` with `m` positions still to fill: the
sequences it appends to `sequences`, in order. -/
def get_every_sequence (k : Int) : Nat → List Int → List (List Int)
  | 0, sequence => [sequence]
  | m + 1, sequence =>
    (List.range k.toNat).flatMap (fun i => get_every_sequence k m (sequence ++ [(i : Int)]))

def validate_answer (b w n : Int) : Bool :=
  decide (min b w ≥ 0) && decide (max b w ≤ n) && decide (b + w ≤ n)

/-- The loop of `validate_parameters` with `m` iterations to go and the value
`pow_k` of the 32-bit accumulator. -/
def validate_loop (k : Int) : Nat → Nat → Bool
  | 0, _ => true
  | m + 1, pow_k =>
    if (pow_k * (k % 2 ^ 32).toNat) % 2 ^ 32 > 2 ^ 24 then false
    else validate_loop k m ((pow_k * (k % 2 ^ 32).toNat) % 2 ^ 32)

def validate_parameters (k n : Int) : Bool :=
  if min k n < 2 ∨ k > 256 ∨ n > 10 then false
  else validate_loop k n.toNat 1

/-- The loop of `play`. The codemaker is the function `respond`, which gives
the two numbers read after a guess is printed (`none` when the line read is not
two integers). The result is the value returned together with the guesses
printed; `none` means that the fuel has run out or that `front()` was called on
an empty vector. -/
def play_loop (n : Int) (respond : List Int → Option (Int × Int)) :
    Nat → List (List Int) → List (List Int) → Option (Bool × List (List Int))
  | 0, _, _ => none
  | _ + 1, [], _ => none
  | fuel + 1, candidate :: rest, printed =>
    match respond candidate with
    | none => some (false, printed ++ [candidate])
    | some (b, w) =>
      if validate_answer b w n = false then some (false, printed ++ [candidate])
      else if b < n ∧
          (candidate :: rest).filter
            (fun sequence => decide ((b, w) = compare_sequences candidate sequence)) ≠ [] then
        play_loop n respond fuel
          ((candidate :: rest).filter
            (fun sequence => decide ((b, w) = compare_sequences candidate sequence)))
          (printed ++ [candidate])
      else some (decide (b = n), printed ++ [candidate])

/-- The function `Codebreaker::play(k, n)`; the loop gets one unit of fuel for
every candidate. -/
def play (k n : Int) (respond : List Int → Option (Int × Int)) :
    Option (Bool × List (List Int)) :=
  if validate_parameters k n = false then some (false, [])
  else
    play_loop n respond (get_every_sequence k n.toNat []).length
      (get_every_sequence k n.toNat []) []

end Codebreaker

namespace Codemaker

def validate_answer (sequence : List Int) (k : Int) : Bool :=
  sequence.all (fun c => !(decide (c < 0) || decide (c ≥ k)))

def validat_parameters (k : Int) (secret : List Int) : Bool :=
  if Codebreaker.validate_parameters k secret.length = false then false
  else validate_answer secret k

/-- The answer `Codemaker::play` prints to a guess it has read and accepted. -/
def respond (secret : List Int) (sequence : List Int) : Option (Int × Int) :=
  some (compare_sequences sequence secret)

end Codemaker

/-! ## The two numbers of a comparison, in words -/

/-- The number of positions at which both sequences hold the same colour. -/
def same_positions (sequence target : List Int) : Nat :=
  ((sequence.zip target).filter (fun p => decide (p.1 = p.2))).length

/-- The positions at which the sequences differ, as pairs (colour in
`sequence`, colour in `target`). -/
def unpaired (sequence target : List Int) : List (Int × Int) :=
  (sequence.zip target).filter (fun p => !decide (p.1 = p.2))

/-- The sum, over the colours `c` of the list `colours`, of the minimum of the
number of non-matching positions of `sequence` holding `c` and the number of
non-matching positions of `target` holding `c`. -/
def colour_matches (colours : List Int) (sequence target : List Int) : Nat :=
  (colours.map (fun c =>
    min (((unpaired sequence target).map Prod.fst).count c)
      (((unpaired sequence target).map Prod.snd).count c))).sum

end Mastermind

/-! # Playlists (`5-Plejlisty/playlist.h`)

A playlist object is the value of its member `data`: `none` for a null pointer,
otherwise the `playlist_impl` pointed to. Whether other objects share that
`playlist_impl` (`data.unique()`) is an input `unique` of every member function
that asks. A node of the list `play_tracks` is identified by its address; the
addresses of the nodes allocated during one call are given by the function
`alloc`, from the addresses in use in the list to the new one. An iterator into
the map `sorted_tracks` is the key of the node it points to, and the `set_iter`
of a list entry points to the entry's own address in the set of that key, so it
needs no field. Tracks are compared with `<` only; in a linear order two keys
are equivalent exactly when they are equal. Allocation and the copying of
tracks and parameters do not throw, so the handlers of `push_back` and `remove`,
which run only then, are left out. A member function that can throw returns the
exception thrown, if any, together with the object after the call. -/

namespace Playlist

inductive exception where
  | out_of_range
  | invalid_argument
deriving DecidableEq, Repr

/-- An entry of the list `play_tracks`, with the address of its node. -/
structure Entry (T P : Type) where
  addr : Nat
  params : P
  map_iter : T
deriving DecidableEq, Repr

/-- A `std::set<play_iter_t, IterCmp>`: the addresses of the nodes pointed to,
in ascending order. -/
abbrev iter_set_t := List Nat

/-- A `std::map<const T, iter_set_t, TrackCmp>`: its entries in the order of
the keys. -/
abbrev sorted_tracks_t (T : Type) := List (T × iter_set_t)

structure playlist_impl (T P : Type) where
  play_tracks : List (Entry T P)
  sorted_tracks : sorted_tracks_t T
  shareable : Bool
deriving DecidableEq, Repr

structure playlist (T P : Type) where
  data : Option (playlist_impl T P)
deriving DecidableEq, Repr

/-- The allocator never returns an address that is in use. -/
def fresh (alloc : List Nat → Nat) : Prop := ∀ l, alloc l ∉ l

/-- The value of `playlist_impl()`. -/
def playlist_impl.empty {T P : Type} : playlist_impl T P :=
  { play_tracks := [], sorted_tracks := [], shareable := true }

/-- The constructor `playlist()`. -/
def playlist.new {T P : Type} : playlist T P := { data := some playlist_impl.empty }

/-- The set after `insert(a)`. -/
def iter_set_insert : iter_set_t → Nat → iter_set_t
  | [], a => [a]
  | b :: s, a =>
    if a < b then a :: b :: s else if b < a then b :: iter_set_insert s a else b :: s

/-- The map after `try_emplace(track)`: a new key gets the empty set. -/
def try_emplace {T : Type} [LinearOrder T] : sorted_tracks_t T → T → sorted_tracks_t T
  | [], track => [(track, [])]
  | e :: m, track =>
    if track < e.1 then (track, []) :: e :: m
    else if e.1 < track then e :: try_emplace m track
    else e :: m

/-- The set `sorted_tracks.find(track)->second`, `none` when `find` returns
`end()`. -/
def map_find {T : Type} [LinearOrder T] (m : sorted_tracks_t T) (track : T) :
    Option iter_set_t :=
  (m.find? (fun e => decide (e.1 = track))).map (fun e => e.2)

/-- The map after the set of the node with key `track` has been changed by
`f`. -/
def map_update {T : Type} [LinearOrder T] (m : sorted_tracks_t T) (track : T)
    (f : iter_set_t → iter_set_t) : sorted_tracks_t T :=
  m.map (fun e => if e.1 = track then (e.1, f e.2) else e)

/-- The map after the node with key `track` has been erased. -/
def map_erase {T : Type} [LinearOrder T] (m : sorted_tracks_t T) (track : T) :
    sorted_tracks_t T :=
  m.filter (fun e => !decide (e.1 = track))

/-- The list after `erase(play_iter)` for the node at address `a`. -/
def erase_node {T P : Type} (l : List (Entry T P)) (a : Nat) : List (Entry T P) :=
  l.eraseP (fun e => decide (e.addr = a))

/-- The impl `data` points to after `check_null_data()`. -/
def check_null_data {T P : Type} (pl : playlist T P) : playlist_impl T P :=
  match pl.data with
  | some d => d
  | none => playlist_impl.empty

/-- The body of `push_back` after `copy_on_write()`: the track is emplaced in
the map, the new entry is inserted at the end of the list, and the iterator to
it is inserted in the set of the track. -/
def push_back_impl {T P : Type} [LinearOrder T] (alloc : List Nat → Nat)
    (d : playlist_impl T P) (track : T) (params : P) : playlist_impl T P :=
  { d with
    sorted_tracks :=
      map_update (try_emplace d.sorted_tracks track) track
        (fun s => iter_set_insert s (alloc (d.play_tracks.map (fun e => e.addr))))
    play_tracks :=
      d.play_tracks ++
        [{ addr := alloc (d.play_tracks.map (fun e => e.addr)), params := params,
           map_iter := track }] }

/-- The copy made by `copy_on_write`: a new playlist to which every record is
pushed back in play order (that playlist has a `playlist_impl` of its own, so
its calls of `copy_on_write` copy nothing). -/
def rebuild {T P : Type} [LinearOrder T] (alloc : List Nat → Nat) (d : playlist_impl T P) :
    playlist_impl T P :=
  d.play_tracks.foldl (fun plist e => push_back_impl alloc plist e.map_iter e.params)
    playlist_impl.empty

/-- The impl `data` points to after `copy_on_write(shareable)`. A
`playlist_impl` just made by `check_null_data` is not shared. -/
def copy_on_write {T P : Type} [LinearOrder T] (alloc : List Nat → Nat) (unique : Bool)
    (shareable : Bool) (pl : playlist T P) : playlist_impl T P :=
  match pl.data with
  | none => { (playlist_impl.empty : playlist_impl T P) with shareable := shareable }
  | some d =>
    if unique then { d with shareable := shareable }
    else { rebuild alloc d with shareable := shareable }

def push_back {T P : Type} [LinearOrder T] (alloc : List Nat → Nat) (unique : Bool)
    (pl : playlist T P) (track : T) (params : P) : playlist T P :=
  { data := some (push_back_impl alloc (copy_on_write alloc unique true pl) track params) }

/-- The body of `pop_front` after `copy_on_write()`; the list is not empty
there. -/
def pop_front_impl {T P : Type} [LinearOrder T] (d : playlist_impl T P) : playlist_impl T P :=
  match d.play_tracks with
  | [] => d
  | entry :: rest =>
    { d with
      play_tracks := rest
      sorted_tracks :=
        match map_find
            (map_update d.sorted_tracks entry.map_iter (fun s => s.erase entry.addr))
            entry.map_iter with
        | some [] =>
          map_erase (map_update d.sorted_tracks entry.map_iter (fun s => s.erase entry.addr))
            entry.map_iter
        | _ => map_update d.sorted_tracks entry.map_iter (fun s => s.erase entry.addr) }

def pop_front {T P : Type} [LinearOrder T] (alloc : List Nat → Nat) (unique : Bool)
    (pl : playlist T P) : Option exception × playlist T P :=
  match pl.data with
  | none => (some .out_of_range, pl)
  | some d =>
    if d.play_tracks.isEmpty then (some .out_of_range, pl)
    else (none, { data := some (pop_front_impl (copy_on_write alloc unique true pl)) })

def front {T P : Type} (pl : playlist T P) : Except exception (T × P) :=
  match pl.data with
  | none => .error .out_of_range
  | some d =>
    match d.play_tracks with
    | [] => .error .out_of_range
    | entry :: _ => .ok (entry.map_iter, entry.params)

/-- The body of `remove` after `copy_on_write()`; the track is a key of the map
there. -/
def remove_impl {T P : Type} [LinearOrder T] (d : playlist_impl T P) (track : T) :
    playlist_impl T P :=
  match map_find d.sorted_tracks track with
  | none => d
  | some s =>
    { d with
      play_tracks := s.foldl erase_node d.play_tracks
      sorted_tracks := map_erase d.sorted_tracks track }

def remove {T P : Type} [LinearOrder T] (alloc : List Nat → Nat) (unique : Bool)
    (pl : playlist T P) (track : T) : Option exception × playlist T P :=
  match pl.data with
  | none => (some .invalid_argument, pl)
  | some d =>
    match map_find d.sorted_tracks track with
    | none => (some .invalid_argument, pl)
    | some _ => (none, { data := some (remove_impl (copy_on_write alloc unique true pl) track) })

def clear {T P : Type} (unique : Bool) (pl : playlist T P) : playlist T P :=
  match pl.data with
  | none => { data := none }
  | some d =>
    if !unique then { data := none }
    else { data := some { d with play_tracks := [], sorted_tracks := [] } }

def size {T P : Type} (pl : playlist T P) : Nat :=
  match pl.data with
  | some d => d.play_tracks.length
  | none => 0

/-- A `play_iterator` is the position of the entry it points to. The four
functions that return iterators call `check_null_data()`, which may replace a
null `data` by an empty `playlist_impl`; either way the playlist holds no
record, and the functions below are read as functions of the object before the
call. -/
def play_begin {T P : Type} (_ : playlist T P) : Nat := 0

def play_end {T P : Type} (pl : playlist T P) : Nat := (check_null_data pl).play_tracks.length

/-- The pair `play(it)`; `none` when `it` points to no entry. -/
def play {T P : Type} (pl : playlist T P) (it : Nat) : Option (T × P) :=
  match pl.data with
  | some d => (d.play_tracks[it]?).map (fun e => (e.map_iter, e.params))
  | none => none

/-- A `sorted_iterator` is the position of the map node it points to. -/
def sorted_begin {T P : Type} (_ : playlist T P) : Nat := 0

def sorted_end {T P : Type} (pl : playlist T P) : Nat :=
  (check_null_data pl).sorted_tracks.length

/-- The pair `pay(it)`; `none` when `it` points to no node. -/
def pay {T P : Type} (pl : playlist T P) (it : Nat) : Option (T × Nat) :=
  match pl.data with
  | some d => (d.sorted_tracks[it]?).map (fun e => (e.1, e.2.length))
  | none => none

/-- The records of the playlist in play order: the pairs `play(it)` for `it`
from `play_begin()` to `play_end()`. -/
def records {T P : Type} (pl : playlist T P) : List (T × P) :=
  (List.range (play_end pl)).filterMap (play pl)

/-- The pairs `pay(it)` for `it` from `sorted_begin()` to `sorted_end()`. -/
def payments {T P : Type} (pl : playlist T P) : List (T × Nat) :=
  (List.range (sorted_end pl)).filterMap (pay pl)

/-- The playlists obtained from `playlist()` by calls of `push_back`,
`pop_front`, `remove` and `clear` (a call that throws leaves the object as it
was). -/
inductive Reachable {T P : Type} [LinearOrder T] : playlist T P → Prop where
  | new : Reachable playlist.new
  | push_back (alloc : List Nat → Nat) (unique : Bool) (pl : playlist T P) (track : T)
      (params : P) : fresh alloc → Reachable pl →
      Reachable (push_back alloc unique pl track params)
  | pop_front (alloc : List Nat → Nat) (unique : Bool) (pl : playlist T P) :
      fresh alloc → Reachable pl → Reachable (pop_front alloc unique pl).2
  | remove (alloc : List Nat → Nat) (unique : Bool) (pl : playlist T P) (track : T) :
      fresh alloc → Reachable pl → Reachable (remove alloc unique pl track).2
  | clear (unique : Bool) (pl : playlist T P) : Reachable pl → Reachable (clear unique pl)

/-- The consistency of the list and the map of a `playlist_impl`: the nodes of
the list have different addresses, the keys of the map ascend strictly, the set
of a key is not empty and holds exactly the addresses of the entries with that
track, and the track of every entry is a key. -/
structure Consistent {T P : Type} [LinearOrder T] (d : playlist_impl T P) : Prop where
  addrs : (d.play_tracks.map (fun e => e.addr)).Nodup
  keys : (d.sorted_tracks.map (fun e => e.1)).Pairwise (fun a b => a < b)
  sets : ∀ k s, (k, s) ∈ d.sorted_tracks →
    s.Nodup ∧ s ≠ [] ∧ ∀ a, a ∈ s ↔ ∃ e ∈ d.play_tracks, e.addr = a ∧ e.map_iter = k
  tracks : ∀ e ∈ d.play_tracks, e.map_iter ∈ d.sorted_tracks.map (fun e => e.1)

/-- An allocator: the least address above those in use. -/
def next_addr (l : List Nat) : Nat := l.foldl max 0 + 1

/-- The playlist after `push_back` of the tracks `3, 1, 3, 2` with parameters
`10, 11, 12, 13`. -/
def four_tracks : playlist Nat Nat :=
  push_back next_addr true
    (push_back next_addr true
      (push_back next_addr true (push_back next_addr true playlist.new 3 10) 1 11) 3 12) 2 13

end Playlist

/-! # Collections of named posets (`named_poset_collections.cpp`)

The number of elements of a poset, the macro `N` of the source (`32` unless the
build defines it), is the parameter `N` of the functions that read it. A
`std::bitset<N>` is a list of bits, read as `false` beyond its end; an iterator
of a container is the index of the entry it points to, `end()` being the
length. A `char const *` argument is an `Option String`, `none` for `NULL`. -/

namespace NamedPosets

abbrev bitset := List Bool

abbrev relation_matrix := List bitset

/-- A `std::map<string, relation_matrix>`: its entries in the order of the
keys. -/
abbrev poset := List (String × relation_matrix)

/-- The `std::unordered_map<long, poset>` returned by `get_collections()`. -/
abbrev npc := List (Int × poset)

/-- The value `matrix[x].test(y)`. -/
def test (matrix : relation_matrix) (x y : Nat) : Bool := (matrix.getD x []).getD y false

/-- The bitset `a` after `a |= b`. -/
def bitset_or (N : Nat) (a b : bitset) : bitset :=
  (List.range N).map (fun j => a.getD j false || b.getD j false)

/-- The bitset `a` after `a.set(i)` (`i` is below the size wherever the source
calls it). -/
def bitset_set (a : bitset) (i : Nat) : bitset := a.set i true

/-- The bitset `a` after `a.reset(i)`. -/
def bitset_reset (a : bitset) (i : Nat) : bitset := a.set i false

/-- The matrix built by `get_diagonal_matrix`: all bits clear except `(i, i)`. -/
def get_diagonal_matrix (N : Nat) : relation_matrix :=
  (List.range N).map (fun i => bitset_set (List.replicate N false) i)

/-- The characters matched by `[a-zA-Z0-9_]`. -/
def is_name_char (c : Char) : Bool :=
  (decide ('a' ≤ c) && decide (c ≤ 'z')) || (decide ('A' ≤ c) && decide (c ≤ 'Z')) ||
    (decide ('0' ≤ c) && decide (c ≤ '9')) || decide (c = '_')

/-- The match of the whole name against `^[a-zA-Z0-9_]+$`. -/
def is_valid_name (name : String) : Bool :=
  !name.data.isEmpty && name.data.all is_name_char

/-- The iterator found by `collections.find(id)`, `none` when it is `end()`. -/
def find_collection (collections : npc) (id : Int) : Option Nat :=
  if collections.findIdx (fun e => decide (e.1 = id)) = collections.length then none
  else some (collections.findIdx (fun e => decide (e.1 = id)))

/-- The posets of the collection an iterator points to. -/
def posets_at (collections : npc) (c : Nat) : poset := (collections.getD c (0, [])).2

/-- The iterator returned by `posets.find(name)`. -/
def poset_find (posets : poset) (name : String) : Nat :=
  posets.findIdx (fun e => decide (e.1 = name))

/-- The step `if (next && it != posets.end()) ++it;` of `find_poset`. -/
def step_if_next (posets : poset) (it : Nat) (next : Bool) : Nat :=
  if next && decide (it ≠ posets.length) then it + 1 else it

/-- The function `find_poset(id, name, next)`: the iterator of the collection
together with the iterator of the poset named `name` in it, moved one entry on
when `next` is set; `none` is `nullopt`. -/
def find_poset (collections : npc) (id : Int) (name : String) (next : Bool) :
    Option (Nat × Nat) :=
  match find_collection collections id with
  | some c =>
    if step_if_next (posets_at collections c) (poset_find (posets_at collections c) name) next ≠
        (posets_at collections c).length then
      some (c,
        step_if_next (posets_at collections c) (poset_find (posets_at collections c) name) next)
    else none
  | none => none

/-- The matrix `it->second` of a poset iterator. -/
def matrix_at (collections : npc) (it : Nat × Nat) : relation_matrix :=
  ((posets_at collections it.1).getD it.2 ("", [])).2

/-- The collections after the matrix `it->second` has been overwritten. -/
def set_matrix (collections : npc) (it : Nat × Nat) (matrix : relation_matrix) : npc :=
  collections.modify (fun e => (e.1, e.2.modify (fun q => (q.1, matrix)) it.2)) it.1

/-- The function `npc_new_collection`, with the static counter `new_id` as
part of the state: the identifier returned, the counter and the collections. -/
def npc_new_collection (new_id : Int) (collections : npc) : Int × Int × npc :=
  if new_id ≥ 0 then
    (new_id, new_id + 1,
      match find_collection collections new_id with
      | some c => collections.modify (fun e => (e.1, [])) c
      | none => collections ++ [(new_id, [])])
  else (-1, new_id, collections)

/-- The map after `posets.emplace(name, matrix)` for a key that is not in it:
the entry goes before the first key greater than `name`. -/
def poset_emplace (posets : poset) (name : String) (matrix : relation_matrix) : poset :=
  match posets with
  | [] => [(name, matrix)]
  | e :: posets =>
    if name < e.1 then (name, matrix) :: e :: posets
    else e :: poset_emplace posets name matrix

def npc_new_poset (N : Nat) (collections : npc) (id : Int) (name : Option String) :
    Bool × npc :=
  match name with
  | none => (false, collections)
  | some name =>
    if !is_valid_name name then (false, collections)
    else
      match find_collection collections id with
      | some c =>
        if !(posets_at collections c).any (fun e => decide (e.1 = name)) then
          (true,
            collections.modify
              (fun e => (e.1, poset_emplace e.2 name (get_diagonal_matrix N))) c)
        else (false, collections)
      | none => (false, collections)

/-- The loop of `npc_add_relation`: every row `z` with the bit `x` set takes
the bits of row `y` as well. -/
def add_relation_loop (N x y : Nat) (matrix : relation_matrix) : relation_matrix :=
  (List.range N).foldl
    (fun m z => if test m z x then m.set z (bitset_or N (m.getD z []) (m.getD y [])) else m)
    matrix

def npc_add_relation (N : Nat) (collections : npc) (id : Int) (name : Option String)
    (x y : Nat) : Bool × npc :=
  match name with
  | none => (false, collections)
  | some name =>
    if max x y ≥ N then (false, collections)
    else
      match find_poset collections id name false with
      | none => (false, collections)
      | some it =>
        if test (matrix_at collections it) x y || test (matrix_at collections it) y x then
          (false, collections)
        else (true, set_matrix collections it (add_relation_loop N x y (matrix_at collections it)))

def npc_is_relation (N : Nat) (collections : npc) (id : Int) (name : Option String)
    (x y : Nat) : Bool :=
  match name with
  | none => false
  | some name =>
    if max x y ≥ N then false
    else
      match find_poset collections id name false with
      | none => false
      | some it => test (matrix_at collections it) x y

/-- The loop of `npc_remove_relation`: whether some `z` other than `x` and `y`
lies between them. -/
def indirectly_related (N x y : Nat) (matrix : relation_matrix) : Bool :=
  (List.range N).any
    (fun z => decide (z ≠ x) && decide (z ≠ y) && test matrix x z && test matrix z y)

def npc_remove_relation (N : Nat) (collections : npc) (id : Int) (name : Option String)
    (x y : Nat) : Bool × npc :=
  match name with
  | none => (false, collections)
  | some name =>
    if x = y ∨ max x y ≥ N then (false, collections)
    else
      match find_poset collections id name false with
      | none => (false, collections)
      | some it =>
        if !test (matrix_at collections it) x y then (false, collections)
        else if indirectly_related N x y (matrix_at collections it) then (false, collections)
        else
          (true,
            set_matrix collections it
              ((matrix_at collections it).set x
                (bitset_reset ((matrix_at collections it).getD x []) y)))

/-! ## The run of `named_poset_collections_example_1.c` -/

/-- The collections after `npc_new_collection()` and `npc_new_poset(0, "abcd")`
with `N = 32`. -/
def example_fresh : npc :=
  (npc_new_poset 32 (npc_new_collection 0 []).2.2 0 (some "abcd")).2

/-- Then `npc_add_relation(0, "abcd", 0, 1)`. -/
def example_first : npc := (npc_add_relation 32 example_fresh 0 (some "abcd") 0 1).2

/-- Then `npc_add_relation(0, "abcd", 1, 2)`. -/
def example_added : npc := (npc_add_relation 32 example_first 0 (some "abcd") 1 2).2

/-- Then `npc_remove_relation(0, "abcd", 0, 1)`. -/
def example_removed : npc := (npc_remove_relation 32 example_added 0 (some "abcd") 0 1).2

/-! ## Collections, posets and the iteration over names -/

def npc_delete_collection (collections : npc) (id : Int) : npc :=
  match find_collection collections id with
  | some c => collections.eraseIdx c
  | none => collections

/-- The map after `posets.erase(name)`: erasing at `end()` does nothing. -/
def poset_erase (posets : poset) (name : String) : poset :=
  posets.eraseIdx (poset_find posets name)

def npc_delete_poset (collections : npc) (id : Int) (name : Option String) : npc :=
  match name with
  | none => collections
  | some name =>
    match find_collection collections id with
    | some c => collections.modify (fun e => (e.1, poset_erase e.2 name)) c
    | none => collections

/-- The map after `posets[name] = matrix`. -/
def poset_assign (posets : poset) (name : String) (matrix : relation_matrix) : poset :=
  if poset_find posets name = posets.length then poset_emplace posets name matrix
  else posets.modify (fun q => (q.1, matrix)) (poset_find posets name)

def npc_copy_poset (collections : npc) (id : Int) (name_dst name_src : Option String) :
    Bool × npc :=
  match name_dst, name_src with
  | some name_dst, some name_src =>
    if !is_valid_name name_dst then (false, collections)
    else
      match find_poset collections id name_src false with
      | some it =>
        (true,
          collections.modify
            (fun e => (e.1, poset_assign e.2 name_dst (matrix_at collections it))) it.1)
      | none => (false, collections)
  | _, _ => (false, collections)

/-- The key `it->first` of a poset iterator. -/
def name_at (collections : npc) (it : Nat × Nat) : String :=
  ((posets_at collections it.1).getD it.2 ("", [])).1

def npc_first_poset (collections : npc) (id : Int) : Option String :=
  match find_collection collections id with
  | none => none
  | some c =>
    if (posets_at collections c).isEmpty then none
    else some (name_at collections (c, 0))

def npc_next_poset (collections : npc) (id : Int) (name : Option String) : Option String :=
  match name with
  | none => none
  | some name =>
    match find_poset collections id name true with
    | none => none
    | some it => some (name_at collections it)

def npc_size (collections : npc) : Nat := collections.length

def npc_collection_size (collections : npc) (id : Int) : Nat :=
  match find_collection collections id with
  | some c => (posets_at collections c).length
  | none => 0

/-- The loop `for (name = npc_first_poset(id); name != NULL;
name = npc_next_poset(id, name))` of `named_poset_collections_example_1.c` from
the value `name` on, run for at most `fuel` iterations: the names it visits, and
whether it has reached `NULL`. -/
def visit_posets (collections : npc) (id : Int) : Nat → Option String → List String × Bool
  | _, none => ([], true)
  | 0, some _ => ([], false)
  | fuel + 1, some name =>
    ((name :: (visit_posets collections id fuel
        (npc_next_poset collections id (some name))).1),
      (visit_posets collections id fuel (npc_next_poset collections id (some name))).2)

/-- The states of the module, the static counter `new_id` of
`npc_new_collection` and the collections, after finitely many calls of its
functions. -/
inductive Reachable (N : Nat) : Int × npc → Prop where
  | init : Reachable N (0, [])
  | new_collection (s : Int × npc) : Reachable N s →
      Reachable N (npc_new_collection s.1 s.2).2
  | delete_collection (s : Int × npc) (id : Int) : Reachable N s →
      Reachable N (s.1, npc_delete_collection s.2 id)
  | new_poset (s : Int × npc) (id : Int) (name : Option String) : Reachable N s →
      Reachable N (s.1, (npc_new_poset N s.2 id name).2)
  | delete_poset (s : Int × npc) (id : Int) (name : Option String) : Reachable N s →
      Reachable N (s.1, npc_delete_poset s.2 id name)
  | copy_poset (s : Int × npc) (id : Int) (name_dst name_src : Option String) :
      Reachable N s → Reachable N (s.1, (npc_copy_poset s.2 id name_dst name_src).2)
  | add_relation (s : Int × npc) (id : Int) (name : Option String) (x y : Nat) :
      Reachable N s → Reachable N (s.1, (npc_add_relation N s.2 id name x y).2)
  | remove_relation (s : Int × npc) (id : Int) (name : Option String) (x y : Nat) :
      Reachable N s → Reachable N (s.1, (npc_remove_relation N s.2 id name x y).2)

/-- The keys of every collection ascend strictly. -/
def SortedNames (collections : npc) : Prop :=
  ∀ e ∈ collections, (e.2.map (fun q => q.1)).Pairwise (fun a b => a < b)

/-- The collections after `npc_new_collection()` and then `npc_new_poset` of
`"xyz"`, `"abcd"` and again `"xyz"` in collection `0`, as in
`named_poset_collections_example_1.c`. -/
def example_two_names : Int × npc :=
  ((npc_new_collection 0 []).2.1,
    (npc_new_poset 32
      (npc_new_poset 32 (npc_new_poset 32 (npc_new_collection 0 []).2.2 0 (some "xyz")).2 0
        (some "abcd")).2 0 (some "xyz")).2)

end NamedPosets

/-! ## Lemmas -/

namespace Fabryka

theorem tick_task_refl (now : Int) (m : Nat) (t : task_ex_t) : tick_task now m t t :=
  Or.inl rfl

theorem tick_task_trans {now : Int} {m : Nat} {t t' t'' : task_ex_t}
    (h1 : tick_task now m t t') (h2 : tick_task now m t' t'') : tick_task now m t t'' := by
  rcases h1 with h1 | ⟨hp, hs, h1⟩ | ⟨hp, h1⟩
  · subst h1; exact h2
  · have hn : t'.status ≠ .PENDING := by rw [h1.2]; simp
    rcases h2 with h2 | ⟨hp', -, -⟩ | ⟨hp', -⟩
    · subst h2; exact Or.inr (Or.inl ⟨hp, hs, h1⟩)
    · exact absurd hp' hn
    · exact absurd hp' hn
  · have hn : t'.status ≠ .PENDING := by rw [h1]; simp
    rcases h2 with h2 | ⟨hp', -, -⟩ | ⟨hp', -⟩
    · subst h2; exact Or.inr (Or.inr ⟨hp, h1⟩)
    · exact absurd hp' hn
    · exact absurd hp' hn

theorem tasks_rel_refl {R : task_ex_t → task_ex_t → Prop} (hR : ∀ t, R t t)
    (ts : List task_ex_t) : TasksRel R ts ts := by
  refine ⟨rfl, ?_⟩
  intro i t h
  exact ⟨t, h, hR t⟩

theorem tasks_rel_trans (R : task_ex_t → task_ex_t → Prop)
    (hR : ∀ a b c, R a b → R b c → R a c) {ts ts' ts'' : List task_ex_t}
    (h1 : TasksRel R ts ts') (h2 : TasksRel R ts' ts'') : TasksRel R ts ts'' := by
  refine ⟨h2.1.trans h1.1, ?_⟩
  intro i t h
  obtain ⟨t', ht', r1⟩ := h1.2 i t h
  obtain ⟨t'', ht'', r2⟩ := h2.2 i t' ht'
  exact ⟨t'', ht'', hR _ _ _ r1 r2⟩

theorem tasks_rel_set {R : task_ex_t → task_ex_t → Prop} (hR : ∀ t, R t t)
    {ts : List task_ex_t} {k : Nat} {t t' : task_ex_t} (hk : ts[k]? = some t) (h : R t t') :
    TasksRel R ts (ts.set k t') := by
  refine ⟨by simp, ?_⟩
  intro i u hu
  by_cases hik : k = i
  · subst hik
    have hlt : k < ts.length := by
      rcases Nat.lt_or_ge k ts.length with h' | h'
      · exact h'
      · rw [List.getElem?_eq_none h'] at hk; cases hk
    rw [hk] at hu
    cases hu
    exact ⟨t', by simp [List.getElem?_set, hlt], h⟩
  · exact ⟨u, by rw [List.getElem?_set_ne hik]; exact hu, hR u⟩

theorem tasks_rel_map {R : task_ex_t → task_ex_t → Prop} (f : task_ex_t → task_ex_t)
    (h : ∀ t, R t (f t)) (ts : List task_ex_t) : TasksRel R ts (ts.map f) := by
  refine ⟨by simp, ?_⟩
  intro i t ht
  exact ⟨f t, by simp [ht], h t⟩

theorem retire_loop_fst (a b : Nat) (ts : List task_ex_t) (np : Nat) :
    (retire_loop a b ts np).1 = ts.map (retire_one a b) := by
  induction ts generalizing np with
  | nil => rfl
  | cons t ts ih =>
    by_cases h : unsatisfiable a b t = true
    · simp [retire_loop, retire_one, h, ih]
    · simp [retire_loop, retire_one, h, ih]

theorem tick_task_retire_one (now : Int) (m a b : Nat) (t : task_ex_t) :
    tick_task now m t (retire_one a b t) := by
  unfold retire_one
  split
  · rename_i h
    refine Or.inr (Or.inr ⟨?_, rfl⟩)
    simp [unsatisfiable] at h
    exact h.1
  · exact Or.inl rfl

theorem pick_task_from_spec {now : Int} {nw cap : Nat} :
    ∀ (ts : List task_ex_t) (i0 i : Nat) (t : task_ex_t),
      pick_task_from now nw cap ts i0 = some (i, t) →
      i0 ≤ i ∧ ts[i - i0]? = some t ∧ can_take now nw cap t = true ∧
        ∀ j u, j < i - i0 → ts[j]? = some u → can_take now nw cap u = false := by
  intro ts
  induction ts with
  | nil => intro i0 i t h; simp [pick_task_from] at h
  | cons a ts ih =>
    intro i0 i t h
    unfold pick_task_from at h
    split at h
    · rename_i hc
      cases h
      refine ⟨Nat.le_refl _, by simp, hc, ?_⟩
      intro j u hj
      simp at hj
    · rename_i hc
      obtain ⟨h1, h2, h3, h4⟩ := ih (i0 + 1) i t h
      have e : i - i0 = (i - (i0 + 1)) + 1 := by omega
      refine ⟨by omega, ?_, h3, ?_⟩
      · rw [e]; simpa using h2
      · intro j u hj hu
        cases j with
        | zero => simp at hu; subst hu; simpa using hc
        | succ j => exact h4 j u (by omega) (by simpa using hu)

theorem update_alarm_tasks (now : Int) (p : Plant) :
    (update_alarm now p).task_ex_ptrs = p.task_ex_ptrs := by
  simp only [update_alarm]
  split <;> rfl

theorem retire_tasks_tasks (p : Plant) :
    (retire_tasks p).task_ex_ptrs = p.task_ex_ptrs.map
      (retire_one ((p.num_active_workers + p.num_workers_to_come) % 2 ^ 64)
        p.max_station_capacity) := by
  simp [retire_tasks, retire_loop_fst]


/-! ### The worker table under expiry and registration -/

theorem getElem?_lt {α : Type} {l : List α} {i : Nat} {a : α} (h : l[i]? = some a) :
    i < l.length := by
  rcases Nat.lt_or_ge i l.length with h' | h'
  · exact h'
  · rw [List.getElem?_eq_none h'] at h; cases h

theorem set_same {α : Type} {l : List α} {i : Nat} {a : α} (h : l[i]? = some a) :
    l.set i a = l := by
  apply List.ext_getElem?
  intro j
  rw [List.getElem?_set]
  by_cases hij : i = j
  · subst hij
    simp [getElem?_lt h, h]
  · simp [hij]

theorem swap_workers_perm (ws : List worker_ex_t) (i j : Nat) :
    (swap_workers ws i j).Perm ws := by
  unfold swap_workers
  split
  · rename_i a b ha hb
    by_cases hij : i = j
    · subst hij
      rw [ha] at hb
      cases hb
      rw [List.set_set, set_same ha]
    · have hi := getElem?_lt ha
      have hj := getElem?_lt hb
      have ea : ws[i] = a := by
        rw [List.getElem?_eq_getElem hi] at ha; exact Option.some.inj ha
      have eb : ws[j] = b := by
        rw [List.getElem?_eq_getElem hj] at hb; exact Option.some.inj hb
      rw [List.perm_iff_count]
      intro x
      have hj' : j < (ws.set i b).length := by simpa using hj
      have h1 := List.boole_getElem_le_countP (fun y => y == x) ws i hi
      have h2 := List.boole_getElem_le_countP (fun y => y == x) ws j hj
      rw [← List.count_eq_countP] at h1 h2
      rw [List.count_set _ _ _ _ hj', List.count_set _ _ _ _ hi,
        List.getElem_set_ne hij, ea, eb]
      simp only [ea, eb] at h1 h2
      by_cases h3 : (a == x) = true <;> by_cases h4 : (b == x) = true <;>
        simp only [h3, h4, if_true, if_false] at h1 h2 ⊢ <;> omega
  · exact List.Perm.refl _

theorem expire_loop_perm (now : Int) (n i : Nat) (ws : List worker_ex_t) :
    (expire_loop now n i ws).1.Perm ws := by
  induction n generalizing i ws with
  | zero => exact List.Perm.refl _
  | succ n ih =>
    unfold expire_loop
    split
    · split
      · exact (ih _ _).trans (swap_workers_perm _ _ _)
      · exact ih _ _
    · exact List.Perm.refl _

theorem expire_workers_perm (now : Int) (p : Plant) :
    (expire_workers now p).worker_ex_ptrs.Perm p.worker_ex_ptrs :=
  expire_loop_perm now _ _ _

theorem worker_append_perm (ws : List worker_ex_t) (na : Nat) (e : worker_ex_t) :
    ((ws ++ [(ws[na]?).getD e]).set na e).Perm (e :: ws) := by
  rcases Nat.lt_or_ge na ws.length with h | h
  · have h1 : ws[na]? = some ws[na] := List.getElem?_eq_getElem h
    rw [h1, Option.getD_some]
    rw [List.perm_iff_count]
    intro x
    have hl : na < (ws ++ [ws[na]]).length := by simp; omega
    have hg : (ws ++ [ws[na]])[na] = ws[na] := List.getElem_append_left h
    rw [List.count_set _ _ _ _ hl, hg, List.count_append, List.count_cons, List.count_cons,
      List.count_nil]
    by_cases h3 : (ws[na] == x) = true <;> by_cases h4 : (e == x) = true <;>
      simp only [h3, h4, if_true, if_false] <;> omega
  · rw [List.getElem?_eq_none h, Option.getD_none]
    rcases Nat.eq_or_lt_of_le h with h' | h'
    · have : (ws ++ [e])[na]? = some e := by rw [← h']; simp
      rw [set_same this]
      exact List.perm_append_singleton e ws
    · rw [List.set_eq_of_length_le (by simp; omega)]
      exact List.perm_append_singleton e ws

/-! ### The invariant is kept by every part of a tick -/

theorem inv_of_fields {p q : Plant} (h : Inv p)
    (h1 : q.stations_ex = p.stations_ex) (h2 : q.task_ex_ptrs = p.task_ex_ptrs)
    (h3 : q.worker_ex_ptrs.Perm p.worker_ex_ptrs)
    (h4 : q.num_pending_tasks = p.num_pending_tasks)
    (h5 : q.num_in_progress_tasks = p.num_in_progress_tasks) : Inv q where
  occ_le := by rw [h1]; exact h.occ_le
  occ_count := by
    intro s st hs
    rw [h3.countP_eq]
    rw [h1] at hs
    exact h.occ_count s st hs
  working := by
    intro w hw
    rw [h1, h2]
    exact h.working w (h3.mem_iff.mp hw)
  same_task := by
    intro w1 hw1 w2 hw2
    exact h.same_task w1 (h3.mem_iff.mp hw1) w2 (h3.mem_iff.mp hw2)
  skipped := by rw [h2]; exact h.skipped
  pending := by rw [h2, h4]; exact h.pending
  in_progress := by rw [h2, h5]; exact h.in_progress
  staffed := by
    intro i t ht hs hc
    rw [h2] at ht
    obtain ⟨w, hw, r⟩ := h.staffed i t ht hs hc
    exact ⟨w, h3.mem_iff.mpr hw, r⟩

theorem inv_expire_workers {p : Plant} (now : Int) (h : Inv p) : Inv (expire_workers now p) :=
  inv_of_fields h rfl rfl (expire_workers_perm now p) rfl rfl

theorem inv_update_alarm {p : Plant} (now : Int) (h : Inv p) : Inv (update_alarm now p) := by
  simp only [update_alarm]
  split
  · exact inv_of_fields h rfl rfl (List.Perm.refl _) rfl rfl
  · exact h

theorem retire_one_of_not_pending (a b : Nat) {t : task_ex_t} (h : t.status ≠ .PENDING) :
    retire_one a b t = t := by
  simp [retire_one, unsatisfiable, h]

theorem retire_one_cases (a b : Nat) (t : task_ex_t) :
    retire_one a b t = t ∨
      (t.status = .PENDING ∧ retire_one a b t = { t with status := .FINISHED, is_skipped := true }) := by
  unfold retire_one
  split
  · rename_i hu
    simp [unsatisfiable] at hu
    exact Or.inr ⟨hu.1, rfl⟩
  · exact Or.inl rfl

theorem retire_loop_snd (a b : Nat) (ts : List task_ex_t) (np k : Nat)
    (h : np = ts.countP is_pending + k) :
    (retire_loop a b ts np).2 = (ts.map (retire_one a b)).countP is_pending + k := by
  induction ts generalizing np k with
  | nil => simpa [retire_loop] using h
  | cons t ts ih =>
    rw [List.countP_cons] at h
    by_cases hu : unsatisfiable a b t = true
    · have hp : t.status = .PENDING := by
        simp [unsatisfiable] at hu; exact hu.1
      have hp' : is_pending t = true := by simp [is_pending, hp]
      simp only [hp', if_true] at h
      have hd : size_dec np = ts.countP is_pending + k := by
        unfold size_dec; rw [if_neg (by omega)]; omega
      simp only [retire_loop, hu, if_true, List.map_cons, List.countP_cons]
      rw [ih _ _ hd]
      simp [retire_one, hu, is_pending]
    · have hu' : unsatisfiable a b t = false := by simpa using hu
      have e : retire_one a b t = t := by simp [retire_one, hu']
      simp only [retire_loop, hu', Bool.false_eq_true, if_false, List.map_cons,
        List.countP_cons, e]
      by_cases hp' : is_pending t = true
      · simp only [hp', if_true] at h ⊢
        rw [ih np (k + 1) (by omega)]
        omega
      · have hp'' : is_pending t = false := by simpa using hp'
        simp only [hp'', Bool.false_eq_true, if_false] at h ⊢
        rw [ih np k (by omega)]
        omega

theorem inv_retire_tasks {p : Plant} (h : Inv p) : Inv (retire_tasks p) := by
  have ht := retire_tasks_tasks p
  generalize (p.num_active_workers + p.num_workers_to_come) % 2 ^ 64 = a at ht
  generalize hb : p.max_station_capacity = b at ht
  have hget : ∀ (i : Nat) (t' : task_ex_t), (retire_tasks p).task_ex_ptrs[i]? = some t' →
      ∃ t, p.task_ex_ptrs[i]? = some t ∧ t' = retire_one a b t := by
    intro i t' hi
    rw [ht, List.getElem?_map] at hi
    cases hp : p.task_ex_ptrs[i]? with
    | none => rw [hp] at hi; cases hi
    | some t => rw [hp] at hi; exact ⟨t, rfl, (Option.some.inj hi).symm⟩
  have hs : (retire_tasks p).stations_ex = p.stations_ex := rfl
  have hw : (retire_tasks p).worker_ex_ptrs = p.worker_ex_ptrs := rfl
  refine ⟨?_, ?_, ?_, ?_, ?_, ?_, ?_, ?_⟩
  · rw [hs]; exact h.occ_le
  · rw [hs, hw]; exact h.occ_count
  · intro w hw' hst
    obtain ⟨st, t, h1, h2, h3, h4⟩ := h.working w hw' hst
    refine ⟨st, t, h1, ?_, h3, h4⟩
    rw [ht, List.getElem?_map, h2]
    simp [retire_one_of_not_pending a b (t := t) (by rw [h3]; simp)]
  · exact h.same_task
  · intro t' hm hsk
    rw [ht, List.mem_map] at hm
    obtain ⟨t, hm, rfl⟩ := hm
    rcases retire_one_cases a b t with e | ⟨-, e⟩
    · rw [e] at hsk ⊢; exact h.skipped t hm hsk
    · rw [e]
  · have := retire_loop_snd ((p.num_active_workers + p.num_workers_to_come) % 2 ^ 64)
      p.max_station_capacity p.task_ex_ptrs p.num_pending_tasks 0 (by simpa using h.pending)
    simpa [retire_tasks, retire_loop_fst] using this
  · have e : (retire_tasks p).num_in_progress_tasks = p.num_in_progress_tasks := rfl
    rw [e, ht, List.countP_map, h.in_progress]
    apply List.countP_congr
    intro t _
    rcases retire_one_cases a b t with e | ⟨hp, e⟩
    · simp [e]
    · simp [e, is_in_progress, hp]
  · intro i t' hi hst hc
    obtain ⟨t, h1, rfl⟩ := hget i t' hi
    rcases retire_one_cases a b t with e | ⟨-, e⟩
    · rw [e] at hst hc; exact h.staffed i t h1 hst hc
    · rw [e] at hst; cases hst

/-! ### One iteration of the greedy loop -/

theorem pick_station_from_spec (P : Nat → station_ex_t → Prop) :
    ∀ (ss : List station_ex_t) (i0 : Nat) (best : Option (Nat × station_ex_t)),
      (∀ j b, best = some (j, b) → P j b) →
      (∀ k s, ss[k]? = some s → s.num_workers = 0 → P (i0 + k) s) →
      ∀ j b, pick_station_from ss i0 best = some (j, b) → P j b := by
  intro ss
  induction ss with
  | nil =>
    intro i0 best hb _ j b h
    exact hb j b h
  | cons s ss ih =>
    intro i0 best hb hs j b h
    have hs' : ∀ k u, ss[k]? = some u → u.num_workers = 0 → P (i0 + 1 + k) u := by
      intro k u hk hu
      have := hs (k + 1) u (by simpa using hk) hu
      rwa [show i0 + (k + 1) = i0 + 1 + k by omega] at this
    have hnew : ∀ j b, some (i0, s) = some (j, b) → s.num_workers = 0 → P j b := by
      intro j b e h0
      cases e
      exact hs 0 s (by simp) h0
    unfold pick_station_from at h
    split at h
    · rename_i h0
      split at h
      · exact ih _ _ (fun j b e => hnew j b e h0) hs' j b h
      · split at h
        · exact ih _ _ (fun j b e => hnew j b e h0) hs' j b h
        · exact ih _ _ hb hs' j b h
    · exact ih _ _ hb hs' j b h

theorem pick_station_spec {sts : List station_ex_t} {j : Nat} {b : station_ex_t}
    (h : pick_station sts = some (j, b)) : sts[j]? = some b ∧ b.num_workers = 0 := by
  refine pick_station_from_spec (fun j b => sts[j]? = some b ∧ b.num_workers = 0) sts 0 none
    ?_ ?_ j b h
  · intro j b e; cases e
  · intro k s hk h0
    simp only [Nat.zero_add]
    exact ⟨hk, h0⟩

theorem assign_workers_length (now : Int) (T s : Nat) (n c : Nat) (ws : List worker_ex_t) :
    (assign_workers now T s n c ws).length = ws.length := by
  induction ws generalizing n c with
  | nil => cases n <;> simp [assign_workers]
  | cons w ws ih =>
    cases n with
    | zero => simp [assign_workers]
    | succ n =>
      unfold assign_workers
      split
      · rfl
      · split
        · simp [ih]
        · simp [ih]

theorem assign_workers_mem {now : Int} {T s : Nat} {n c : Nat} {ws : List worker_ex_t}
    {x : worker_ex_t} (h : x ∈ assign_workers now T s n c ws) :
    x ∈ ws ∨ ∃ w ∈ ws, is_available now w = true ∧ ∃ i, x = mark T s i w := by
  induction ws generalizing n c with
  | nil => cases n <;> simp [assign_workers] at h
  | cons w ws ih =>
    cases n with
    | zero => left; simpa [assign_workers] using h
    | succ n =>
      unfold assign_workers at h
      split at h
      · exact Or.inl h
      · split at h
        · rename_i ha
          rcases List.mem_cons.mp h with e | h'
          · exact Or.inr ⟨w, List.mem_cons_self _ _, ha, c - 1, e⟩
          · rcases ih h' with h1 | ⟨w0, hw0, r⟩
            · exact Or.inl (List.mem_cons_of_mem _ h1)
            · exact Or.inr ⟨w0, List.mem_cons_of_mem _ hw0, r⟩
        · rcases List.mem_cons.mp h with e | h'
          · exact Or.inl (e ▸ List.mem_cons_self _ _)
          · rcases ih h' with h1 | ⟨w0, hw0, r⟩
            · exact Or.inl (List.mem_cons_of_mem _ h1)
            · exact Or.inr ⟨w0, List.mem_cons_of_mem _ hw0, r⟩

theorem not_available_of_working {now : Int} {w : worker_ex_t} (h : w.status = .WORKING) :
    is_available now w = false := by
  simp [is_available, h]

theorem assign_workers_keep {now : Int} {T s : Nat} {n c : Nat} {ws : List worker_ex_t}
    {x : worker_ex_t} (h : x ∈ ws) (hx : x.status = .WORKING) :
    x ∈ assign_workers now T s n c ws := by
  induction ws generalizing n c with
  | nil => cases h
  | cons w ws ih =>
    cases n with
    | zero => simpa [assign_workers] using h
    | succ n =>
      unfold assign_workers
      split
      · exact h
      · rcases List.mem_cons.mp h with e | h'
        · subst e
          rw [not_available_of_working hx]
          simp
        · split
          · exact List.mem_cons_of_mem _ (ih h')
          · exact List.mem_cons_of_mem _ (ih h')

theorem count_available_succ_cons (now : Int) (n : Nat) (w : worker_ex_t)
    (ws : List worker_ex_t) :
    count_available now (n + 1) (w :: ws) =
      count_available now n ws + (if is_available now w = true then 1 else 0) := by
  simp [count_available, List.countP_cons]

theorem works_at_of_available {now : Int} {w : worker_ex_t} (s : Nat)
    (h : is_available now w = true) : works_at s w = false := by
  simp [is_available] at h
  simp [works_at, h.2]

theorem assign_workers_succ_cons (now : Int) (T s n c : Nat) (w : worker_ex_t)
    (ws : List worker_ex_t) :
    assign_workers now T s (n + 1) c (w :: ws) =
      if c = 0 then w :: ws
      else if is_available now w = true then
        mark T s (c - 1) w :: assign_workers now T s n (c - 1) ws
      else w :: assign_workers now T s n c ws := by
  rw [assign_workers]
  rfl

theorem works_at_mark (T s s' i : Nat) (w : worker_ex_t) :
    works_at s' (mark T s i w) = decide (s = s') := by
  simp [works_at, mark]

theorem assign_workers_count (now : Int) (T s s' : Nat) (n c : Nat) (ws : List worker_ex_t) :
    (assign_workers now T s n c ws).countP (works_at s') =
      ws.countP (works_at s') +
        (if s = s' then min c (count_available now n ws) else 0) := by
  induction ws generalizing n c with
  | nil => cases n <;> simp [assign_workers, count_available]
  | cons w ws ih =>
    cases n with
    | zero => simp [assign_workers, count_available]
    | succ n =>
      rw [count_available_succ_cons, assign_workers_succ_cons]
      by_cases hc : c = 0
      · subst hc
        simp
      · rw [if_neg hc]
        by_cases ha : is_available now w = true
        · rw [if_pos ha, List.countP_cons, List.countP_cons, ih, works_at_of_available s' ha,
            works_at_mark]
          simp only [ha, if_true]
          by_cases e : s = s'
          · simp only [e, if_true, decide_True, Bool.false_eq_true, if_false]
            omega
          · simp only [e, if_false, decide_False, Bool.false_eq_true]
        · rw [if_neg ha, List.countP_cons, List.countP_cons, ih]
          simp only [ha, Bool.false_eq_true, if_false, Nat.add_zero]
          omega

theorem greedy_step_spec {now : Int} {p q : Plant} (h : greedy_step now p = some q) :
    ∃ (sidx : Nat) (st0 : station_ex_t) (ti : Nat) (t0 : task_ex_t),
      pick_station p.stations_ex = some (sidx, st0) ∧
      pick_task_from now (count_available now p.num_active_workers p.worker_ex_ptrs)
        st0.capacity p.task_ex_ptrs 0 = some (ti, t0) ∧
      p.stations_ex[sidx]? = some st0 ∧ st0.num_workers = 0 ∧
      p.task_ex_ptrs[ti]? = some t0 ∧ t0.status = .PENDING ∧ t0.task.start ≤ now ∧
      t0.task.capacity ≤ count_available now p.num_active_workers p.worker_ex_ptrs ∧
      t0.task.capacity ≤ st0.capacity ∧
      q = { p with
        stations_ex := p.stations_ex.set sidx { st0 with num_workers := t0.task.capacity }
        task_ex_ptrs := p.task_ex_ptrs.set ti { t0 with status := .IN_PROGRESS }
        num_pending_tasks := size_dec p.num_pending_tasks
        num_in_progress_tasks := p.num_in_progress_tasks + 1
        worker_ex_ptrs :=
          (assign_workers now ti sidx p.num_active_workers t0.task.capacity
            p.worker_ex_ptrs) } := by
  unfold greedy_step at h
  split at h
  · cases h
  · rename_i sidx st0 hst
    split at h
    · cases h
    · rename_i ti t0 hpick
      cases h
      obtain ⟨h1, h2⟩ := pick_station_spec hst
      obtain ⟨-, h3, h4, -⟩ := pick_task_from_spec _ _ _ _ hpick
      simp only [Nat.sub_zero] at h3
      simp [can_take] at h4
      exact ⟨sidx, st0, ti, t0, hst, hpick, h1, h2, h3, h4.1.1, h4.1.2, h4.2.1, h4.2.2, rfl⟩

theorem countP_pos_of_getElem? {α : Type} {p : α → Bool} {l : List α} {i : Nat} {a : α}
    (h : l[i]? = some a) (ha : p a = true) : 0 < l.countP p := by
  rw [List.countP_pos_iff]
  exact ⟨a, List.getElem?_mem h, ha⟩

theorem countP_set_of_getElem? {α : Type} (p : α → Bool) {l : List α} {i : Nat} {a : α} (b : α)
    (h : l[i]? = some a) :
    (l.set i b).countP p + (if p a = true then 1 else 0) =
      l.countP p + (if p b = true then 1 else 0) := by
  have hi := getElem?_lt h
  have ea : l[i] = a := by
    rw [List.getElem?_eq_getElem hi] at h; exact Option.some.inj h
  have h1 := List.boole_getElem_le_countP p l i hi
  rw [List.countP_set p l i b hi, ea]
  rw [ea] at h1
  omega

theorem getElem?_set_cases {α : Type} {l : List α} {i j : Nat} {b x : α}
    (h : (l.set i b)[j]? = some x) : (j = i ∧ x = b) ∨ (j ≠ i ∧ l[j]? = some x) := by
  by_cases e : i = j
  · subst e
    rw [List.getElem?_set] at h
    simp only [if_true] at h
    split at h
    · exact Or.inl ⟨rfl, (Option.some.inj h).symm⟩
    · cases h
  · rw [List.getElem?_set_ne e] at h
    exact Or.inr ⟨Ne.symm e, h⟩

theorem getElem?_set_same {α : Type} {l : List α} {i : Nat} {a : α} (b : α)
    (h : l[i]? = some a) : (l.set i b)[i]? = some b := by
  simp [List.getElem?_set, getElem?_lt h]

theorem inv_greedy_step {now : Int} {p q : Plant} (h : Inv p)
    (hq : greedy_step now p = some q) : Inv q := by
  obtain ⟨sidx, st0, ti, t0, -, -, hs, hs0, ht, htp, -, hcw, hcs, rfl⟩ := greedy_step_spec hq
  have hfree : ∀ w ∈ p.worker_ex_ptrs, w.status = .WORKING →
      w.work_args.station_index ≠ sidx := by
    intro w hw hst e
    have h0 := h.occ_count sidx st0 hs
    rw [hs0, List.countP_eq_zero] at h0
    exact h0 w hw (by simp [works_at, hst, e])
  have hfresh : ∀ w ∈ p.worker_ex_ptrs, w.status = .WORKING →
      w.work_args.t_ex_ptr ≠ ti := by
    intro w hw hst e
    obtain ⟨_, t, -, h2, h3, -⟩ := h.working w hw hst
    rw [e, ht] at h2
    cases h2
    rw [htp] at h3
    cases h3
  have hold : ∀ x ∈ assign_workers now ti sidx p.num_active_workers t0.task.capacity
      p.worker_ex_ptrs, x.status = .WORKING →
      (x ∈ p.worker_ex_ptrs ∧ x.work_args.station_index ≠ sidx ∧ x.work_args.t_ex_ptr ≠ ti) ∨
      (x.work_args.station_index = sidx ∧ x.work_args.t_ex_ptr = ti) := by
    intro x hx hst
    rcases assign_workers_mem hx with h1 | ⟨w, -, -, i, rfl⟩
    · exact Or.inl ⟨h1, hfree x h1 hst, hfresh x h1 hst⟩
    · exact Or.inr ⟨rfl, rfl⟩
  have hcnt : ∀ s', (assign_workers now ti sidx p.num_active_workers t0.task.capacity
      p.worker_ex_ptrs).countP (works_at s') =
      p.worker_ex_ptrs.countP (works_at s') + (if sidx = s' then t0.task.capacity else 0) := by
    intro s'
    rw [assign_workers_count, Nat.min_eq_left hcw]
  have hsl := getElem?_lt hs
  have htl := getElem?_lt ht
  refine ⟨?_, ?_, ?_, ?_, ?_, ?_, ?_, ?_⟩
  · intro s st hst
    rcases getElem?_set_cases hst with ⟨-, rfl⟩ | ⟨-, h1⟩
    · exact hcs
    · exact h.occ_le s st h1
  · intro s st hst
    simp only []
    rw [hcnt]
    rcases getElem?_set_cases hst with ⟨rfl, rfl⟩ | ⟨e, h1⟩
    · rw [h.occ_count _ st0 hs, hs0]
      simp
    · rw [if_neg (Ne.symm e), h.occ_count s st h1]
      rfl
  · intro x hx hst
    rcases hold x hx hst with ⟨h1, h2, h3⟩ | ⟨h2, h3⟩
    · obtain ⟨st, t, a1, a2, a3, a4⟩ := h.working x h1 hst
      refine ⟨st, t, ?_, ?_, a3, a4⟩
      · simp only []
        rw [List.getElem?_set_ne (Ne.symm h2)]
        exact a1
      · simp only []
        rw [List.getElem?_set_ne (Ne.symm h3)]
        exact a2
    · refine ⟨{ st0 with num_workers := t0.task.capacity }, { t0 with status := .IN_PROGRESS },
        ?_, ?_, rfl, Nat.le_refl _⟩
      · rw [h2]; exact getElem?_set_same _ hs
      · rw [h3]; exact getElem?_set_same _ ht
  · intro x hx y hy hxs hys
    rcases hold x hx hxs with ⟨a1, a2, a3⟩ | ⟨a2, a3⟩ <;>
      rcases hold y hy hys with ⟨b1, b2, b3⟩ | ⟨b2, b3⟩
    · exact h.same_task x a1 y b1 hxs hys
    · rw [b2, b3]; exact ⟨fun e => absurd e a3, fun e => absurd e a2⟩
    · rw [a2, a3]; exact ⟨fun e => absurd e.symm b3, fun e => absurd e.symm b2⟩
    · rw [a2, a3, b2, b3]; simp
  · intro t hm hsk
    rcases List.mem_or_eq_of_mem_set hm with h1 | h1
    · exact h.skipped t h1 hsk
    · subst h1
      have := h.skipped t0 (List.getElem?_mem ht) hsk
      rw [htp] at this
      cases this
  · have h1 := countP_set_of_getElem? is_pending { t0 with status := .IN_PROGRESS } ht
    have h2 : is_pending t0 = true := by simp [is_pending, htp]
    have h3 : is_pending { t0 with status := .IN_PROGRESS } = false := by simp [is_pending]
    rw [h2, h3] at h1
    simp only [if_true, Bool.false_eq_true, if_false] at h1
    have h4 := h.pending
    simp only [size_dec]
    rw [if_neg (by omega)]
    omega
  · have h1 := countP_set_of_getElem? is_in_progress { t0 with status := .IN_PROGRESS } ht
    have h2 : is_in_progress t0 = false := by simp [is_in_progress, htp]
    have h3 : is_in_progress { t0 with status := .IN_PROGRESS } = true := by
      simp [is_in_progress]
    rw [h2, h3] at h1
    simp only [if_true, Bool.false_eq_true, if_false] at h1
    have h4 := h.in_progress
    simp only []
    omega
  · intro i t hi hst hc
    rcases getElem?_set_cases hi with ⟨e, rfl⟩ | ⟨e, hi⟩
    · rw [e]
      have h1 := hcnt sidx
      rw [h.occ_count _ st0 hs, hs0] at h1
      simp only [if_true, Nat.zero_add] at h1
      have h2 : 0 < (assign_workers now ti sidx p.num_active_workers t0.task.capacity
          p.worker_ex_ptrs).countP (works_at sidx) := by rw [h1]; exact hc
      rw [List.countP_pos_iff] at h2
      obtain ⟨x, hx, hwx⟩ := h2
      simp [works_at] at hwx
      rcases hold x hx hwx.1 with ⟨-, a2, -⟩ | ⟨-, a3⟩
      · exact absurd hwx.2 a2
      · exact ⟨x, hx, hwx.1, a3⟩
    · obtain ⟨w, hw, r1, r2⟩ := h.staffed i t hi hst hc
      exact ⟨w, assign_workers_keep hw r1, r1, r2⟩

theorem inv_greedy_loop (now : Int) (fuel : Nat) {p : Plant} (h : Inv p) :
    Inv (greedy_loop now fuel p) := by
  induction fuel generalizing p with
  | zero => exact h
  | succ n ih =>
    unfold greedy_loop
    split
    · exact h
    · rename_i q hq
      exact ih (inv_greedy_step h hq)

theorem inv_tick_plant (now : Int) {p : Plant} (h : Inv p) : Inv (tick_plant now p) := by
  have h2 := inv_retire_tasks (inv_expire_workers now h)
  unfold tick_plant
  simp only
  split
  · exact h2
  · exact inv_update_alarm now (inv_greedy_loop now _ h2)

/-! ### What a tick does to the task table -/

theorem count_available_le_length (now : Int) (n : Nat) (ws : List worker_ex_t) :
    count_available now n ws ≤ ws.length := by
  unfold count_available
  exact (List.countP_le_length _).trans (by simp)

theorem greedy_step_tasks {now : Int} {p q : Plant} (h : greedy_step now p = some q) :
    TasksRel (tick_task now p.worker_ex_ptrs.length) p.task_ex_ptrs q.task_ex_ptrs ∧
      q.worker_ex_ptrs.length = p.worker_ex_ptrs.length := by
  obtain ⟨sidx, st0, ti, t0, -, -, -, -, ht, htp, hst, hcw, -, rfl⟩ := greedy_step_spec h
  refine ⟨?_, assign_workers_length _ _ _ _ _ _⟩
  exact tasks_rel_set (tick_task_refl now _) ht
    (Or.inr (Or.inl ⟨htp, hst, hcw.trans (count_available_le_length _ _ _), rfl⟩))

theorem greedy_loop_tasks (now : Int) (fuel : Nat) (p : Plant) :
    TasksRel (tick_task now p.worker_ex_ptrs.length) p.task_ex_ptrs
        (greedy_loop now fuel p).task_ex_ptrs ∧
      (greedy_loop now fuel p).worker_ex_ptrs.length = p.worker_ex_ptrs.length := by
  induction fuel generalizing p with
  | zero => exact ⟨tasks_rel_refl (tick_task_refl now _) _, rfl⟩
  | succ n ih =>
    unfold greedy_loop
    split
    · exact ⟨tasks_rel_refl (tick_task_refl now _) _, rfl⟩
    · rename_i q hq
      obtain ⟨h1, h2⟩ := greedy_step_tasks hq
      obtain ⟨h3, h4⟩ := ih q
      rw [h2] at h3
      exact ⟨tasks_rel_trans (tick_task now p.worker_ex_ptrs.length)
        (fun _ _ _ => tick_task_trans) h1 h3, h4.trans h2⟩

theorem tick_plant_after_retire (now : Int) (p : Plant) :
    TasksRel (tick_task now p.worker_ex_ptrs.length)
      (retire_tasks (expire_workers now p)).task_ex_ptrs (tick_plant now p).task_ex_ptrs := by
  have hl : (retire_tasks (expire_workers now p)).worker_ex_ptrs.length =
      p.worker_ex_ptrs.length := (expire_workers_perm now p).length_eq
  unfold tick_plant
  simp only
  split
  · exact tasks_rel_refl (tick_task_refl now _) _
  · rw [update_alarm_tasks]
    have := (greedy_loop_tasks now (retire_tasks (expire_workers now p)).task_ex_ptrs.length
      (retire_tasks (expire_workers now p))).1
    rw [hl] at this
    exact this

theorem tick_plant_tasks (now : Int) (p : Plant) :
    TasksRel (tick_task now p.worker_ex_ptrs.length) p.task_ex_ptrs
      (tick_plant now p).task_ex_ptrs := by
  have h1 : TasksRel (tick_task now p.worker_ex_ptrs.length) p.task_ex_ptrs
      (retire_tasks (expire_workers now p)).task_ex_ptrs := by
    rw [retire_tasks_tasks]
    exact tasks_rel_map _ (tick_task_retire_one now _ _ _) _
  exact tasks_rel_trans (tick_task now p.worker_ex_ptrs.length) (fun _ _ _ => tick_task_trans) h1
    (tick_plant_after_retire now p)


/-! ### The invariant is kept by the executor and by the registrations -/

theorem update_at_eq_set {α : Type} {l : List α} {i : Nat} {a : α} (f : α → α)
    (h : l[i]? = some a) : update_at l i f = l.set i (f a) := by
  simp [update_at, h]

theorem do_work_pthread_wrap_eq (now : Int) (v : Int) {p : Plant} {k : Nat} {w : worker_ex_t}
    {st : station_ex_t} {t : task_ex_t} (hw : p.worker_ex_ptrs[k]? = some w)
    (hs : p.stations_ex[w.work_args.station_index]? = some st)
    (ht : p.task_ex_ptrs[w.work_args.t_ex_ptr]? = some t) :
    do_work_pthread_wrap now v p k = tick_plant now (finish_state v p k w st t) := by
  simp only [do_work_pthread_wrap, hw, do_work, update_at_eq_set _ ht, update_at_eq_set _ hw, hs]
  by_cases h0 : size_dec st.num_workers = 0
  · simp only [h0, if_true, finish_state]
    rw [update_at_eq_set _ (getElem?_set_same _ ht), List.set_set]
  · simp only [h0, if_false, finish_state]

theorem mem_set_of_ne {α : Type} {l : List α} {k : Nat} {a b x : α} (hx : x ∈ l)
    (hk : l[k]? = some a) (hne : x ≠ a) : x ∈ l.set k b := by
  obtain ⟨n, hn⟩ := List.getElem?_of_mem hx
  have hnk : k ≠ n := by
    intro e
    subst e
    rw [hk] at hn
    exact hne (Option.some.inj hn).symm
  exact List.getElem?_mem (by rw [List.getElem?_set_ne hnk]; exact hn)

theorem inv_finish_state (v : Int) {p : Plant} {k : Nat} {w : worker_ex_t}
    {st : station_ex_t} {t : task_ex_t} (h : Inv p) (hw : p.worker_ex_ptrs[k]? = some w)
    (hst : w.status = .WORKING)
    (hs : p.stations_ex[w.work_args.station_index]? = some st)
    (ht : p.task_ex_ptrs[w.work_args.t_ex_ptr]? = some t) :
    Inv (finish_state v p k w st t) := by
  have hwm : w ∈ p.worker_ex_ptrs := List.getElem?_mem hw
  obtain ⟨st', t', a1, a2, htp, hle⟩ := h.working w hwm hst
  rw [hs] at a1; cases a1
  rw [ht] at a2; cases a2
  have hcount := h.occ_count _ st hs
  have hww : works_at w.work_args.station_index w = true := by simp [works_at, hst]
  have hpos : 0 < st.num_workers := by
    rw [← hcount]; exact countP_pos_of_getElem? hw hww
  have hdec : size_dec st.num_workers = st.num_workers - 1 := by
    unfold size_dec; rw [if_neg (by omega)]
  have hidle : ∀ s', works_at s' { w with status := .IDLE } = false := by
    intro s'; simp [works_at]
  have hcnt : ∀ s', (p.worker_ex_ptrs.set k { w with status := .IDLE }).countP (works_at s') +
      (if works_at s' w = true then 1 else 0) = p.worker_ex_ptrs.countP (works_at s') := by
    intro s'
    have := countP_set_of_getElem? (works_at s') { w with status := .IDLE } hw
    rw [hidle s'] at this
    simpa using this
  have hmem : ∀ x ∈ p.worker_ex_ptrs.set k { w with status := .IDLE },
      x.status = .WORKING → x ∈ p.worker_ex_ptrs := by
    intro x hx hxs
    rcases List.mem_or_eq_of_mem_set hx with h1 | h1
    · exact h1
    · rw [h1] at hxs; cases hxs
  have hlast : size_dec st.num_workers = 0 →
      ∀ x ∈ p.worker_ex_ptrs.set k { w with status := .IDLE }, x.status = .WORKING →
        x.work_args.station_index ≠ w.work_args.station_index ∧
        x.work_args.t_ex_ptr ≠ w.work_args.t_ex_ptr := by
    intro h0 x hx hxs
    have hc := hcnt w.work_args.station_index
    rw [hww, hcount] at hc
    simp only [if_true] at hc
    have hz : (p.worker_ex_ptrs.set k { w with status := .IDLE }).countP
        (works_at w.work_args.station_index) = 0 := by omega
    rw [List.countP_eq_zero] at hz
    have hne : x.work_args.station_index ≠ w.work_args.station_index := by
      intro e
      exact hz x hx (by simp [works_at, hxs, e])
    exact ⟨hne, fun e => hne ((h.same_task x (hmem x hx hxs) w hwm hxs hst).mp e)⟩
  refine ⟨?_, ?_, ?_, ?_, ?_, ?_, ?_, ?_⟩
  · intro s u hu
    rcases getElem?_set_cases hu with ⟨-, rfl⟩ | ⟨-, h1⟩
    · have := h.occ_le _ st hs
      simp only [hdec]
      omega
    · exact h.occ_le s u h1
  · intro s u hu
    have hc := hcnt s
    simp only [finish_state]
    rcases getElem?_set_cases hu with ⟨rfl, rfl⟩ | ⟨e, h1⟩
    · rw [hww, hcount] at hc
      simp only [if_true] at hc
      simp only [hdec]
      omega
    · have : works_at s w = false := by
        simp [works_at, hst, Ne.symm e]
      rw [this] at hc
      simp only [Bool.false_eq_true, if_false, Nat.add_zero] at hc
      rw [hc]
      exact h.occ_count s u h1
  · intro x hx hxs
    have hxm := hmem x hx hxs
    obtain ⟨sx, tx, b1, b2, b3, b4⟩ := h.working x hxm hxs
    by_cases h0 : size_dec st.num_workers = 0
    · obtain ⟨n1, n2⟩ := hlast h0 x hx hxs
      refine ⟨sx, tx, ?_, ?_, b3, b4⟩
      · simp only [finish_state]
        rw [List.getElem?_set_ne (Ne.symm n1)]; exact b1
      · simp only [finish_state]
        rw [List.getElem?_set_ne (Ne.symm n2)]; exact b2
    · by_cases e1 : x.work_args.station_index = w.work_args.station_index
      · have e2 := (h.same_task x hxm w hwm hxs hst).mpr e1
        rw [e1, hs] at b1; cases b1
        rw [e2, ht] at b2; cases b2
        refine ⟨{ st with num_workers := size_dec st.num_workers },
          { t with
            task := { t.task with results := t.task.results.set w.work_args.i (some v) }
            status := if size_dec st.num_workers = 0 then .FINISHED else t.status },
          ?_, ?_, ?_, ?_⟩
        · rw [e1]; exact getElem?_set_same _ hs
        · rw [e2]; exact getElem?_set_same _ ht
        · simp only [h0, if_false]; exact b3
        · simp only [hdec]; omega
      · have e2 : x.work_args.t_ex_ptr ≠ w.work_args.t_ex_ptr :=
          fun e => e1 ((h.same_task x hxm w hwm hxs hst).mp e)
        refine ⟨sx, tx, ?_, ?_, b3, b4⟩
        · simp only [finish_state]
          rw [List.getElem?_set_ne (Ne.symm e1)]; exact b1
        · simp only [finish_state]
          rw [List.getElem?_set_ne (Ne.symm e2)]; exact b2
  · intro x hx y hy hxs hys
    exact h.same_task x (hmem x hx hxs) y (hmem y hy hys) hxs hys
  · intro u hu hsk
    rcases List.mem_or_eq_of_mem_set hu with h1 | h1
    · exact h.skipped u h1 hsk
    · subst h1
      have := h.skipped t (List.getElem?_mem ht) hsk
      rw [htp] at this; cases this
  · have h1 := countP_set_of_getElem? is_pending
      { t with
        task := { t.task with results := t.task.results.set w.work_args.i (some v) }
        status := if size_dec st.num_workers = 0 then .FINISHED else t.status } ht
    have h2 : is_pending t = false := by simp [is_pending, htp]
    have h3 : is_pending
      { t with
        task := { t.task with results := t.task.results.set w.work_args.i (some v) }
        status := if size_dec st.num_workers = 0 then .FINISHED else t.status } = false := by
      simp only [is_pending, htp]
      split <;> simp
    rw [h2, h3] at h1
    simp only [Bool.false_eq_true, if_false, Nat.add_zero] at h1
    simp only [finish_state]
    rw [h1]
    exact h.pending
  · have h1 := countP_set_of_getElem? is_in_progress
      { t with
        task := { t.task with results := t.task.results.set w.work_args.i (some v) }
        status := if size_dec st.num_workers = 0 then .FINISHED else t.status } ht
    have h2 : is_in_progress t = true := by simp [is_in_progress, htp]
    have h4 := h.in_progress
    have h5 : 0 < p.task_ex_ptrs.countP is_in_progress := countP_pos_of_getElem? ht h2
    rw [h2] at h1
    simp only [if_true] at h1
    simp only [finish_state]
    by_cases h0 : size_dec st.num_workers = 0
    · simp only [h0, if_true, is_in_progress] at h1 ⊢
      simp only [size_dec]
      rw [if_neg (by omega)]
      simp at h1
      omega
    · simp only [h0, if_false, is_in_progress, htp] at h1 ⊢
      simp at h1
      omega
  · intro i u hu hus huc
    rcases getElem?_set_cases hu with ⟨e, rfl⟩ | ⟨e, h1⟩
    · by_cases h0 : size_dec st.num_workers = 0
      · simp [h0] at hus
      · have hc := hcnt w.work_args.station_index
        rw [hww, hcount] at hc
        simp only [if_true] at hc
        have hp : 0 < (p.worker_ex_ptrs.set k { w with status := .IDLE }).countP
            (works_at w.work_args.station_index) := by omega
        rw [List.countP_pos_iff] at hp
        obtain ⟨y, hy, hyw⟩ := hp
        simp [works_at] at hyw
        refine ⟨y, hy, hyw.1, ?_⟩
        rw [e]
        exact (h.same_task y (hmem y hy hyw.1) w hwm hyw.1 hst).mpr hyw.2
    · have hcap : 0 < u.task.capacity := huc
      obtain ⟨x, hx, x1, x2⟩ := h.staffed i u h1 hus hcap
      refine ⟨x, mem_set_of_ne hx hw ?_, x1, x2⟩
      intro exw
      rw [exw] at x2
      exact e x2.symm

theorem inv_init_plant (p0 : Plant) (stations : List Int) (n_workers : Int)
    (h0 : p0.is_plant_initialized = false) :
    Inv (init_plant true p0 stations n_workers).2 := by
  simp only [init_plant, h0, Bool.false_eq_true, if_false, Bool.not_true]
  refine ⟨?_, ?_, ?_, ?_, ?_, ?_, ?_, ?_⟩
  · intro s st hs
    simp only [List.getElem?_map] at hs
    cases hc : stations[s]? with
    | none => rw [hc] at hs; cases hs
    | some c => rw [hc] at hs; cases hs; exact Nat.zero_le _
  · intro s st hs
    simp only [List.getElem?_map] at hs
    cases hc : stations[s]? with
    | none => rw [hc] at hs; cases hs
    | some c => rw [hc] at hs; cases hs; rfl
  · intro w hw; cases hw
  · intro w hw; cases hw
  · intro t ht; cases ht
  · rfl
  · rfl
  · intro i t ht; simp at ht

theorem inv_worker_append {p q : Plant} {w : worker_t} (h : Inv p)
    (hq : worker_ex_ptrs_append true p w = some q) : Inv q := by
  simp only [worker_ex_ptrs_append, if_true] at hq
  cases hq
  have hperm := worker_append_perm p.worker_ex_ptrs p.num_active_workers (worker_ex_init w)
  refine ⟨h.occ_le, ?_, ?_, ?_, h.skipped, h.pending, h.in_progress, ?_⟩
  · intro s st hs
    simp only [worker_appended]
    rw [hperm.countP_eq, List.countP_cons]
    simp only [works_at, worker_ex_init, reduceCtorEq, decide_False, Bool.false_and,
      Bool.false_eq_true, if_false, Nat.add_zero]
    exact h.occ_count s st hs
  · intro x hx hxs
    rcases List.mem_cons.mp (hperm.mem_iff.mp hx) with e | hm
    · rw [e] at hxs; cases hxs
    · exact h.working x hm hxs
  · intro x hx y hy hxs hys
    rcases List.mem_cons.mp (hperm.mem_iff.mp hx) with e | hm
    · rw [e] at hxs; cases hxs
    · rcases List.mem_cons.mp (hperm.mem_iff.mp hy) with e | hm'
      · rw [e] at hys; cases hys
      · exact h.same_task x hm y hm' hxs hys
  · intro i t ht hts hc
    obtain ⟨x, hx, r⟩ := h.staffed i t ht hts hc
    exact ⟨x, hperm.mem_iff.mpr (List.mem_cons_of_mem _ hx), r⟩

theorem getElem?_append_cases {α : Type} {l : List α} {a x : α} {i : Nat}
    (h : (l ++ [a])[i]? = some x) : l[i]? = some x ∨ (i = l.length ∧ x = a) := by
  rcases Nat.lt_or_ge i l.length with hl | hl
  · rw [List.getElem?_append_left hl] at h; exact Or.inl h
  · rw [List.getElem?_append_right hl] at h
    cases hi : i - l.length with
    | zero =>
      rw [hi] at h
      simp at h
      exact Or.inr ⟨by omega, h.symm⟩
    | succ n => rw [hi] at h; simp at h

theorem getElem?_append_keep {α : Type} {l : List α} (a : α) {x : α} {i : Nat}
    (h : l[i]? = some x) : (l ++ [a])[i]? = some x := by
  rw [List.getElem?_append_left (getElem?_lt h)]; exact h

theorem inv_task_append {p q : Plant} {t : task_t} (h : Inv p)
    (hq : task_ex_ptrs_append true p t = some q) : Inv q := by
  simp only [task_ex_ptrs_append, if_true] at hq
  cases hq
  refine ⟨h.occ_le, h.occ_count, ?_, h.same_task, ?_, ?_, ?_, ?_⟩
  · intro x hx hxs
    obtain ⟨st, u, a1, a2, a3, a4⟩ := h.working x hx hxs
    exact ⟨st, u, a1, getElem?_append_keep _ a2, a3, a4⟩
  · intro u hu hsk
    rcases List.mem_append.mp hu with h1 | h1
    · exact h.skipped u h1 hsk
    · simp at h1; rw [h1] at hsk; cases hsk
  · have := h.pending
    simp [task_appended, task_ex_init, List.countP_append, List.countP_cons, is_pending, this]
  · have := h.in_progress
    simp [task_appended, task_ex_init, List.countP_append, List.countP_cons, is_in_progress,
      this]
  · intro i u hu hus huc
    rcases getElem?_append_cases hu with h1 | ⟨-, h1⟩
    · exact h.staffed i u h1 hus huc
    · rw [h1] at hus; cases hus

theorem inv_step {p q : Plant} (h : Inv p) (hs : Step p q) : Inv q := by
  cases hs with
  | add_worker alloc now _ w =>
    unfold add_worker
    split
    · exact h
    · split
      · exact h
      · cases alloc with
        | false => simp [worker_ex_ptrs_append]; exact h
        | true =>
          split
          · exact h
          · rename_i q hq
            exact inv_tick_plant now (inv_worker_append h hq)
  | add_task alloc now _ t =>
    unfold add_task
    split
    · exact h
    · split
      · exact h
      · cases alloc with
        | false => simp [task_ex_ptrs_append]; exact h
        | true =>
          split
          · exact h
          · rename_i q hq
            exact inv_tick_plant now (inv_task_append h hq)
  | alarm now _ hn =>
    unfold alarm_timeout
    split
    · exact inv_tick_plant now (inv_of_fields h rfl rfl (List.Perm.refl _) rfl rfl)
    · exact h
  | do_work now v _ k w hw hst =>
    obtain ⟨st, t, a1, a2, -, -⟩ := h.working w (List.getElem?_mem hw) hst
    rw [do_work_pthread_wrap_eq now v hw a1 a2]
    exact inv_tick_plant now (inv_finish_state v h hw hst a1 a2)

theorem inv_reachable {p : Plant} (h : Reachable p) : Inv p := by
  induction h with
  | init p0 stations n h0 => exact inv_init_plant p0 stations n h0
  | step p q _ hs ih => exact inv_step ih hs

/-! ### What steps keep of the task table -/

theorem keeps_refl (t : task_ex_t) : keeps t t :=
  ⟨rfl, rfl, rfl, rfl, rfl, fun h => ⟨h, rfl⟩⟩

theorem keeps_trans {a b c : task_ex_t} (h1 : keeps a b) (h2 : keeps b c) : keeps a c := by
  obtain ⟨a1, a2, a3, a4, a5, a6⟩ := h1
  obtain ⟨b1, b2, b3, b4, b5, b6⟩ := h2
  refine ⟨b1.trans a1, b2.trans a2, b3.trans a3, b4.trans a4, b5.trans a5, ?_⟩
  intro h
  obtain ⟨c1, c2⟩ := a6 h
  obtain ⟨d1, d2⟩ := b6 c1
  exact ⟨d1, d2.trans c2⟩

theorem keeps_of_tick_task {now : Int} {m : Nat} {t t' : task_ex_t}
    (h : tick_task now m t t') :
    keeps t t' := by
  rcases h with rfl | ⟨hp, -, -, rfl⟩ | ⟨hp, rfl⟩
  · exact keeps_refl _
  · exact ⟨rfl, rfl, rfl, rfl, rfl, fun h => by rw [hp] at h; cases h⟩
  · exact ⟨rfl, rfl, rfl, rfl, rfl, fun h => by rw [hp] at h; cases h⟩

theorem tasks_ext_refl (ts : List task_ex_t) : TasksExt keeps ts ts := by
  intro i t h
  exact ⟨t, h, keeps_refl t⟩

theorem tasks_ext_trans {ts ts' ts'' : List task_ex_t} (h1 : TasksExt keeps ts ts')
    (h2 : TasksExt keeps ts' ts'') : TasksExt keeps ts ts'' := by
  intro i t h
  obtain ⟨t', ht', r1⟩ := h1 i t h
  obtain ⟨t'', ht'', r2⟩ := h2 i t' ht'
  exact ⟨t'', ht'', keeps_trans r1 r2⟩

theorem tick_plant_keeps (now : Int) (p : Plant) :
    TasksExt keeps p.task_ex_ptrs (tick_plant now p).task_ex_ptrs := by
  intro i t h
  obtain ⟨t', ht', r⟩ := (tick_plant_tasks now p).2 i t h
  exact ⟨t', ht', keeps_of_tick_task r⟩

theorem tick_plant_keeps_after (now : Int) (p1 : Plant) (ts : List task_ex_t)
    (h : TasksExt keeps ts p1.task_ex_ptrs) :
    TasksExt keeps ts (tick_plant now p1).task_ex_ptrs :=
  tasks_ext_trans h (tick_plant_keeps now p1)

theorem update_at_keeps (ts : List task_ex_t) (k : Nat) (f : task_ex_t → task_ex_t)
    (hf : ∀ t, keeps t (f t)) : TasksExt keeps ts (update_at ts k f) := by
  intro i t h
  unfold update_at
  split
  · rename_i a ha
    by_cases e : k = i
    · subst e
      rw [h] at ha
      cases ha
      exact ⟨f t, getElem?_set_same _ h, hf t⟩
    · exact ⟨t, by rw [List.getElem?_set_ne e]; exact h, keeps_refl t⟩
  · exact ⟨t, h, keeps_refl t⟩

theorem do_work_keeps (now : Int) (v : Int) (p : Plant) (k T s i : Nat) :
    TasksExt keeps p.task_ex_ptrs (do_work now v p k T s i).task_ex_ptrs := by
  have h1 : TasksExt keeps p.task_ex_ptrs (update_at p.task_ex_ptrs T
      (fun t => { t with task := { t.task with results := t.task.results.set i (some v) } })) :=
    update_at_keeps _ _ _ (fun t => ⟨rfl, rfl, rfl, rfl, rfl, fun h => ⟨h, rfl⟩⟩)
  unfold do_work
  simp only
  split
  · apply tick_plant_keeps_after
    exact h1
  · split
    · apply tick_plant_keeps_after
      refine tasks_ext_trans h1 ?_
      exact update_at_keeps _ _ _ (fun t => ⟨rfl, rfl, rfl, rfl, rfl, fun _ => ⟨rfl, rfl⟩⟩)
    · apply tick_plant_keeps_after
      exact h1

theorem append_keeps (ts : List task_ex_t) (e : task_ex_t) : TasksExt keeps ts (ts ++ [e]) := by
  intro i t h
  exact ⟨t, getElem?_append_keep _ h, keeps_refl t⟩

theorem step_keeps {p q : Plant} (h : Step p q) :
    TasksExt keeps p.task_ex_ptrs q.task_ex_ptrs := by
  cases h with
  | add_worker alloc now _ w =>
    unfold add_worker
    split
    · exact tasks_ext_refl _
    · split
      · exact tasks_ext_refl _
      · split
        · exact tasks_ext_refl _
        · rename_i q hq
          have e : q.task_ex_ptrs = p.task_ex_ptrs := by
            unfold worker_ex_ptrs_append at hq
            split at hq
            · cases hq; rfl
            · cases hq
          rw [← e]
          exact tick_plant_keeps now q
  | add_task alloc now _ t =>
    unfold add_task
    split
    · exact tasks_ext_refl _
    · split
      · exact tasks_ext_refl _
      · split
        · exact tasks_ext_refl _
        · rename_i q hq
          have e : TasksExt keeps p.task_ex_ptrs q.task_ex_ptrs := by
            unfold task_ex_ptrs_append at hq
            split at hq
            · cases hq; exact append_keeps _ _
            · cases hq
          exact tasks_ext_trans e (tick_plant_keeps now q)
  | alarm now _ hn =>
    unfold alarm_timeout
    split
    · apply tick_plant_keeps_after
      exact tasks_ext_refl _
    · exact tasks_ext_refl _
  | do_work now v _ k w hw hst =>
    unfold do_work_pthread_wrap
    rw [hw]
    exact do_work_keeps now v p k _ _ _

theorem steps_keeps {p q : Plant} (h : Steps p q) :
    TasksExt keeps p.task_ex_ptrs q.task_ex_ptrs := by
  induction h with
  | refl => exact tasks_ext_refl _
  | tail q r _ hs ih => exact tasks_ext_trans ih (step_keeps hs)

/-! ### The two flags -/

theorem greedy_loop_flags (now : Int) (fuel : Nat) (p : Plant) :
    (greedy_loop now fuel p).is_plant_initialized = p.is_plant_initialized ∧
    (greedy_loop now fuel p).is_plant_being_destroyed = p.is_plant_being_destroyed := by
  induction fuel generalizing p with
  | zero => exact ⟨rfl, rfl⟩
  | succ n ih =>
    unfold greedy_loop
    split
    · exact ⟨rfl, rfl⟩
    · rename_i q hq
      obtain ⟨_, _, _, _, -, -, -, -, -, -, -, -, -, rfl⟩ := greedy_step_spec hq
      exact ih _

theorem tick_plant_flags (now : Int) (p : Plant) :
    (tick_plant now p).is_plant_initialized = p.is_plant_initialized ∧
    (tick_plant now p).is_plant_being_destroyed = p.is_plant_being_destroyed := by
  unfold tick_plant
  simp only
  split
  · exact ⟨rfl, rfl⟩
  · have h := greedy_loop_flags now (retire_tasks (expire_workers now p)).task_ex_ptrs.length
      (retire_tasks (expire_workers now p))
    simp only [update_alarm]
    split
    · exact h
    · exact h

theorem step_flags {p q : Plant} (h : Step p q) :
    q.is_plant_initialized = p.is_plant_initialized ∧
    q.is_plant_being_destroyed = p.is_plant_being_destroyed := by
  cases h with
  | add_worker alloc now _ w =>
    unfold add_worker
    split
    · exact ⟨rfl, rfl⟩
    · split
      · exact ⟨rfl, rfl⟩
      · split
        · exact ⟨rfl, rfl⟩
        · rename_i q hq
          have e : q.is_plant_initialized = p.is_plant_initialized ∧
              q.is_plant_being_destroyed = p.is_plant_being_destroyed := by
            unfold worker_ex_ptrs_append at hq
            split at hq
            · cases hq; exact ⟨rfl, rfl⟩
            · cases hq
          rw [← e.1, ← e.2]
          exact tick_plant_flags now q
  | add_task alloc now _ t =>
    unfold add_task
    split
    · exact ⟨rfl, rfl⟩
    · split
      · exact ⟨rfl, rfl⟩
      · split
        · exact ⟨rfl, rfl⟩
        · rename_i q hq
          have e : q.is_plant_initialized = p.is_plant_initialized ∧
              q.is_plant_being_destroyed = p.is_plant_being_destroyed := by
            unfold task_ex_ptrs_append at hq
            split at hq
            · cases hq; exact ⟨rfl, rfl⟩
            · cases hq
          rw [← e.1, ← e.2]
          exact tick_plant_flags now q
  | alarm now _ hn =>
    unfold alarm_timeout
    split
    · exact tick_plant_flags now _
    · exact ⟨rfl, rfl⟩
  | do_work now v _ k w hw hst =>
    unfold do_work_pthread_wrap
    rw [hw]
    unfold do_work
    simp only
    split
    · exact tick_plant_flags now _
    · split
      · exact tick_plant_flags now _
      · exact tick_plant_flags now _

theorem steps_flags {p q : Plant} (h : Steps p q) :
    q.is_plant_initialized = p.is_plant_initialized ∧
    q.is_plant_being_destroyed = p.is_plant_being_destroyed := by
  induction h with
  | refl => exact ⟨rfl, rfl⟩
  | tail q r _ hs ih =>
    have := step_flags hs
    exact ⟨this.1.trans ih.1, this.2.trans ih.2⟩

/-! ### Lookup by identifier -/

theorem find_first_some {α : Type} {q : α → Bool} {l : List α} {i : Nat}
    (h : find_first q l = some i) :
    ∃ a, l[i]? = some a ∧ q a = true ∧ ∀ j b, j < i → l[j]? = some b → q b = false := by
  induction l generalizing i with
  | nil => simp [find_first] at h
  | cons x l ih =>
    unfold find_first at h
    split at h
    · rename_i hx
      cases h
      exact ⟨x, by simp, hx, fun j b hj => by omega⟩
    · rename_i hx
      cases hf : find_first q l with
      | none => rw [hf] at h; simp at h
      | some n =>
        rw [hf] at h
        simp at h
        subst h
        obtain ⟨a, h1, h2, h3⟩ := ih hf
        refine ⟨a, by simpa using h1, h2, ?_⟩
        intro j b hj hb
        cases j with
        | zero => simp at hb; subst hb; simpa using hx
        | succ j => exact h3 j b (by omega) (by simpa using hb)

theorem find_first_of {α : Type} {q : α → Bool} {l : List α} {i : Nat} {a : α}
    (h1 : l[i]? = some a) (h2 : q a = true)
    (h3 : ∀ j b, j < i → l[j]? = some b → q b = false) : find_first q l = some i := by
  induction l generalizing i with
  | nil => simp at h1
  | cons x l ih =>
    unfold find_first
    cases i with
    | zero =>
      simp at h1
      subst h1
      simp [h2]
    | succ i =>
      have hx : q x = false := h3 0 x (by omega) (by simp)
      have := ih (i := i) (by simpa using h1)
        (fun j b hj hb => h3 (j + 1) b (by omega) (by simpa using hb))
      simp [hx, this]

theorem find_first_none {α : Type} {q : α → Bool} {l : List α} (h : find_first q l = none) :
    ∀ a ∈ l, q a = false := by
  induction l with
  | nil => intro a ha; cases ha
  | cons x l ih =>
    unfold find_first at h
    split at h
    · cases h
    · rename_i hx
      intro a ha
      rcases List.mem_cons.mp ha with e | ha'
      · subst e; simpa using hx
      · refine ih ?_ a ha'
        cases hf : find_first q l with
        | none => rfl
        | some n => rw [hf] at h; simp at h

theorem find_first_isSome_of_mem {α : Type} {q : α → Bool} {l : List α} {a : α} (ha : a ∈ l)
    (hq : q a = true) : ∃ i, find_first q l = some i := by
  cases hf : find_first q l with
  | some i => exact ⟨i, rfl⟩
  | none =>
    have := find_first_none hf a ha
    rw [hq] at this
    cases this

theorem task_find_keeps {p q : Plant} {t : task_t} {i : Nat}
    (h : task_ex_ptrs_find p t = some i)
    (hk : TasksExt keeps p.task_ex_ptrs q.task_ex_ptrs) : task_ex_ptrs_find q t = some i := by
  obtain ⟨a, h1, h2, h3⟩ := find_first_some h
  obtain ⟨a', h1', r⟩ := hk i a h1
  refine find_first_of h1' ?_ ?_
  · simp only [decide_eq_true_eq] at h2 ⊢
    rw [r.1]; exact h2
  · intro j b' hj hb'
    have hjl : j < p.task_ex_ptrs.length := Nat.lt_trans hj (getElem?_lt h1)
    obtain ⟨b'', hb'', r'⟩ := hk j _ (List.getElem?_eq_getElem hjl)
    rw [hb'] at hb''
    cases hb''
    have := h3 j _ hj (List.getElem?_eq_getElem hjl)
    simp only [decide_eq_false_iff_not] at this ⊢
    rw [r'.1]; exact this

/-! ### Retirement of tasks no station can hold -/

theorem tick_plant_retires_oversized (now : Int) {p : Plant} {i : Nat} {e : task_ex_t}
    (h : p.task_ex_ptrs[i]? = some e) (hp : e.status = .PENDING)
    (hc : p.max_station_capacity < e.task.capacity) :
    (tick_plant now p).task_ex_ptrs[i]? =
      some { e with status := .FINISHED, is_skipped := true } := by
  have h1 : (retire_tasks (expire_workers now p)).task_ex_ptrs[i]? =
      some { e with status := .FINISHED, is_skipped := true } := by
    rw [retire_tasks_tasks, List.getElem?_map]
    have e1 : (expire_workers now p).task_ex_ptrs = p.task_ex_ptrs := rfl
    have e2 : (expire_workers now p).max_station_capacity = p.max_station_capacity := rfl
    rw [e1, e2, h]
    simp [retire_one, unsatisfiable, hp, hc]
  obtain ⟨u, hu, r⟩ := (tick_plant_after_retire now p).2 i _ h1
  rw [hu]
  rcases r with r | ⟨r, -⟩ | ⟨r, -⟩
  · rw [r]
  · cases r
  · cases r

/-! ### The identifiers in the worker table -/

theorem assign_workers_ids (now : Int) (T s n c : Nat) (ws : List worker_ex_t) :
    (assign_workers now T s n c ws).map (fun w => w.id) = ws.map (fun w => w.id) := by
  induction ws generalizing n c with
  | nil => cases n <;> simp [assign_workers]
  | cons w ws ih =>
    cases n with
    | zero => simp [assign_workers]
    | succ n =>
      rw [assign_workers_succ_cons]
      split
      · rfl
      · split
        · simp [ih, mark]
        · simp [ih]

theorem greedy_loop_worker_ids (now : Int) (fuel : Nat) (p : Plant) :
    (greedy_loop now fuel p).worker_ex_ptrs.map (fun w => w.id) =
      p.worker_ex_ptrs.map (fun w => w.id) := by
  induction fuel generalizing p with
  | zero => rfl
  | succ n ih =>
    unfold greedy_loop
    split
    · rfl
    · rename_i q hq
      obtain ⟨_, _, _, _, -, -, -, -, -, -, -, -, -, rfl⟩ := greedy_step_spec hq
      rw [ih]
      exact assign_workers_ids _ _ _ _ _ _

theorem tick_plant_worker_ids (now : Int) (p : Plant) :
    ((tick_plant now p).worker_ex_ptrs.map (fun w => w.id)).Perm
      (p.worker_ex_ptrs.map (fun w => w.id)) := by
  have h1 : ((retire_tasks (expire_workers now p)).worker_ex_ptrs.map (fun w => w.id)).Perm
      (p.worker_ex_ptrs.map (fun w => w.id)) := (expire_workers_perm now p).map _
  unfold tick_plant
  simp only
  split
  · exact h1
  · have e : ∀ q, (update_alarm now q).worker_ex_ptrs = q.worker_ex_ptrs := by
      intro q
      simp only [update_alarm]
      split <;> rfl
    rw [e, greedy_loop_worker_ids]
    exact h1

theorem tick_plant_workers_length (now : Int) (p : Plant) :
    (tick_plant now p).worker_ex_ptrs.length = p.worker_ex_ptrs.length := by
  have := (tick_plant_worker_ids now p).length_eq
  simpa using this

/-! ### The greedy loop stops by itself -/

theorem greedy_step_pending {now : Int} {p q : Plant} (h : greedy_step now p = some q) :
    q.task_ex_ptrs.countP is_pending + 1 = p.task_ex_ptrs.countP is_pending := by
  obtain ⟨sidx, st0, ti, t0, -, -, -, -, ht, htp, -, -, -, rfl⟩ := greedy_step_spec h
  have h1 := countP_set_of_getElem? is_pending { t0 with status := .IN_PROGRESS } ht
  have h2 : is_pending t0 = true := by simp [is_pending, htp]
  have h3 : is_pending { t0 with status := .IN_PROGRESS } = false := by simp [is_pending]
  rw [h2, h3] at h1
  simpa using h1

theorem greedy_loop_stops (now : Int) (fuel : Nat) (p : Plant)
    (h : p.task_ex_ptrs.countP is_pending ≤ fuel) :
    greedy_step now (greedy_loop now fuel p) = none := by
  induction fuel generalizing p with
  | zero =>
    cases hq : greedy_step now p with
    | none => simpa [greedy_loop] using hq
    | some q => have := greedy_step_pending hq; omega
  | succ n ih =>
    unfold greedy_loop
    split
    · rename_i hq; exact hq
    · rename_i q hq
      have := greedy_step_pending hq
      exact ih q (by omega)

theorem tick_plant_greedy_stops (now : Int) (p : Plant) :
    greedy_step now (greedy_loop now (retire_tasks (expire_workers now p)).task_ex_ptrs.length
      (retire_tasks (expire_workers now p))) = none :=
  greedy_loop_stops now _ _ (List.countP_le_length _)

/-! ### The ledger of result-slot writes -/

theorem bound_to_mark (T j ti s i : Nat) (w : worker_ex_t) :
    bound_to T j (mark ti s i w) = (decide (ti = T) && decide (i = j)) := by
  simp [bound_to, mark]

theorem bound_to_of_available {now : Int} {w : worker_ex_t} (T j : Nat)
    (h : is_available now w = true) : bound_to T j w = false := by
  simp [is_available] at h
  simp [bound_to, h.2]

theorem assign_workers_bound (now : Int) (ti s T j : Nat) :
    ∀ (ws : List worker_ex_t) (n c : Nat), c ≤ count_available now n ws →
      (assign_workers now ti s n c ws).countP (bound_to T j) =
        ws.countP (bound_to T j) + (if ti = T ∧ j < c then 1 else 0) := by
  intro ws
  induction ws with
  | nil =>
    intro n c hc
    have : c = 0 := by
      have : count_available now n [] = 0 := by simp [count_available]
      omega
    subst this
    cases n <;> simp [assign_workers]
  | cons w0 ws ih =>
    intro n c hc
    cases n with
    | zero =>
      have : c = 0 := by
        have : count_available now 0 (w0 :: ws) = 0 := by simp [count_available]
        omega
      subst this
      simp [assign_workers]
    | succ n =>
      rw [count_available_succ_cons] at hc
      rw [assign_workers_succ_cons]
      by_cases h0 : c = 0
      · subst h0
        simp
      · rw [if_neg h0]
        by_cases ha : is_available now w0 = true
        · rw [if_pos ha]
          simp only [ha, if_true] at hc
          rw [List.countP_cons, List.countP_cons, ih n (c - 1) (by omega), bound_to_mark,
            bound_to_of_available T j ha]
          by_cases e1 : ti = T
          · by_cases e2 : c - 1 = j
            · have e3 : ¬ j < c - 1 := by omega
              have e4 : j < c := by omega
              simp [e1, e2, e3, e4]
            · by_cases e3 : j < c - 1
              · have e4 : j < c := by omega
                simp [e1, e2, e3, e4]
              · have e4 : ¬ j < c := by omega
                simp [e1, e2, e3, e4]
          · simp [e1]
        · rw [if_neg ha]
          simp only [ha, if_false, Nat.add_zero] at hc
          rw [List.countP_cons, List.countP_cons, ih n c hc]
          omega

theorem slot_due_set_other {ts : List task_ex_t} {k T : Nat} (e : task_ex_t) (j : Nat)
    (h : T ≠ k) : slot_due (ts.set k e) T j = slot_due ts T j := by
  unfold slot_due
  rw [List.getElem?_set_ne (Ne.symm h)]

theorem slot_due_set_same {ts : List task_ex_t} {k : Nat} {e0 : task_ex_t} (e : task_ex_t)
    (j : Nat) (h : ts[k]? = some e0) : slot_due (ts.set k e) k j = slot_due_of e j := by
  unfold slot_due
  rw [getElem?_set_same _ h]

theorem ledger_greedy_step {now : Int} {p q : Plant} {log : List (Nat × Nat)}
    (h : Ledger p log) (hq : greedy_step now p = some q) : Ledger q log := by
  obtain ⟨sidx, st0, ti, t0, -, -, -, -, ht, htp, -, hcw, -, rfl⟩ := greedy_step_spec hq
  intro T j
  have h0 := h T j
  simp only []
  rw [assign_workers_bound now ti sidx T j _ _ _ hcw]
  by_cases e : T = ti
  · subst e
    rw [slot_due_set_same _ _ ht]
    have hdue : slot_due p.task_ex_ptrs T j = 0 := by
      simp [slot_due, ht, slot_due_of, htp]
    rw [hdue] at h0
    simp only [slot_due_of, true_or, true_and, true_and]
    split <;> omega
  · rw [slot_due_set_other _ _ e, if_neg (fun h' => e h'.1.symm)]
    exact h0

theorem ledger_greedy_loop (now : Int) (fuel : Nat) {p : Plant} {log : List (Nat × Nat)}
    (h : Ledger p log) : Ledger (greedy_loop now fuel p) log := by
  induction fuel generalizing p with
  | zero => exact h
  | succ n ih =>
    unfold greedy_loop
    split
    · exact h
    · rename_i q hq
      exact ih (ledger_greedy_step h hq)

theorem slot_due_of_retire_one (a b : Nat) (e : task_ex_t) (j : Nat) :
    slot_due_of (retire_one a b e) j = slot_due_of e j := by
  rcases retire_one_cases a b e with h | ⟨hp, h⟩
  · rw [h]
  · rw [h]
    simp [slot_due_of, hp]

theorem ledger_tick_plant (now : Int) {p : Plant} {log : List (Nat × Nat)}
    (h : Ledger p log) : Ledger (tick_plant now p) log := by
  have h2 : Ledger (retire_tasks (expire_workers now p)) log := by
    intro T j
    have h0 := h T j
    have e1 : (retire_tasks (expire_workers now p)).worker_ex_ptrs =
        (expire_workers now p).worker_ex_ptrs := rfl
    rw [e1, (expire_workers_perm now p).countP_eq, h0, retire_tasks_tasks]
    unfold slot_due
    rw [List.getElem?_map]
    have e2 : (expire_workers now p).task_ex_ptrs = p.task_ex_ptrs := rfl
    rw [e2]
    cases p.task_ex_ptrs[T]? with
    | none => rfl
    | some e => simp [slot_due_of_retire_one]
  unfold tick_plant
  simp only
  split
  · exact h2
  · have h3 := ledger_greedy_loop now (retire_tasks (expire_workers now p)).task_ex_ptrs.length h2
    simp only [update_alarm]
    split
    · exact h3
    · exact h3

theorem ledger_finish_state (v : Int) {p : Plant} {k : Nat} {w : worker_ex_t}
    {st : station_ex_t} {t : task_ex_t} {log : List (Nat × Nat)} (hi : Inv p)
    (h : Ledger p log) (hw : p.worker_ex_ptrs[k]? = some w) (hst : w.status = .WORKING)
    (ht : p.task_ex_ptrs[w.work_args.t_ex_ptr]? = some t) :
    Ledger (finish_state v p k w st t) ((w.work_args.t_ex_ptr, w.work_args.i) :: log) := by
  obtain ⟨_, t', -, a2, htp, -⟩ := hi.working w (List.getElem?_mem hw) hst
  rw [ht] at a2
  cases a2
  have hsk : t.is_skipped = false := by
    cases hb : t.is_skipped with
    | false => rfl
    | true => have := hi.skipped t (List.getElem?_mem ht) hb; rw [htp] at this; cases this
  intro T j
  have h0 := h T j
  have hc := countP_set_of_getElem? (bound_to T j) { w with status := .IDLE } hw
  have hidle : bound_to T j { w with status := .IDLE } = false := by simp [bound_to]
  rw [hidle] at hc
  simp only [Bool.false_eq_true, if_false, Nat.add_zero] at hc
  have hdue : slot_due (finish_state v p k w st t).task_ex_ptrs T j =
      slot_due p.task_ex_ptrs T j := by
    simp only [finish_state]
    by_cases e : T = w.work_args.t_ex_ptr
    · subst e
      rw [slot_due_set_same _ _ ht]
      simp only [slot_due, ht, slot_due_of, htp, hsk]
      split <;> simp
    · rw [slot_due_set_other _ _ e]
  rw [hdue, ← h0, List.count_cons]
  simp only [finish_state]
  have hb : bound_to T j w = decide ((w.work_args.t_ex_ptr, w.work_args.i) = (T, j)) := by
    simp [bound_to, hst, Prod.ext_iff]
  rw [hb] at hc
  by_cases e : (w.work_args.t_ex_ptr, w.work_args.i) = (T, j)
  · simp only [e, decide_True, if_true, beq_self_eq_true] at hc ⊢
    omega
  · have e' : ((w.work_args.t_ex_ptr, w.work_args.i) == (T, j)) = false := by
      simpa using e
    simp only [e, decide_False, Bool.false_eq_true, if_false, e'] at hc ⊢
    omega

theorem ledger_run {p : Plant} {log : List (Nat × Nat)} (h : Run p log) :
    Reachable p ∧ Ledger p log := by
  induction h with
  | init p0 stations n h0 =>
    refine ⟨Reachable.init p0 stations n h0, ?_⟩
    intro T j
    simp [init_plant, h0, slot_due]
  | add_worker alloc now p w log _ ih =>
    refine ⟨Reachable.step _ _ ih.1 (Step.add_worker alloc now p w), ?_⟩
    unfold add_worker
    split
    · exact ih.2
    · split
      · exact ih.2
      · cases alloc with
        | false => exact ih.2
        | true =>
          simp only [worker_ex_ptrs_append, if_true]
          apply ledger_tick_plant
          intro T j
          have h0 := ih.2 T j
          simp only [worker_appended]
          rw [(worker_append_perm _ _ _).countP_eq, List.countP_cons]
          simp only [bound_to, worker_ex_init, reduceCtorEq, decide_False, Bool.false_and,
            Bool.false_eq_true, if_false, Nat.add_zero]
          exact h0
  | add_task alloc now p t log _ ih =>
    refine ⟨Reachable.step _ _ ih.1 (Step.add_task alloc now p t), ?_⟩
    unfold add_task
    split
    · exact ih.2
    · split
      · exact ih.2
      · cases alloc with
        | false => exact ih.2
        | true =>
          simp only [task_ex_ptrs_append, if_true]
          apply ledger_tick_plant
          intro T j
          have h0 := ih.2 T j
          simp only [task_appended]
          rw [h0]
          unfold slot_due
          rcases Nat.lt_or_ge T p.task_ex_ptrs.length with hl | hl
          · rw [List.getElem?_append_left hl]
          · rw [List.getElem?_eq_none hl]
            cases hx : (p.task_ex_ptrs ++ [task_ex_init t])[T]? with
            | none => rfl
            | some e =>
              rcases getElem?_append_cases hx with h1 | ⟨-, h1⟩
              · rw [List.getElem?_eq_none hl] at h1; cases h1
              · rw [h1]; simp [slot_due_of, task_ex_init]
  | alarm now p log _ hn ih =>
    refine ⟨Reachable.step _ _ ih.1 (Step.alarm now p hn), ?_⟩
    unfold alarm_timeout
    split
    · apply ledger_tick_plant
      exact ih.2
    · exact ih.2
  | do_work now v p k w log _ hw hst ih =>
    refine ⟨Reachable.step _ _ ih.1 (Step.do_work now v p k w hw hst), ?_⟩
    have hi := inv_reachable ih.1
    obtain ⟨st, u, a1, a2, -, -⟩ := hi.working w (List.getElem?_mem hw) hst
    rw [do_work_pthread_wrap_eq now v hw a1 a2]
    exact ledger_tick_plant now (ledger_finish_state v hi ih.2 hw hst a2)

/-! ## Properties of the specification -/

theorem reachable_two_workers : Reachable two_workers :=
  Reachable.step _ _
    (Reachable.step _ _ (Reachable.init plant0 [2] 2 rfl) (Step.add_worker true 0 _ worker_a))
    (Step.add_worker true 0 _ worker_b)

theorem reachable_two_at_work : Reachable two_at_work :=
  Reachable.step _ _ reachable_two_workers (Step.add_task true 0 _ task_two)

theorem reachable_one_done : Reachable one_done :=
  Reachable.step _ _ reachable_two_at_work
    (Step.do_work 5 42 two_at_work 0
      { worker := worker_a, id := 1, status := .WORKING,
        work_args := { t_ex_ptr := 0, station_index := 0, i := 1 } } (by decide) rfl)

/-- C1: in every state reachable from `init_plant` through `add_worker`,
`add_task`, alarm ticks and executor completions, every station has
`num_workers <= capacity`. -/
theorem no_station_over_committed (p : Plant) (h : Reachable p) (s : Nat) (st : station_ex_t)
    (hs : p.stations_ex[s]? = some st) : st.num_workers ≤ st.capacity :=
  (inv_reachable h).occ_le s st hs

theorem no_station_over_committed_witness :
    Reachable two_at_work ∧
      two_at_work.stations_ex[0]? = some { capacity := 2, num_workers := 2 } ∧ 2 ≤ 2 :=
  ⟨reachable_two_at_work, by decide,
    no_station_over_committed two_at_work reachable_two_at_work 0
      { capacity := 2, num_workers := 2 } (by decide)⟩

/-- C4: whenever `tick_plant`, reading the clock value `now`, changes the status
of a task to `IN_PROGRESS`, the start time of the task is `<= now`. -/
theorem tick_plant_starts_no_task_early (now : Int) (p : Plant) (i : Nat) (t t' : task_ex_t)
    (h : p.task_ex_ptrs[i]? = some t) (h' : (tick_plant now p).task_ex_ptrs[i]? = some t')
    (hn : t.status ≠ .IN_PROGRESS) (hs : t'.status = .IN_PROGRESS) :
    t'.task = t.task ∧ t.task.start ≤ now := by
  obtain ⟨u, hu, r⟩ := (tick_plant_tasks now p).2 i t h
  rw [h'] at hu
  cases hu
  rcases r with r | ⟨-, hle, -, r⟩ | ⟨-, r⟩
  · rw [r] at hs; exact absurd hs hn
  · rw [r]; exact ⟨rfl, hle⟩
  · rw [r] at hs; cases hs

theorem tick_plant_starts_no_task_early_witness :
    (tick_plant 0 two_workers_task).task_ex_ptrs[0]? =
        some { task := task_two, id := 7, status := .IN_PROGRESS, is_skipped := false,
               num_waiting := 0 } ∧
      task_two.start ≤ 0 :=
  ⟨by decide,
    (tick_plant_starts_no_task_early 0 two_workers_task 0
      { task := task_two, id := 7, status := .PENDING, is_skipped := false, num_waiting := 0 }
      { task := task_two, id := 7, status := .IN_PROGRESS, is_skipped := false, num_waiting := 0 }
      (by decide) (by decide) (by decide) rfl).2⟩

/-- C7: in every reachable state `num_pending_tasks` is the number of registered
tasks with status `PENDING` and `num_in_progress_tasks` the number with status
`IN_PROGRESS`; so when both counters are `0` no registered task is `PENDING` or
`IN_PROGRESS`. -/
theorem counters_count_the_registry (p : Plant) (h : Reachable p) :
    p.num_pending_tasks = p.task_ex_ptrs.countP (fun t => decide (t.status = .PENDING)) ∧
    p.num_in_progress_tasks =
      p.task_ex_ptrs.countP (fun t => decide (t.status = .IN_PROGRESS)) ∧
    (p.num_pending_tasks + p.num_in_progress_tasks = 0 →
      ∀ t ∈ p.task_ex_ptrs, t.status ≠ .PENDING ∧ t.status ≠ .IN_PROGRESS) := by
  have hi := inv_reachable h
  refine ⟨hi.pending, hi.in_progress, ?_⟩
  intro h0 t ht
  have h1 : p.task_ex_ptrs.countP is_pending = 0 := by have := hi.pending; omega
  have h2 : p.task_ex_ptrs.countP is_in_progress = 0 := by have := hi.in_progress; omega
  rw [List.countP_eq_zero] at h1 h2
  have a := h1 t ht
  have b := h2 t ht
  simp only [is_pending, is_in_progress, decide_eq_true_eq] at a b
  exact ⟨a, b⟩

theorem counters_count_the_registry_witness :
    two_at_work.num_pending_tasks = 0 ∧ two_at_work.num_in_progress_tasks = 1 ∧
      two_at_work.task_ex_ptrs.countP (fun t => decide (t.status = .IN_PROGRESS)) = 1 :=
  ⟨by decide, by decide,
    (counters_count_the_registry two_at_work reachable_two_at_work).2.1.symm.trans (by decide)⟩

/-- C3: in an initialised plant that is not shutting down, a task with a new
identifier whose required capacity exceeds `max_station_capacity` is `FINISHED`
with `is_skipped = true` as soon as `add_task` (its allocations succeeding)
returns, whatever the workers and the clock; from then on, whatever steps the
plant takes, `collect_task` returns `ERROR` at once, without waiting. -/
theorem oversized_task_is_skipped (now : Int) (p : Plant) (t : task_t)
    (hi : p.is_plant_initialized = true) (hd : p.is_plant_being_destroyed = false)
    (hnew : task_ex_ptrs_find p t = none) (hcap : p.max_station_capacity < t.capacity) :
    (add_task true now p t).1 = .PLANTOK ∧
    (add_task true now p t).2.task_ex_ptrs[p.task_ex_ptrs.length]? =
      some { task := t, id := t.id, status := .FINISHED, is_skipped := true, num_waiting := 0 } ∧
    ∀ q, Steps (add_task true now p t).2 q → collect_task q t = (.returned .ERROR, q) := by
  have hadd : add_task true now p t = (.PLANTOK, tick_plant now (task_appended p t)) := by
    simp [add_task, hi, hd, hnew, task_ex_ptrs_append]
  rw [hadd]
  simp only
  generalize hq0 : task_appended p t = q0
  have hlast : q0.task_ex_ptrs[p.task_ex_ptrs.length]? = some (task_ex_init t) := by
    rw [← hq0]; simp [task_appended]
  have hmax : q0.max_station_capacity < t.capacity := by rw [← hq0]; exact hcap
  have hfin := tick_plant_retires_oversized now hlast rfl hmax
  simp only [task_ex_init] at hfin
  have hfind : task_ex_ptrs_find (tick_plant now q0) t = some p.task_ex_ptrs.length := by
    refine find_first_of hfin (by simp) ?_
    intro j b hj hb
    have hjq : q0.task_ex_ptrs[j]? = some p.task_ex_ptrs[j] := by
      rw [← hq0]
      exact getElem?_append_keep _ (List.getElem?_eq_getElem hj)
    obtain ⟨b', hb', r⟩ := tick_plant_keeps now q0 j _ hjq
    rw [hb] at hb'
    cases hb'
    have := find_first_none hnew p.task_ex_ptrs[j] (List.getElem_mem hj)
    simp only [decide_eq_false_iff_not] at this ⊢
    rw [r.1]; exact this
  have hflags : (tick_plant now q0).is_plant_initialized = true ∧
      (tick_plant now q0).is_plant_being_destroyed = false := by
    have := tick_plant_flags now q0
    rw [this.1, this.2, ← hq0]
    exact ⟨hi, hd⟩
  refine ⟨trivial, hfin, ?_⟩
  intro q hs
  have hf := steps_flags hs
  have hk := steps_keeps hs
  have hfq := task_find_keeps hfind hk
  obtain ⟨e', he', r⟩ := hk _ _ hfin
  obtain ⟨r1, r2⟩ := r.2.2.2.2.2 rfl
  simp only [collect_task, hf.1, hf.2, hflags.1, hflags.2, hfq, collect_wait, he', r1, r2]
  simp

theorem oversized_task_is_skipped_witness :
    collect_task (add_task true 0 small_plant task_two).2 task_two =
      (.returned .ERROR, (add_task true 0 small_plant task_two).2) :=
  (oversized_task_is_skipped 0 small_plant task_two rfl rfl (by decide) (by decide)).2.2 _
    (Steps.refl _)

/-- C10: `add_worker` with a worker whose identifier is registered and `add_task`
with a task whose identifier is registered (the plant initialised and not
shutting down) return `PLANTOK` and leave the whole plant state as it was; so a
registration that returned `PLANTOK`, made again, changes nothing. -/
theorem duplicate_registration_is_noop (alloc alloc' : Bool) (now now' : Int) (p q : Plant)
    (w : worker_t) (t : task_t) :
    (p.is_plant_initialized = true → p.is_plant_being_destroyed = false →
      worker_ex_ptrs_find p w ≠ none → add_worker alloc now p w = (.PLANTOK, p)) ∧
    (p.is_plant_initialized = true → p.is_plant_being_destroyed = false →
      task_ex_ptrs_find p t ≠ none → add_task alloc now p t = (.PLANTOK, p)) ∧
    (add_worker alloc now p w = (.PLANTOK, q) → add_worker alloc' now' q w = (.PLANTOK, q)) ∧
    (add_task alloc now p t = (.PLANTOK, q) → add_task alloc' now' q t = (.PLANTOK, q)) := by
  have hw : ∀ (a : Bool) (n : Int) (r : Plant), r.is_plant_initialized = true →
      r.is_plant_being_destroyed = false → worker_ex_ptrs_find r w ≠ none →
      add_worker a n r w = (.PLANTOK, r) := by
    intro a n r hi hd hf
    cases hfw : worker_ex_ptrs_find r w with
    | none => exact absurd hfw hf
    | some i => simp [add_worker, hi, hd, hfw]
  have ht : ∀ (a : Bool) (n : Int) (r : Plant), r.is_plant_initialized = true →
      r.is_plant_being_destroyed = false → task_ex_ptrs_find r t ≠ none →
      add_task a n r t = (.PLANTOK, r) := by
    intro a n r hi hd hf
    cases hft : task_ex_ptrs_find r t with
    | none => exact absurd hft hf
    | some i => simp [add_task, hi, hd, hft]
  refine ⟨hw alloc now p, ht alloc now p, ?_, ?_⟩
  · intro h
    unfold add_worker at h
    split at h
    · cases h
    · rename_i hfl
      simp only [Bool.or_eq_true, Bool.not_eq_true', not_or, Bool.not_eq_false,
        Bool.not_eq_true] at hfl
      split at h
      · rename_i i hfi
        cases h
        exact hw alloc' now' p hfl.1 hfl.2 (by rw [hfi]; simp)
      · split at h
        · cases h
        · rename_i p1 hp1
          cases h
          unfold worker_ex_ptrs_append at hp1
          split at hp1
          · cases hp1
            have hfl' := tick_plant_flags now (worker_appended p w)
            have hids := tick_plant_worker_ids now (worker_appended p w)
            refine hw alloc' now' _ (hfl'.1.trans hfl.1) (hfl'.2.trans hfl.2) ?_
            have hm : w.id ∈ (worker_appended p w).worker_ex_ptrs.map (fun x => x.id) := by
              simp only [worker_appended]
              rw [((worker_append_perm _ _ _).map _).mem_iff]
              simp [worker_ex_init]
            have hm' := hids.mem_iff.mpr hm
            rw [List.mem_map] at hm'
            obtain ⟨x, hx, hxid⟩ := hm'
            obtain ⟨i, hi⟩ := find_first_isSome_of_mem (q := fun e => decide (e.id = w.id)) hx
              (by simpa using hxid)
            unfold worker_ex_ptrs_find
            rw [hi]
            simp
          · cases hp1
  · intro h
    unfold add_task at h
    split at h
    · cases h
    · rename_i hfl
      simp only [Bool.or_eq_true, Bool.not_eq_true', not_or, Bool.not_eq_false,
        Bool.not_eq_true] at hfl
      split at h
      · rename_i i hfi
        cases h
        exact ht alloc' now' p hfl.1 hfl.2 (by rw [hfi]; simp)
      · split at h
        · cases h
        · rename_i p1 hp1
          cases h
          unfold task_ex_ptrs_append at hp1
          split at hp1
          · cases hp1
            generalize hq0 : task_appended p t = q0
            have hfl' := tick_plant_flags now q0
            have hlast : q0.task_ex_ptrs[p.task_ex_ptrs.length]? = some (task_ex_init t) := by
              rw [← hq0]; simp [task_appended]
            obtain ⟨e', he', r⟩ := tick_plant_keeps now q0 _ _ hlast
            have hi0 : q0.is_plant_initialized = true := by rw [← hq0]; exact hfl.1
            have hd0 : q0.is_plant_being_destroyed = false := by rw [← hq0]; exact hfl.2
            refine ht alloc' now' _ (hfl'.1.trans hi0) (hfl'.2.trans hd0) ?_
            obtain ⟨i, hi⟩ := find_first_isSome_of_mem (q := fun e => decide (e.id = t.id))
              (List.getElem?_mem he') (by simpa using r.1)
            unfold task_ex_ptrs_find
            rw [hi]
            simp
          · cases hp1

theorem duplicate_registration_is_noop_witness :
    add_worker true 9 two_workers worker_a = (.PLANTOK, two_workers) ∧
      add_task false 9 two_at_work task_two = (.PLANTOK, two_at_work) :=
  ⟨(duplicate_registration_is_noop true true 9 9 two_workers two_workers worker_a task_two).1
      rfl rfl (by decide),
    (duplicate_registration_is_noop true false 0 9 two_workers two_at_work worker_a task_two).2.2.2
      rfl⟩

theorem status_step_of_tick_task {now : Int} {m : Nat} {t t' : task_ex_t}
    (hsk : t.is_skipped = true → t.status = .FINISHED) (h : tick_task now m t t') :
    status_step t t' := by
  rcases h with rfl | ⟨hp, -, -, rfl⟩ | ⟨hp, rfl⟩
  · exact Or.inl ⟨rfl, rfl⟩
  · have hf : t.is_skipped = false := by
      cases hb : t.is_skipped with
      | false => rfl
      | true => have := hsk hb; rw [hp] at this; cases this
    exact Or.inr (Or.inl ⟨hp, rfl, hf, hf⟩)
  · exact Or.inr (Or.inr (Or.inr ⟨hp, rfl, rfl⟩))

theorem status_step_tick_plant (now : Int) {p1 : Plant} (h1 : Inv p1) {i : Nat} {t : task_ex_t}
    (ht : p1.task_ex_ptrs[i]? = some t) :
    ∃ t', (tick_plant now p1).task_ex_ptrs[i]? = some t' ∧ status_step t t' := by
  obtain ⟨t', ht', r⟩ := (tick_plant_tasks now p1).2 i t ht
  exact ⟨t', ht', status_step_of_tick_task (h1.skipped t (List.getElem?_mem ht)) r⟩

/-- C5: across every step of the plant (`add_task`, `add_worker`, an alarm tick,
an executor completion) from a reachable state, the status of a task entry
changes only `PENDING -> IN_PROGRESS`, `IN_PROGRESS -> FINISHED` (`is_skipped`
staying `false`) or `PENDING -> FINISHED` with `is_skipped = true`; a `FINISHED`
task keeps its status, and `is_skipped` is true only for `FINISHED` tasks. -/
theorem status_only_moves_forward (p q : Plant) (h : Reachable p) (hs : Step p q) :
    (∀ (i : Nat) (t : task_ex_t), p.task_ex_ptrs[i]? = some t →
      ∃ t', q.task_ex_ptrs[i]? = some t' ∧ status_step t t' ∧
        (t.status = .FINISHED → t'.status = .FINISHED)) ∧
    (∀ t ∈ p.task_ex_ptrs, t.is_skipped = true → t.status = .FINISHED) ∧
    (∀ t ∈ q.task_ex_ptrs, t.is_skipped = true → t.status = .FINISHED) := by
  have hp := inv_reachable h
  have hq := inv_step hp hs
  refine ⟨?_, hp.skipped, hq.skipped⟩
  intro i t ht
  have hfin : ∀ t', status_step t t' → t.status = .FINISHED → t'.status = .FINISHED := by
    intro t' r hf
    rcases r with ⟨r, -⟩ | ⟨r, -⟩ | ⟨r, -⟩ | ⟨r, -⟩
    · rw [r]; exact hf
    · rw [hf] at r; cases r
    · rw [hf] at r; cases r
    · rw [hf] at r; cases r
  suffices hmain : ∃ t', q.task_ex_ptrs[i]? = some t' ∧ status_step t t' by
    obtain ⟨t', h1, h2⟩ := hmain
    exact ⟨t', h1, h2, hfin t' h2⟩
  cases hs with
  | add_worker alloc now _ w =>
    unfold add_worker
    split
    · exact ⟨t, ht, Or.inl ⟨rfl, rfl⟩⟩
    · split
      · exact ⟨t, ht, Or.inl ⟨rfl, rfl⟩⟩
      · cases alloc with
        | false => exact ⟨t, ht, Or.inl ⟨rfl, rfl⟩⟩
        | true =>
          simp only [worker_ex_ptrs_append, if_true]
          exact status_step_tick_plant now (inv_worker_append hp rfl) ht
  | add_task alloc now _ u =>
    unfold add_task
    split
    · exact ⟨t, ht, Or.inl ⟨rfl, rfl⟩⟩
    · split
      · exact ⟨t, ht, Or.inl ⟨rfl, rfl⟩⟩
      · cases alloc with
        | false => exact ⟨t, ht, Or.inl ⟨rfl, rfl⟩⟩
        | true =>
          simp only [task_ex_ptrs_append, if_true]
          exact status_step_tick_plant now (inv_task_append hp rfl)
            (getElem?_append_keep _ ht)
  | alarm now _ hn =>
    unfold alarm_timeout
    split
    · have hp0 : Inv { p with next_alarm_time := 0 } :=
        inv_of_fields hp rfl rfl (List.Perm.refl _) rfl rfl
      exact status_step_tick_plant now hp0 ht
    · exact ⟨t, ht, Or.inl ⟨rfl, rfl⟩⟩
  | do_work now v _ k w hw hst =>
    obtain ⟨st, u, a1, a2, a3, -⟩ := hp.working w (List.getElem?_mem hw) hst
    rw [do_work_pthread_wrap_eq now v hw a1 a2]
    have hinv := inv_finish_state v hp hw hst a1 a2
    by_cases e : i = w.work_args.t_ex_ptr
    · subst e
      rw [ht] at a2
      cases a2
      have hsk : t.is_skipped = false := by
        cases hb : t.is_skipped with
        | false => rfl
        | true => have := hp.skipped t (List.getElem?_mem ht) hb; rw [a3] at this; cases this
      have h1 : (finish_state v p k w st t).task_ex_ptrs[w.work_args.t_ex_ptr]? =
          some { t with
            task := { t.task with results := t.task.results.set w.work_args.i (some v) }
            status := if size_dec st.num_workers = 0 then .FINISHED else t.status } :=
        getElem?_set_same _ ht
      obtain ⟨t', ht', r⟩ := (tick_plant_tasks now (finish_state v p k w st t)).2 _ _ h1
      refine ⟨t', ht', ?_⟩
      have hnp : (if size_dec st.num_workers = 0 then task_status.FINISHED else t.status) ≠
          .PENDING := by
        split
        · simp
        · rw [a3]; simp
      rcases r with r | ⟨r, -⟩ | ⟨r, -⟩
      · rw [r]
        by_cases h0 : size_dec st.num_workers = 0
        · simp only [h0, if_true]
          exact Or.inr (Or.inr (Or.inl ⟨a3, rfl, hsk, hsk⟩))
        · simp only [h0, if_false]
          exact Or.inl ⟨rfl, rfl⟩
      · exact absurd r hnp
      · exact absurd r hnp
    · have h1 : (finish_state v p k w st u).task_ex_ptrs[i]? = some t := by
        simp only [finish_state]
        rw [List.getElem?_set_ne (Ne.symm e)]
        exact ht
      exact status_step_tick_plant now hinv h1

theorem status_only_moves_forward_witness :
    ∃ t', one_done.task_ex_ptrs[0]? = some t' ∧
      status_step
        { task := task_two, id := 7, status := .IN_PROGRESS, is_skipped := false,
          num_waiting := 0 } t' ∧
      (task_status.IN_PROGRESS = task_status.FINISHED → t'.status = .FINISHED) :=
  (status_only_moves_forward two_at_work one_done reachable_two_at_work
    (Step.do_work 5 42 two_at_work 0
      { worker := worker_a, id := 1, status := .WORKING,
        work_args := { t_ex_ptr := 0, station_index := 0, i := 1 } } (by decide) rfl)).1 0
    { task := task_two, id := 7, status := .IN_PROGRESS, is_skipped := false, num_waiting := 0 }
    (by decide)

theorem never_started_tick_plant (now : Int) {p1 : Plant} {m : Nat}
    (hm : p1.worker_ex_ptrs.length ≤ m)
    (h : ∀ e ∈ p1.task_ex_ptrs, never_started m e) :
    ∀ e ∈ (tick_plant now p1).task_ex_ptrs, never_started m e := by
  intro e' he' hlt
  obtain ⟨i, hi⟩ := List.getElem?_of_mem he'
  have hrel := tick_plant_tasks now p1
  have hil : i < p1.task_ex_ptrs.length := by rw [← hrel.1]; exact getElem?_lt hi
  obtain ⟨e'', he'', r⟩ := hrel.2 i _ (List.getElem?_eq_getElem hil)
  rw [hi] at he''
  cases he''
  have hold := h _ (List.getElem_mem hil)
  rcases r with r | ⟨-, -, hc, r⟩ | ⟨-, r⟩
  · rw [r] at hlt ⊢; exact hold hlt
  · rw [r] at hlt; simp only at hlt; omega
  · rw [r]; exact Or.inr ⟨rfl, rfl⟩

theorem never_started_reachable {p : Plant} (h : Reachable p) :
    ∀ e ∈ p.task_ex_ptrs, never_started p.worker_ex_ptrs.length e := by
  induction h with
  | init p0 stations n h0 =>
    intro e he
    simp [init_plant, h0] at he
  | step p q hr hs ih =>
    have hp := inv_reachable hr
    cases hs with
    | add_worker alloc now _ w =>
      unfold add_worker
      split
      · exact ih
      · split
        · exact ih
        · cases alloc with
          | false => exact ih
          | true =>
            simp only [worker_ex_ptrs_append, if_true]
            have hl : (worker_appended p w).worker_ex_ptrs.length =
                p.worker_ex_ptrs.length + 1 := by simp [worker_appended]
            rw [tick_plant_workers_length, hl]
            apply never_started_tick_plant now (by rw [hl])
            intro e he hlt
            exact ih e he (by omega)
    | add_task alloc now _ t =>
      unfold add_task
      split
      · exact ih
      · split
        · exact ih
        · cases alloc with
          | false => exact ih
          | true =>
            simp only [task_ex_ptrs_append, if_true]
            rw [tick_plant_workers_length]
            apply never_started_tick_plant now (Nat.le_refl _)
            intro e he hlt
            rcases List.mem_append.mp he with h1 | h1
            · exact ih e h1 hlt
            · simp at h1; rw [h1]; exact Or.inl rfl
    | alarm now _ hn =>
      unfold alarm_timeout
      split
      · rw [tick_plant_workers_length]
        exact never_started_tick_plant now (Nat.le_refl _) ih
      · exact ih
    | do_work now v _ k w hw hst =>
      obtain ⟨st, u, a1, a2, a3, -⟩ := hp.working w (List.getElem?_mem hw) hst
      rw [do_work_pthread_wrap_eq now v hw a1 a2, tick_plant_workers_length]
      have hl : (finish_state v p k w st u).worker_ex_ptrs.length = p.worker_ex_ptrs.length := by
        simp [finish_state]
      rw [hl]
      apply never_started_tick_plant now (by rw [hl])
      intro e he hlt
      rcases List.mem_or_eq_of_mem_set he with h1 | h1
      · exact ih e h1 hlt
      · rw [h1] at hlt
        have := ih u (List.getElem?_mem a2) hlt
        rw [a3] at this
        rcases this with h2 | ⟨h2, -⟩ <;> cases h2

/-- C2, as the code has it: a task is started only when as many idle workers as
it requires are available, so a task that needs more workers than are registered
is never `IN_PROGRESS` and never `FINISHED` unskipped. In the scenario (one
station of capacity 2, the plant initialised for one worker, that worker
available over `[0, 100)`, one task requiring capacity 2 with start time 0) the
task is `FINISHED` with `is_skipped = true` and both result slots unwritten once
both are registered, in either order and whatever the clock, and `collect_task`
returns `ERROR`. -/
theorem one_worker_cannot_do_task_for_two (p : Plant) (h : Reachable p) (now1 now2 : Int) :
    (∀ e ∈ p.task_ex_ptrs, p.worker_ex_ptrs.length < e.task.capacity →
      e.status = .PENDING ∨ (e.status = .FINISHED ∧ e.is_skipped = true)) ∧
    (one_worker_run now1 now2).task_ex_ptrs =
      [{ task := task_two, id := 7, status := .FINISHED, is_skipped := true,
         num_waiting := 0 }] ∧
    collect_task (one_worker_run now1 now2) task_two =
      (.returned .ERROR, one_worker_run now1 now2) ∧
    (one_worker_run_task_first now1 now2).task_ex_ptrs =
      [{ task := task_two, id := 7, status := .FINISHED, is_skipped := true,
         num_waiting := 0 }] ∧
    collect_task (one_worker_run_task_first now1 now2) task_two =
      (.returned .ERROR, one_worker_run_task_first now1 now2) := by
  have e0 : (init_plant true plant0 [2] 1).2 =
      { stations_ex := [{ capacity := 2, num_workers := 0 }], max_station_capacity := 2,
        task_ex_ptrs := [], size_tasks := 1, num_pending_tasks := 0, num_in_progress_tasks := 0,
        worker_ex_ptrs := [], num_active_workers := 0, num_workers_to_come := 1,
        is_plant_initialized := true, is_plant_being_destroyed := false,
        next_alarm_time := 0 } := by decide
  refine ⟨never_started_reachable h, ?_, ?_, ?_, ?_⟩
  · unfold one_worker_run
    rw [e0]
    by_cases h1 : now1 ≥ 100 <;> by_cases h2 : now2 ≥ 100 <;>
      simp [add_task, add_worker, worker_ex_ptrs_find, task_ex_ptrs_find, find_first,
        worker_ex_ptrs_append, task_ex_ptrs_append, worker_appended, task_appended,
        worker_ex_init, task_ex_init, tick_plant, expire_workers, expire_loop, swap_workers,
        retire_tasks, retire_loop, unsatisfiable, size_dec, worker_a, task_two, h1, h2]
  · unfold one_worker_run
    rw [e0]
    by_cases h1 : now1 ≥ 100 <;> by_cases h2 : now2 ≥ 100 <;>
      simp [add_task, add_worker, worker_ex_ptrs_find, task_ex_ptrs_find, find_first,
        worker_ex_ptrs_append, task_ex_ptrs_append, worker_appended, task_appended,
        worker_ex_init, task_ex_init, tick_plant, expire_workers, expire_loop, swap_workers,
        retire_tasks, retire_loop, unsatisfiable, size_dec, worker_a, task_two, h1, h2,
        collect_task, collect_wait]
  · unfold one_worker_run_task_first
    rw [e0]
    by_cases h1 : now1 ≥ 100 <;> by_cases h2 : now2 ≥ 100 <;>
      simp [add_task, add_worker, worker_ex_ptrs_find, task_ex_ptrs_find, find_first,
        worker_ex_ptrs_append, task_ex_ptrs_append, worker_appended, task_appended,
        worker_ex_init, task_ex_init, tick_plant, expire_workers, expire_loop, swap_workers,
        retire_tasks, retire_loop, unsatisfiable, size_dec, worker_a, task_two, h1, h2]
  · unfold one_worker_run_task_first
    rw [e0]
    by_cases h1 : now1 ≥ 100 <;> by_cases h2 : now2 ≥ 100 <;>
      simp [add_task, add_worker, worker_ex_ptrs_find, task_ex_ptrs_find, find_first,
        worker_ex_ptrs_append, task_ex_ptrs_append, worker_appended, task_appended,
        worker_ex_init, task_ex_init, tick_plant, expire_workers, expire_loop, swap_workers,
        retire_tasks, retire_loop, unsatisfiable, size_dec, worker_a, task_two, h1, h2,
        collect_task, collect_wait]

theorem reachable_one_worker_run : Reachable (one_worker_run 0 0) :=
  Reachable.step _ _
    (Reachable.step _ _ (Reachable.init plant0 [2] 1 rfl) (Step.add_worker true 0 _ worker_a))
    (Step.add_task true 0 _ task_two)

theorem one_worker_cannot_do_task_for_two_witness :
    Reachable (one_worker_run 0 0) ∧
      (task_status.FINISHED = task_status.PENDING ∨
        (task_status.FINISHED = task_status.FINISHED ∧ true = true)) :=
  ⟨reachable_one_worker_run,
    (one_worker_cannot_do_task_for_two (one_worker_run 0 0) reachable_one_worker_run 0 0).1
      { task := task_two, id := 7, status := .FINISHED, is_skipped := true, num_waiting := 0 }
      (by decide) (by decide)⟩

/-- C2 fails as stated: in the scenario, with both registrations made at time
`0`, the task is `FINISHED` with `is_skipped = true`, no result slot is written
and `collect_task` returns `ERROR`, not `PLANTOK`. -/
theorem one_worker_scenario_counterexample :
    (one_worker_run 0 0).task_ex_ptrs =
      [{ task := { id := 7, start := 0, capacity := 2, results := [none, none] }, id := 7,
         status := .FINISHED, is_skipped := true, num_waiting := 0 }] ∧
    (collect_task (one_worker_run 0 0) task_two).1 = .returned .ERROR ∧
    (collect_task (one_worker_run 0 0) task_two).1 ≠ .returned .PLANTOK := by
  decide

set_option maxRecDepth 10000 in
/-- C6 fails as stated: after two workers have started a task that requires
capacity 2 and one executor has completed, the state is reachable, the task is
still `IN_PROGRESS`, and the station it was assigned to has occupancy 1, not 2;
the one worker still `WORKING` is bound to that task and that station. -/
theorem occupancy_below_capacity_counterexample :
    Reachable one_done ∧
    one_done.task_ex_ptrs[0]? =
      some { task := { id := 7, start := 0, capacity := 2, results := [none, some 42] },
             id := 7, status := .IN_PROGRESS, is_skipped := false, num_waiting := 0 } ∧
    one_done.stations_ex = [{ capacity := 2, num_workers := 1 }] ∧
    one_done.worker_ex_ptrs.countP (works_on 0 0) = 1 :=
  ⟨reachable_one_done, rfl, rfl, rfl⟩

/-- C6, as the code has it: in every reachable state a task that requires at
least one worker is `IN_PROGRESS` if and only if some station has an occupancy
between 1 and the task's required capacity that consists of the workers
`WORKING` on that task at that station (every executor that completes lowers the
occupancy by one). -/
theorem in_progress_iff_station_held (p : Plant) (h : Reachable p) (T : Nat) (e : task_ex_t)
    (he : p.task_ex_ptrs[T]? = some e) (hc : 0 < e.task.capacity) :
    e.status = .IN_PROGRESS ↔
      ∃ s st, p.stations_ex[s]? = some st ∧ 0 < st.num_workers ∧
        st.num_workers ≤ e.task.capacity ∧
        p.worker_ex_ptrs.countP (works_on T s) = st.num_workers := by
  have hi := inv_reachable h
  constructor
  · intro hs
    obtain ⟨w, hw, hws, hwt⟩ := hi.staffed T e he hs hc
    obtain ⟨st, t, a1, a2, -, a4⟩ := hi.working w hw hws
    rw [hwt, he] at a2
    cases a2
    have hcount := hi.occ_count _ st a1
    have hpos : 0 < p.worker_ex_ptrs.countP (works_at w.work_args.station_index) := by
      rw [List.countP_pos_iff]
      exact ⟨w, hw, by simp [works_at, hws]⟩
    refine ⟨w.work_args.station_index, st, a1, by omega, a4, ?_⟩
    rw [← hcount]
    apply List.countP_congr
    intro x hx
    simp only [works_on, works_at, Bool.and_eq_true, decide_eq_true_eq]
    constructor
    · intro hx'; exact ⟨hx'.1.1, hx'.2⟩
    · intro hx'
      refine ⟨⟨hx'.1, ?_⟩, hx'.2⟩
      rw [← hwt]
      exact (hi.same_task x hx w hw hx'.1 hws).mpr hx'.2
  · rintro ⟨s, st, -, hpos, -, hcount⟩
    have : 0 < p.worker_ex_ptrs.countP (works_on T s) := by omega
    rw [List.countP_pos_iff] at this
    obtain ⟨x, hx, hxw⟩ := this
    simp only [works_on, Bool.and_eq_true, decide_eq_true_eq] at hxw
    obtain ⟨_, t, -, a2, a3, -⟩ := hi.working x hx hxw.1.1
    rw [hxw.1.2, he] at a2
    cases a2
    exact a3

set_option maxRecDepth 10000 in
theorem in_progress_iff_station_held_witness :
    task_status.IN_PROGRESS = task_status.IN_PROGRESS ↔
      ∃ s st, one_done.stations_ex[s]? = some st ∧ 0 < st.num_workers ∧
        st.num_workers ≤ 2 ∧ one_done.worker_ex_ptrs.countP (works_on 0 s) = st.num_workers :=
  in_progress_iff_station_held one_done reachable_one_done 0
    { task := { id := 7, start := 0, capacity := 2, results := [none, some 42] },
      id := 7, status := .IN_PROGRESS, is_skipped := false, num_waiting := 0 }
    rfl (by decide)

theorem assign_workers_getElem? (now : Int) (T s : Nat) :
    ∀ (ws : List worker_ex_t) (n c k : Nat) (w : worker_ex_t), ws[k]? = some w →
      (assign_workers now T s n c ws)[k]? =
        some (if k < n ∧ is_available now w = true ∧ available_before now ws k < c then
          mark T s (c - 1 - available_before now ws k) w else w) := by
  intro ws
  induction ws with
  | nil => intro n c k w h; simp at h
  | cons w0 ws ih =>
    intro n c k w h
    cases n with
    | zero => simp [assign_workers, h]
    | succ n =>
      rw [assign_workers_succ_cons]
      by_cases hc : c = 0
      · subst hc
        simp [h]
      · rw [if_neg hc]
        cases k with
        | zero =>
          simp only [List.getElem?_cons_zero, Option.some.injEq] at h
          subst h
          by_cases ha : is_available now w0 = true
          · rw [if_pos ha]
            have : 0 < c := Nat.pos_of_ne_zero hc
            simp [ha, available_before, this]
          · rw [if_neg ha]
            simp [ha]
        | succ k =>
          simp only [List.getElem?_cons_succ] at h
          by_cases ha : is_available now w0 = true
          · rw [if_pos ha]
            simp only [List.getElem?_cons_succ]
            rw [ih n (c - 1) k w h]
            have e : available_before now (w0 :: ws) (k + 1) = available_before now ws k + 1 := by
              simp [available_before, List.countP_cons, ha]
            rw [e]
            have e1 : (k < n ∧ is_available now w = true ∧ available_before now ws k < c - 1) ↔
                (k + 1 < n + 1 ∧ is_available now w = true ∧
                  available_before now ws k + 1 < c) := by
              constructor
              · rintro ⟨a, b, d⟩; exact ⟨by omega, b, by omega⟩
              · rintro ⟨a, b, d⟩; exact ⟨by omega, b, by omega⟩
            have e2 : c - 1 - 1 - available_before now ws k =
                c - 1 - (available_before now ws k + 1) := by omega
            by_cases hsel : k < n ∧ is_available now w = true ∧
                available_before now ws k < c - 1
            · rw [if_pos hsel, if_pos (e1.mp hsel), e2]
            · rw [if_neg hsel, if_neg (fun h' => hsel (e1.mpr h'))]
          · rw [if_neg ha]
            simp only [List.getElem?_cons_succ]
            rw [ih n c k w h]
            have e : available_before now (w0 :: ws) (k + 1) = available_before now ws k := by
              simp [available_before, List.countP_cons, ha]
            rw [e]
            simp only [Nat.add_lt_add_iff_right]

theorem new_slots_self (ws : List worker_ex_t) : new_slots ws ws = [] := by
  induction ws with
  | nil => rfl
  | cons w ws ih =>
    unfold new_slots
    rw [if_neg, ih]
    rintro ⟨h1, h2⟩
    rw [h1] at h2
    cases h2

theorem new_slots_assign_workers (now : Int) (T s : Nat) :
    ∀ (ws : List worker_ex_t) (n c : Nat), c ≤ count_available now n ws →
      new_slots ws (assign_workers now T s n c ws) = (List.range c).reverse := by
  intro ws
  induction ws with
  | nil =>
    intro n c hc
    have : c = 0 := by
      have : count_available now n [] = 0 := by simp [count_available]
      omega
    subst this
    cases n <;> simp [assign_workers, new_slots]
  | cons w0 ws ih =>
    intro n c hc
    cases n with
    | zero =>
      have : c = 0 := by
        have : count_available now 0 (w0 :: ws) = 0 := by simp [count_available]
        omega
      subst this
      simp [assign_workers, new_slots_self]
    | succ n =>
      rw [count_available_succ_cons] at hc
      rw [assign_workers_succ_cons]
      by_cases h0 : c = 0
      · subst h0
        simp [new_slots_self]
      · rw [if_neg h0]
        by_cases ha : is_available now w0 = true
        · rw [if_pos ha]
          simp only [ha, if_true] at hc
          have hidle : w0.status = .IDLE := by
            simp [is_available] at ha; exact ha.2
          unfold new_slots
          rw [if_pos ⟨hidle, rfl⟩, ih n (c - 1) (by omega)]
          obtain ⟨d, rfl⟩ : ∃ d, c = d + 1 := ⟨c - 1, by omega⟩
          simp [List.range_succ, mark]
        · rw [if_neg ha]
          simp only [ha, if_false, Nat.add_zero] at hc
          unfold new_slots
          rw [if_neg, ih n c hc]
          rintro ⟨h1, h2⟩
          rw [h1] at h2
          cases h2

theorem run_two_done :
    Run (do_work_pthread_wrap 6 43 one_done 1) [(0, 0), (0, 1)] :=
  Run.do_work 6 43 one_done 1
    { worker := worker_b, id := 2, status := .WORKING,
      work_args := { t_ex_ptr := 0, station_index := 0, i := 0 } } [(0, 1)]
    (Run.do_work 5 42 two_at_work 0
      { worker := worker_a, id := 1, status := .WORKING,
        work_args := { t_ex_ptr := 0, station_index := 0, i := 1 } } []
      (Run.add_task true 0 two_workers task_two []
        (Run.add_worker true 0 _ worker_b []
          (Run.add_worker true 0 _ worker_a [] (Run.init plant0 [2] 2 rfl))))
      (by decide) rfl)
    (by decide) rfl

/-- C8: an iteration of the greedy loop of `tick_plant` that moves a task of
required capacity `c` to `IN_PROGRESS` marks `WORKING` the first `c` entries, in
table order, of the active prefix that are `IDLE` with `start <= now`, binds the
one with `r` such entries before it to result slot `c - 1 - r`, and leaves every
other worker entry as it was; the result slots bound, in table order, are
`c - 1, ..., 0`: exactly `c` workers, each slot in `{0, ..., c - 1}` bound to
exactly one of them. So in every run no result slot is written by more than one
executor, and every result slot below the required capacity of a task that is
`FINISHED` and not skipped has been written by exactly one. -/
theorem assignment_binds_first_idle_workers (now : Int) (p q : Plant)
    (h : greedy_step now p = some q) (r : Plant) (log : List (Nat × Nat)) (hr : Run r log) :
    (∃ (sidx ti : Nat) (st : station_ex_t) (t : task_ex_t),
      p.stations_ex[sidx]? = some st ∧ p.task_ex_ptrs[ti]? = some t ∧
      t.status = .PENDING ∧
      q.task_ex_ptrs = p.task_ex_ptrs.set ti { t with status := .IN_PROGRESS } ∧
      q.worker_ex_ptrs.length = p.worker_ex_ptrs.length ∧
      (∀ (k : Nat) (w : worker_ex_t), p.worker_ex_ptrs[k]? = some w →
        q.worker_ex_ptrs[k]? =
          some (if k < p.num_active_workers ∧ is_available now w = true ∧
              available_before now p.worker_ex_ptrs k < t.task.capacity then
            mark ti sidx (t.task.capacity - 1 - available_before now p.worker_ex_ptrs k) w
          else w)) ∧
      new_slots p.worker_ex_ptrs q.worker_ex_ptrs = (List.range t.task.capacity).reverse) ∧
    (∀ T j, log.count (T, j) ≤ 1) ∧
    (∀ (T : Nat) (e : task_ex_t), r.task_ex_ptrs[T]? = some e → e.status = .FINISHED →
      e.is_skipped = false → ∀ j, j < e.task.capacity → log.count (T, j) = 1) := by
  refine ⟨?_, ?_, ?_⟩
  · obtain ⟨sidx, st0, ti, t0, -, -, hs, -, ht, htp, -, hcw, -, rfl⟩ := greedy_step_spec h
    refine ⟨sidx, ti, st0, t0, hs, ht, htp, rfl, assign_workers_length _ _ _ _ _ _, ?_, ?_⟩
    · intro k w hk
      exact assign_workers_getElem? now ti sidx _ _ _ k w hk
    · exact new_slots_assign_workers now ti sidx _ _ _ hcw
  · intro T j
    have h0 := (ledger_run hr).2 T j
    have h1 : slot_due r.task_ex_ptrs T j ≤ 1 := by
      unfold slot_due
      split
      · unfold slot_due_of; split <;> omega
      · omega
    omega
  · intro T e he hfin hsk j hj
    have hi := inv_reachable (ledger_run hr).1
    have h0 := (ledger_run hr).2 T j
    have h1 : slot_due r.task_ex_ptrs T j = 1 := by
      simp [slot_due, he, slot_due_of, hfin, hsk, hj]
    have h2 : r.worker_ex_ptrs.countP (bound_to T j) = 0 := by
      rw [List.countP_eq_zero]
      intro x hx hb
      simp only [bound_to, Bool.and_eq_true, decide_eq_true_eq] at hb
      obtain ⟨_, u, -, a2, a3, -⟩ := hi.working x hx hb.1.1
      rw [hb.1.2, he] at a2
      cases a2
      rw [hfin] at a3
      cases a3
    omega

set_option maxRecDepth 10000 in
theorem assignment_binds_first_idle_workers_witness :
    new_slots two_workers_task.worker_ex_ptrs two_at_work.worker_ex_ptrs = [1, 0] ∧
      List.count (0, 1) [(0, 0), (0, 1)] = 1 := by
  obtain ⟨⟨_, _, _, t, _, h2, _, _, _, _, h7⟩, _, h9⟩ :=
    assignment_binds_first_idle_workers 0 two_workers_task
      { two_at_work with next_alarm_time := 0 } (by decide)
      (do_work_pthread_wrap 6 43 one_done 1) [(0, 0), (0, 1)] run_two_done
  exact ⟨by decide, h9 0
    { task := { id := 7, start := 0, capacity := 2, results := [some 43, some 42] }, id := 7,
      status := .FINISHED, is_skipped := false, num_waiting := 0 } (by decide) rfl rfl 1
    (by decide)⟩

theorem find_first_eq_none {α : Type} {q : α → Bool} {l : List α}
    (h : ∀ a ∈ l, q a = false) : find_first q l = none := by
  induction l with
  | nil => rfl
  | cons a l ih =>
    have ha : q a = false := h a (List.mem_cons_self a l)
    have hl : find_first q l = none := ih (fun b hb => h b (List.mem_cons_of_mem a hb))
    simp [find_first, ha, hl]

theorem foldl_max_init_le (l : List Nat) (m : Nat) : m ≤ l.foldl max m := by
  induction l generalizing m with
  | nil => exact le_refl m
  | cons a l ih =>
    simp only [List.foldl_cons]
    exact le_trans (le_max_left m a) (ih (max m a))

theorem max_capacity_eq (sts : List station_ex_t) (m : Nat) :
    max_capacity sts m = (sts.map (fun s => s.capacity)).foldl max m := by
  induction sts generalizing m with
  | nil => rfl
  | cons s ss ih =>
    simp only [max_capacity, List.map_cons, List.foldl_cons]
    rw [ih]
    congr 1
    split
    · omega
    · omega

theorem foldl_max_ge (l : List Nat) (m x : Nat) (h : x ∈ l) : x ≤ l.foldl max m := by
  induction l generalizing m with
  | nil => cases h
  | cons a l ih =>
    simp only [List.foldl_cons]
    rcases List.mem_cons.mp h with h1 | h1
    · subst h1
      exact le_trans (le_max_right m x) (foldl_max_init_le l (max m x))
    · exact ih (max m a) h1

theorem foldl_max_mem (l : List Nat) (m : Nat) : l.foldl max m = m ∨ l.foldl max m ∈ l := by
  induction l generalizing m with
  | nil => exact Or.inl rfl
  | cons a l ih =>
    simp only [List.foldl_cons]
    rcases ih (max m a) with h | h
    · rw [h]
      rcases le_total m a with h1 | h1
      · right
        rw [max_eq_right h1]
        exact List.mem_cons_self a l
      · left
        exact max_eq_left h1
    · right
      exact List.mem_cons_of_mem a h

theorem foldl_max_le_of_zero (l : List Nat) (h : l.foldl max 0 = 0) : ∀ x ∈ l, x = 0 := by
  intro x hx
  have := foldl_max_ge l 0 x hx
  omega

/-- C11: outside the window between `init_plant` and `destroy_plant` (the plant
is not initialised, or it is being destroyed) each of `add_worker`, `add_task`,
`collect_task` and `destroy_plant` returns `ERROR` at once and leaves every
global as it was, whatever the worker or task (registered and `FINISHED` or
not); and `collect_task` on a task whose identifier no entry carries returns
`ERROR` with no change in every state. -/
theorem usage_errors_change_nothing (alloc : Bool) (now : Int) (p : Plant) (w : worker_t)
    (t : task_t) :
    ((p.is_plant_initialized = false ∨ p.is_plant_being_destroyed = true) →
      add_worker alloc now p w = (.ERROR, p) ∧ add_task alloc now p t = (.ERROR, p) ∧
        collect_task p t = (.returned .ERROR, p) ∧ destroy_plant p = (.returned .ERROR, p)) ∧
    ((∀ e ∈ p.task_ex_ptrs, e.id ≠ t.id) → collect_task p t = (.returned .ERROR, p)) := by
  constructor
  · intro h
    have hg : (!p.is_plant_initialized || p.is_plant_being_destroyed) = true := by
      cases h with
      | inl h => simp [h]
      | inr h => simp [h]
    simp [add_worker, add_task, collect_task, destroy_plant, hg]
  · intro h
    have hf : task_ex_ptrs_find p t = none := by
      unfold task_ex_ptrs_find
      apply find_first_eq_none
      intro e he
      simpa using h e he
    unfold collect_task
    split
    · rfl
    · rw [hf]

theorem usage_errors_change_nothing_witness :
    (add_worker true 9 finished_destroying worker_a = (.ERROR, finished_destroying) ∧
      add_task true 9 finished_destroying task_two = (.ERROR, finished_destroying) ∧
      collect_task finished_destroying task_two = (.returned .ERROR, finished_destroying) ∧
      destroy_plant finished_destroying = (.returned .ERROR, finished_destroying)) ∧
    collect_task two_workers task_two = (.returned .ERROR, two_workers) :=
  ⟨(usage_errors_change_nothing true 9 finished_destroying worker_a task_two).1 (Or.inr rfl),
    (usage_errors_change_nothing true 9 two_workers worker_a task_two).2 (by decide)⟩

/-- C13: `init_plant` on an initialised plant returns `ERROR` and changes
nothing. On a plant that is not initialised, when the allocations succeed, it
returns `PLANTOK` and the new state has one station entry per given capacity,
entry `i` with the capacity `stations[i]` (as stored in the `size_t` field: the
value itself when it is not negative) and no workers at it;
`max_station_capacity` is the maximum of these capacities, `0` when there are
none; the worker and task tables are empty, both task counters are `0`,
`num_workers_to_come` is `n_workers` (as a `size_t`), no alarm is armed, the
plant is initialised and is not being destroyed. -/
theorem init_plant_contract (alloc : Bool) (p : Plant) (stations : List Int) (n_workers : Int) :
    (p.is_plant_initialized = true → init_plant alloc p stations n_workers = (.ERROR, p)) ∧
    (p.is_plant_initialized = false →
      (init_plant true p stations n_workers).1 = .PLANTOK ∧
      (init_plant true p stations n_workers).2.stations_ex.length = stations.length ∧
      (∀ (i : Nat) (c : Int), stations[i]? = some c →
        (init_plant true p stations n_workers).2.stations_ex[i]? =
          some { capacity := size_of_int c, num_workers := 0 } ∧
        (0 ≤ c → c < 2 ^ 64 → (size_of_int c : Int) = c)) ∧
      (init_plant true p stations n_workers).2.max_station_capacity =
        (stations.map size_of_int).foldl max 0 ∧
      (∀ c ∈ stations, size_of_int c ≤
        (init_plant true p stations n_workers).2.max_station_capacity) ∧
      (stations = [] → (init_plant true p stations n_workers).2.max_station_capacity = 0) ∧
      (stations ≠ [] → ∃ c ∈ stations,
        (init_plant true p stations n_workers).2.max_station_capacity = size_of_int c) ∧
      (init_plant true p stations n_workers).2.worker_ex_ptrs = [] ∧
      (init_plant true p stations n_workers).2.num_active_workers = 0 ∧
      (init_plant true p stations n_workers).2.task_ex_ptrs = [] ∧
      (init_plant true p stations n_workers).2.num_pending_tasks = 0 ∧
      (init_plant true p stations n_workers).2.num_in_progress_tasks = 0 ∧
      (init_plant true p stations n_workers).2.num_workers_to_come = size_of_int n_workers ∧
      (0 ≤ n_workers → n_workers < 2 ^ 64 → (size_of_int n_workers : Int) = n_workers) ∧
      (init_plant true p stations n_workers).2.next_alarm_time = 0 ∧
      (init_plant true p stations n_workers).2.is_plant_initialized = true ∧
      (init_plant true p stations n_workers).2.is_plant_being_destroyed = false) := by
  constructor
  · intro h
    simp [init_plant, h]
  · intro h
    have hq : init_plant true p stations n_workers = (.PLANTOK,
        { stations_ex := stations.map (fun c => { capacity := size_of_int c, num_workers := 0 })
          max_station_capacity :=
            max_capacity
              (stations.map (fun c => { capacity := size_of_int c, num_workers := 0 })) 0
          task_ex_ptrs := []
          size_tasks := 1
          num_pending_tasks := 0
          num_in_progress_tasks := 0
          worker_ex_ptrs := []
          num_active_workers := 0
          num_workers_to_come := size_of_int n_workers
          is_plant_initialized := true
          is_plant_being_destroyed := false
          next_alarm_time := 0 }) := by
      simp [init_plant, h]
    have hconv : ∀ c : Int, 0 ≤ c → c < 2 ^ 64 → (size_of_int c : Int) = c := by
      intro c h0 h1
      unfold size_of_int
      rw [Int.emod_eq_of_lt h0 h1]
      exact Int.toNat_of_nonneg h0
    have hmax : max_capacity
        (stations.map (fun c => ({ capacity := size_of_int c, num_workers := 0 } : station_ex_t)))
        0 = (stations.map size_of_int).foldl max 0 := by
      rw [max_capacity_eq, List.map_map]
      rfl
    rw [hq]
    simp only [hmax]
    refine ⟨trivial, by simp, ?_, trivial, ?_, ?_, ?_, trivial, trivial, trivial, trivial,
      trivial, trivial, hconv n_workers, trivial, trivial, trivial⟩
    · intro i c hc
      refine ⟨?_, hconv c⟩
      simp [List.getElem?_map, hc]
    · intro c hc
      exact foldl_max_ge (stations.map size_of_int) 0 (size_of_int c)
        (List.mem_map_of_mem size_of_int hc)
    · intro he
      rw [he]
      rfl
    · intro hne
      rcases foldl_max_mem (stations.map size_of_int) 0 with h1 | h1
      · cases stations with
        | nil => exact absurd rfl hne
        | cons c cs =>
          refine ⟨c, List.mem_cons_self c cs, ?_⟩
          have := foldl_max_ge ((c :: cs).map size_of_int) 0 (size_of_int c)
            (List.mem_map_of_mem size_of_int (List.mem_cons_self c cs))
          have h2 := foldl_max_le_of_zero ((c :: cs).map size_of_int) h1
          have h3 := h2 (size_of_int c) (List.mem_map_of_mem size_of_int (List.mem_cons_self c cs))
          omega
      · obtain ⟨c, hc, hce⟩ := List.mem_map.mp h1
        exact ⟨c, hc, hce.symm⟩

theorem init_plant_contract_witness :
    init_plant true two_workers [3] 1 = (.ERROR, two_workers) ∧
    (init_plant true plant0 [2, 5, 3] 4).1 = .PLANTOK ∧
    (init_plant true plant0 [2, 5, 3] 4).2.stations_ex[1]? =
      some { capacity := 5, num_workers := 0 } ∧
    (init_plant true plant0 [2, 5, 3] 4).2.max_station_capacity = 5 ∧
    (init_plant true plant0 [2, 5, 3] 4).2.num_workers_to_come = 4 :=
  ⟨(init_plant_contract true two_workers [3] 1).1 rfl,
    ((init_plant_contract true plant0 [2, 5, 3] 4).2 rfl).1,
    (((init_plant_contract true plant0 [2, 5, 3] 4).2 rfl).2.2.1 1 5 rfl).1,
    ((init_plant_contract true plant0 [2, 5, 3] 4).2 rfl).2.2.2.1,
    ((init_plant_contract true plant0 [2, 5, 3] 4).2 rfl).2.2.2.2.2.2.2.2.2.2.2.2.1⟩

/-! ### The waiter counts -/

theorem waiting_of_pos {ts : List task_ex_t} {j : Nat} (h : 0 < waiting_of ts j) :
    ∃ e, ts[j]? = some e ∧ 0 < e.num_waiting := by
  unfold waiting_of at h
  cases hj : ts[j]? with
  | none => rw [hj] at h; simp at h
  | some e => rw [hj] at h; exact ⟨e, rfl, h⟩

theorem waiting_of_some {ts : List task_ex_t} {j : Nat} {e : task_ex_t} (h : ts[j]? = some e) :
    waiting_of ts j = e.num_waiting := by
  unfold waiting_of
  rw [h]

theorem waiting_of_none {ts : List task_ex_t} {j : Nat} (h : ts[j]? = none) :
    waiting_of ts j = 0 := by
  unfold waiting_of
  rw [h]

theorem waiting_of_rel {R : task_ex_t → task_ex_t → Prop} {ts ts' : List task_ex_t}
    (h : TasksRel R ts ts') (hR : ∀ a b, R a b → b.num_waiting = a.num_waiting) (j : Nat) :
    waiting_of ts' j = waiting_of ts j := by
  cases hj : ts[j]? with
  | some e =>
    obtain ⟨e', he', r⟩ := h.2 j e hj
    rw [waiting_of_some hj, waiting_of_some he', hR e e' r]
  | none =>
    have h1 : ts.length ≤ j := List.getElem?_eq_none_iff.mp hj
    have h2 : ts'[j]? = none := List.getElem?_eq_none_iff.mpr (by rw [h.1]; exact h1)
    rw [waiting_of_none hj, waiting_of_none h2]

theorem waiting_of_set {ts : List task_ex_t} {i : Nat} {e : task_ex_t} (e' : task_ex_t)
    (h : ts[i]? = some e) (j : Nat) :
    waiting_of (ts.set i e') j = if j = i then e'.num_waiting else waiting_of ts j := by
  by_cases hji : j = i
  · subst hji
    rw [if_pos rfl, waiting_of_some (getElem?_set_same e' h)]
  · rw [if_neg hji]
    unfold waiting_of
    rw [List.getElem?_set_ne (fun e => hji e.symm)]

theorem waiting_of_update_at (ts : List task_ex_t) (k : Nat) (f : task_ex_t → task_ex_t)
    (hf : ∀ t, (f t).num_waiting = t.num_waiting) (j : Nat) :
    waiting_of (update_at ts k f) j = waiting_of ts j := by
  unfold update_at
  split
  · rename_i a ha
    rw [waiting_of_set _ ha]
    split
    · rename_i hjk
      subst hjk
      rw [hf, waiting_of_some ha]
    · rfl
  · rfl

theorem waiting_of_append (ts : List task_ex_t) (e : task_ex_t) (he : e.num_waiting = 0)
    (j : Nat) : waiting_of (ts ++ [e]) j = waiting_of ts j := by
  cases hj : ts[j]? with
  | some a => rw [waiting_of_some hj, waiting_of_some (getElem?_append_keep e hj)]
  | none =>
    rw [waiting_of_none hj]
    cases hj' : (ts ++ [e])[j]? with
    | none => rw [waiting_of_none hj']
    | some x =>
      rcases getElem?_append_cases hj' with h1 | ⟨-, h1⟩
      · rw [hj] at h1; cases h1
      · rw [waiting_of_some hj', h1, he]

theorem tick_plant_waiting (now : Int) (p : Plant) (j : Nat) :
    waiting_of (tick_plant now p).task_ex_ptrs j = waiting_of p.task_ex_ptrs j :=
  waiting_of_rel (tick_plant_tasks now p) (fun _ _ r => (keeps_of_tick_task r).2.1) j

theorem do_work_waiting (now : Int) (v : Int) (p : Plant) (k T s i : Nat) (j : Nat) :
    waiting_of (do_work now v p k T s i).task_ex_ptrs j = waiting_of p.task_ex_ptrs j := by
  have h1 : waiting_of (update_at p.task_ex_ptrs T
      (fun t => { t with task := { t.task with results := t.task.results.set i (some v) } })) j
      = waiting_of p.task_ex_ptrs j := by
    apply waiting_of_update_at
    intro t
    rfl
  unfold do_work
  simp only
  split
  · rw [tick_plant_waiting]
    exact h1
  · split
    · rw [tick_plant_waiting]
      simp only
      rw [waiting_of_update_at]
      · exact h1
      · intro t
        rfl
    · rw [tick_plant_waiting]
      exact h1

theorem step_waiting {p q : Plant} (h : Step p q) (j : Nat) :
    waiting_of q.task_ex_ptrs j = waiting_of p.task_ex_ptrs j := by
  cases h with
  | add_worker alloc now _ w =>
    unfold add_worker
    split
    · rfl
    · split
      · rfl
      · split
        · rfl
        · rename_i q hq
          have e : q.task_ex_ptrs = p.task_ex_ptrs := by
            unfold worker_ex_ptrs_append at hq
            split at hq
            · cases hq; rfl
            · cases hq
          rw [← e]
          exact tick_plant_waiting now q j
  | add_task alloc now _ t =>
    unfold add_task
    split
    · rfl
    · split
      · rfl
      · split
        · rfl
        · rename_i q hq
          have e : waiting_of q.task_ex_ptrs j = waiting_of p.task_ex_ptrs j := by
            unfold task_ex_ptrs_append at hq
            split at hq
            · cases hq
              exact waiting_of_append _ _ rfl j
            · cases hq
          rw [← e]
          exact tick_plant_waiting now q j
  | alarm now _ hn =>
    unfold alarm_timeout
    split
    · exact tick_plant_waiting now _ j
    · rfl
  | do_work now v _ k w hw hst =>
    unfold do_work_pthread_wrap
    rw [hw]
    exact do_work_waiting now v p k _ _ _ j

/-! ### The invariant under the moves of the callers -/

theorem inv_set_waiting {p : Plant} (h : Inv p) {idx : Nat} {e : task_ex_t}
    (he : p.task_ex_ptrs[idx]? = some e) (n : Nat) :
    Inv { p with task_ex_ptrs := p.task_ex_ptrs.set idx { e with num_waiting := n } } where
  occ_le := h.occ_le
  occ_count := h.occ_count
  working := by
    intro w hw hst
    obtain ⟨st, t, h1, h2, h3, h4⟩ := h.working w hw hst
    by_cases hi : w.work_args.t_ex_ptr = idx
    · rw [hi, he] at h2
      cases h2
      exact ⟨st, { e with num_waiting := n }, h1, by rw [hi]; exact getElem?_set_same _ he,
        h3, h4⟩
    · refine ⟨st, t, h1, ?_, h3, h4⟩
      show (p.task_ex_ptrs.set idx _)[w.work_args.t_ex_ptr]? = some t
      rw [List.getElem?_set_ne (fun e => hi e.symm)]
      exact h2
  same_task := h.same_task
  skipped := by
    intro t ht hs
    rcases List.mem_or_eq_of_mem_set ht with h1 | h1
    · exact h.skipped t h1 hs
    · subst h1
      exact h.skipped e (List.getElem?_mem he) hs
  pending := by
    have := countP_set_of_getElem? is_pending { e with num_waiting := n } he
    have e1 : is_pending { e with num_waiting := n } = is_pending e := rfl
    rw [e1] at this
    have h0 := h.pending
    show p.num_pending_tasks = (p.task_ex_ptrs.set idx _).countP is_pending
    omega
  in_progress := by
    have := countP_set_of_getElem? is_in_progress { e with num_waiting := n } he
    have e1 : is_in_progress { e with num_waiting := n } = is_in_progress e := rfl
    rw [e1] at this
    have h0 := h.in_progress
    show p.num_in_progress_tasks = (p.task_ex_ptrs.set idx _).countP is_in_progress
    omega
  staffed := by
    intro i t hi hst hc
    rcases getElem?_set_cases hi with ⟨h1, h2⟩ | ⟨-, h2⟩
    · subst h1 h2
      exact h.staffed i e he hst hc
    · exact h.staffed i t h2 hst hc

theorem inv_flags {p : Plant} (h : Inv p) (a b : Bool) :
    Inv { p with is_plant_initialized := a, is_plant_being_destroyed := b } :=
  inv_of_fields h rfl rfl (List.Perm.refl _) rfl rfl

theorem collect_wait_cases {p q : Plant} {idx : Nat} {o : collect_outcome}
    (h : collect_wait p idx = (o, q)) :
    ((∃ ret, o = .returned ret) ∧ q = p) ∨
    (o = .blocked idx ∧ ∃ e, p.task_ex_ptrs[idx]? = some e ∧ e.status ≠ .FINISHED ∧
      q = { p with
        task_ex_ptrs := p.task_ex_ptrs.set idx { e with num_waiting := e.num_waiting + 1 } }) := by
  unfold collect_wait at h
  split at h
  · cases h
    exact Or.inl ⟨⟨_, rfl⟩, rfl⟩
  · rename_i e he
    split at h
    · rename_i hst
      cases h
      exact Or.inr ⟨rfl, e, he, hst, rfl⟩
    · cases h
      exact Or.inl ⟨⟨_, rfl⟩, rfl⟩

theorem collect_task_cases {p q : Plant} {t : task_t} {o : collect_outcome}
    (h : collect_task p t = (o, q)) :
    ((∃ ret, o = .returned ret) ∧ q = p) ∨
    (p.is_plant_initialized = true ∧ p.is_plant_being_destroyed = false ∧
      ∃ idx e, o = .blocked idx ∧ p.task_ex_ptrs[idx]? = some e ∧ e.status ≠ .FINISHED ∧
      q = { p with
        task_ex_ptrs := p.task_ex_ptrs.set idx { e with num_waiting := e.num_waiting + 1 } }) := by
  unfold collect_task at h
  split at h
  · cases h
    exact Or.inl ⟨⟨_, rfl⟩, rfl⟩
  · rename_i hg
    split at h
    · cases h
      exact Or.inl ⟨⟨_, rfl⟩, rfl⟩
    · rename_i idx hidx
      rcases collect_wait_cases h with h1 | ⟨h1, e, h2, h3, h4⟩
      · exact Or.inl h1
      · refine Or.inr ⟨?_, ?_, idx, e, h1, h2, h3, h4⟩
        · cases hi : p.is_plant_initialized with
          | true => rfl
          | false => simp [hi] at hg
        · cases hi : p.is_plant_being_destroyed with
          | false => rfl
          | true => simp [hi] at hg

theorem plant_eq_of_tasks {p : Plant} {ts : List task_ex_t} (h : ts = p.task_ex_ptrs) :
    { p with task_ex_ptrs := ts } = p := by
  subst h
  rfl

theorem collect_wakeup_cases {p q : Plant} {idx : Nat} {o : collect_outcome} {e : task_ex_t}
    (he : p.task_ex_ptrs[idx]? = some e) (hpos : 0 < e.num_waiting)
    (h : collect_wakeup p idx = (o, q)) :
    ((∃ ret, o = .returned ret) ∧
      q = { p with
        task_ex_ptrs := p.task_ex_ptrs.set idx { e with num_waiting := e.num_waiting - 1 } }) ∨
    (o = .blocked idx ∧ q = p) := by
  unfold collect_wakeup at h
  rw [update_at_eq_set _ he] at h
  have hd : size_dec e.num_waiting = e.num_waiting - 1 := by
    unfold size_dec
    rw [if_neg (by omega)]
  simp only [hd] at h
  rcases collect_wait_cases h with ⟨h1, h2⟩ | ⟨h1, e', h2, -, h3⟩
  · exact Or.inl ⟨h1, h2⟩
  · right
    refine ⟨h1, ?_⟩
    rw [h3]
    have h4 : (p.task_ex_ptrs.set idx { e with num_waiting := e.num_waiting - 1 })[idx]? =
        some { e with num_waiting := e.num_waiting - 1 } := getElem?_set_same _ he
    simp only at h2
    rw [h4] at h2
    cases h2
    simp only [List.set_set]
    apply plant_eq_of_tasks
    have h5 : e.num_waiting - 1 + 1 = e.num_waiting := by omega
    rw [h5]
    exact set_same he

/-! ### `destroy_plant` -/

theorem find_first_drop_none {ts : List task_ex_t} {i0 : Nat}
    (h : destroy_scan ts i0 = none) (j : Nat) (hj : i0 ≤ j) : waiting_of ts j = 0 := by
  unfold destroy_scan at h
  have h1 : find_first (fun e => decide (e.num_waiting > 0)) (ts.drop i0) = none := by
    cases hf : find_first (fun e => decide (e.num_waiting > 0)) (ts.drop i0) with
    | none => rfl
    | some k => rw [hf] at h; cases h
  cases hj' : ts[j]? with
  | none => exact waiting_of_none hj'
  | some e =>
    rw [waiting_of_some hj']
    have hm : e ∈ ts.drop i0 := by
      have : (ts.drop i0)[j - i0]? = some e := by
        rw [List.getElem?_drop]
        have : i0 + (j - i0) = j := by omega
        rw [this]
        exact hj'
      exact List.getElem?_mem this
    have := find_first_none h1 e hm
    simpa using this

theorem find_first_drop_some {ts : List task_ex_t} {i0 i : Nat}
    (h : destroy_scan ts i0 = some i) :
    i0 ≤ i ∧ ∀ j, i0 ≤ j → j < i → waiting_of ts j = 0 := by
  unfold destroy_scan at h
  cases hf : find_first (fun e => decide (e.num_waiting > 0)) (ts.drop i0) with
  | none => rw [hf] at h; cases h
  | some k =>
    rw [hf] at h
    simp only [Option.map_some', Option.some.injEq] at h
    subst h
    obtain ⟨a, -, -, h3⟩ := find_first_some hf
    refine ⟨by omega, ?_⟩
    intro j hj1 hj2
    cases hj' : ts[j]? with
    | none => exact waiting_of_none hj'
    | some e =>
      rw [waiting_of_some hj']
      have : (ts.drop i0)[j - i0]? = some e := by
        rw [List.getElem?_drop]
        have : i0 + (j - i0) = j := by omega
        rw [this]
        exact hj'
      have := h3 (j - i0) e (by omega) this
      simpa using this

theorem destroy_resume_tasks_cases {p q : Plant} {i0 : Nat} {o : destroy_outcome}
    (h : destroy_resume_tasks p i0 = (o, q)) :
    (∃ i, o = .waits_none_waiting i ∧ q = p ∧ i0 ≤ i ∧
      ∀ j, i0 ≤ j → j < i → waiting_of p.task_ex_ptrs j = 0) ∨
    (o = .returned .PLANTOK ∧ q = destroy_free p ∧
      ∀ j, i0 ≤ j → waiting_of p.task_ex_ptrs j = 0) := by
  unfold destroy_resume_tasks at h
  split at h
  · rename_i i hi
    cases h
    obtain ⟨h1, h2⟩ := find_first_drop_some hi
    exact Or.inl ⟨i, rfl, rfl, h1, h2⟩
  · rename_i hi
    cases h
    exact Or.inr ⟨rfl, rfl, find_first_drop_none hi⟩

theorem destroy_resume_idle_cases {p q : Plant} {o : destroy_outcome}
    (h : destroy_resume_idle p = (o, q)) :
    (o = .waits_plant_idle ∧ q = p) ∨
    (p.num_pending_tasks = 0 ∧ p.num_in_progress_tasks = 0 ∧
      destroy_resume_tasks p 0 = (o, q)) := by
  unfold destroy_resume_idle at h
  split at h
  · cases h
    exact Or.inl ⟨rfl, rfl⟩
  · rename_i hc
    exact Or.inr ⟨by omega, by omega, h⟩

theorem destroy_plant_cases {p q : Plant} {o : destroy_outcome}
    (h : destroy_plant p = (o, q)) :
    (o = .returned .ERROR ∧ q = p) ∨
    (p.is_plant_initialized = true ∧ p.is_plant_being_destroyed = false ∧
      destroy_resume_idle { p with is_plant_being_destroyed := true } = (o, q)) := by
  unfold destroy_plant at h
  split at h
  · cases h
    exact Or.inl ⟨rfl, rfl⟩
  · rename_i hg
    refine Or.inr ⟨?_, ?_, h⟩
    · cases hi : p.is_plant_initialized with
      | true => rfl
      | false => simp [hi] at hg
    · cases hi : p.is_plant_being_destroyed with
      | false => rfl
      | true => simp [hi] at hg

theorem step_idle {p q : Plant} (h : Inv p) (hs : Step p q) (hnp : p.num_pending_tasks = 0)
    (hnip : p.num_in_progress_tasks = 0)
    (hf : p.is_plant_initialized = false ∨ p.is_plant_being_destroyed = true) :
    q.task_ex_ptrs = p.task_ex_ptrs ∧ q.num_pending_tasks = 0 ∧
      q.num_in_progress_tasks = 0 := by
  have hq := inv_step h hs
  have hg : (!p.is_plant_initialized || p.is_plant_being_destroyed) = true := by
    cases hf with
    | inl h => simp [h]
    | inr h => simp [h]
  have key : q.task_ex_ptrs = p.task_ex_ptrs → q.task_ex_ptrs = p.task_ex_ptrs ∧
      q.num_pending_tasks = 0 ∧ q.num_in_progress_tasks = 0 := by
    intro e
    refine ⟨e, ?_, ?_⟩
    · rw [hq.pending, e, ← h.pending, hnp]
    · rw [hq.in_progress, e, ← h.in_progress, hnip]
  cases hs with
  | add_worker alloc now _ w =>
    apply key
    simp [add_worker, hg]
  | add_task alloc now _ t =>
    apply key
    simp [add_task, hg]
  | alarm now _ hn =>
    apply key
    unfold alarm_timeout
    split
    · have hr := tick_plant_tasks now { p with next_alarm_time := 0 }
      apply List.ext_getElem?
      intro i
      cases hi : p.task_ex_ptrs[i]? with
      | none =>
        have h1 : p.task_ex_ptrs.length ≤ i := List.getElem?_eq_none_iff.mp hi
        exact List.getElem?_eq_none_iff.mpr (by rw [hr.1]; exact h1)
      | some t =>
        obtain ⟨t', ht', r⟩ := hr.2 i t hi
        have hnp' : ¬ t.status = .PENDING := by
          intro hp
          have := countP_pos_of_getElem? (p := is_pending) hi (by simp [is_pending, hp])
          have h0 := h.pending
          omega
        rcases r with r | ⟨hp, -⟩ | ⟨hp, -⟩
        · rw [ht', r]
        · exact absurd hp hnp'
        · exact absurd hp hnp'
    · rfl
  | do_work now v _ k w hw hst =>
    exfalso
    obtain ⟨st, t, -, h2, h3, -⟩ := h.working w (List.getElem?_mem hw) hst
    have := countP_pos_of_getElem? (p := is_in_progress) h2 (by simp [is_in_progress, h3])
    have h0 := h.in_progress
    omega

theorem init_plant_contract_aux (p : Plant) (stations : List Int) (n_workers : Int)
    (h : p.is_plant_initialized = false) :
    (init_plant true p stations n_workers).2.task_ex_ptrs = [] ∧
    (init_plant true p stations n_workers).2.is_plant_initialized = true := by
  simp [init_plant, h]

/-! ### The invariant of the plant with its callers -/

theorem sleepers_nil_of_counted {l : List Nat} {ts : List task_ex_t}
    (hc : ∀ j, l.count j = waiting_of ts j) (h0 : ∀ j, waiting_of ts j = 0) : l = [] := by
  cases l with
  | nil => rfl
  | cons a l =>
    have h1 := hc a
    rw [h0 a, List.count_cons_self] at h1
    omega

theorem sys_inv_destroy_tasks {s : Sys} {o : destroy_outcome} {q : Plant} {i0 : Nat}
    (hinv : Inv s.plant) (hc : ∀ j, s.sleepers.count j = waiting_of s.plant.task_ex_ptrs j)
    (hi : s.plant.is_plant_initialized = true) (hd : s.plant.is_plant_being_destroyed = true)
    (hnp : s.plant.num_pending_tasks = 0) (hnip : s.plant.num_in_progress_tasks = 0)
    (h0 : ∀ j, j < i0 → waiting_of s.plant.task_ex_ptrs j = 0)
    (h : destroy_resume_tasks s.plant i0 = (o, q)) :
    SysInv { s with plant := q, destroyer := pc_of o } := by
  rcases destroy_resume_tasks_cases h with ⟨i, rfl, rfl, h1, h2⟩ | ⟨rfl, rfl, h2⟩
  · refine ⟨hinv, hc, ?_, ?_, ?_⟩
    · intro hf
      rw [hi] at hf
      cases hf
    · intro _
      exact ⟨hi, hd⟩
    · intro i' hi'
      have e : i = i' := by
        simp only [pc_of] at hi'
        cases hi'
        rfl
      subst e
      refine ⟨hnp, hnip, ?_⟩
      intro j hj
      by_cases hj0 : j < i0
      · exact h0 j hj0
      · exact h2 j (by omega) hj
  · have hall : ∀ j, waiting_of s.plant.task_ex_ptrs j = 0 := by
      intro j
      by_cases hj0 : j < i0
      · exact h0 j hj0
      · exact h2 j (by omega)
    have hs : s.sleepers = [] := sleepers_nil_of_counted hc hall
    refine ⟨inv_flags hinv false false, hc, ?_, ?_, ?_⟩
    · intro _
      exact ⟨hs, rfl⟩
    · intro hne
      exact absurd rfl hne
    · intro i' hi'
      simp only [pc_of] at hi'
      cases hi'

theorem sys_inv_destroy_idle {s : Sys} {o : destroy_outcome} {q : Plant}
    (hinv : Inv s.plant) (hc : ∀ j, s.sleepers.count j = waiting_of s.plant.task_ex_ptrs j)
    (hi : s.plant.is_plant_initialized = true) (hd : s.plant.is_plant_being_destroyed = true)
    (h : destroy_resume_idle s.plant = (o, q)) :
    SysInv { s with plant := q, destroyer := pc_of o } := by
  rcases destroy_resume_idle_cases h with ⟨rfl, rfl⟩ | ⟨h1, h2, h3⟩
  · refine ⟨hinv, hc, ?_, ?_, ?_⟩
    · intro hf
      rw [hi] at hf
      cases hf
    · intro _
      exact ⟨hi, hd⟩
    · intro i' hi'
      simp only [pc_of] at hi'
      cases hi'
  · exact sys_inv_destroy_tasks hinv hc hi hd h1 h2 (fun j hj => absurd hj (Nat.not_lt_zero j)) h3

theorem sys_inv_step {s s' : Sys} (h : SysInv s) (hs : SysStep s s') : SysInv s' := by
  cases hs with
  | plant q hq =>
    obtain ⟨f1, f2⟩ := step_flags hq
    refine ⟨inv_step h.inv hq, ?_, ?_, ?_, ?_⟩
    · intro j
      show s.sleepers.count j = waiting_of q.task_ex_ptrs j
      rw [step_waiting hq j]
      exact h.counted j
    · intro hf
      exact h.quiet (by rw [← f1]; exact hf)
    · intro hne
      obtain ⟨a, b⟩ := h.destroying hne
      exact ⟨by rw [← a]; exact f1, by rw [← b]; exact f2⟩
    · intro i hi
      obtain ⟨a, b, c⟩ := h.scanned i hi
      obtain ⟨-, hd⟩ := h.destroying (by rw [hi]; intro e; cases e)
      obtain ⟨e1, e2, e3⟩ := step_idle h.inv hq a b (Or.inr hd)
      refine ⟨e2, e3, ?_⟩
      intro j hj
      show waiting_of q.task_ex_ptrs j = 0
      rw [e1]
      exact c j hj
  | collect_return t ret q hq =>
    rcases collect_task_cases hq with ⟨-, rfl⟩ | ⟨-, -, idx, e, h1, -⟩
    · exact h
    · cases h1
  | collect_sleep t idx q hq =>
    rcases collect_task_cases hq with ⟨⟨ret, h1⟩, -⟩ | ⟨hi, hd, idx', e, h1, he, -, rfl⟩
    · cases h1
    · cases h1
      have hidle : s.destroyer = .idle := by
        by_contra hne
        have := (h.destroying hne).2
        rw [hd] at this
        cases this
      refine ⟨inv_set_waiting h.inv he _, ?_, ?_, ?_, ?_⟩
      · intro j
        show (idx :: s.sleepers).count j = waiting_of (s.plant.task_ex_ptrs.set idx _) j
        rw [waiting_of_set _ he, List.count_cons, h.counted j]
        by_cases hj : j = idx
        · subst hj
          simp [waiting_of_some he]
        · have : ¬ (idx == j) = true := by simpa using fun e => hj e.symm
          simp [hj, this]
      · intro hf
        have : s.plant.is_plant_initialized = false := hf
        rw [hi] at this
        cases this
      · intro hne
        exact absurd hidle hne
      · intro i hi'
        have : s.destroyer = .wait_none_waiting i := hi'
        rw [hidle] at this
        cases this
  | wake_return idx ret q hmem hq =>
    have hpos : 0 < waiting_of s.plant.task_ex_ptrs idx := by
      rw [← h.counted idx]
      exact List.count_pos_iff.mpr hmem
    obtain ⟨e, he, hep⟩ := waiting_of_pos hpos
    rcases collect_wakeup_cases he hep hq with ⟨-, rfl⟩ | ⟨h1, -⟩
    · refine ⟨inv_set_waiting h.inv he _, ?_, ?_, ?_, ?_⟩
      · intro j
        show (s.sleepers.erase idx).count j = waiting_of (s.plant.task_ex_ptrs.set idx _) j
        rw [waiting_of_set _ he, List.count_erase, h.counted j]
        by_cases hj : j = idx
        · subst hj
          simp [waiting_of_some he]
        · have : ¬ (idx == j) = true := by simpa using fun e => hj e.symm
          simp [hj, this]
      · intro hf
        have := (h.quiet hf).1
        rw [this] at hmem
        cases hmem
      · exact h.destroying
      · intro i hi
        obtain ⟨a, b, c⟩ := h.scanned i hi
        refine ⟨a, b, ?_⟩
        intro j hj
        show waiting_of (s.plant.task_ex_ptrs.set idx _) j = 0
        rw [waiting_of_set _ he]
        split
        · rename_i hji
          subst hji
          have := c j hj
          rw [waiting_of_some he] at this
          show e.num_waiting - 1 = 0
          omega
        · exact c j hj
    · cases h1
  | wake_sleep idx q hmem hq =>
    have hpos : 0 < waiting_of s.plant.task_ex_ptrs idx := by
      rw [← h.counted idx]
      exact List.count_pos_iff.mpr hmem
    obtain ⟨e, he, hep⟩ := waiting_of_pos hpos
    rcases collect_wakeup_cases he hep hq with ⟨⟨ret, h1⟩, -⟩ | ⟨-, rfl⟩
    · cases h1
    · exact h
  | destroy_call o q hidle hq =>
    rcases destroy_plant_cases hq with ⟨rfl, rfl⟩ | ⟨hi, hd, h1⟩
    · refine ⟨h.inv, h.counted, ?_, ?_, ?_⟩
      · intro hf
        exact ⟨(h.quiet hf).1, rfl⟩
      · intro hne
        exact absurd rfl hne
      · intro i hi'
        simp only [pc_of] at hi'
        cases hi'
    · exact sys_inv_destroy_idle
        (s := { s with plant := { s.plant with is_plant_being_destroyed := true } })
        (inv_of_fields h.inv rfl rfl (List.Perm.refl _) rfl rfl) h.counted hi rfl h1
  | destroy_rejected q hq =>
    rcases destroy_plant_cases hq with ⟨-, rfl⟩ | ⟨-, -, h1⟩
    · exact h
    · exfalso
      rcases destroy_resume_idle_cases h1 with ⟨h2, -⟩ | ⟨-, -, h3⟩
      · cases h2
      · rcases destroy_resume_tasks_cases h3 with ⟨i, h4, -⟩ | ⟨h4, -⟩
        · cases h4
        · cases h4
  | destroy_wake_idle o q hpc hq =>
    obtain ⟨hi, hd⟩ := h.destroying (by rw [hpc]; intro e; cases e)
    exact sys_inv_destroy_idle h.inv h.counted hi hd hq
  | destroy_wake_task i o q hpc hq =>
    obtain ⟨hi, hd⟩ := h.destroying (by rw [hpc]; intro e; cases e)
    obtain ⟨a, b, c⟩ := h.scanned i hpc
    exact sys_inv_destroy_tasks h.inv h.counted hi hd a b c hq
  | init alloc stations n_workers =>
    cases hi : s.plant.is_plant_initialized with
    | true =>
      have e : (init_plant alloc s.plant stations n_workers).2 = s.plant := by
        simp [init_plant, hi]
      rw [e]
      exact h
    | false =>
      cases alloc with
      | false =>
        have e : (init_plant false s.plant stations n_workers).2 = s.plant := by
          simp [init_plant, hi]
        rw [e]
        exact h
      | true =>
        obtain ⟨hs, hpc⟩ := h.quiet hi
        have hq := init_plant_contract_aux s.plant stations n_workers hi
        refine ⟨inv_init_plant s.plant stations n_workers hi, ?_, ?_, ?_, ?_⟩
        · intro j
          show s.sleepers.count j = waiting_of (init_plant true s.plant stations n_workers).2.task_ex_ptrs j
          rw [hs, hq.1]
          rfl
        · intro hf
          have : (init_plant true s.plant stations n_workers).2.is_plant_initialized = false := hf
          rw [hq.2] at this
          cases this
        · intro hne
          exact absurd hpc hne
        · intro i hi'
          have : s.destroyer = .wait_none_waiting i := hi'
          rw [hpc] at this
          cases this

theorem sys_inv_reachable {s : Sys} (h : SysReachable s) : SysInv s := by
  induction h with
  | init p0 stations n h0 =>
    have hq := init_plant_contract_aux p0 stations n h0
    refine ⟨inv_init_plant p0 stations n h0, ?_, ?_, ?_, ?_⟩
    · intro j
      show ([] : List Nat).count j = waiting_of (init_plant true p0 stations n).2.task_ex_ptrs j
      rw [hq.1]
      rfl
    · intro _
      exact ⟨rfl, rfl⟩
    · intro hne
      exact absurd rfl hne
    · intro i hi
      cases hi
  | step s s' _ hs ih => exact sys_inv_step ih hs

theorem resume_tasks_frees {p q : Plant} {l : List Nat} {o : destroy_outcome} {i0 : Nat}
    (hc : ∀ j, l.count j = waiting_of p.task_ex_ptrs j) (hi : p.is_plant_initialized = true)
    (hnp : p.num_pending_tasks = 0) (hnip : p.num_in_progress_tasks = 0)
    (h0 : ∀ j, j < i0 → waiting_of p.task_ex_ptrs j = 0)
    (h : destroy_resume_tasks p i0 = (o, q)) (h2 : q.is_plant_initialized = false) :
    (p.num_pending_tasks = 0 ∧ p.num_in_progress_tasks = 0 ∧
      (∀ e ∈ p.task_ex_ptrs, e.num_waiting = 0) ∧ l = []) ∧
    q = destroy_free p ∧ o = .returned .PLANTOK := by
  rcases destroy_resume_tasks_cases h with ⟨i, -, rfl, -, -⟩ | ⟨rfl, rfl, h3⟩
  · rw [hi] at h2
    cases h2
  · have hall : ∀ j, waiting_of p.task_ex_ptrs j = 0 := by
      intro j
      by_cases hj0 : j < i0
      · exact h0 j hj0
      · exact h3 j (by omega)
    refine ⟨⟨hnp, hnip, ?_, sleepers_nil_of_counted hc hall⟩, rfl, rfl⟩
    intro e he
    obtain ⟨j, hj⟩ := List.getElem?_of_mem he
    rw [← waiting_of_some hj]
    exact hall j

theorem resume_idle_frees {p q : Plant} {l : List Nat} {o : destroy_outcome}
    (hc : ∀ j, l.count j = waiting_of p.task_ex_ptrs j) (hi : p.is_plant_initialized = true)
    (h : destroy_resume_idle p = (o, q)) (h2 : q.is_plant_initialized = false) :
    (p.num_pending_tasks = 0 ∧ p.num_in_progress_tasks = 0 ∧
      (∀ e ∈ p.task_ex_ptrs, e.num_waiting = 0) ∧ l = []) ∧
    q = destroy_free p ∧ o = .returned .PLANTOK := by
  rcases destroy_resume_idle_cases h with ⟨-, rfl⟩ | ⟨h1, h3, h4⟩
  · rw [hi] at h2
    cases h2
  · exact resume_tasks_frees hc hi h1 h3 (fun j hj => absurd hj (Nat.not_lt_zero j)) h4 h2

/-- C12: in every run of the plant with its callers, a critical section that
clears `is_plant_initialized` is the last part of `destroy_plant`, the one that
frees the tables, and it is entered only in a state where
`num_pending_tasks = 0`, `num_in_progress_tasks = 0` and every task entry has
`num_waiting = 0`; then no call of `collect_task` is asleep on any task entry,
so no entry is freed while a caller counted in its `num_waiting` is still to
read it. -/
theorem destroy_frees_only_drained_plant (s s' : Sys) (hr : SysReachable s)
    (hs : SysStep s s') (h1 : s.plant.is_plant_initialized = true)
    (h2 : s'.plant.is_plant_initialized = false) :
    drained s ∧ s' = { plant := destroy_free s.plant, sleepers := [], destroyer := .idle } := by
  have h := sys_inv_reachable hr
  cases hs with
  | plant q hq =>
    have := (step_flags hq).1
    rw [h1] at this
    have h3 : q.is_plant_initialized = false := h2
    rw [this] at h3
    cases h3
  | collect_return t ret q hq =>
    have h3 : q.is_plant_initialized = false := h2
    rcases collect_task_cases hq with ⟨-, rfl⟩ | ⟨-, -, idx, e, -, -, -, rfl⟩
    · rw [h1] at h3
      cases h3
    · have h4 : s.plant.is_plant_initialized = false := h3
      rw [h1] at h4
      cases h4
  | collect_sleep t idx q hq =>
    have h3 : q.is_plant_initialized = false := h2
    rcases collect_task_cases hq with ⟨-, rfl⟩ | ⟨-, -, idx, e, -, -, -, rfl⟩
    · rw [h1] at h3
      cases h3
    · have h4 : s.plant.is_plant_initialized = false := h3
      rw [h1] at h4
      cases h4
  | wake_return idx ret q hmem hq =>
    have h3 : q.is_plant_initialized = false := h2
    have hpos : 0 < waiting_of s.plant.task_ex_ptrs idx := by
      rw [← h.counted idx]
      exact List.count_pos_iff.mpr hmem
    obtain ⟨e, he, hep⟩ := waiting_of_pos hpos
    rcases collect_wakeup_cases he hep hq with ⟨-, rfl⟩ | ⟨-, rfl⟩
    · have h4 : s.plant.is_plant_initialized = false := h3
      rw [h1] at h4
      cases h4
    · rw [h1] at h3
      cases h3
  | wake_sleep idx q hmem hq =>
    have h3 : q.is_plant_initialized = false := h2
    have hpos : 0 < waiting_of s.plant.task_ex_ptrs idx := by
      rw [← h.counted idx]
      exact List.count_pos_iff.mpr hmem
    obtain ⟨e, he, hep⟩ := waiting_of_pos hpos
    rcases collect_wakeup_cases he hep hq with ⟨-, rfl⟩ | ⟨-, rfl⟩
    · have h4 : s.plant.is_plant_initialized = false := h3
      rw [h1] at h4
      cases h4
    · rw [h1] at h3
      cases h3
  | destroy_call o q hidle hq =>
    have h3 : q.is_plant_initialized = false := h2
    rcases destroy_plant_cases hq with ⟨-, rfl⟩ | ⟨-, -, h4⟩
    · rw [h1] at h3
      cases h3
    · obtain ⟨⟨a, b, c, d⟩, rfl, rfl⟩ :=
        resume_idle_frees (p := { s.plant with is_plant_being_destroyed := true }) h.counted h1
          h4 h3
      refine ⟨⟨a, b, c, d⟩, ?_⟩
      have d' : s.sleepers = [] := d
      cases s
      simp only at d'
      subst d'
      rfl
  | destroy_rejected q hq =>
    have h3 : q.is_plant_initialized = false := h2
    rcases destroy_plant_cases hq with ⟨-, rfl⟩ | ⟨-, -, h4⟩
    · rw [h1] at h3
      cases h3
    · obtain ⟨-, -, h5⟩ :=
        resume_idle_frees (p := { s.plant with is_plant_being_destroyed := true }) h.counted h1
          h4 h3
      cases h5
  | destroy_wake_idle o q hpc hq =>
    have h3 : q.is_plant_initialized = false := h2
    obtain ⟨⟨a, b, c, d⟩, rfl, rfl⟩ := resume_idle_frees h.counted h1 hq h3
    refine ⟨⟨a, b, c, d⟩, ?_⟩
    cases s
    simp only at d
    subst d
    rfl
  | destroy_wake_task i o q hpc hq =>
    have h3 : q.is_plant_initialized = false := h2
    obtain ⟨a0, b0, c0⟩ := h.scanned i hpc
    obtain ⟨⟨a, b, c, d⟩, rfl, rfl⟩ := resume_tasks_frees h.counted h1 a0 b0 c0 hq h3
    refine ⟨⟨a, b, c, d⟩, ?_⟩
    cases s
    simp only at d
    subst d
    rfl
  | init alloc stations n_workers =>
    have h3 : (init_plant alloc s.plant stations n_workers).2.is_plant_initialized = false := h2
    simp [init_plant, h1] at h3

theorem sys_at_work_reachable : SysReachable sys_at_work :=
  SysReachable.step _ _
    (SysReachable.step _ _
      (SysReachable.step _ _ (SysReachable.init plant0 [2] 2 rfl)
        (SysStep.plant
          { plant := (init_plant true plant0 [2] 2).2, sleepers := [], destroyer := .idle } _
          (Step.add_worker true 0 _ worker_a)))
      (SysStep.plant
        { plant := (add_worker true 0 (init_plant true plant0 [2] 2).2 worker_a).2,
          sleepers := [], destroyer := .idle } _
        (Step.add_worker true 0 _ worker_b)))
    (SysStep.plant { plant := two_workers, sleepers := [], destroyer := .idle } _
      (Step.add_task true 0 _ task_two))

set_option maxRecDepth 10000 in
theorem sys_collected_reachable : SysReachable sys_collected :=
  SysReachable.step sys_scanning _
    (SysReachable.step sys_both_done _
      (SysReachable.step
        { sys_destroying with plant := do_work_pthread_wrap 5 42 sys_destroying.plant 0 } _
        (SysReachable.step sys_destroying _
          (SysReachable.step sys_collecting _
            (SysReachable.step sys_at_work _ sys_at_work_reachable
              (SysStep.collect_sleep sys_at_work task_two 0 _ (by decide)))
            (SysStep.destroy_call sys_collecting _ _ rfl rfl))
          (SysStep.plant sys_destroying _
            (Step.do_work 5 42 sys_destroying.plant 0
              { worker := worker_a, id := 1, status := .WORKING,
                work_args := { t_ex_ptr := 0, station_index := 0, i := 1 } } (by decide) rfl)))
        (SysStep.plant
          { sys_destroying with plant := do_work_pthread_wrap 5 42 sys_destroying.plant 0 } _
          (Step.do_work 6 43 (do_work_pthread_wrap 5 42 sys_destroying.plant 0) 1
            { worker := worker_b, id := 2, status := .WORKING,
              work_args := { t_ex_ptr := 0, station_index := 0, i := 0 } } (by decide) rfl)))
      (SysStep.destroy_wake_idle sys_both_done _ _ (by decide) rfl))
    (SysStep.wake_return sys_scanning 0 .PLANTOK _ (by decide) (by decide))

set_option maxRecDepth 10000 in
theorem destroy_frees_only_drained_plant_witness :
    drained sys_collected ∧
      sys_freed = { plant := destroy_free sys_collected.plant, sleepers := [], destroyer := .idle } :=
  destroy_frees_only_drained_plant sys_collected sys_freed sys_collected_reachable
    (SysStep.destroy_wake_task sys_collected 0 _ _ (by decide) rfl) (by decide) (by decide)

theorem expire_workers_tasks (now : Int) (p : Plant) :
    (expire_workers now p).task_ex_ptrs = p.task_ex_ptrs ∧
      (expire_workers now p).num_pending_tasks = p.num_pending_tasks := ⟨rfl, rfl⟩

theorem count_available_eq (now : Int) (n : Nat) (ws : List worker_ex_t) :
    count_available now n ws =
      ((ws.take n).filter
        (fun w => decide (w.status = .IDLE) && decide (w.worker.start ≤ now))).length := by
  unfold count_available
  rw [List.countP_eq_length_filter]
  congr 1
  apply List.filter_congr
  intro w _
  simp only [is_available, ge_iff_le]
  exact Bool.and_comm _ _

/-- C27: an iteration of the greedy loop that assigns a task (`greedy_step`
returns a state) picks the task entry with the smallest index among those that
are `PENDING`, have `start <= now` and whose capacity is at most the number of
workers in the active prefix that are `IDLE` with `start <= now` and at most the
capacity of the station picked; that entry, and no other, becomes `IN_PROGRESS`,
and every entry before it fails one of the conditions. -/
theorem greedy_step_picks_first_eligible_task (now : Int) (p q : Plant)
    (h : greedy_step now p = some q) :
    ∃ (sidx : Nat) (st : station_ex_t) (ti : Nat) (t : task_ex_t) (idle : Nat),
      pick_station p.stations_ex = some (sidx, st) ∧
      idle = ((p.worker_ex_ptrs.take p.num_active_workers).filter
        (fun w => decide (w.status = .IDLE) && decide (w.worker.start ≤ now))).length ∧
      p.task_ex_ptrs[ti]? = some t ∧
      q.task_ex_ptrs = p.task_ex_ptrs.set ti { t with status := .IN_PROGRESS } ∧
      t.status = .PENDING ∧ t.task.start ≤ now ∧ t.task.capacity ≤ idle ∧
      t.task.capacity ≤ st.capacity ∧
      ∀ (j : Nat) (u : task_ex_t), j < ti → p.task_ex_ptrs[j]? = some u →
        u.status ≠ .PENDING ∨ now < u.task.start ∨ idle < u.task.capacity ∨
          st.capacity < u.task.capacity := by
  obtain ⟨sidx, st, ti, t, h1, h2, -, -, h5, h6, h7, h8, h9, h10⟩ := greedy_step_spec h
  refine ⟨sidx, st, ti, t, _, h1, rfl, h5, by rw [h10], h6, h7, ?_, h9, ?_⟩
  · rw [← count_available_eq]; exact h8
  · intro j u hj hu
    rw [← count_available_eq]
    obtain ⟨-, -, -, h4⟩ := pick_task_from_spec _ _ _ _ h2
    have hc := h4 j u (by simpa using hj) hu
    simp only [can_take, Bool.and_eq_false_iff, decide_eq_false_iff_not, ge_iff_le,
      not_le] at hc
    rcases hc with (hc | hc) | hc | hc
    · exact Or.inl hc
    · exact Or.inr (Or.inl hc)
    · exact Or.inr (Or.inr (Or.inl hc))
    · exact Or.inr (Or.inr (Or.inr hc))

theorem greedy_step_picks_first_eligible_task_witness :
    ∃ (sidx : Nat) (st : station_ex_t) (ti : Nat) (t : task_ex_t) (idle : Nat),
      pick_station two_workers_task.stations_ex = some (sidx, st) ∧
      idle = ((two_workers_task.worker_ex_ptrs.take two_workers_task.num_active_workers).filter
        (fun w => decide (w.status = .IDLE) && decide (w.worker.start ≤ 0))).length ∧
      two_workers_task.task_ex_ptrs[ti]? = some t ∧
      two_started.task_ex_ptrs =
        two_workers_task.task_ex_ptrs.set ti { t with status := .IN_PROGRESS } ∧
      t.status = .PENDING ∧ t.task.start ≤ 0 ∧ t.task.capacity ≤ idle ∧
      t.task.capacity ≤ st.capacity ∧
      ∀ (j : Nat) (u : task_ex_t), j < ti → two_workers_task.task_ex_ptrs[j]? = some u →
        u.status ≠ .PENDING ∨ 0 < u.task.start ∨ idle < u.task.capacity ∨
          st.capacity < u.task.capacity :=
  greedy_step_picks_first_eligible_task 0 two_workers_task two_started (by decide)
theorem pick_station_from_of_none_free :
    ∀ (ss : List station_ex_t) (i0 : Nat) (best : Option (Nat × station_ex_t)),
      (∀ s ∈ ss, s.num_workers ≠ 0) → pick_station_from ss i0 best = best := by
  intro ss
  induction ss with
  | nil => intro i0 best _; rfl
  | cons s ss ih =>
    intro i0 best h
    have hs : s.num_workers ≠ 0 := h s (List.mem_cons_self _ _)
    unfold pick_station_from
    rw [if_neg hs]
    exact ih _ _ (fun u hu => h u (List.mem_cons_of_mem _ hu))

theorem pick_station_from_isSome :
    ∀ (ss : List station_ex_t) (i0 : Nat) (best : Option (Nat × station_ex_t)),
      (best.isSome = true ∨ ∃ s ∈ ss, s.num_workers = 0) →
      (pick_station_from ss i0 best).isSome = true := by
  intro ss
  induction ss with
  | nil =>
    intro i0 best h
    rcases h with h | ⟨s, hs, -⟩
    · exact h
    · cases hs
  | cons s ss ih =>
    intro i0 best h
    unfold pick_station_from
    split
    · split
      · exact ih _ _ (Or.inl rfl)
      · split
        · exact ih _ _ (Or.inl rfl)
        · exact ih _ _ (Or.inl rfl)
    · rename_i hs
      apply ih
      rcases h with h | ⟨u, hu, h0⟩
      · exact Or.inl h
      · rcases List.mem_cons.mp hu with e | hu
        · subst e; exact absurd h0 hs
        · exact Or.inr ⟨u, hu, h0⟩

theorem pick_station_from_max :
    ∀ (ss : List station_ex_t) (i0 : Nat) (best : Option (Nat × station_ex_t))
      (j : Nat) (b : station_ex_t), pick_station_from ss i0 best = some (j, b) →
      (∀ j0 b0, best = some (j0, b0) → b0.capacity ≤ b.capacity) ∧
      (∀ (k : Nat) (s : station_ex_t), ss[k]? = some s → s.num_workers = 0 → s.capacity ≤ b.capacity) ∧
      (best = some (j, b) ∨
        ∃ k, j = i0 + k ∧ ss[k]? = some b ∧ b.num_workers = 0 ∧
          (∀ j0 b0, best = some (j0, b0) → b0.capacity < b.capacity) ∧
          ∀ (k1 : Nat) (s : station_ex_t), k1 < k → ss[k1]? = some s → s.num_workers = 0 →
            s.capacity < b.capacity) := by
  intro ss
  induction ss with
  | nil =>
    intro i0 best j b h
    have e : best = some (j, b) := h
    refine ⟨?_, ?_, Or.inl e⟩
    · intro j0 b0 e0
      rw [e] at e0
      cases e0
      exact Nat.le_refl _
    · intro k s hk
      simp at hk
  | cons s ss ih =>
    intro i0 best j b h
    -- the cases in which the head becomes the best station so far
    have taken : pick_station_from ss (i0 + 1) (some (i0, s)) = some (j, b) →
        s.num_workers = 0 → (∀ j0 b0, best = some (j0, b0) → b0.capacity < s.capacity) →
        (∀ j0 b0, best = some (j0, b0) → b0.capacity ≤ b.capacity) ∧
        (∀ (k : Nat) (u : station_ex_t), (s :: ss)[k]? = some u → u.num_workers = 0 → u.capacity ≤ b.capacity) ∧
        (best = some (j, b) ∨
          ∃ k, j = i0 + k ∧ (s :: ss)[k]? = some b ∧ b.num_workers = 0 ∧
            (∀ j0 b0, best = some (j0, b0) → b0.capacity < b.capacity) ∧
            ∀ (k1 : Nat) (u : station_ex_t), k1 < k → (s :: ss)[k1]? = some u → u.num_workers = 0 →
              u.capacity < b.capacity) := by
      intro h' h0 hb
      obtain ⟨hA, hB, hC⟩ := ih _ _ _ _ h'
      have hs : s.capacity ≤ b.capacity := hA i0 s rfl
      refine ⟨fun j0 b0 e => Nat.le_trans (Nat.le_of_lt (hb j0 b0 e)) hs, ?_, Or.inr ?_⟩
      · intro k u hk hu
        cases k with
        | zero => simp at hk; subst hk; exact hs
        | succ k => exact hB k u (by simpa using hk) hu
      · rcases hC with hC | ⟨k, e, hk, hf, hlt, hbefore⟩
        · cases hC
          exact ⟨0, rfl, by simp, h0, hb, fun k1 u hk1 => by omega⟩
        · refine ⟨k + 1, by omega, by simpa using hk, hf,
            fun j0 b0 e0 => Nat.lt_of_lt_of_le (hb j0 b0 e0) hs, ?_⟩
          intro k1 u hk1 hu hu0
          cases k1 with
          | zero => simp at hu; subst hu; exact hlt i0 _ rfl
          | succ k1 => exact hbefore k1 u (by omega) (by simpa using hu) hu0
    -- the cases in which the best station so far is kept
    have kept : pick_station_from ss (i0 + 1) best = some (j, b) →
        (s.num_workers = 0 → ∃ j0 b0, best = some (j0, b0) ∧ s.capacity ≤ b0.capacity) →
        (∀ j0 b0, best = some (j0, b0) → b0.capacity ≤ b.capacity) ∧
        (∀ (k : Nat) (u : station_ex_t), (s :: ss)[k]? = some u → u.num_workers = 0 → u.capacity ≤ b.capacity) ∧
        (best = some (j, b) ∨
          ∃ k, j = i0 + k ∧ (s :: ss)[k]? = some b ∧ b.num_workers = 0 ∧
            (∀ j0 b0, best = some (j0, b0) → b0.capacity < b.capacity) ∧
            ∀ (k1 : Nat) (u : station_ex_t), k1 < k → (s :: ss)[k1]? = some u → u.num_workers = 0 →
              u.capacity < b.capacity) := by
      intro h' hs
      obtain ⟨hA, hB, hC⟩ := ih _ _ _ _ h'
      refine ⟨hA, ?_, ?_⟩
      · intro k u hk hu
        cases k with
        | zero =>
          simp at hk; subst hk
          obtain ⟨j0, b0, e, hle⟩ := hs hu
          exact Nat.le_trans hle (hA j0 b0 e)
        | succ k => exact hB k u (by simpa using hk) hu
      · rcases hC with hC | ⟨k, e, hk, hf, hlt, hbefore⟩
        · exact Or.inl hC
        · refine Or.inr ⟨k + 1, by omega, by simpa using hk, hf, hlt, ?_⟩
          intro k1 u hk1 hu hu0
          cases k1 with
          | zero =>
            simp at hu; subst hu
            obtain ⟨j0, b0, e, hle⟩ := hs hu0
            exact Nat.lt_of_le_of_lt hle (hlt j0 b0 e)
          | succ k1 => exact hbefore k1 u (by omega) (by simpa using hu) hu0
    unfold pick_station_from at h
    split at h
    · rename_i h0
      split at h
      · exact taken h h0 (fun j0 b0 e => by cases e)
      · rename_i bb
        split at h
        · rename_i hlt
          exact taken h h0 (fun j0 b0 e => by cases e; exact hlt)
        · rename_i hge
          exact kept h (fun _ => ⟨bb.1, bb.2, rfl, Nat.le_of_not_lt hge⟩)
    · rename_i h0
      exact kept h (fun h0' => absurd h0' h0)

/-- C28: in an iteration of the greedy loop, if some station has
`num_workers = 0` then the station picked has `num_workers = 0`, its capacity is
`>=` that of every station with `num_workers = 0`, it has the lowest index among
the free stations of that capacity, and it is the station an assignment of this
iteration occupies; if no station has `num_workers = 0` the iteration breaks and
the loop leaves the plant as it is. -/
theorem station_selection (now : Int) (p : Plant) :
    ((∃ (i : Nat) (s : station_ex_t), p.stations_ex[i]? = some s ∧ s.num_workers = 0) →
      ∃ (j : Nat) (b : station_ex_t), pick_station p.stations_ex = some (j, b) ∧
        p.stations_ex[j]? = some b ∧ b.num_workers = 0 ∧
        (∀ (i : Nat) (s : station_ex_t), p.stations_ex[i]? = some s → s.num_workers = 0 → s.capacity ≤ b.capacity) ∧
        (∀ (i : Nat) (s : station_ex_t), p.stations_ex[i]? = some s → s.num_workers = 0 →
          s.capacity = b.capacity → j ≤ i) ∧
        ∀ q, greedy_step now p = some q →
          ∃ t : task_ex_t, q.stations_ex = p.stations_ex.set j { b with num_workers := t.task.capacity }) ∧
    ((∀ (i : Nat) (s : station_ex_t), p.stations_ex[i]? = some s → s.num_workers ≠ 0) →
      pick_station p.stations_ex = none ∧ greedy_step now p = none ∧
        ∀ fuel, greedy_loop now fuel p = p) := by
  constructor
  · rintro ⟨i, s, hi, h0⟩
    have hsome := pick_station_from_isSome p.stations_ex 0 none
      (Or.inr ⟨s, List.getElem?_mem hi, h0⟩)
    cases hr : pick_station_from p.stations_ex 0 none with
    | none => rw [hr] at hsome; cases hsome
    | some r =>
      obtain ⟨j, b⟩ := r
      obtain ⟨-, hB, hC⟩ := pick_station_from_max _ _ _ _ _ hr
      rcases hC with hC | ⟨k, e, hk, hf, -, hbefore⟩
      · cases hC
      · rw [Nat.zero_add] at e
        subst e
        refine ⟨j, b, hr, hk, hf, hB, ?_, ?_⟩
        · intro i1 s1 hi1 h1 hc
          rcases Nat.lt_or_ge i1 j with hlt | hge
          · have := hbefore i1 s1 hlt hi1 h1
            omega
          · exact hge
        · intro q hq
          obtain ⟨sidx, st0, ti, t0, h1, -, -, -, -, -, -, -, -, h10⟩ := greedy_step_spec hq
          have e1 : pick_station p.stations_ex = some (j, b) := hr
          rw [e1] at h1
          cases h1
          exact ⟨t0, by rw [h10]⟩
  · intro h
    have e : pick_station p.stations_ex = none :=
      pick_station_from_of_none_free _ 0 none (fun s hs => by
        obtain ⟨i, hi⟩ := List.getElem?_of_mem hs
        exact h i s hi)
    have e2 : greedy_step now p = none := by
      unfold greedy_step
      rw [e]
    refine ⟨e, e2, ?_⟩
    intro fuel
    cases fuel with
    | zero => rfl
    | succ fuel =>
      unfold greedy_loop
      rw [e2]
/-! ### The alarm step -/

theorem foldl_min_future_workers (now : Int) (ws : List worker_ex_t) (m : Int) :
    ws.foldl (fun m w => min_future now (min_future now m w.worker.start) w.worker.end_) m =
      (ws.foldr (fun w l => w.worker.start :: w.worker.end_ :: l) []).foldl
        (min_future now) m := by
  induction ws generalizing m with
  | nil => rfl
  | cons w ws ih => simp only [List.foldl_cons, List.foldr_cons]; rw [ih]

theorem min_future_action_time_eq (now : Int) (p : Plant) :
    min_future_action_time now p = (action_times p).foldl (min_future now) 0 := by
  unfold min_future_action_time action_times
  rw [List.foldl_append, List.foldl_map, foldl_min_future_workers]

theorem foldl_min_future_spec (now : Int) (h0 : 0 ≤ now) :
    ∀ (xs : List Int) (m0 : Int), (m0 = 0 ∨ now < m0) →
      (xs.foldl (min_future now) m0 = 0 ∨ now < xs.foldl (min_future now) m0) ∧
      (xs.foldl (min_future now) m0 = 0 ↔ m0 = 0 ∧ ∀ x ∈ xs, ¬ now < x) ∧
      (xs.foldl (min_future now) m0 ≠ 0 →
        (xs.foldl (min_future now) m0 = m0 ∨ xs.foldl (min_future now) m0 ∈ xs) ∧
        (m0 ≠ 0 → xs.foldl (min_future now) m0 ≤ m0) ∧
        ∀ x ∈ xs, now < x → xs.foldl (min_future now) m0 ≤ x) := by
  intro xs
  induction xs with
  | nil =>
    intro m0 hm
    refine ⟨hm, ⟨fun h => ⟨h, fun x hx => by cases hx⟩, fun h => h.1⟩, fun _ => ?_⟩
    exact ⟨Or.inl rfl, fun _ => Int.le_refl _, fun x hx => by cases hx⟩
  | cons x xs ih =>
    intro m0 hm
    simp only [List.foldl_cons]
    have h1 : min_future now m0 x = 0 ∨ now < min_future now m0 x := by
      unfold min_future; split_ifs <;> omega
    have h2 : min_future now m0 x = 0 ↔ m0 = 0 ∧ ¬ now < x := by
      unfold min_future; split_ifs <;> omega
    have h3 : min_future now m0 x = m0 ∨ (min_future now m0 x = x ∧ now < x) := by
      unfold min_future; split_ifs <;> omega
    have h4 : m0 ≠ 0 → min_future now m0 x ≤ m0 := by
      unfold min_future; split_ifs <;> omega
    have h5 : now < x → min_future now m0 x ≤ x ∧ min_future now m0 x ≠ 0 := by
      unfold min_future; split_ifs <;> omega
    obtain ⟨i1, i2, i3⟩ := ih (min_future now m0 x) h1
    generalize min_future now m0 x = m1 at h1 h2 h3 h4 h5 i1 i2 i3
    generalize List.foldl (min_future now) m1 xs = r at i1 i2 i3
    refine ⟨i1, ?_, ?_⟩
    · rw [i2, h2]
      constructor
      · rintro ⟨⟨a, b⟩, c⟩
        refine ⟨a, ?_⟩
        intro y hy
        rcases List.mem_cons.mp hy with e | hy
        · rw [e]; exact b
        · exact c y hy
      · rintro ⟨a, c⟩
        exact ⟨⟨a, c x (List.mem_cons_self _ _)⟩, fun y hy => c y (List.mem_cons_of_mem _ hy)⟩
    · intro hr
      obtain ⟨j1, j2, j3⟩ := i3 hr
      have hm1 : r ≠ 0 → m1 ≠ 0 → r ≤ m1 := fun _ => j2
      refine ⟨?_, ?_, ?_⟩
      · rcases j1 with j1 | j1
        · rcases h3 with h3 | ⟨h3, -⟩
          · exact Or.inl (j1.trans h3)
          · exact Or.inr (by rw [j1, h3]; exact List.mem_cons_self _ _)
        · exact Or.inr (List.mem_cons_of_mem _ j1)
      · intro hm0
        have hm1' : m1 ≠ 0 := fun e => hm0 (h2.mp e).1
        exact Int.le_trans (j2 hm1') (h4 hm0)
      · intro y hy hlt
        rcases List.mem_cons.mp hy with e | hy
        · rw [e]
          obtain ⟨a, b⟩ := h5 (by rw [← e]; exact hlt)
          exact Int.le_trans (j2 b) a
        · exact j3 y hy hlt

theorem min_future_action_time_spec (now : Int) (p : Plant) (h0 : 0 ≤ now) :
    (future_action_times now p = [] → min_future_action_time now p = 0) ∧
      (future_action_times now p ≠ [] →
        min_future_action_time now p ≠ 0 ∧
        min_future_action_time now p ∈ future_action_times now p ∧
        ∀ x ∈ future_action_times now p, min_future_action_time now p ≤ x) := by
  rw [min_future_action_time_eq]
  obtain ⟨i1, i2, i3⟩ := foldl_min_future_spec now h0 (action_times p) 0 (Or.inl rfl)
  generalize List.foldl (min_future now) 0 (action_times p) = r at i1 i2 i3
  unfold future_action_times
  constructor
  · intro h
    rw [i2]
    refine ⟨rfl, fun x hx hlt => ?_⟩
    have : x ∈ (action_times p).filter (fun x => decide (now < x)) :=
      List.mem_filter.mpr ⟨hx, by simpa using hlt⟩
    rw [h] at this
    cases this
  · intro h
    have hr : r ≠ 0 := by
      intro e
      obtain ⟨-, hno⟩ := i2.mp e
      apply h
      rw [List.filter_eq_nil_iff]
      intro x hx
      simpa using hno x hx
    obtain ⟨j1, -, j3⟩ := i3 hr
    refine ⟨hr, ?_, ?_⟩
    · rcases j1 with j1 | j1
      · exact absurd j1 hr
      · refine List.mem_filter.mpr ⟨j1, ?_⟩
        have : now < r := by omega
        simpa using this
    · intro x hx
      obtain ⟨a, b⟩ := List.mem_filter.mp hx
      exact j3 x a (by simpa using b)

theorem tick_plant_eq_update_alarm (now : Int) (p : Plant) :
    tick_plant now p =
      (if (retire_tasks (expire_workers now p)).num_pending_tasks = 0 ∧
          (retire_tasks (expire_workers now p)).num_in_progress_tasks = 0 then
        retire_tasks (expire_workers now p)
      else update_alarm now (before_alarm now p)) := rfl
/-- C29, as the specification states it, fails: at time `10` the plant holds
`task_five`, retired as skipped with start time `100`, and the `PENDING`
`task_one` with start time `0`, and no worker. The tick reaches the alarm step
with no deadline armed; no start or end time of an active worker and no start
time of a task that is not `FINISHED` lies after `10`, yet the tick arms the
deadline `100`, the start time of the `FINISHED` task. -/
theorem finished_task_arms_alarm_counterexample :
    tick_plant 10 five_skipped_one_appended =
        update_alarm 10 (before_alarm 10 five_skipped_one_appended) ∧
      (before_alarm 10 five_skipped_one_appended).task_ex_ptrs.map
          (fun t => (t.task.start, t.status)) =
        [(100, task_status.FINISHED), (0, task_status.PENDING)] ∧
      (before_alarm 10 five_skipped_one_appended).num_active_workers = 0 ∧
      unresolved_future_times 10 (before_alarm 10 five_skipped_one_appended) = [] ∧
      (before_alarm 10 five_skipped_one_appended).next_alarm_time = 0 ∧
      (tick_plant 10 five_skipped_one_appended).next_alarm_time = 100 := by
  decide

/-- C29, amended: when a tick at a clock value `now >= 0` reaches the alarm
step, the candidate deadline `min_future_action_time` is the minimum of the
values `> now` among the start and end times of the active workers and the start
times of all task entries, whatever their status (`0` when there is no such
value); the tick replaces `next_alarm_time` by the candidate iff such a value
exists and either `next_alarm_time = 0` or the candidate is smaller, and leaves
the state of the alarm step as it is otherwise. -/
theorem alarm_step_contract (now : Int) (p0 : Plant) (h0 : 0 ≤ now)
    (hr : ¬ ((retire_tasks (expire_workers now p0)).num_pending_tasks = 0 ∧
      (retire_tasks (expire_workers now p0)).num_in_progress_tasks = 0)) :
    let p := before_alarm now p0
    let c := future_action_times now p
    let m := min_future_action_time now p
    (c = [] → m = 0) ∧
      (c ≠ [] → m ∈ c ∧ ∀ x ∈ c, m ≤ x) ∧
      tick_plant now p0 =
        (if c ≠ [] ∧ (p.next_alarm_time = 0 ∨ m < p.next_alarm_time) then
          { p with next_alarm_time := m }
        else p) := by
  intro p c m
  obtain ⟨s1, s2⟩ := min_future_action_time_spec now p h0
  refine ⟨s1, fun h => (s2 h).2, ?_⟩
  rw [tick_plant_eq_update_alarm, if_neg hr]
  show update_alarm now p = _
  unfold update_alarm
  by_cases hc : c = []
  · have hm : min_future_action_time now p = 0 := s1 hc
    rw [if_neg (fun h => h.1 hm), if_neg (fun h => h.1 hc)]
  · have hm : min_future_action_time now p ≠ 0 := (s2 hc).1
    by_cases h : p.next_alarm_time = 0 ∨ min_future_action_time now p < p.next_alarm_time
    · rw [if_pos ⟨hm, h⟩, if_pos ⟨hc, h⟩]
    · rw [if_neg (fun h' => h h'.2), if_neg (fun h' => h h'.2)]

theorem alarm_step_contract_witness :
    (0 : Int) ≤ 10 ∧
      future_action_times 10 (before_alarm 10 five_skipped_one_appended) = [100] ∧
      tick_plant 10 five_skipped_one_appended =
        (if future_action_times 10 (before_alarm 10 five_skipped_one_appended) ≠ [] ∧
            ((before_alarm 10 five_skipped_one_appended).next_alarm_time = 0 ∨
              min_future_action_time 10 (before_alarm 10 five_skipped_one_appended) <
                (before_alarm 10 five_skipped_one_appended).next_alarm_time) then
          { before_alarm 10 five_skipped_one_appended with
            next_alarm_time :=
              min_future_action_time 10 (before_alarm 10 five_skipped_one_appended) }
        else before_alarm 10 five_skipped_one_appended) :=
  ⟨by decide, by decide,
    (alarm_step_contract 10 five_skipped_one_appended (by decide) (by decide)).2.2⟩

theorem update_alarm_fields (now : Int) (p : Plant) :
    (update_alarm now p).worker_ex_ptrs = p.worker_ex_ptrs ∧
      (update_alarm now p).num_active_workers = p.num_active_workers ∧
      (update_alarm now p).task_ex_ptrs = p.task_ex_ptrs := by
  simp only [update_alarm]
  split <;> exact ⟨rfl, rfl, rfl⟩

theorem update_alarm_le (now : Int) (p : Plant) (h0 : 0 ≤ now) (x : Int)
    (hx : x ∈ future_action_times now p) :
    (update_alarm now p).next_alarm_time ≠ 0 ∧ (update_alarm now p).next_alarm_time ≤ x := by
  have hc : future_action_times now p ≠ [] := List.ne_nil_of_mem hx
  obtain ⟨hm, -, hle⟩ := (min_future_action_time_spec now p h0).2 hc
  have hmx := hle x hx
  unfold update_alarm
  by_cases h : p.next_alarm_time = 0 ∨ min_future_action_time now p < p.next_alarm_time
  · rw [if_pos ⟨hm, h⟩]
    exact ⟨hm, hmx⟩
  · rw [if_neg (fun h' => h h'.2)]
    have h1 : p.next_alarm_time ≠ 0 := fun e => h (Or.inl e)
    have h2 : ¬ min_future_action_time now p < p.next_alarm_time := fun e => h (Or.inr e)
    exact ⟨h1, by omega⟩

theorem mem_action_times_worker {p : Plant} {i : Nat} {w : worker_ex_t}
    (hi : i < p.num_active_workers) (hw : p.worker_ex_ptrs[i]? = some w) :
    w.worker.start ∈ action_times p ∧ w.worker.end_ ∈ action_times p := by
  have hmem : w ∈ p.worker_ex_ptrs.take p.num_active_workers := by
    have e : (p.worker_ex_ptrs.take p.num_active_workers)[i]? = some w := by
      rw [List.getElem?_take_of_lt hi]
      exact hw
    exact List.getElem?_mem e
  have key : ∀ (ws : List worker_ex_t), w ∈ ws →
      w.worker.start ∈ ws.foldr (fun w l => w.worker.start :: w.worker.end_ :: l) [] ∧
      w.worker.end_ ∈ ws.foldr (fun w l => w.worker.start :: w.worker.end_ :: l) [] := by
    intro ws
    induction ws with
    | nil => intro h; cases h
    | cons a ws ih =>
      intro h
      simp only [List.foldr_cons, List.mem_cons]
      rcases List.mem_cons.mp h with e | h
      · subst e
        exact ⟨Or.inl rfl, Or.inr (Or.inl rfl)⟩
      · exact ⟨Or.inr (Or.inr (ih h).1), Or.inr (Or.inr (ih h).2)⟩
  unfold action_times
  exact ⟨List.mem_append_left _ (key _ hmem).1, List.mem_append_left _ (key _ hmem).2⟩

theorem mem_action_times_task {p : Plant} {t : task_ex_t} (ht : t ∈ p.task_ex_ptrs) :
    t.task.start ∈ action_times p := by
  unfold action_times
  exact List.mem_append_right _ (List.mem_map.mpr ⟨t, ht, rfl⟩)

/-- C30: after a tick at a clock value `now >= 0` that does not return through
the idle shortcut, for every worker in the active prefix with a start or end
time `> now` and for every `PENDING` task with a start time `> now`, a deadline
is armed (`next_alarm_time != 0`) and it is `<=` that time. -/
theorem alarm_armed_after_tick (now : Int) (p : Plant) (h0 : 0 ≤ now)
    (hr : ¬ ((retire_tasks (expire_workers now p)).num_pending_tasks = 0 ∧
      (retire_tasks (expire_workers now p)).num_in_progress_tasks = 0)) :
    let r := tick_plant now p
    (∀ (i : Nat) (w : worker_ex_t), i < r.num_active_workers → r.worker_ex_ptrs[i]? = some w →
        (now < w.worker.start → r.next_alarm_time ≠ 0 ∧ r.next_alarm_time ≤ w.worker.start) ∧
        (now < w.worker.end_ → r.next_alarm_time ≠ 0 ∧ r.next_alarm_time ≤ w.worker.end_)) ∧
      ∀ t ∈ r.task_ex_ptrs, t.status = .PENDING → now < t.task.start →
        r.next_alarm_time ≠ 0 ∧ r.next_alarm_time ≤ t.task.start := by
  intro r
  have er : r = update_alarm now (before_alarm now p) := by
    show tick_plant now p = _
    rw [tick_plant_eq_update_alarm, if_neg hr]
  obtain ⟨f1, f2, f3⟩ := update_alarm_fields now (before_alarm now p)
  rw [er]
  constructor
  · intro i w hi hw
    rw [f2] at hi
    rw [f1] at hw
    obtain ⟨m1, m2⟩ := mem_action_times_worker hi hw
    exact ⟨fun h => update_alarm_le now _ h0 _ (List.mem_filter.mpr ⟨m1, by simpa using h⟩),
      fun h => update_alarm_le now _ h0 _ (List.mem_filter.mpr ⟨m2, by simpa using h⟩)⟩
  · intro t ht _ h
    rw [f3] at ht
    exact update_alarm_le now _ h0 _
      (List.mem_filter.mpr ⟨mem_action_times_task ht, by simpa using h⟩)

theorem alarm_armed_after_tick_witness :
    (0 : Int) ≤ 0 ∧
      two_workers_task.next_alarm_time = 0 ∧
      (tick_plant 0 two_workers_task).worker_ex_ptrs[0]? =
        some { worker := worker_a, id := 1, status := .WORKING,
               work_args := { t_ex_ptr := 0, station_index := 0, i := 1 } } ∧
      (tick_plant 0 two_workers_task).next_alarm_time ≠ 0 ∧
      (tick_plant 0 two_workers_task).next_alarm_time ≤ 100 :=
  ⟨by decide, by decide, by decide,
    ((alarm_armed_after_tick 0 two_workers_task (by decide) (by decide)).1 0
      { worker := worker_a, id := 1, status := .WORKING,
        work_args := { t_ex_ptr := 0, station_index := 0, i := 1 } }
      (by decide) (by decide)).2 (by decide)⟩

/-! ### The completion of an executor -/

theorem do_work_eq_locked (now : Int) (v : Int) (p : Plant) (w_ex t_ex station_index i : Nat) :
    do_work now v p w_ex t_ex station_index i =
      tick_plant now (do_work_locked (do_work_store v p t_ex i) w_ex t_ex station_index).1 := by
  unfold do_work do_work_locked do_work_store
  simp only
  cases hst : p.stations_ex[station_index]? with
  | none => rfl
  | some st =>
    simp only
    by_cases h0 : size_dec st.num_workers = 0
    · simp only [h0, if_true]
    · simp only [h0, if_false]

theorem do_work_locked_eq (v : Int) {p : Plant} {k : Nat} {w : worker_ex_t}
    {st : station_ex_t} {t : task_ex_t} (hw : p.worker_ex_ptrs[k]? = some w)
    (hs : p.stations_ex[w.work_args.station_index]? = some st)
    (ht : p.task_ex_ptrs[w.work_args.t_ex_ptr]? = some t) :
    do_work_locked (do_work_store v p w.work_args.t_ex_ptr w.work_args.i) k
        w.work_args.t_ex_ptr w.work_args.station_index =
      (finish_state v p k w st t,
        decide (size_dec st.num_workers = 0) &&
          (decide (size_dec p.num_in_progress_tasks = 0) && decide (p.num_pending_tasks = 0))) := by
  simp only [do_work_locked, do_work_store, update_at_eq_set _ ht, update_at_eq_set _ hw, hs]
  by_cases h0 : size_dec st.num_workers = 0
  · simp only [h0, if_true, finish_state, decide_True, Bool.true_and]
    rw [update_at_eq_set _ (getElem?_set_same _ ht), List.set_set]
  · simp only [h0, if_false, finish_state, decide_False, Bool.false_and]

theorem size_dec_pos {x : Nat} (h : 1 ≤ x) : size_dec x = x - 1 := by
  unfold size_dec
  rw [if_neg (by omega)]

/-- C31: when the executor of a worker that is `WORKING` in a reachable state
completes, the critical section of `do_work` up to its tick sets the worker
`IDLE` and lowers the `num_workers` of its station, which is at least `1`, by
one; if that reaches `0` the task, which was `IN_PROGRESS` and not skipped,
becomes `FINISHED` with `is_skipped` still `false` and `num_in_progress_tasks`,
which is at least `1`, drops by one; otherwise the task stays `IN_PROGRESS` and
`num_in_progress_tasks` is unchanged; `num_pending_tasks` and the other task
entries are unchanged either way; and `plant_idle` is signalled exactly when
the occupancy has reached `0` and afterwards `num_pending_tasks = 0` and
`num_in_progress_tasks = 0`. -/
theorem executor_completion (v : Int) (p : Plant) (k : Nat) (w : worker_ex_t)
    (h : Reachable p) (hw : p.worker_ex_ptrs[k]? = some w) (hst : w.status = .WORKING) :
    ∃ (st : station_ex_t) (t : task_ex_t),
      p.stations_ex[w.work_args.station_index]? = some st ∧
      p.task_ex_ptrs[w.work_args.t_ex_ptr]? = some t ∧
      t.status = .IN_PROGRESS ∧ t.is_skipped = false ∧ 1 ≤ st.num_workers ∧
      1 ≤ p.num_in_progress_tasks ∧
      let r := do_work_locked (do_work_store v p w.work_args.t_ex_ptr w.work_args.i) k
        w.work_args.t_ex_ptr w.work_args.station_index
      (∀ now, do_work_pthread_wrap now v p k = tick_plant now r.1) ∧
      r.1.worker_ex_ptrs = p.worker_ex_ptrs.set k { w with status := .IDLE } ∧
      r.1.stations_ex = p.stations_ex.set w.work_args.station_index
        { st with num_workers := st.num_workers - 1 } ∧
      r.1.num_pending_tasks = p.num_pending_tasks ∧
      (∀ j, j ≠ w.work_args.t_ex_ptr → r.1.task_ex_ptrs[j]? = p.task_ex_ptrs[j]?) ∧
      (st.num_workers = 1 →
        r.1.task_ex_ptrs[w.work_args.t_ex_ptr]? =
          some { t with
            task := { t.task with results := t.task.results.set w.work_args.i (some v) }
            status := .FINISHED } ∧
        r.1.num_in_progress_tasks + 1 = p.num_in_progress_tasks) ∧
      (st.num_workers ≠ 1 →
        r.1.task_ex_ptrs[w.work_args.t_ex_ptr]? =
          some { t with
            task := { t.task with results := t.task.results.set w.work_args.i (some v) } } ∧
        r.1.num_in_progress_tasks = p.num_in_progress_tasks) ∧
      (r.2 = true ↔
        st.num_workers = 1 ∧ r.1.num_pending_tasks = 0 ∧ r.1.num_in_progress_tasks = 0) := by
  have hinv := inv_reachable h
  have hmem : w ∈ p.worker_ex_ptrs := List.getElem?_mem hw
  obtain ⟨st, t, h1, h2, h3, -⟩ := hinv.working w hmem hst
  have hocc : 1 ≤ st.num_workers := by
    rw [← hinv.occ_count _ st h1]
    exact List.countP_pos_iff.mpr ⟨w, hmem, by simp [works_at, hst]⟩
  have hnip : 1 ≤ p.num_in_progress_tasks := by
    rw [hinv.in_progress]
    exact List.countP_pos_iff.mpr ⟨t, List.getElem?_mem h2, by simp [is_in_progress, h3]⟩
  have hskip : t.is_skipped = false := by
    cases hs : t.is_skipped with
    | false => rfl
    | true =>
      have := hinv.skipped t (List.getElem?_mem h2) hs
      rw [h3] at this
      cases this
  have hlt : w.work_args.t_ex_ptr < p.task_ex_ptrs.length := getElem?_lt h2
  refine ⟨st, t, h1, h2, h3, hskip, hocc, hnip, ?_⟩
  intro r
  have hr : r = (finish_state v p k w st t,
      decide (size_dec st.num_workers = 0) &&
        (decide (size_dec p.num_in_progress_tasks = 0) && decide (p.num_pending_tasks = 0))) :=
    do_work_locked_eq v hw h1 h2
  have hd : size_dec st.num_workers = st.num_workers - 1 := size_dec_pos hocc
  have hd2 : size_dec p.num_in_progress_tasks = p.num_in_progress_tasks - 1 := size_dec_pos hnip
  have hget : (finish_state v p k w st t).task_ex_ptrs[w.work_args.t_ex_ptr]? =
      some { t with
        task := { t.task with results := t.task.results.set w.work_args.i (some v) }
        status := if size_dec st.num_workers = 0 then .FINISHED else t.status } := by
    simp only [finish_state]
    rw [List.getElem?_set]
    simp [hlt]
  rw [hr]
  refine ⟨fun now => do_work_pthread_wrap_eq now v hw h1 h2, rfl, ?_, rfl, ?_, ?_, ?_, ?_⟩
  · simp only [finish_state, hd]
  · intro j hj
    simp only [finish_state]
    rw [List.getElem?_set_ne (Ne.symm hj)]
  · intro h1w
    have h0 : size_dec st.num_workers = 0 := by rw [hd]; omega
    refine ⟨?_, ?_⟩
    · simp only
      rw [hget, if_pos h0]
    · simp only [finish_state, h0, if_true, hd2]
      omega
  · intro h1w
    have h0 : size_dec st.num_workers ≠ 0 := by rw [hd]; omega
    refine ⟨?_, ?_⟩
    · simp only
      rw [hget, if_neg h0]
    · simp only [finish_state, h0, if_false]
  · simp only [finish_state, Bool.and_eq_true, decide_eq_true_eq]
    constructor
    · rintro ⟨a, b, c⟩
      refine ⟨by rw [hd] at a; omega, c, ?_⟩
      rw [if_pos a]
      exact b
    · rintro ⟨a, c, b⟩
      have h0 : size_dec st.num_workers = 0 := by rw [hd]; omega
      rw [if_pos h0] at b
      exact ⟨h0, b, c⟩

set_option maxRecDepth 8192 in
theorem executor_completion_witness :
    Reachable two_at_work ∧
      ∃ (st : station_ex_t) (t : task_ex_t),
        two_at_work.stations_ex[0]? = some st ∧ two_at_work.task_ex_ptrs[0]? = some t ∧
        t.status = .IN_PROGRESS ∧ t.is_skipped = false ∧ 1 ≤ st.num_workers ∧
        1 ≤ two_at_work.num_in_progress_tasks ∧
        let r := do_work_locked (do_work_store 42 two_at_work 0 1) 0 0 0
        (∀ now, do_work_pthread_wrap now 42 two_at_work 0 = tick_plant now r.1) ∧
        r.1.worker_ex_ptrs = two_at_work.worker_ex_ptrs.set 0
          { worker := worker_a, id := 1, status := .IDLE,
            work_args := { t_ex_ptr := 0, station_index := 0, i := 1 } } ∧
        r.1.stations_ex = two_at_work.stations_ex.set 0
          { st with num_workers := st.num_workers - 1 } ∧
        r.1.num_pending_tasks = two_at_work.num_pending_tasks ∧
        (∀ j, j ≠ 0 → r.1.task_ex_ptrs[j]? = two_at_work.task_ex_ptrs[j]?) ∧
        (st.num_workers = 1 →
          r.1.task_ex_ptrs[0]? =
            some { t with
              task := { t.task with results := t.task.results.set 1 (some 42) }
              status := .FINISHED } ∧
          r.1.num_in_progress_tasks + 1 = two_at_work.num_in_progress_tasks) ∧
        (st.num_workers ≠ 1 →
          r.1.task_ex_ptrs[0]? =
            some { t with
              task := { t.task with results := t.task.results.set 1 (some 42) } } ∧
          r.1.num_in_progress_tasks = two_at_work.num_in_progress_tasks) ∧
        (r.2 = true ↔
          st.num_workers = 1 ∧ r.1.num_pending_tasks = 0 ∧ r.1.num_in_progress_tasks = 0) :=
  ⟨reachable_two_at_work,
    executor_completion 42 two_at_work 0
      { worker := worker_a, id := 1, status := .WORKING,
        work_args := { t_ex_ptr := 0, station_index := 0, i := 1 } }
      reachable_two_at_work (by decide) rfl⟩

/-! ### When the greedy loop stops -/

theorem pick_task_from_none {now : Int} {nw cap : Nat} :
    ∀ (ts : List task_ex_t) (i0 : Nat), pick_task_from now nw cap ts i0 = none →
      ∀ t ∈ ts, can_take now nw cap t = false := by
  intro ts
  induction ts with
  | nil => intro i0 _ t ht; cases ht
  | cons a ts ih =>
    intro i0 h t ht
    unfold pick_task_from at h
    split at h
    · cases h
    · rename_i hc
      rcases List.mem_cons.mp ht with e | ht
      · rw [e]; simpa using hc
      · exact ih (i0 + 1) h t ht

theorem pick_station_none {sts : List station_ex_t} (h : pick_station sts = none) :
    ∀ s ∈ sts, s.num_workers ≠ 0 := by
  intro s hs h0
  have := pick_station_from_isSome sts 0 none (Or.inr ⟨s, hs, h0⟩)
  unfold pick_station at h
  rw [h] at this
  cases this

/-- A state in which an iteration of the greedy loop breaks holds no assignable
pair of a free station and a task. -/
theorem greedy_step_none {now : Int} {p : Plant} (h : greedy_step now p = none)
    (s : Nat) (st : station_ex_t) (t : task_ex_t) (hs : p.stations_ex[s]? = some st)
    (h0 : st.num_workers = 0) (ht : t ∈ p.task_ex_ptrs) :
    can_take now (count_available now p.num_active_workers p.worker_ex_ptrs) st.capacity t =
      false := by
  cases hp : pick_station p.stations_ex with
  | none => exact absurd h0 (pick_station_none hp st (List.getElem?_mem hs))
  | some r =>
    obtain ⟨j, b⟩ := r
    have hmax : st.capacity ≤ b.capacity :=
      (pick_station_from_max _ _ _ _ _ hp).2.1 s st hs h0
    cases hk : pick_task_from now (count_available now p.num_active_workers p.worker_ex_ptrs)
        b.capacity p.task_ex_ptrs 0 with
    | some r2 =>
      simp only [greedy_step, hp, hk] at h
      cases h
    | none =>
      have hc := pick_task_from_none _ _ hk t ht
      simp only [can_take, Bool.and_eq_false_iff, decide_eq_false_iff_not, ge_iff_le,
        not_le] at hc ⊢
      rcases hc with hc | hc | hc
      · exact Or.inl hc
      · exact Or.inr (Or.inl hc)
      · exact Or.inr (Or.inr (by omega))

theorem update_alarm_stations (now : Int) (p : Plant) :
    (update_alarm now p).stations_ex = p.stations_ex := by
  simp only [update_alarm]
  split <;> rfl

theorem retire_tasks_pending (p : Plant)
    (hp : p.num_pending_tasks = p.task_ex_ptrs.countP is_pending) :
    (retire_tasks p).num_pending_tasks = (retire_tasks p).task_ex_ptrs.countP is_pending := by
  have h1 := retire_loop_snd ((p.num_active_workers + p.num_workers_to_come) % 2 ^ 64)
    p.max_station_capacity p.task_ex_ptrs p.num_pending_tasks 0 (by omega)
  rw [retire_tasks_tasks]
  simpa [retire_tasks] using h1

/-- C32: when `tick_plant`, called at clock value `now` in a state whose
`num_pending_tasks` counts the `PENDING` entries, returns, there is no station
with `num_workers = 0` and `PENDING` task with `start <= now` whose capacity is
`<=` the capacity of that station and `<=` the number of workers in the active
prefix that are `IDLE` with `start <= now`: either the tick has returned through
the idle shortcut and no task is `PENDING`, or the greedy loop has stopped by a
`break`, within as many iterations as there are tasks. -/
theorem no_assignable_pair_after_tick (now : Int) (p : Plant)
    (hp : p.num_pending_tasks = p.task_ex_ptrs.countP is_pending) :
    (∀ (s : Nat) (st : station_ex_t) (t : task_ex_t),
      (tick_plant now p).stations_ex[s]? = some st → st.num_workers = 0 →
      t ∈ (tick_plant now p).task_ex_ptrs → t.status = .PENDING → t.task.start ≤ now →
      t.task.capacity ≤ st.capacity →
      ¬ t.task.capacity ≤
        (((tick_plant now p).worker_ex_ptrs.take (tick_plant now p).num_active_workers).filter
          (fun w => decide (w.status = .IDLE) && decide (w.worker.start ≤ now))).length) ∧
    (((retire_tasks (expire_workers now p)).num_pending_tasks = 0 ∧
        (retire_tasks (expire_workers now p)).num_in_progress_tasks = 0) →
      ∀ t ∈ (tick_plant now p).task_ex_ptrs, t.status ≠ .PENDING) ∧
    (¬ ((retire_tasks (expire_workers now p)).num_pending_tasks = 0 ∧
        (retire_tasks (expire_workers now p)).num_in_progress_tasks = 0) →
      tick_plant now p = update_alarm now (before_alarm now p) ∧
      greedy_step now (before_alarm now p) = none) := by
  have hidle : ((retire_tasks (expire_workers now p)).num_pending_tasks = 0 ∧
      (retire_tasks (expire_workers now p)).num_in_progress_tasks = 0) →
      ∀ t ∈ (tick_plant now p).task_ex_ptrs, t.status ≠ .PENDING := by
    intro hi t ht hs
    rw [tick_plant_eq_update_alarm, if_pos hi] at ht
    have hc := retire_tasks_pending (expire_workers now p) hp
    rw [hi.1] at hc
    have hpos : 0 < (retire_tasks (expire_workers now p)).task_ex_ptrs.countP is_pending :=
      List.countP_pos_iff.mpr ⟨t, ht, by simp [is_pending, hs]⟩
    omega
  have hloop : ¬ ((retire_tasks (expire_workers now p)).num_pending_tasks = 0 ∧
      (retire_tasks (expire_workers now p)).num_in_progress_tasks = 0) →
      tick_plant now p = update_alarm now (before_alarm now p) ∧
      greedy_step now (before_alarm now p) = none := by
    intro hi
    exact ⟨by rw [tick_plant_eq_update_alarm, if_neg hi], tick_plant_greedy_stops now p⟩
  refine ⟨?_, hidle, hloop⟩
  intro s st t hs h0 ht hpend hstart hcap hidlew
  by_cases hi : (retire_tasks (expire_workers now p)).num_pending_tasks = 0 ∧
      (retire_tasks (expire_workers now p)).num_in_progress_tasks = 0
  · exact hidle hi t ht hpend
  · obtain ⟨e, hstop⟩ := hloop hi
    obtain ⟨f1, f2, f3⟩ := update_alarm_fields now (before_alarm now p)
    rw [e] at hs ht hidlew
    rw [update_alarm_stations] at hs
    rw [f3] at ht
    rw [f1, f2, ← count_available_eq] at hidlew
    have hc := greedy_step_none hstop s st t hs h0 ht
    simp only [can_take, Bool.and_eq_false_iff, decide_eq_false_iff_not, ge_iff_le,
      not_le] at hc
    rcases hc with (hc | hc) | hc | hc
    · exact hc hpend
    · omega
    · omega
    · omega

theorem no_assignable_pair_after_tick_witness :
    five_skipped_one_appended.num_pending_tasks =
        five_skipped_one_appended.task_ex_ptrs.countP is_pending ∧
      (tick_plant 10 five_skipped_one_appended).stations_ex[0]? =
        some { capacity := 1, num_workers := 0 } ∧
      task_ex_init task_one ∈ (tick_plant 10 five_skipped_one_appended).task_ex_ptrs ∧
      ¬ (task_ex_init task_one).task.capacity ≤
        (((tick_plant 10 five_skipped_one_appended).worker_ex_ptrs.take
          (tick_plant 10 five_skipped_one_appended).num_active_workers).filter
          (fun w => decide (w.status = .IDLE) && decide (w.worker.start ≤ 10))).length :=
  ⟨by decide, by decide, by decide,
    (no_assignable_pair_after_tick 10 five_skipped_one_appended (by decide)).1 0
      { capacity := 1, num_workers := 0 } (task_ex_init task_one) (by decide) rfl (by decide)
      rfl (by decide) (by decide)⟩

/-! ### The expiry step -/

theorem swap_workers_getElem? (ws : List worker_ex_t) (i j k : Nat) (hi : i < ws.length)
    (hj : j < ws.length) :
    (swap_workers ws i j)[k]? =
      if k = j then ws[i]? else if k = i then ws[j]? else ws[k]? := by
  unfold swap_workers
  rw [List.getElem?_eq_getElem hi, List.getElem?_eq_getElem hj]
  simp only
  rw [List.getElem?_set, List.getElem?_set]
  by_cases hkj : k = j
  · subst hkj
    simp [hi, hj]
  · by_cases hki : k = i
    · subst hki
      simp [hkj, Ne.symm hkj, hi]
    · simp [hkj, hki, Ne.symm hkj, Ne.symm hki]

theorem swap_workers_length (ws : List worker_ex_t) (i j : Nat) :
    (swap_workers ws i j).length = ws.length := (swap_workers_perm ws i j).length_eq

/-- What the expiry loops do from slot `i` on, with `n` slots of the active
prefix left to look at: the slots outside `[i, i + n)` are kept, and within it
the workers that stay active come first. -/
theorem expire_loop_spec (now : Int) :
    ∀ (n i : Nat) (ws : List worker_ex_t), i + n ≤ ws.length →
      i ≤ (expire_loop now n i ws).2 ∧ (expire_loop now n i ws).2 ≤ i + n ∧
      (∀ j, j < i ∨ i + n ≤ j → (expire_loop now n i ws).1[j]? = ws[j]?) ∧
      (∀ (j : Nat) (w : worker_ex_t), i ≤ j → j < (expire_loop now n i ws).2 →
        (expire_loop now n i ws).1[j]? = some w → now < w.worker.end_) ∧
      (∀ (j : Nat) (w : worker_ex_t), (expire_loop now n i ws).2 ≤ j → j < i + n →
        (expire_loop now n i ws).1[j]? = some w → now ≥ w.worker.end_) := by
  intro n
  induction n with
  | zero =>
    intro i ws _
    have e : expire_loop now 0 i ws = (ws, i) := rfl
    rw [e]
    exact ⟨Nat.le_refl _, Nat.le_refl _, fun _ _ => rfl, fun j w h1 h2 => (by omega),
      fun j w h1 h2 => (by omega)⟩
  | succ n ih =>
    intro i ws hlen
    have hi : i < ws.length := by omega
    have hw : ws[i]? = some ws[i] := List.getElem?_eq_getElem hi
    by_cases hexp : now ≥ ws[i].worker.end_
    · have e : expire_loop now (n + 1) i ws = expire_loop now n i (swap_workers ws i (i + n)) := by
        simp only [expire_loop, hw, hexp, if_true]
      rw [e]
      have hl := swap_workers_length ws i (i + n)
      obtain ⟨a1, a2, a3, a4, a5⟩ := ih i (swap_workers ws i (i + n)) (by rw [hl]; omega)
      refine ⟨a1, by omega, ?_, a4, ?_⟩
      · intro j hj
        rw [a3 j (by omega), swap_workers_getElem? ws i (i + n) j hi (by omega)]
        rw [if_neg (by omega), if_neg (by omega)]
      · intro j w h1 h2 hjw
        rcases Nat.lt_or_ge j (i + n) with hlt | hge
        · exact a5 j w h1 hlt hjw
        · have hj : j = i + n := by omega
          subst hj
          rw [a3 (i + n) (Or.inr (Nat.le_refl _)),
            swap_workers_getElem? ws i (i + n) (i + n) hi (by omega), if_pos rfl, hw] at hjw
          cases hjw
          exact hexp
    · have e : expire_loop now (n + 1) i ws = expire_loop now n (i + 1) ws := by
        simp only [expire_loop, hw, hexp, if_false]
      rw [e]
      obtain ⟨a1, a2, a3, a4, a5⟩ := ih (i + 1) ws (by omega)
      refine ⟨by omega, by omega, fun j hj => a3 j (by omega), ?_, fun j w h1 h2 => a5 j w h1 (by omega)⟩
      intro j w h1 h2 hjw
      rcases Nat.eq_or_lt_of_le h1 with heq | hlt
      · subst heq
        rw [a3 i (Or.inl (by omega)), hw] at hjw
        cases hjw
        omega
      · exact a4 j w (by omega) h2 hjw

theorem filter_eq_self_of_all {α : Type} (q : α → Bool) (l : List α) (h : ∀ x ∈ l, q x = true) :
    l.filter q = l := List.filter_eq_self.mpr h

theorem filter_eq_nil_of_none {α : Type} (q : α → Bool) (l : List α)
    (h : ∀ x ∈ l, q x = false) : l.filter q = [] := by
  rw [List.filter_eq_nil_iff]
  intro x hx
  rw [h x hx]
  exact Bool.false_ne_true

theorem mem_take_getElem? {α : Type} {l : List α} {n : Nat} {x : α} (h : x ∈ l.take n) :
    ∃ j, j < n ∧ l[j]? = some x := by
  obtain ⟨j, hj⟩ := List.getElem?_of_mem h
  have hlt : j < (l.take n).length := getElem?_lt hj
  rw [List.length_take] at hlt
  have hjn : j < n := by omega
  rw [List.getElem?_take_of_lt hjn] at hj
  exact ⟨j, hjn, hj⟩

/-- C33: the expiry step of a tick at clock value `now`, on a plant whose active
prefix lies within the worker table, permutes the table (no entry is added,
dropped or changed) and leaves `num_total_workers` and everything but the table
and `num_active_workers` as it was; afterwards every worker in the active prefix
has `end > now`; the active prefix holds exactly the workers of the old active
prefix with `end > now`, and the rest of the table exactly the workers of the
old active prefix with `now >= end` followed by the old rest. -/
theorem expire_step_partitions (now : Int) (p : Plant)
    (hb : p.num_active_workers ≤ p.worker_ex_ptrs.length) :
    let q := expire_workers now p
    q.worker_ex_ptrs.Perm p.worker_ex_ptrs ∧
    q.num_total_workers = p.num_total_workers ∧
    q = { p with worker_ex_ptrs := q.worker_ex_ptrs, num_active_workers := q.num_active_workers } ∧
    q.num_active_workers ≤ p.num_active_workers ∧
    (∀ (i : Nat) (w : worker_ex_t), i < q.num_active_workers → q.worker_ex_ptrs[i]? = some w →
      now < w.worker.end_) ∧
    (q.worker_ex_ptrs.take q.num_active_workers).Perm
      ((p.worker_ex_ptrs.take p.num_active_workers).filter
        (fun w => decide (now < w.worker.end_))) ∧
    (q.worker_ex_ptrs.drop q.num_active_workers).Perm
      ((p.worker_ex_ptrs.take p.num_active_workers).filter
          (fun w => decide (now ≥ w.worker.end_)) ++
        p.worker_ex_ptrs.drop p.num_active_workers) := by
  intro q
  have hperm : q.worker_ex_ptrs.Perm p.worker_ex_ptrs := expire_workers_perm now p
  obtain ⟨-, a2, a3, a4, a5⟩ :=
    expire_loop_spec now p.num_active_workers 0 p.worker_ex_ptrs (by omega)
  simp only [Nat.zero_add] at a2 a3 a5
  have hq1 : q.worker_ex_ptrs = (expire_loop now p.num_active_workers 0 p.worker_ex_ptrs).1 := rfl
  have hq2 : q.num_active_workers =
      (expire_loop now p.num_active_workers 0 p.worker_ex_ptrs).2 := rfl
  rw [← hq1] at a3 a4 a5
  rw [← hq2] at a2 a4 a5
  refine ⟨hperm, hperm.length_eq, rfl, ?_⟩
  generalize q.worker_ex_ptrs = ws1 at hperm a3 a4 a5 ⊢
  generalize q.num_active_workers = a1 at a2 a4 a5 ⊢
  generalize p.worker_ex_ptrs = ws at hb hperm a3 ⊢
  generalize p.num_active_workers = a at hb a2 a3 a5 ⊢
  have hlen : ws1.length = ws.length := hperm.length_eq
  have hdrop : ws1.drop a = ws.drop a := by
    apply List.ext_getElem?
    intro j
    rw [List.getElem?_drop, List.getElem?_drop]
    exact a3 (a + j) (Or.inr (by omega))
  have htake : (ws1.take a).Perm (ws.take a) := by
    have h1 : (ws1.take a ++ ws1.drop a).Perm (ws.take a ++ ws.drop a) := by
      rw [List.take_append_drop, List.take_append_drop]
      exact hperm
    rw [hdrop] at h1
    exact (List.perm_append_right_iff _).mp h1
  have hsplit : ws1.take a = ws1.take a1 ++ (ws1.take a).drop a1 := by
    have h1 := (List.take_append_drop a1 (ws1.take a)).symm
    rw [List.take_take, Nat.min_eq_left a2] at h1
    exact h1
  have hL : ∀ x ∈ ws1.take a1, decide (now < x.worker.end_) = true := by
    intro x hx
    obtain ⟨j, hj, hjx⟩ := mem_take_getElem? hx
    simpa using a4 j x (Nat.zero_le _) hj hjx
  have hR : ∀ x ∈ (ws1.take a).drop a1, decide (now ≥ x.worker.end_) = true := by
    intro x hx
    obtain ⟨j, hj⟩ := List.getElem?_of_mem hx
    have hlt : j < ((ws1.take a).drop a1).length := getElem?_lt hj
    rw [List.length_drop, List.length_take] at hlt
    rw [List.getElem?_drop, List.getElem?_take_of_lt (by omega)] at hj
    simpa using a5 (a1 + j) x (by omega) (by omega) hj
  have hL2 : ∀ x ∈ ws1.take a1, decide (now ≥ x.worker.end_) = false := by
    intro x hx
    have := hL x hx
    simp only [decide_eq_true_eq, decide_eq_false_iff_not, ge_iff_le, not_le] at this ⊢
    exact this
  have hR2 : ∀ x ∈ (ws1.take a).drop a1, decide (now < x.worker.end_) = false := by
    intro x hx
    have := hR x hx
    simp only [decide_eq_true_eq, decide_eq_false_iff_not, ge_iff_le, not_lt] at this ⊢
    exact this
  refine ⟨a2, fun i w hi hw => a4 i w (Nat.zero_le _) hi hw, ?_, ?_⟩
  · have h1 := htake.filter (fun w => decide (now < w.worker.end_))
    rw [hsplit, List.filter_append, filter_eq_self_of_all _ _ hL, filter_eq_nil_of_none _ _ hR2,
      List.append_nil] at h1
    exact h1
  · have h1 := htake.filter (fun w => decide (now ≥ w.worker.end_))
    rw [hsplit, List.filter_append, filter_eq_nil_of_none _ _ hL2, filter_eq_self_of_all _ _ hR,
      List.nil_append] at h1
    have h2 : ws1.drop a1 = (ws1.take a).drop a1 ++ ws1.drop a := by
      have h3 : ws1 = ws1.take a ++ ws1.drop a := (List.take_append_drop a ws1).symm
      have h4 : a1 ≤ (ws1.take a).length := by rw [List.length_take]; omega
      conv_lhs => rw [h3]
      rw [List.drop_append_of_le_length h4]
    rw [h2, hdrop]
    exact h1.append_right _

theorem expire_step_partitions_witness :
    two_at_work.num_active_workers ≤ two_at_work.worker_ex_ptrs.length ∧
      (expire_workers 100 two_at_work).num_active_workers = 0 ∧
      (expire_workers 100 two_at_work).worker_ex_ptrs.Perm two_at_work.worker_ex_ptrs ∧
      ((expire_workers 100 two_at_work).worker_ex_ptrs.drop
          (expire_workers 100 two_at_work).num_active_workers).Perm
        ((two_at_work.worker_ex_ptrs.take two_at_work.num_active_workers).filter
            (fun w => decide ((100 : Int) ≥ w.worker.end_)) ++
          two_at_work.worker_ex_ptrs.drop two_at_work.num_active_workers) :=
  ⟨by decide, by decide,
    (expire_step_partitions 100 two_at_work (by decide)).1,
    (expire_step_partitions 100 two_at_work (by decide)).2.2.2.2.2.2⟩

/-! ### The active prefix lies within the worker table -/

theorem greedy_loop_num_active (now : Int) (fuel : Nat) (p : Plant) :
    (greedy_loop now fuel p).num_active_workers = p.num_active_workers := by
  induction fuel generalizing p with
  | zero => rfl
  | succ n ih =>
    unfold greedy_loop
    split
    · rfl
    · rename_i q hq
      obtain ⟨_, _, _, _, _, _, _, _, _, _, _, _, _, e⟩ := greedy_step_spec hq
      rw [ih q, e]

theorem tick_plant_active_le (now : Int) (p : Plant)
    (h : p.num_active_workers ≤ p.worker_ex_ptrs.length) :
    (tick_plant now p).num_active_workers ≤ (tick_plant now p).worker_ex_ptrs.length := by
  rw [tick_plant_workers_length]
  have h1 : (expire_workers now p).num_active_workers ≤ p.num_active_workers := by
    have := (expire_loop_spec now p.num_active_workers 0 p.worker_ex_ptrs (by omega)).2.1
    simpa [expire_workers] using this
  have h2 : (tick_plant now p).num_active_workers = (expire_workers now p).num_active_workers := by
    rw [tick_plant_eq_update_alarm]
    split
    · rfl
    · rw [(update_alarm_fields now _).2.1]
      unfold before_alarm
      simp only
      rw [greedy_loop_num_active]
      rfl
  omega

theorem active_le_length_of_reachable {p : Plant} (h : Reachable p) :
    p.num_active_workers ≤ p.worker_ex_ptrs.length := by
  induction h with
  | init p0 stations n_workers h0 =>
    simp [init_plant, h0]
  | step p q hp hstep ih =>
    have hinv := inv_reachable hp
    cases hstep with
    | add_worker alloc now _ w =>
      unfold add_worker
      split
      · exact ih
      · split
        · exact ih
        · cases alloc with
          | false => exact ih
          | true =>
            simp only [worker_ex_ptrs_append, if_true]
            apply tick_plant_active_le
            simp only [worker_appended, List.length_set, List.length_append, List.length_singleton]
            omega
    | add_task alloc now _ t =>
      unfold add_task
      split
      · exact ih
      · split
        · exact ih
        · cases alloc with
          | false => exact ih
          | true =>
            simp only [task_ex_ptrs_append, if_true]
            apply tick_plant_active_le
            exact ih
    | alarm now _ hne =>
      unfold alarm_timeout
      split
      · apply tick_plant_active_le
        exact ih
      · exact ih
    | do_work now v _ k w hw hst =>
      obtain ⟨st, t, h1, h2, -, -⟩ := hinv.working w (List.getElem?_mem hw) hst
      rw [do_work_pthread_wrap_eq now v hw h1 h2]
      apply tick_plant_active_le
      simp only [finish_state, List.length_set]
      exact ih

/-! ## A call of `collect_task` among the other callers -/

theorem sys_inv_sleepers {s : Sys} (l : List Nat) (h : SysInv s) (hp : l.Perm s.sleepers) :
    SysInv { s with sleepers := l } where
  inv := h.inv
  counted := fun j => by
    have := h.counted j
    rw [← hp.count_eq j] at this
    exact this
  quiet := fun hi => by
    have h1 := h.quiet hi
    rw [h1.1] at hp
    exact ⟨hp.eq_nil, h1.2⟩
  destroying := h.destroying
  scanned := h.scanned

/-- A step of the system is a step of the system with one more sleeping call of
`collect_task`, which stays asleep. -/
theorem sys_step_append {s s1 : Sys} (idx : Nat) (h : SysStep s s1) :
    SysStep { s with sleepers := s.sleepers ++ [idx] }
      { s1 with sleepers := s1.sleepers ++ [idx] } := by
  cases h with
  | plant q hq => exact SysStep.plant { s with sleepers := s.sleepers ++ [idx] } q hq
  | collect_return t ret q hq =>
    exact SysStep.collect_return { s with sleepers := s.sleepers ++ [idx] } t ret q hq
  | collect_sleep t i q hq =>
    exact SysStep.collect_sleep { s with sleepers := s.sleepers ++ [idx] } t i q hq
  | wake_return i ret q hm hq =>
    have h1 := SysStep.wake_return { s with sleepers := s.sleepers ++ [idx] } i ret q
      (List.mem_append_left _ hm) hq
    simp only [List.erase_append_left _ hm] at h1
    exact h1
  | wake_sleep i q hm hq =>
    exact SysStep.wake_sleep { s with sleepers := s.sleepers ++ [idx] } i q
      (List.mem_append_left _ hm) hq
  | destroy_call o q hi hq =>
    exact SysStep.destroy_call { s with sleepers := s.sleepers ++ [idx] } o q hi hq
  | destroy_rejected q hq =>
    exact SysStep.destroy_rejected { s with sleepers := s.sleepers ++ [idx] } q hq
  | destroy_wake_idle o q hi hq =>
    exact SysStep.destroy_wake_idle { s with sleepers := s.sleepers ++ [idx] } o q hi hq
  | destroy_wake_task i o q hi hq =>
    exact SysStep.destroy_wake_task { s with sleepers := s.sleepers ++ [idx] } i o q hi hq
  | init alloc stations n_workers =>
    exact SysStep.init { s with sleepers := s.sleepers ++ [idx] } alloc stations n_workers

theorem set_same_id {ts : List task_ex_t} {i : Nat} {e : task_ex_t} (e' : task_ex_t)
    (he : ts[i]? = some e) (hid : e'.id = e.id) (j : Nat) (t : task_ex_t)
    (h : ts[j]? = some t) : ∃ t', (ts.set i e')[j]? = some t' ∧ t'.id = t.id := by
  by_cases hij : i = j
  · subst hij
    rw [he] at h
    cases h
    exact ⟨e', getElem?_set_same e' he, hid⟩
  · rw [List.getElem?_set_ne hij]
    exact ⟨t, h, rfl⟩

theorem destroy_resume_tasks_list {p q : Plant} {i0 : Nat} {o : destroy_outcome}
    (h : destroy_resume_tasks p i0 = (o, q)) : q.task_ex_ptrs = p.task_ex_ptrs := by
  rcases destroy_resume_tasks_cases h with ⟨i, -, rfl, -⟩ | ⟨-, rfl, -⟩
  · rfl
  · rfl

theorem destroy_resume_idle_list {p q : Plant} {o : destroy_outcome}
    (h : destroy_resume_idle p = (o, q)) : q.task_ex_ptrs = p.task_ex_ptrs := by
  rcases destroy_resume_idle_cases h with ⟨-, rfl⟩ | ⟨-, -, h1⟩
  · rfl
  · exact destroy_resume_tasks_list h1

theorem destroy_plant_list {p q : Plant} {o : destroy_outcome}
    (h : destroy_plant p = (o, q)) : q.task_ex_ptrs = p.task_ex_ptrs := by
  rcases destroy_plant_cases h with ⟨-, rfl⟩ | ⟨-, -, h1⟩
  · rfl
  · have h2 := destroy_resume_idle_list h1
    exact h2

/-- While a call of `collect_task` sleeps, a step of the system keeps every task
entry in its slot, with its identifier. -/
theorem sys_step_same_id {s s1 : Sys} (hinv : SysInv s) (hne : s.sleepers ≠ [])
    (h : SysStep s s1) (i : Nat) (e : task_ex_t) (he : s.plant.task_ex_ptrs[i]? = some e) :
    ∃ e1, s1.plant.task_ex_ptrs[i]? = some e1 ∧ e1.id = e.id := by
  cases h with
  | plant q hq =>
    obtain ⟨e1, h1, r⟩ := step_keeps hq i e he
    exact ⟨e1, h1, r.1⟩
  | collect_return t ret q hq =>
    rcases collect_task_cases hq with ⟨-, rfl⟩ | ⟨-, -, idx, e0, h1, -⟩
    · exact ⟨e, he, rfl⟩
    · cases h1
  | collect_sleep t idx q hq =>
    rcases collect_task_cases hq with ⟨⟨ret, h1⟩, -⟩ | ⟨-, -, idx', e0, h1, he0, -, rfl⟩
    · cases h1
    · exact set_same_id { e0 with num_waiting := e0.num_waiting + 1 } he0 rfl i e he
  | wake_return idx ret q hmem hq =>
    have hpos : 0 < waiting_of s.plant.task_ex_ptrs idx := by
      rw [← hinv.counted idx]
      exact List.count_pos_iff.mpr hmem
    obtain ⟨e0, he0, hep⟩ := waiting_of_pos hpos
    rcases collect_wakeup_cases he0 hep hq with ⟨-, rfl⟩ | ⟨h1, -⟩
    · exact set_same_id { e0 with num_waiting := e0.num_waiting - 1 } he0 rfl i e he
    · cases h1
  | wake_sleep idx q hmem hq =>
    have hpos : 0 < waiting_of s.plant.task_ex_ptrs idx := by
      rw [← hinv.counted idx]
      exact List.count_pos_iff.mpr hmem
    obtain ⟨e0, he0, hep⟩ := waiting_of_pos hpos
    rcases collect_wakeup_cases he0 hep hq with ⟨⟨ret, h1⟩, -⟩ | ⟨-, rfl⟩
    · cases h1
    · exact ⟨e, he, rfl⟩
  | destroy_call o q hidle hq =>
    refine ⟨e, ?_, rfl⟩
    show q.task_ex_ptrs[i]? = some e
    rw [destroy_plant_list hq]
    exact he
  | destroy_rejected q hq =>
    refine ⟨e, ?_, rfl⟩
    show q.task_ex_ptrs[i]? = some e
    rw [destroy_plant_list hq]
    exact he
  | destroy_wake_idle o q hidle hq =>
    refine ⟨e, ?_, rfl⟩
    show q.task_ex_ptrs[i]? = some e
    rw [destroy_resume_idle_list hq]
    exact he
  | destroy_wake_task i0 o q hidle hq =>
    refine ⟨e, ?_, rfl⟩
    show q.task_ex_ptrs[i]? = some e
    rw [destroy_resume_tasks_list hq]
    exact he
  | init alloc stations n_workers =>
    have hi : s.plant.is_plant_initialized = true := by
      cases hb : s.plant.is_plant_initialized with
      | true => rfl
      | false => exact absurd (hinv.quiet hb).1 hne
    refine ⟨e, ?_, rfl⟩
    show (init_plant alloc s.plant stations n_workers).2.task_ex_ptrs[i]? = some e
    simp only [init_plant, hi, if_true]
    exact he

/-- A sleeping call of `collect_task` returns only with the task `FINISHED`, with
the status that `is_skipped` selects, and leaves in `num_waiting` the number of
the other calls that sleep on the task; the entry in the slot is the one the
call went to sleep on. -/
theorem sys_collect_sleep_returns {idx : Nat} {s s' : Sys} {ret : plant_status}
    (h : SysCollectSleep idx s ret s') :
    SysInv { s with sleepers := s.sleepers ++ [idx] } →
      ∀ e, s.plant.task_ex_ptrs[idx]? = some e →
      ∃ e', s'.plant.task_ex_ptrs[idx]? = some e' ∧ e'.status = .FINISHED ∧
        ret = (if e'.is_skipped then .ERROR else .PLANTOK) ∧
        e'.num_waiting = s'.sleepers.count idx ∧ e'.id = e.id := by
  induction h with
  | step s s1 s' ret hs _ ih =>
    intro hinv e he
    obtain ⟨e1, he1, hid⟩ := sys_step_same_id hinv (by simp) (sys_step_append idx hs) idx e he
    obtain ⟨e', h1, h2, h3, h4, h5⟩ := ih (sys_inv_step hinv (sys_step_append idx hs)) e1 he1
    exact ⟨e', h1, h2, h3, h4, by rw [h5, hid]⟩
  | wake_return s q ret hw =>
    intro hinv e0 he0
    have hc := hinv.counted idx
    simp only [List.count_append, List.count_singleton, beq_self_eq_true, if_true] at hc
    have hpos0 : 0 < waiting_of s.plant.task_ex_ptrs idx := by omega
    obtain ⟨e, he, hpos⟩ := waiting_of_pos hpos0
    have hee : e = e0 := Option.some.inj (he.symm.trans he0)
    subst hee
    have hwe : waiting_of s.plant.task_ex_ptrs idx = e.num_waiting := waiting_of_some he
    have hd : size_dec e.num_waiting = e.num_waiting - 1 := by
      unfold size_dec; rw [if_neg (by omega)]
    simp only [collect_wakeup, update_at_eq_set _ he, collect_wait,
      getElem?_set_same _ he] at hw
    split at hw
    · cases hw
    · rename_i hfin
      simp only [ne_eq, Decidable.not_not] at hfin
      cases hw
      refine ⟨_, getElem?_set_same _ he, hfin, rfl, ?_, rfl⟩
      simp only [hd]
      omega
  | wake_sleep s q s' ret hw _ ih =>
    intro hinv e0 he0
    have hinv' := sys_inv_step hinv
      (SysStep.wake_sleep { s with sleepers := s.sleepers ++ [idx] } idx q (by simp) hw)
    obtain ⟨e1, he1, hid⟩ := sys_step_same_id hinv (by simp)
      (SysStep.wake_sleep { s with sleepers := s.sleepers ++ [idx] } idx q (by simp) hw)
      idx e0 he0
    obtain ⟨e', h1, h2, h3, h4, h5⟩ := ih hinv' e1 he1
    exact ⟨e', h1, h2, h3, h4, by rw [h5, hid]⟩

/-- C9, amended: for an initialised plant that is not shutting down, a call of
`collect_task` for a registered task returns only in a state where the entry of
that task is `FINISHED`, and returns `ERROR` if the task was skipped and
`PLANTOK` otherwise, whatever the other threads do while the call sleeps (steps
of the plant, other calls of `collect_task` that return, go to sleep or are
woken, `destroy_plant`, `init_plant`). The task's `num_waiting` is, before the
call and at its return, the number of the other calls of `collect_task` that
sleep on the task at that time; so it is left at its value before the call
exactly when as many other calls sleep on the task at the return as at the
entry. For a task that was never registered the call returns `ERROR` at once and
changes nothing. -/
theorem collect_task_among_callers (s s' : Sys) (t : task_t) (ret : plant_status)
    (hr : SysReachable s) (hi : s.plant.is_plant_initialized = true)
    (hd : s.plant.is_plant_being_destroyed = false) (hc : SysCollectCall t s ret s') :
    (∀ idx, task_ex_ptrs_find s.plant t = some idx →
      ∃ e e', s.plant.task_ex_ptrs[idx]? = some e ∧ s'.plant.task_ex_ptrs[idx]? = some e' ∧
        e.id = t.id ∧ e'.id = t.id ∧
        e'.status = .FINISHED ∧ ret = (if e'.is_skipped then .ERROR else .PLANTOK) ∧
        e.num_waiting = s.sleepers.count idx ∧ e'.num_waiting = s'.sleepers.count idx ∧
        (e'.num_waiting = e.num_waiting ↔ s'.sleepers.count idx = s.sleepers.count idx)) ∧
    (task_ex_ptrs_find s.plant t = none → ret = .ERROR ∧ s' = s) := by
  have hinv := sys_inv_reachable hr
  cases hc with
  | immediate q _ h =>
    simp only [collect_task, hi, hd, Bool.not_true, Bool.or_self, Bool.false_eq_true,
      if_false] at h
    constructor
    · intro idx hf
      obtain ⟨e, he, hid, -⟩ := find_first_some hf
      have hid' : e.id = t.id := of_decide_eq_true hid
      have hn : e.num_waiting = s.sleepers.count idx := by
        rw [hinv.counted idx, waiting_of_some he]
      rw [hf] at h
      simp only [collect_wait, he] at h
      split at h
      · cases h
      · rename_i hfin
        simp only [ne_eq, Decidable.not_not] at hfin
        cases h
        exact ⟨e, e, he, he, hid', hid', hfin, rfl, hn, hn, by simp⟩
    · intro hf
      rw [hf] at h
      cases h
      exact ⟨rfl, rfl⟩
  | slept q _ idx' _ h hs =>
    have hstep := SysStep.collect_sleep s t idx' q h
    have hinv1 := sys_inv_step hinv hstep
    have hinv2 : SysInv { s with plant := q, sleepers := s.sleepers ++ [idx'] } :=
      sys_inv_sleepers (s.sleepers ++ [idx']) hinv1
        (List.perm_append_singleton idx' s.sleepers)
    simp only [collect_task, hi, hd, Bool.not_true, Bool.or_self, Bool.false_eq_true,
      if_false] at h
    constructor
    · intro idx hf
      obtain ⟨e, he, hid, -⟩ := find_first_some hf
      have hid' : e.id = t.id := of_decide_eq_true hid
      have hn : e.num_waiting = s.sleepers.count idx := by
        rw [hinv.counted idx, waiting_of_some he]
      rw [hf] at h
      simp only [collect_wait, he] at h
      split at h
      · cases h
        obtain ⟨e', h1, h2, h3, h4, h5⟩ := sys_collect_sleep_returns hs hinv2
          { e with num_waiting := e.num_waiting + 1 } (getElem?_set_same _ he)
        refine ⟨e, e', he, h1, hid', by rw [h5]; exact hid', h2, h3, hn, h4, ?_⟩
        rw [h4, hn]
      · cases h
    · intro hf
      rw [hf] at h
      cases h

set_option maxRecDepth 10000 in
theorem collect_task_among_callers_witness :
    ∃ e e', sys_collecting.plant.task_ex_ptrs[0]? = some e ∧
      sys_both_returned.plant.task_ex_ptrs[0]? = some e' ∧
      e.id = task_two.id ∧ e'.id = task_two.id ∧
      e'.status = .FINISHED ∧
      plant_status.PLANTOK = (if e'.is_skipped then .ERROR else .PLANTOK) ∧
      e.num_waiting = sys_collecting.sleepers.count 0 ∧
      e'.num_waiting = sys_both_returned.sleepers.count 0 ∧
      (e'.num_waiting = e.num_waiting ↔
        sys_both_returned.sleepers.count 0 = sys_collecting.sleepers.count 0) :=
  (collect_task_among_callers sys_collecting sys_both_returned task_two .PLANTOK
    (SysReachable.step sys_at_work _ sys_at_work_reachable
      (SysStep.collect_sleep sys_at_work task_two 0 _ (by decide)))
    (by decide) (by decide)
    (SysCollectCall.slept sys_collecting sys_two_asleep.plant _ 0 _ (by decide)
      (SysCollectSleep.step sys_two_asleep sys_two_asleep_one_done _ _
        (SysStep.plant sys_two_asleep _
          (Step.do_work 5 42 sys_two_asleep.plant 0
            { worker := worker_a, id := 1, status := .WORKING,
              work_args := { t_ex_ptr := 0, station_index := 0, i := 1 } } (by decide) rfl))
        (SysCollectSleep.step sys_two_asleep_one_done sys_two_asleep_done _ _
          (SysStep.plant sys_two_asleep_one_done _
            (Step.do_work 6 43 sys_two_asleep_one_done.plant 1
              { worker := worker_b, id := 2, status := .WORKING,
                work_args := { t_ex_ptr := 0, station_index := 0, i := 0 } } (by decide) rfl))
          (SysCollectSleep.step sys_two_asleep_done sys_other_returned _ _
            (SysStep.wake_return sys_two_asleep_done 0 .PLANTOK _ (by decide) (by decide))
            (SysCollectSleep.wake_return sys_other_returned _ .PLANTOK (by decide))))))).1
    0 (by decide)

/-- C9, as stated, fails: in the plant `two_at_work`, initialised and not
shutting down, `task_two` is registered in slot `0` with `num_waiting = 0`. A
call of `collect_task` for it goes to sleep, a second call for the same task goes
to sleep after it, both executors complete, and the first call is woken and
returns `PLANTOK` with the task `FINISHED`: the task's `num_waiting` is then `1`,
not its value `0` before the call. -/
theorem overlapping_collect_task_counterexample :
    SysReachable sys_at_work ∧ sys_at_work.plant.is_plant_initialized = true ∧
      sys_at_work.plant.is_plant_being_destroyed = false ∧
      task_ex_ptrs_find sys_at_work.plant task_two = some 0 ∧
      SysCollectCall task_two sys_at_work .PLANTOK sys_one_returned ∧
      (sys_at_work.plant.task_ex_ptrs[0]?).map (fun e => e.num_waiting) = some 0 ∧
      (sys_one_returned.plant.task_ex_ptrs[0]?).map (fun e => (e.id, e.status, e.num_waiting)) =
        some (task_two.id, .FINISHED, 1) := by
  refine ⟨sys_at_work_reachable, by decide, by decide, by decide, ?_, by decide, by decide⟩
  exact SysCollectCall.slept sys_at_work waiting _ 0 _ (by decide)
    (SysCollectSleep.step sys_one_asleep sys_two_asleep _ _
      (SysStep.collect_sleep sys_one_asleep task_two 0 _ (by decide))
      (SysCollectSleep.step sys_two_asleep sys_two_asleep_one_done _ _
        (SysStep.plant sys_two_asleep _
          (Step.do_work 5 42 sys_two_asleep.plant 0
            { worker := worker_a, id := 1, status := .WORKING,
              work_args := { t_ex_ptr := 0, station_index := 0, i := 1 } } (by decide) rfl))
        (SysCollectSleep.step sys_two_asleep_one_done sys_two_asleep_done _ _
          (SysStep.plant sys_two_asleep_one_done _
            (Step.do_work 6 43 sys_two_asleep_one_done.plant 1
              { worker := worker_b, id := 2, status := .WORKING,
                work_args := { t_ex_ptr := 0, station_index := 0, i := 0 } } (by decide) rfl))
          (SysCollectSleep.wake_return sys_two_asleep_done _ .PLANTOK (by decide)))))

end Fabryka

namespace Eventstream

/-! ## What `take` passes on -/

theorem first_events_length_le {E : Type} (src : Nat → Option E) (k i : Nat) :
    (first_events src k i).length ≤ k := by
  induction k generalizing i with
  | zero => simp [first_events]
  | succ k ih =>
    unfold first_events
    cases src i with
    | none => simp
    | some e =>
      simp only [List.length_cons]
      exact Nat.succ_le_succ (ih (i + 1))

theorem feed_take_observer {H E S : Type} (observer : observer_t H E S) :
    ∀ (l : List E) (r : Nat) (state : S) (h : H), l.length ≤ r → r < 2 ^ 64 →
      (feed (take_observer observer) l state (r, h)).1.1 = (feed observer l state h).1.1 ∧
      (feed (take_observer observer) l state (r, h)).1.2.2 = (feed observer l state h).1.2 ∧
      (l.length = r → l ≠ [] → (feed (take_observer observer) l state (r, h)).2 = true) := by
  intro l
  induction l with
  | nil =>
    intro r state h _ _
    exact ⟨rfl, rfl, fun _ hne => absurd rfl hne⟩
  | cons e es ih =>
    intro r state h hlen hr
    simp only [List.length_cons] at hlen
    have hdec : pre_decrement r = r - 1 := by
      unfold pre_decrement
      rw [if_neg (by omega)]
    rcases hobs : observer e state h with ⟨⟨next_state, c⟩, h1⟩
    by_cases h0 : r - 1 = 0
    · have hes : es = [] := List.length_eq_zero.mp (by omega)
      have e1 : take_observer observer e state (r, h) = ((next_state, .stop), (r - 1, h1)) := by
        simp only [take_observer, hdec, h0, if_true, hobs]
      have e2 : feed (take_observer observer) (e :: es) state (r, h) =
          ((next_state, (r - 1, h1)), true) := by
        simp only [feed, e1]
      have e3 : (feed observer (e :: es) state h).1 = (next_state, h1) := by
        rw [hes]
        cases c with
        | stop => simp only [feed, hobs]
        | continue_ => simp only [feed, hobs]
      rw [e2, e3]
      exact ⟨rfl, rfl, fun _ _ => rfl⟩
    · have e1 : take_observer observer e state (r, h) = ((next_state, c), (r - 1, h1)) := by
        simp only [take_observer, hdec, h0, if_false, hobs]
      cases c with
      | stop =>
        have e2 : feed (take_observer observer) (e :: es) state (r, h) =
            ((next_state, (r - 1, h1)), true) := by
          simp only [feed, e1]
        have e3 : feed observer (e :: es) state h = ((next_state, h1), true) := by
          simp only [feed, hobs]
        rw [e2, e3]
        exact ⟨rfl, rfl, fun _ _ => rfl⟩
      | continue_ =>
        have e2 : feed (take_observer observer) (e :: es) state (r, h) =
            feed (take_observer observer) es next_state (r - 1, h1) := by
          simp only [feed, e1]
        have e3 : feed observer (e :: es) state h = feed observer es next_state h1 := by
          simp only [feed, hobs]
        rw [e2, e3]
        obtain ⟨i1, i2, i3⟩ := ih (r - 1) next_state h1 (by omega) (by omega)
        refine ⟨i1, i2, fun hl _ => i3 (by simp only [List.length_cons] at hl; omega) ?_⟩
        intro hes
        rw [hes] at hl
        simp only [List.length_cons, List.length_nil] at hl
        omega

theorem feed_logged {H E S : Type} (observer : observer_t H E S) :
    ∀ (l : List E) (state : S) (h : H) (log : List E),
      feed (logged observer) l state (log, h) =
        (((feed observer l state h).1.1, (log ++ passed observer l state h,
          (feed observer l state h).1.2)), (feed observer l state h).2) := by
  intro l
  induction l with
  | nil =>
    intro state h log
    simp [feed, passed]
  | cons e es ih =>
    intro state h log
    rcases hobs : observer e state h with ⟨⟨next_state, c⟩, h1⟩
    have e1 : logged observer e state (log, h) = ((next_state, c), (log ++ [e], h1)) := by
      simp only [logged, hobs]
    cases c with
    | stop => simp only [feed, passed, e1, hobs]
    | continue_ =>
      simp only [feed, passed, e1, hobs]
      rw [ih]
      simp

theorem passed_of_not_stopped {H E S : Type} (observer : observer_t H E S) :
    ∀ (l : List E) (state : S) (h : H), (feed observer l state h).2 = false →
      passed observer l state h = l := by
  intro l
  induction l with
  | nil => intro state h _; rfl
  | cons e es ih =>
    intro state h hf
    rcases hobs : observer e state h with ⟨⟨next_state, c⟩, h1⟩
    cases c with
    | stop => simp [feed, hobs] at hf
    | continue_ =>
      simp only [feed, hobs] at hf
      simp only [passed, hobs]
      rw [ih next_state h1 hf]

theorem passed_initial {H E S : Type} (observer : observer_t H E S) :
    ∀ (l : List E) (state : S) (h : H), ∃ t, passed observer l state h ++ t = l := by
  intro l
  induction l with
  | nil => intro state h; exact ⟨[], rfl⟩
  | cons e es ih =>
    intro state h
    rcases hobs : observer e state h with ⟨⟨next_state, c⟩, h1⟩
    cases c with
    | stop => exact ⟨es, by simp [passed, hobs]⟩
    | continue_ =>
      obtain ⟨t, ht⟩ := ih next_state h1
      exact ⟨t, by simp [passed, hobs, ht]⟩

/-- What `take(n, s)` does with a stream that obeys `stop`. -/
theorem take_feed {E : Type} (n : Nat) (s : stream_t E) (src : Nat → Option E)
    (hn : n < 2 ^ 64) (hs : Obeys s src) (H S : Type) (observer : observer_t H E S) (state : S)
    (h : H) :
    ∃ fuel0, ∀ fuel, fuel0 ≤ fuel →
      take n s H S fuel observer state h =
        some (feed observer (first_events src n 0) state h).1 := by
  by_cases h0 : n = 0
  · subst h0
    exact ⟨0, fun fuel _ => rfl⟩
  · have hlen := first_events_length_le src n 0
    obtain ⟨i1, i2, i3⟩ := feed_take_observer observer (first_events src n 0) n state h hlen hn
    have hprem : (feed (take_observer observer) (first_events src n 0) state (n, h)).2 = true ∨
        (first_events src n 0).length < n := by
      rcases Nat.lt_or_ge (first_events src n 0).length n with hlt | hge
      · exact Or.inr hlt
      · refine Or.inl (i3 (by omega) ?_)
        intro hnil
        rw [hnil] at hge
        simp only [List.length_nil] at hge
        omega
    obtain ⟨fuel0, hf⟩ := hs (Nat × H) S (take_observer observer) state (n, h) n hprem
    refine ⟨fuel0, fun fuel hfuel => ?_⟩
    unfold take
    rw [if_neg h0, hf fuel hfuel]
    simp only [Option.map_some']
    congr 1
    exact Prod.ext i1 i2

theorem generate_feed_store_fst {H E S : Type} (step : E → Option E)
    (observer : observer_t H E S) :
    ∀ (fuel : Nat) (event : E) (state : S) (h : H) (init_store : Option E),
      (generate_feed_store step observer fuel event state h init_store).map (fun r => r.1) =
        generate_feed step observer fuel event state h := by
  intro fuel
  induction fuel with
  | zero => intro event state h init_store; rfl
  | succ fuel ih =>
    intro event state h init_store
    rcases hobs : observer event state h with ⟨⟨next_state, c⟩, h1⟩
    cases c with
    | stop => simp only [generate_feed_store, generate_feed, hobs, Option.map_some']
    | continue_ =>
      simp only [generate_feed_store, generate_feed, hobs]
      cases step event with
      | none => rfl
      | some x => exact ih x next_state h1 (some x)

/-- The stream `generate init step` is the first call of the object. -/
theorem generate_first_call {H E S : Type} (init : E) (step : E → Option E) (fuel : Nat)
    (observer : observer_t H E S) (state : S) (h : H) :
    (generate_call step { init_store := some init, was_invoked := false } fuel observer state
        h).map (fun r => r.1) =
      generate init step H S fuel observer state h := by
  simp only [generate_call, Bool.false_eq_true, if_false, Option.map_map]
  exact generate_feed_store_fst step observer fuel init state h (some init)

theorem generate_feed_events {H E S : Type} (init : E) (step : E → Option E)
    (observer : observer_t H E S) :
    ∀ (k i : Nat) (event : E) (state : S) (h : H) (fuel : Nat),
      generate_events init step i = some event →
      ((feed observer (first_events (generate_events init step) k i) state h).2 = true ∨
        (first_events (generate_events init step) k i).length < k) →
      k ≤ fuel →
      generate_feed step observer fuel event state h =
        some (feed observer (first_events (generate_events init step) k i) state h).1 := by
  intro k
  induction k with
  | zero =>
    intro i event state h fuel _ hp _
    rcases hp with hp | hp
    · simp [first_events, feed] at hp
    · simp [first_events] at hp
  | succ k ih =>
    intro i event state h fuel hev hp hfuel
    obtain ⟨fuel1, rfl⟩ : ∃ fuel1, fuel = fuel1 + 1 := ⟨fuel - 1, by omega⟩
    have hfirst : first_events (generate_events init step) (k + 1) i =
        event :: first_events (generate_events init step) k (i + 1) := by
      simp only [first_events, hev]
    have hnext : generate_events init step (i + 1) = step event := by
      simp only [generate_events, hev, Option.some_bind]
    rw [hfirst] at hp ⊢
    rcases hobs : observer event state h with ⟨⟨next_state, c⟩, h1⟩
    cases c with
    | stop => simp only [generate_feed, feed, hobs]
    | continue_ =>
      simp only [feed, hobs, List.length_cons] at hp ⊢
      simp only [generate_feed, hobs]
      cases hstep : step event with
      | none =>
        simp only
        have hnil : first_events (generate_events init step) k (i + 1) = [] := by
          cases k with
          | zero => rfl
          | succ k => simp only [first_events, hnext, hstep]
        rw [hnil]
        rfl
      | some x =>
        simp only
        refine ih (i + 1) x next_state h1 fuel1 (by rw [hnext, hstep]) ?_ (by omega)
        rcases hp with hp | hp
        · exact Or.inl hp
        · exact Or.inr (by omega)

theorem obeys_generate {E : Type} (init : E) (step : E → Option E) :
    Obeys (generate init step) (generate_events init step) := by
  intro H S observer state h k hp
  exact ⟨k, fun fuel hfuel =>
    generate_feed_events init step observer k 0 init state h fuel rfl hp hfuel⟩

/-- C24, as stated, fails when the downstream observer answers `stop` before
`n` events: `counter()` obeys `stop` and its first five events are `1 2 3 4 5`,
yet `take(5, counter())` passes only the event `1` to an observer that answers
`stop` at once. -/
theorem take_stopped_early_counterexample :
    Obeys counter (generate_events 1 counter_step) ∧
      first_events (generate_events 1 counter_step) 5 0 = [1, 2, 3, 4, 5] ∧
      take 5 counter (List Int × Unit) (List Int) 5 (logged stop_observer) [] ([], ()) =
        some ([1], ([1], ())) :=
  ⟨obeys_generate 1 counter_step, by decide, by decide⟩

/-- C24, amended: for every `n` (a `std::size_t`) and every stream `s` that
delivers no further event once its observer has answered `stop`, a call of
`take(n, s)` calls the downstream observer with the first
`min(n, number of events of s)` events of `s`, in order and threading the state,
up to and including the first of them at which that observer answers `stop`,
with all of them if it never does, and returns the state after the last call;
for `n = 0` it returns the initial state without calling the observer. -/
theorem take_contract {E : Type} (n : Nat) (s : stream_t E) (src : Nat → Option E)
    (hn : n < 2 ^ 64) (hs : Obeys s src) :
    (∀ (H S : Type) (observer : observer_t H E S) (state : S) (h : H),
      (∃ fuel0, ∀ fuel, fuel0 ≤ fuel →
        take n s H S fuel observer state h =
          some (feed observer (first_events src n 0) state h).1) ∧
      (∃ fuel0, ∀ fuel, fuel0 ≤ fuel →
        take n s (List E × H) S fuel (logged observer) state ([], h) =
          some ((feed observer (first_events src n 0) state h).1.1,
            (passed observer (first_events src n 0) state h,
              (feed observer (first_events src n 0) state h).1.2))) ∧
      (∃ t, passed observer (first_events src n 0) state h ++ t = first_events src n 0) ∧
      ((feed observer (first_events src n 0) state h).2 = false →
        passed observer (first_events src n 0) state h = first_events src n 0) ∧
      ∀ fuel, take 0 s H S fuel observer state h = some (state, h)) ∧
    (first_events src n 0).length ≤ n ∧
    ((∀ i, i < n → (src i).isSome = true) → (first_events src n 0).length = n) := by
  refine ⟨?_, first_events_length_le src n 0, ?_⟩
  · intro H S observer state h
    refine ⟨take_feed n s src hn hs H S observer state h, ?_, passed_initial observer _ state h,
      passed_of_not_stopped observer _ state h, fun _ => rfl⟩
    obtain ⟨fuel0, hf⟩ := take_feed n s src hn hs (List E × H) S (logged observer) state ([], h)
    refine ⟨fuel0, fun fuel hfuel => ?_⟩
    rw [hf fuel hfuel, feed_logged]
    simp
  · intro hall
    have key : ∀ (k i : Nat), (∀ j, i ≤ j → j < i + k → (src j).isSome = true) →
        (first_events src k i).length = k := by
      intro k
      induction k with
      | zero => intro i _; rfl
      | succ k ih =>
        intro i hj
        have h1 := hj i (Nat.le_refl _) (by omega)
        cases hsrc : src i with
        | none => rw [hsrc] at h1; cases h1
        | some e =>
          simp only [first_events, hsrc, List.length_cons]
          rw [ih (i + 1) (fun j h2 h3 => hj j (by omega) (by omega))]
    exact key n 0 (fun j _ h3 => hall j (by omega))

theorem take_contract_witness :
    6 < 2 ^ 64 ∧ Obeys (generate 1 double_step) (generate_events 1 double_step) ∧
      first_events (generate_events 1 double_step) 6 0 = [1, 2, 4, 8, 16, 32] ∧
      (∃ fuel0, ∀ fuel, fuel0 ≤ fuel →
        take 6 (generate 1 double_step) Unit (List Int) fuel print_observer [] () =
          some (feed print_observer (first_events (generate_events 1 double_step) 6 0)
            [] ()).1) ∧
      take 6 (generate 1 double_step) Unit (List Int) 6 print_observer [] () =
        some ([1, 2, 4, 8, 16, 32], ()) ∧
      take 5 (filter (fun x => decide (x % 2 = 0)) counter) Unit (List Int) 10
        print_observer [] () = some ([2, 4, 6, 8, 10], ()) :=
  ⟨by decide, obeys_generate 1 double_step, by decide,
    ((take_contract 6 (generate 1 double_step) (generate_events 1 double_step) (by decide)
      (obeys_generate 1 double_step)).1 Unit (List Int) print_observer [] ()).1,
    by decide, by decide⟩

/-! ## The calls of a memoized function -/

theorem memoize_calls_append {A R W : Type} [DecidableEq A] (f : A → W → R × W) :
    ∀ (l1 l2 : List A) (cache : List (A × R)) (w : W),
      memoize_calls f (l1 ++ l2) cache w =
        ((memoize_calls f l1 cache w).1 ++
            (memoize_calls f l2 (memoize_calls f l1 cache w).2.1
              (memoize_calls f l1 cache w).2.2).1,
          (memoize_calls f l2 (memoize_calls f l1 cache w).2.1
            (memoize_calls f l1 cache w).2.2).2) := by
  intro l1
  induction l1 with
  | nil => intro l2 cache w; rfl
  | cons a l1 ih =>
    intro l2 cache w
    simp only [List.cons_append, memoize_calls, List.append_eq, ih]

theorem memoize_calls_single {A R W : Type} [DecidableEq A] (f : A → W → R × W) (a : A)
    (cache : List (A × R)) (w : W) :
    memoize_calls f [a] cache w =
      ([(memoize_call f a cache w).1], (memoize_call f a cache w).2) := rfl

theorem cache_find_append {A R : Type} [DecidableEq A] (cache : List (A × R)) (b a : A) (r : R) :
    cache_find (cache ++ [(b, r)]) a =
      match cache_find cache a with
      | some x => some x
      | none => if b = a then some r else none := by
  unfold cache_find
  rw [List.find?_append]
  cases h : cache.find? (fun e => decide (e.1 = a)) with
  | some x => simp
  | none =>
    by_cases hb : b = a
    · simp [hb]
    · simp [hb]

/-- After the calls `pre` the cache holds, for every argument among them, the
value returned by the first call with that argument, and nothing else. -/
theorem cache_after_calls {A R W : Type} [DecidableEq A] (f : A → W → R × W) (w0 : W) :
    ∀ (pre : List A),
      (memoize_calls f pre [] w0).1.length = pre.length ∧
      ∀ a, cache_find (memoize_calls f pre [] w0).2.1 a =
        if a ∈ pre then (memoize_calls f pre [] w0).1[pre.indexOf a]? else none := by
  intro pre
  induction pre using List.reverseRecOn with
  | nil =>
    refine ⟨rfl, fun a => ?_⟩
    simp [memoize_calls, cache_find]
  | append_singleton pre b ih =>
    obtain ⟨ih1, ih2⟩ := ih
    rw [memoize_calls_append, memoize_calls_single]
    simp only
    generalize memoize_calls f pre [] w0 = st at ih1 ih2
    obtain ⟨res, cache, w⟩ := st
    simp only at ih1 ih2 ⊢
    refine ⟨by simp [ih1], ?_⟩
    intro a
    by_cases hb : b ∈ pre
    · have hfind := ih2 b
      rw [if_pos hb] at hfind
      have hlt : pre.indexOf b < res.length := by
        rw [ih1]; exact List.indexOf_lt_length.mpr hb
      rw [List.getElem?_eq_getElem hlt] at hfind
      have hcall : memoize_call f b cache w = (res[pre.indexOf b], cache, w) := by
        simp only [memoize_call, hfind]
      rw [hcall]
      simp only
      rw [ih2 a]
      by_cases ha : a ∈ pre
      · have hlt2 : pre.indexOf a < res.length := by
          rw [ih1]; exact List.indexOf_lt_length.mpr ha
        rw [if_pos ha, if_pos (List.mem_append_left _ ha), List.indexOf_append_of_mem ha,
          List.getElem?_append_left hlt2]
      · have hne : a ≠ b := fun e => ha (e ▸ hb)
        rw [if_neg ha, if_neg]
        simp [ha, hne]
    · have hfind := ih2 b
      rw [if_neg hb] at hfind
      have hcall : memoize_call f b cache w =
          ((f b w).1, cache ++ [(b, (f b w).1)], (f b w).2) := by
        simp only [memoize_call, cache_emplace, hfind]
      rw [hcall]
      simp only
      rw [cache_find_append, ih2 a]
      by_cases ha : a ∈ pre
      · have hlt2 : pre.indexOf a < res.length := by
          rw [ih1]; exact List.indexOf_lt_length.mpr ha
        rw [if_pos ha, if_pos (List.mem_append_left _ ha), List.indexOf_append_of_mem ha,
          List.getElem?_append_left hlt2, List.getElem?_eq_getElem hlt2]
      · rw [if_neg ha]
        simp only
        by_cases hab : b = a
        · subst hab
          rw [if_pos rfl, if_pos (by simp), List.indexOf_append_of_not_mem ha]
          simp [ih1]
        · rw [if_neg hab, if_neg]
          simp [ha, Ne.symm hab]

theorem recorded_calls_count {A R W : Type} [DecidableEq A] (f : A → W → R × W) (w0 : W) :
    ∀ (pre : List A) (a : A),
      ((memoize_calls (recorded f) pre [] (w0, [])).2.2.2.map Prod.fst).count a =
        if a ∈ pre then 1 else 0 := by
  intro pre
  induction pre using List.reverseRecOn with
  | nil => intro a; simp [memoize_calls]
  | append_singleton pre b ih =>
    intro a
    have hc := (cache_after_calls (recorded f) (w0, []) pre).2 b
    have hl := (cache_after_calls (recorded f) (w0, []) pre).1
    rw [memoize_calls_append, memoize_calls_single]
    simp only
    have iha := ih a
    have ihb := ih b
    generalize memoize_calls (recorded f) pre [] (w0, []) = st at hc hl iha ihb
    obtain ⟨res, cache, w, log⟩ := st
    simp only at hc hl iha ihb ⊢
    by_cases hb : b ∈ pre
    · rw [if_pos hb] at hc
      have hlt : pre.indexOf b < res.length := by
        rw [hl]; exact List.indexOf_lt_length.mpr hb
      rw [List.getElem?_eq_getElem hlt] at hc
      have hcall : memoize_call (recorded f) b cache (w, log) =
          (res[pre.indexOf b], cache, (w, log)) := by
        simp only [memoize_call, hc]
      rw [hcall]
      simp only
      rw [iha]
      by_cases ha : a ∈ pre
      · rw [if_pos ha, if_pos (List.mem_append_left _ ha)]
      · have hne : a ≠ b := fun e => ha (e ▸ hb)
        rw [if_neg ha, if_neg]
        simp [ha, hne]
    · rw [if_neg hb] at hc
      have hcall : memoize_call (recorded f) b cache (w, log) =
          ((f b w).1, cache ++ [(b, (f b w).1)], ((f b w).2, log ++ [(b, (f b w).1)])) := by
        simp only [memoize_call, cache_emplace, hc, recorded]
      rw [hcall]
      simp only [List.map_append, List.map_cons, List.map_nil, List.count_append, iha]
      by_cases hab : b = a
      · subst hab
        rw [if_neg hb, if_pos (by simp)]
        simp
      · by_cases ha : a ∈ pre
        · rw [if_pos ha, if_pos (List.mem_append_left _ ha)]
          simp [List.count_singleton, hab]
        · rw [if_neg ha, if_neg]
          · simp [List.count_singleton, hab]
          · simp [ha, Ne.symm hab]

/-- C25: in a sequence of calls of `mf = memoize(f)`, starting with the empty
cache, a call whose argument tuple has not occurred before invokes `f` once and
returns the value `f` returns; a call whose argument tuple has occurred before
does not invoke `f`, leaves what `f` reads and writes as it is, and returns the
value returned by the first call with that argument tuple; so over the whole
sequence `f` is invoked exactly once for every argument tuple that occurs, and
never for another. The calls `mf(5)`, `mf(5)`, `mf(10)` of the example return
`25`, `25`, `100` and invoke `f` twice. -/
theorem memoize_contract {A R W : Type} [DecidableEq A] (f : A → W → R × W) (calls : List A)
    (w0 : W) :
    (memoize_calls f calls [] w0).1.length = calls.length ∧
    (∀ (pre : List A) (a : A) (post : List A), calls = pre ++ a :: post →
      (memoize_calls f calls [] w0).1[pre.length]? =
        some (memoize_call f a (memoize_calls f pre [] w0).2.1
          (memoize_calls f pre [] w0).2.2).1 ∧
      (a ∉ pre →
        (memoize_call f a (memoize_calls f pre [] w0).2.1 (memoize_calls f pre [] w0).2.2).1 =
          (f a (memoize_calls f pre [] w0).2.2).1 ∧
        (memoize_call f a (memoize_calls f pre [] w0).2.1
          (memoize_calls f pre [] w0).2.2).2.2 = (f a (memoize_calls f pre [] w0).2.2).2) ∧
      (a ∈ pre →
        (memoize_calls f calls [] w0).1[pre.indexOf a]? =
          some (memoize_call f a (memoize_calls f pre [] w0).2.1
            (memoize_calls f pre [] w0).2.2).1 ∧
        (memoize_call f a (memoize_calls f pre [] w0).2.1
          (memoize_calls f pre [] w0).2.2).2.2 = (memoize_calls f pre [] w0).2.2)) ∧
    (∀ a, ((memoize_calls (recorded f) calls [] (w0, [])).2.2.2.map Prod.fst).count a =
      if a ∈ calls then 1 else 0) ∧
    memoize_calls square_counting [5, 5, 10] [] 0 = ([25, 25, 100], [(5, 25), (10, 100)], 2) := by
  refine ⟨(cache_after_calls f w0 calls).1, ?_, recorded_calls_count f w0 calls, by decide⟩
  intro pre a post hcalls
  obtain ⟨hl, hc⟩ := cache_after_calls f w0 pre
  have hres : (memoize_calls f calls [] w0).1 =
      (memoize_calls f pre [] w0).1 ++
        (memoize_call f a (memoize_calls f pre [] w0).2.1 (memoize_calls f pre [] w0).2.2).1 ::
          (memoize_calls f post
            (memoize_call f a (memoize_calls f pre [] w0).2.1
              (memoize_calls f pre [] w0).2.2).2.1
            (memoize_call f a (memoize_calls f pre [] w0).2.1
              (memoize_calls f pre [] w0).2.2).2.2).1 := by
    rw [hcalls, memoize_calls_append]
    rfl
  have hca := hc a
  rw [hres]
  generalize memoize_calls f pre [] w0 = st at hl hca
  obtain ⟨res, cache, w⟩ := st
  simp only at hl hca ⊢
  refine ⟨?_, ?_, ?_⟩
  · rw [← hl, List.getElem?_append_right (Nat.le_refl _), Nat.sub_self]
    simp
  · intro ha
    rw [if_neg ha] at hca
    simp only [memoize_call, cache_emplace, hca]
    exact ⟨trivial, trivial⟩
  · intro ha
    rw [if_pos ha] at hca
    have hlt : pre.indexOf a < res.length := by
      rw [hl]; exact List.indexOf_lt_length.mpr ha
    rw [List.getElem?_append_left hlt]
    rw [List.getElem?_eq_getElem hlt] at hca ⊢
    simp only [memoize_call, hca]
    exact ⟨trivial, trivial⟩

end Eventstream

namespace Mastermind
open Codebreaker

/-! ## `validate_parameters` -/

theorem validate_loop_zero (k : Int) (m : Nat) : validate_loop k m 0 = true := by
  induction m with
  | zero => rfl
  | succ m ih =>
    unfold validate_loop
    simp only [Nat.zero_mul, Nat.zero_mod]
    rw [if_neg (by norm_num)]
    exact ih

theorem validate_loop_iff (k : Int) (K : Nat) (hK : (k % 2 ^ 32).toNat = K) (h1 : 1 ≤ K)
    (h2 : K ≤ 256) (m pow_k : Nat) (hp1 : 1 ≤ pow_k) (hp2 : pow_k ≤ 2 ^ 24) :
    validate_loop k m pow_k = true ↔
      (pow_k * K ^ m ≤ 2 ^ 24 ∨ (K = 256 ∧ ∃ j, j < m ∧ pow_k * 256 ^ j = 2 ^ 24)) := by
  induction m generalizing pow_k with
  | zero =>
    simp only [validate_loop, pow_zero, mul_one, true_iff]
    exact Or.inl hp2
  | succ m ih =>
    unfold validate_loop
    rw [hK]
    have hle : pow_k * K ≤ 2 ^ 32 := by
      calc pow_k * K ≤ 2 ^ 24 * 256 := Nat.mul_le_mul hp2 h2
        _ = 2 ^ 32 := by norm_num
    have hpos : 1 ≤ pow_k * K := Nat.mul_pos hp1 h1
    have hstep : pow_k * K ^ (m + 1) = pow_k * K * K ^ m := by
      rw [pow_succ, mul_comm (K ^ m) K, mul_assoc]
    by_cases hw : pow_k * K = 2 ^ 32
    · have hmod : pow_k * K % 2 ^ 32 = 0 := by rw [hw]; exact Nat.mod_self _
      rw [hmod, if_neg (by norm_num), validate_loop_zero]
      simp only [true_iff]
      right
      have hp : pow_k = 2 ^ 24 := by
        by_contra hne
        have hlt : pow_k < 2 ^ 24 := lt_of_le_of_ne hp2 hne
        have : pow_k * K < 2 ^ 24 * 256 := by
          calc pow_k * K ≤ pow_k * 256 := Nat.mul_le_mul_left _ h2
            _ < 2 ^ 24 * 256 := Nat.mul_lt_mul_of_pos_right hlt (by norm_num)
        norm_num at this hw
        omega
      have hk : K = 256 := by
        rw [hp] at hw
        have : (2 : Nat) ^ 24 * K = 2 ^ 24 * 256 := by rw [hw]; norm_num
        exact Nat.eq_of_mul_eq_mul_left (by norm_num) this
      exact ⟨hk, 0, Nat.succ_pos m, by rw [hp]; norm_num⟩
    · have hlt : pow_k * K < 2 ^ 32 := lt_of_le_of_ne hle hw
      rw [Nat.mod_eq_of_lt hlt]
      by_cases hbig : pow_k * K > 2 ^ 24
      · rw [if_pos hbig]
        simp only [Bool.false_eq_true, false_iff, not_or, not_and, not_exists]
        constructor
        · rw [hstep]
          have : pow_k * K * 1 ≤ pow_k * K * K ^ m :=
            Nat.mul_le_mul_left _ (Nat.one_le_pow _ _ h1)
          omega
        · intro hk j hj
          subst hk
          cases j with
          | zero =>
            intro h0
            simp only [pow_zero, mul_one] at h0
            rw [h0] at hw
            norm_num at hw
          | succ j =>
            intro h0
            have e : pow_k * 256 ^ (j + 1) = pow_k * 256 * 256 ^ j := by
              rw [pow_succ, mul_comm (256 ^ j) 256, mul_assoc]
            rw [e] at h0
            have : pow_k * 256 * 1 ≤ pow_k * 256 * 256 ^ j :=
              Nat.mul_le_mul_left _ (Nat.one_le_pow _ _ (by norm_num))
            omega
      · rw [if_neg hbig]
        rw [ih (pow_k * K) hpos (by omega), hstep]
        constructor
        · rintro (h | ⟨hk, j, hj, hj2⟩)
          · exact Or.inl h
          · right
            subst hk
            refine ⟨rfl, j + 1, by omega, ?_⟩
            rw [pow_succ, mul_comm (256 ^ j) 256, ← mul_assoc]
            exact hj2
        · rintro (h | ⟨hk, j, hj, hj2⟩)
          · exact Or.inl h
          · right
            subst hk
            cases j with
            | zero =>
              exfalso
              simp only [pow_zero, mul_one] at hj2
              rw [hj2] at hbig
              norm_num at hbig
            | succ j =>
              refine ⟨rfl, j, by omega, ?_⟩
              rw [pow_succ, mul_comm (256 ^ j) 256, ← mul_assoc] at hj2
              exact hj2

theorem validate_parameters_iff (k n : Int) :
    validate_parameters k n = true ↔
      (2 ≤ k ∧ k ≤ 256 ∧ 2 ≤ n ∧ n ≤ 10 ∧ (k ^ n.toNat ≤ 2 ^ 24 ∨ (k = 256 ∧ 4 ≤ n))) := by
  unfold validate_parameters
  by_cases hg : min k n < 2 ∨ k > 256 ∨ n > 10
  · rw [if_pos hg]
    simp only [Bool.false_eq_true, false_iff]
    rintro ⟨a, b, c, d, -⟩
    rcases hg with h | h | h
    · rcases min_lt_iff.mp h with h | h <;> omega
    · omega
    · omega
  · rw [if_neg hg]
    simp only [not_or, not_lt, gt_iff_lt] at hg
    obtain ⟨h1, h2, h3⟩ := hg
    have hk2 : 2 ≤ k := le_trans h1 (min_le_left k n)
    have hn2 : 2 ≤ n := le_trans h1 (min_le_right k n)
    have hK : (k % 2 ^ 32).toNat = k.toNat := by
      rw [Int.emod_eq_of_lt (by omega) (by omega)]
    have hkK : ((k.toNat : Nat) : Int) = k := Int.toNat_of_nonneg (by omega)
    have hnN : ((n.toNat : Nat) : Int) = n := Int.toNat_of_nonneg (by omega)
    rw [validate_loop_iff k k.toNat hK (by omega) (by omega) n.toNat 1 (le_refl 1) (by norm_num)]
    simp only [one_mul]
    constructor
    · rintro (h | ⟨hk, j, hj, hj2⟩)
      · refine ⟨hk2, h2, hn2, h3, Or.inl ?_⟩
        rw [← hkK]
        exact_mod_cast h
      · refine ⟨hk2, h2, hn2, h3, Or.inr ⟨by omega, ?_⟩⟩
        have hj3 : j = 3 := by
          have : (256 : Nat) ^ j = 256 ^ 3 := by rw [hj2]; norm_num
          exact Nat.pow_right_injective (le_refl 2 |>.trans (by norm_num)) this
        omega
    · rintro ⟨-, -, -, -, h | ⟨hk, hn⟩⟩
      · left
        rw [← hkK] at h
        exact_mod_cast h
      · right
        refine ⟨by omega, 3, by omega, by norm_num⟩

/-- C14: `validate_parameters(256, 4)` returns `true` although
`256 ^ 4 = 2 ^ 32` is greater than `2 ^ 24`: the accumulator reaches `2 ^ 24`
after three multiplications, which is not greater than the limit, and the
fourth multiplication wraps it to `0`. In general the function returns `true`
exactly when `2 ≤ k ≤ 256`, `2 ≤ n ≤ 10` and either `k ^ n ≤ 2 ^ 24` or `k = 256`
and `n ≥ 4`; `Codemaker::validat_parameters` accepts a secret of four pegs with
`k = 256` in the same way. -/
theorem validate_parameters_wraps_at_256 :
    validate_parameters 256 4 = true ∧ ¬ ((256 : Int) ^ 4 ≤ 2 ^ 24) ∧
    Codemaker.validat_parameters 256 [0, 1, 2, 3] = true ∧
    ∀ k n : Int, validate_parameters k n = true ↔
      (2 ≤ k ∧ k ≤ 256 ∧ 2 ≤ n ∧ n ≤ 10 ∧ (k ^ n.toNat ≤ 2 ^ 24 ∨ (k = 256 ∧ 4 ≤ n))) :=
  ⟨by decide, by norm_num, by decide, validate_parameters_iff⟩

/-! ## `compare_sequences` -/

theorem unordered_map_at_incr (m : unordered_map) (c c' : Int) :
    (m.incr c).at c' = m.at c' + if c = c' then 1 else 0 := by
  induction m with
  | nil =>
    simp only [unordered_map.incr, unordered_map.at]
    split <;> simp
  | cons e m ih =>
    obtain ⟨a, v⟩ := e
    simp only [unordered_map.incr]
    by_cases h : a = c
    · rw [if_pos h]
      simp only [unordered_map.at]
      by_cases h' : a = c'
      · rw [if_pos h', if_pos h', if_pos (h.symm.trans h')]
      · rw [if_neg h', if_neg h', if_neg (fun e => h' (h.trans e))]
        simp
    · rw [if_neg h]
      simp only [unordered_map.at]
      by_cases h' : a = c'
      · rw [if_pos h', if_pos h', if_neg (fun e => h (h'.trans e.symm))]
        simp
      · rw [if_neg h', if_neg h']
        exact ih

theorem unordered_map_keys_incr (m : unordered_map) (c : Int) :
    (m.incr c).map Prod.fst =
      if c ∈ m.map Prod.fst then m.map Prod.fst else m.map Prod.fst ++ [c] := by
  induction m with
  | nil => simp [unordered_map.incr]
  | cons e m ih =>
    obtain ⟨a, v⟩ := e
    simp only [unordered_map.incr]
    by_cases h : a = c
    · rw [if_pos h]
      subst h
      simp
    · rw [if_neg h]
      simp only [List.map_cons, ih, List.mem_cons]
      by_cases hc : c ∈ m.map Prod.fst
      · rw [if_pos hc, if_pos (Or.inr hc)]
      · rw [if_neg hc, if_neg (by
          rintro (e | e)
          · exact h e.symm
          · exact hc e)]
        rfl

theorem unordered_map_nodup_incr (m : unordered_map) (c : Int) (h : (m.map Prod.fst).Nodup) :
    ((m.incr c).map Prod.fst).Nodup := by
  rw [unordered_map_keys_incr]
  split
  · exact h
  · rename_i hc
    rw [List.nodup_append]
    refine ⟨h, List.nodup_singleton c, ?_⟩
    intro a ha hb
    rw [List.mem_singleton] at hb
    subst hb
    exact hc ha

theorem unordered_map_at_of_mem (m : unordered_map) (h : (m.map Prod.fst).Nodup)
    (e : Int × Int) (he : e ∈ m) : m.at e.1 = e.2 := by
  induction m with
  | nil => cases he
  | cons x m ih =>
    obtain ⟨a, v⟩ := x
    rw [List.map_cons, List.nodup_cons] at h
    rcases List.mem_cons.mp he with h1 | h1
    · subst h1
      simp [unordered_map.at]
    · have hne : a ≠ e.1 := by
        intro e'
        apply h.1
        rw [e']
        exact List.mem_map.mpr ⟨e, h1, rfl⟩
      simp only [unordered_map.at]
      rw [if_neg hne]
      exact ih h.2 h1

theorem unordered_map_at_of_not_mem (m : unordered_map) (c : Int)
    (h : c ∉ m.map Prod.fst) : m.at c = 0 := by
  induction m with
  | nil => rfl
  | cons x m ih =>
    obtain ⟨a, v⟩ := x
    simp only [List.map_cons, List.mem_cons, not_or] at h
    simp only [unordered_map.at]
    rw [if_neg (fun e => h.1 e.symm)]
    exact ih h.2

/-- The map built from the empty map by `m[c]++` for the colours of `l` in
turn. -/
theorem foldl_incr_spec (l : List Int) (m : unordered_map) (h : (m.map Prod.fst).Nodup) :
    ((l.foldl unordered_map.incr m).map Prod.fst).Nodup ∧
    (∀ c, (l.foldl unordered_map.incr m).at c = m.at c + (l.count c : Int)) ∧
    (∀ c, c ∈ (l.foldl unordered_map.incr m).map Prod.fst ↔ c ∈ m.map Prod.fst ∨ c ∈ l) := by
  induction l generalizing m with
  | nil => simp [h]
  | cons a l ih =>
    simp only [List.foldl_cons]
    obtain ⟨h1, h2, h3⟩ := ih (m.incr a) (unordered_map_nodup_incr m a h)
    refine ⟨h1, ?_, ?_⟩
    · intro c
      rw [h2, unordered_map_at_incr, List.count_cons]
      by_cases hc : a = c
      · subst hc
        simp
        ring
      · have : ¬ (a == c) = true := by simpa using hc
        simp [hc, this]
    · intro c
      rw [h3, unordered_map_keys_incr]
      split
      · rename_i ha
        constructor
        · rintro (h | h)
          · exact Or.inl h
          · exact Or.inr (List.mem_cons_of_mem a h)
        · rintro (h | h)
          · exact Or.inl h
          · rcases List.mem_cons.mp h with h | h
            · subst h
              exact Or.inl ha
            · exact Or.inr h
      · simp only [List.mem_append, List.mem_singleton, List.mem_cons]
        tauto

theorem compare_loop_eq (sequence target : List Int) (b : Int) (us ut : unordered_map) :
    compare_loop sequence target (b, us, ut) =
      (b + (same_positions sequence target : Int),
        ((unpaired sequence target).map Prod.fst).foldl unordered_map.incr us,
        ((unpaired sequence target).map Prod.snd).foldl unordered_map.incr ut) := by
  induction sequence generalizing target b us ut with
  | nil => simp [compare_loop, same_positions, unpaired]
  | cons s sequence ih =>
    cases target with
    | nil => simp [compare_loop, same_positions, unpaired]
    | cons t target =>
      simp only [compare_loop]
      by_cases h : s = t
      · rw [if_pos h, ih]
        simp only [same_positions, unpaired, List.zip_cons_cons, List.filter_cons, h,
          decide_True, if_true, List.length_cons, Bool.not_true, Bool.false_eq_true, if_false]
        congr 1
        push_cast
        ring
      · rw [if_neg h, ih]
        simp [same_positions, unpaired, List.zip_cons_cons, List.filter_cons, h]

theorem foldl_min_eq (ut : unordered_map) (us : unordered_map) (w : Int) :
    us.foldl (fun w elem => w + min elem.2 (ut.at elem.1)) w =
      w + (us.map (fun elem => min elem.2 (ut.at elem.1))).sum := by
  induction us generalizing w with
  | nil => simp
  | cons e us ih =>
    simp only [List.foldl_cons, List.map_cons, List.sum_cons]
    rw [ih]
    ring

theorem unpaired_fst_subset (sequence target : List Int) :
    ∀ c ∈ (unpaired sequence target).map Prod.fst, c ∈ sequence := by
  intro c hc
  obtain ⟨p, hp, rfl⟩ := List.mem_map.mp hc
  have := (List.mem_filter.mp hp).1
  obtain ⟨a, b⟩ := p
  exact (List.of_mem_zip this).1

theorem sum_count_le (colours L : List Int) (h : colours.Nodup) :
    (colours.map (fun c => L.count c)).sum ≤ L.length := by
  rw [← List.sum_toFinset _ h, ← List.sum_toFinset_count_eq_length L]
  have h1 : ∑ a in colours.toFinset, L.count a ≤ ∑ a in colours.toFinset ∪ L.toFinset, L.count a :=
    Finset.sum_le_sum_of_subset Finset.subset_union_left
  have h2 : ∑ a in L.toFinset, L.count a = ∑ a in colours.toFinset ∪ L.toFinset, L.count a := by
    apply Finset.sum_subset Finset.subset_union_right
    intro x _ hx
    exact List.count_eq_zero.mpr (fun hm => hx (List.mem_toFinset.mpr hm))
  rw [h2]
  exact h1

theorem colour_matches_le (colours sequence target : List Int) (h : colours.Nodup) :
    colour_matches colours sequence target ≤ (unpaired sequence target).length := by
  unfold colour_matches
  have h1 := sum_count_le colours ((unpaired sequence target).map Prod.fst) h
  rw [List.length_map] at h1
  refine le_trans ?_ h1
  apply List.sum_le_sum
  intro c _
  exact min_le_left _ _

theorem same_positions_add (sequence target : List Int) :
    same_positions sequence target + (unpaired sequence target).length =
      min sequence.length target.length := by
  unfold same_positions unpaired
  rw [← List.countP_eq_length_filter, ← List.countP_eq_length_filter, ← List.length_zip]
  have := List.length_eq_countP_add_countP (fun p : Int × Int => decide (p.1 = p.2))
    (sequence.zip target)
  rw [this]
  congr 1
  apply List.countP_congr
  intro p _
  simp

theorem same_positions_eq_length (sequence target : List Int)
    (h : sequence.length = target.length) :
    same_positions sequence target = sequence.length ↔ sequence = target := by
  induction sequence generalizing target with
  | nil =>
    cases target with
    | nil => simp [same_positions]
    | cons t target => simp at h
  | cons s sequence ih =>
    cases target with
    | nil => simp at h
    | cons t target =>
      simp only [List.length_cons, Nat.add_right_cancel_iff] at h
      have hle : same_positions sequence target ≤ sequence.length := by
        have := same_positions_add sequence target
        rw [← h, min_self] at this
        omega
      by_cases e : s = t
      · subst e
        have : same_positions (s :: sequence) (s :: target) = same_positions sequence target + 1 := by
          simp [same_positions]
        rw [this]
        simp only [List.length_cons, Nat.add_right_cancel_iff, List.cons.injEq, true_and]
        exact ih target h
      · have : same_positions (s :: sequence) (t :: target) = same_positions sequence target := by
          simp [same_positions, e]
        rw [this]
        simp only [List.length_cons, List.cons.injEq, e, false_and, iff_false]
        omega

theorem compare_sequences_eq (sequence target : List Int) (colours : List Int)
    (hn : colours.Nodup) (hc : ∀ c ∈ sequence, c ∈ colours) :
    compare_sequences sequence target =
      ((same_positions sequence target : Int), (colour_matches colours sequence target : Int)) := by
  unfold compare_sequences
  rw [compare_loop_eq]
  simp only [zero_add]
  congr 1
  rw [foldl_min_eq, zero_add]
  obtain ⟨a1, a2, a3⟩ :=
    foldl_incr_spec ((unpaired sequence target).map Prod.fst) [] List.nodup_nil
  obtain ⟨-, b2, -⟩ :=
    foldl_incr_spec ((unpaired sequence target).map Prod.snd) [] List.nodup_nil
  have e1 : (((unpaired sequence target).map Prod.fst).foldl unordered_map.incr []).map
      (fun elem => min elem.2
        ((((unpaired sequence target).map Prod.snd).foldl unordered_map.incr []).at elem.1)) =
      ((((unpaired sequence target).map Prod.fst).foldl unordered_map.incr []).map Prod.fst).map
        (fun c => (((min (((unpaired sequence target).map Prod.fst).count c)
          (((unpaired sequence target).map Prod.snd).count c) : Nat)) : Int)) := by
    rw [List.map_map]
    apply List.map_congr_left
    intro e he
    have := unordered_map_at_of_mem _ a1 e he
    simp only [Function.comp]
    rw [← this, a2, b2]
    simp [unordered_map.at]
  rw [e1, ← List.sum_toFinset _ a1]
  unfold colour_matches
  rw [Nat.cast_list_sum, List.map_map, ← List.sum_toFinset _ hn]
  apply Finset.sum_subset
  · intro c hc'
    rw [List.mem_toFinset] at hc' ⊢
    have := (a3 c).mp hc'
    rcases this with h | h
    · simp at h
    · exact hc c (unpaired_fst_subset sequence target c h)
  · intro c _ hc'
    rw [List.mem_toFinset] at hc'
    have : c ∉ (unpaired sequence target).map Prod.fst := fun h => hc' ((a3 c).mpr (Or.inr h))
    show ((min (((unpaired sequence target).map Prod.fst).count c)
      (((unpaired sequence target).map Prod.snd).count c) : Nat) : Int) = 0
    rw [List.count_eq_zero.mpr this]
    simp

theorem compare_sequences_facts (sequence target : List Int)
    (h : sequence.length = target.length) :
    (compare_sequences sequence target).1 = (same_positions sequence target : Int) ∧
    (∀ colours : List Int, colours.Nodup → (∀ c ∈ sequence, c ∈ colours) →
      (compare_sequences sequence target).2 = (colour_matches colours sequence target : Int)) ∧
    0 ≤ (compare_sequences sequence target).1 ∧ 0 ≤ (compare_sequences sequence target).2 ∧
    (compare_sequences sequence target).1 + (compare_sequences sequence target).2 ≤
      (sequence.length : Int) ∧
    ((compare_sequences sequence target).1 = (sequence.length : Int) ↔ sequence = target) := by
  have hd := compare_sequences_eq sequence target sequence.dedup (List.nodup_dedup _)
    (fun c hc => List.mem_dedup.mpr hc)
  have hle := colour_matches_le sequence.dedup sequence target (List.nodup_dedup _)
  have hadd := same_positions_add sequence target
  rw [← h, min_self] at hadd
  refine ⟨by rw [hd], ?_, by rw [hd]; exact Int.natCast_nonneg _,
    by rw [hd]; exact Int.natCast_nonneg _, ?_, ?_⟩
  · intro colours hn hc
    rw [compare_sequences_eq sequence target colours hn hc]
  · rw [hd]
    simp only
    omega
  · rw [hd]
    simp only
    rw [Nat.cast_inj]
    exact same_positions_eq_length sequence target h

theorem foldl_min_perm (ut : unordered_map) (us entries : unordered_map)
    (h : entries.Perm us) :
    entries.foldl (fun w elem => w + min elem.2 (ut.at elem.1)) 0 =
      us.foldl (fun w elem => w + min elem.2 (ut.at elem.1)) 0 := by
  rw [foldl_min_eq, foldl_min_eq]
  congr 1
  exact (h.map _).sum_eq

/-- C18: for sequences of the same length, `compare_sequences(sequence, target)`
returns `(b, w)` where `b` is the number of positions at which both hold the
same colour and `w` is the sum, over the colours `c` (any duplicate-free list of
colours that has all colours of `sequence`), of the minimum of the number of
non-matching positions of `sequence` holding `c` and the number of non-matching
positions of `target` holding `c`. So `b ≥ 0`, `w ≥ 0`, `b + w` is at most the
length, and `b` is the length exactly when the sequences are equal. The value
of `w` is the same in whatever order the second loop visits the entries of
`unpaired_sequence`. -/
theorem compare_sequences_counts (sequence target : List Int)
    (h : sequence.length = target.length) :
    (compare_sequences sequence target).1 = (same_positions sequence target : Int) ∧
    (∀ colours : List Int, colours.Nodup → (∀ c ∈ sequence, c ∈ colours) →
      (compare_sequences sequence target).2 = (colour_matches colours sequence target : Int)) ∧
    0 ≤ (compare_sequences sequence target).1 ∧ 0 ≤ (compare_sequences sequence target).2 ∧
    (compare_sequences sequence target).1 + (compare_sequences sequence target).2 ≤
      (sequence.length : Int) ∧
    ((compare_sequences sequence target).1 = (sequence.length : Int) ↔ sequence = target) ∧
    (∀ entries : unordered_map,
      entries.Perm (compare_loop sequence target (0, [], [])).2.1 →
      entries.foldl
          (fun w elem =>
            w + min elem.2 ((compare_loop sequence target (0, [], [])).2.2.at elem.1)) 0 =
        (compare_sequences sequence target).2) := by
  obtain ⟨h1, h2, h3, h4, h5, h6⟩ := compare_sequences_facts sequence target h
  refine ⟨h1, h2, h3, h4, h5, h6, ?_⟩
  intro entries hp
  rw [foldl_min_perm _ _ _ hp]
  rfl

theorem compare_sequences_counts_witness :
    (compare_sequences [1, 2, 3, 3] [3, 2, 1, 4]).1 = (same_positions [1, 2, 3, 3] [3, 2, 1, 4] : Int) ∧
    (compare_sequences [1, 2, 3, 3] [3, 2, 1, 4]).2 =
      (colour_matches [0, 1, 2, 3, 4, 5] [1, 2, 3, 3] [3, 2, 1, 4] : Int) ∧
    compare_sequences [1, 2, 3, 3] [3, 2, 1, 4] = (1, 2) :=
  ⟨(compare_sequences_counts [1, 2, 3, 3] [3, 2, 1, 4] rfl).1,
    (compare_sequences_counts [1, 2, 3, 3] [3, 2, 1, 4] rfl).2.1 [0, 1, 2, 3, 4, 5] (by decide)
      (by decide),
    by decide⟩

/-! ## `Codebreaker::play` -/

theorem mem_get_every_sequence (k : Int) (m : Nat) (sequence suffix : List Int)
    (hl : suffix.length = m) (hs : ∀ c ∈ suffix, 0 ≤ c ∧ c < k) :
    sequence ++ suffix ∈ get_every_sequence k m sequence := by
  induction m generalizing sequence suffix with
  | zero =>
    have : suffix = [] := List.length_eq_zero.mp hl
    subst this
    simp [get_every_sequence]
  | succ m ih =>
    cases suffix with
    | nil => simp at hl
    | cons c suffix =>
      simp only [List.length_cons, Nat.add_right_cancel_iff] at hl
      unfold get_every_sequence
      rw [List.mem_flatMap]
      have hc := hs c (List.mem_cons_self c suffix)
      refine ⟨c.toNat, ?_, ?_⟩
      · rw [List.mem_range]
        omega
      · have e : ((c.toNat : Nat) : Int) = c := Int.toNat_of_nonneg hc.1
        rw [e]
        have := ih (sequence ++ [c]) suffix hl (fun x hx => hs x (List.mem_cons_of_mem c hx))
        rw [List.append_assoc] at this
        exact this

theorem length_of_mem_get_every_sequence (k : Int) (m : Nat) (sequence x : List Int)
    (h : x ∈ get_every_sequence k m sequence) : x.length = sequence.length + m := by
  induction m generalizing sequence with
  | zero =>
    simp only [get_every_sequence, List.mem_singleton] at h
    rw [h]
    rfl
  | succ m ih =>
    unfold get_every_sequence at h
    rw [List.mem_flatMap] at h
    obtain ⟨i, -, hi⟩ := h
    rw [ih _ hi, List.length_append]
    simp only [List.length_singleton]
    omega

theorem validate_answer_compare (sequence target : List Int)
    (h : sequence.length = target.length) :
    validate_answer (compare_sequences sequence target).1 (compare_sequences sequence target).2
      (sequence.length : Int) = true := by
  obtain ⟨-, -, h1, h2, h3, -⟩ := compare_sequences_facts sequence target h
  unfold validate_answer
  simp only [Bool.and_eq_true, decide_eq_true_eq, ge_iff_le, le_min_iff, max_le_iff]
  refine ⟨⟨⟨h1, h2⟩, ?_, ?_⟩, h3⟩ <;> omega

theorem play_loop_finds (secret : List Int) (fuel : Nat) (candidates printed : List (List Int))
    (hs : secret ∈ candidates) (hl : ∀ c ∈ candidates, c.length = secret.length)
    (hf : candidates.length ≤ fuel) :
    ∃ guesses, play_loop (secret.length : Int) (Codemaker.respond secret) fuel candidates printed =
      some (true, guesses) ∧ guesses.getLast? = some secret := by
  induction fuel generalizing candidates printed with
  | zero =>
    have : candidates = [] := List.length_eq_zero.mp (Nat.le_zero.mp hf)
    rw [this] at hs
    cases hs
  | succ fuel ih =>
    cases candidates with
    | nil => cases hs
    | cons candidate rest =>
      have hlen : candidate.length = secret.length := hl candidate (List.mem_cons_self _ _)
      have hv := validate_answer_compare candidate secret hlen
      obtain ⟨-, -, -, -, h3, h4⟩ := compare_sequences_facts candidate secret hlen
      obtain ⟨-, -, -, -, -, h5⟩ := compare_sequences_facts candidate candidate rfl
      rw [hlen] at hv h3 h4
      rw [hlen] at h5
      unfold play_loop
      simp only [Codemaker.respond]
      rw [if_neg (by rw [hv]; simp)]
      have hmem : secret ∈ (candidate :: rest).filter (fun sequence =>
          decide (((compare_sequences candidate secret).1, (compare_sequences candidate secret).2) =
            compare_sequences candidate sequence)) := by
        rw [List.mem_filter]
        exact ⟨hs, by simp⟩
      by_cases hb : (compare_sequences candidate secret).1 < (secret.length : Int)
      · rw [if_pos ⟨hb, List.ne_nil_of_mem hmem⟩]
        apply ih
        · exact hmem
        · intro c hc
          exact hl c (List.mem_filter.mp hc).1
        · have hne : ¬ ((compare_sequences candidate secret).1, (compare_sequences candidate secret).2) =
              compare_sequences candidate candidate := by
            intro e
            have e1 : (compare_sequences candidate secret).1 =
                (compare_sequences candidate candidate).1 := by rw [← e]
            rw [h5.mpr rfl] at e1
            omega
          rw [List.filter_cons, if_neg (by simpa using hne)]
          have := List.length_filter_le (fun sequence =>
            decide (((compare_sequences candidate secret).1, (compare_sequences candidate secret).2) =
              compare_sequences candidate sequence)) rest
          simp only [List.length_cons] at hf
          omega
      · rw [if_neg (fun h => hb h.1)]
        have hw : (compare_sequences candidate secret).2 ≥ 0 :=
          (compare_sequences_facts candidate secret hlen).2.2.2.1
        have hbn : (compare_sequences candidate secret).1 = (secret.length : Int) := by omega
        have hcs : candidate = secret := h4.mp hbn
        refine ⟨printed ++ [candidate], ?_, ?_⟩
        · simp [hbn]
        · rw [List.getLast?_concat, hcs]

/-- C17: for parameters with `2 ≤ k ≤ 256`, `2 ≤ n ≤ 10` and `k ^ n ≤ 2 ^ 24` and
every secret of `n` colours from `0` to `k - 1`, `Codebreaker::play(k, n)`, when
each answer it reads is `compare_sequences(guess, secret)`, comes to an end,
returns `true`, and the last guess it has printed is the secret: the secret is
among the candidates at every turn. -/
theorem codebreaker_finds_secret (k n : Int) (secret : List Int) (hk : 2 ≤ k) (hk2 : k ≤ 256)
    (hn : 2 ≤ n) (hn2 : n ≤ 10) (hpow : k ^ n.toNat ≤ 2 ^ 24)
    (hlen : (secret.length : Int) = n) (hsec : ∀ c ∈ secret, 0 ≤ c ∧ c < k) :
    ∃ guesses, play k n (Codemaker.respond secret) = some (true, guesses) ∧
      guesses.getLast? = some secret := by
  have hv : validate_parameters k n = true :=
    (validate_parameters_iff k n).mpr ⟨hk, hk2, hn, hn2, Or.inl hpow⟩
  unfold play
  rw [if_neg (by rw [hv]; simp)]
  have hnat : n.toNat = secret.length := by omega
  rw [hnat, ← hlen]
  apply play_loop_finds
  · have := mem_get_every_sequence k secret.length [] secret rfl hsec
    simpa using this
  · intro c hc
    have := length_of_mem_get_every_sequence k secret.length [] c hc
    simp only [List.length_nil, zero_add] at this
    exact this
  · exact le_refl _

theorem codebreaker_finds_secret_witness :
    ∃ guesses, play 3 2 (Codemaker.respond [2, 1]) = some (true, guesses) ∧
      guesses.getLast? = some [2, 1] :=
  codebreaker_finds_secret 3 2 [2, 1] (by decide) (by decide) (by decide) (by decide)
    (by decide) (by decide) (by decide)

end Mastermind

namespace Playlist

/-! ## Sets of iterators and the map of tracks -/

theorem mem_iter_set_insert (s : iter_set_t) (a x : Nat) :
    x ∈ iter_set_insert s a ↔ x = a ∨ x ∈ s := by
  induction s with
  | nil => simp [iter_set_insert]
  | cons b s ih =>
    unfold iter_set_insert
    split
    · simp
    · split
      · simp only [List.mem_cons, ih]
        tauto
      · have : a = b := by omega
        subst this
        simp

theorem nodup_iter_set_insert (s : iter_set_t) (a : Nat) (hs : s.Nodup) (ha : a ∉ s) :
    (iter_set_insert s a).Nodup := by
  induction s with
  | nil => simp [iter_set_insert]
  | cons b s ih =>
    rw [List.nodup_cons] at hs
    simp only [List.mem_cons, not_or] at ha
    unfold iter_set_insert
    split
    · rw [List.nodup_cons]
      exact ⟨by simp [ha.1, ha.2], List.nodup_cons.mpr hs⟩
    · split
      · rw [List.nodup_cons]
        refine ⟨?_, ih hs.2 ha.2⟩
        rw [mem_iter_set_insert]
        rintro (h | h)
        · exact ha.1 h.symm
        · exact hs.1 h
      · exfalso
        omega

theorem mem_try_emplace {T : Type} [LinearOrder T] (m : sorted_tracks_t T) (track : T)
    (hm : (m.map (fun e => e.1)).Pairwise (fun a b => a < b)) (x : T × iter_set_t) :
    x ∈ try_emplace m track ↔
      x ∈ m ∨ (x = (track, []) ∧ track ∉ m.map (fun e => e.1)) := by
  induction m with
  | nil => simp [try_emplace]
  | cons e m ih =>
    rw [List.map_cons, List.pairwise_cons] at hm
    unfold try_emplace
    split
    · rename_i h
      simp only [List.mem_cons, List.map_cons, not_or]
      constructor
      · rintro (h1 | h1 | h1)
        · refine Or.inr ⟨h1, ne_of_lt h, ?_⟩
          intro hmem
          exact absurd (lt_trans h (hm.1 _ hmem)) (lt_irrefl _)
        · exact Or.inl (Or.inl h1)
        · exact Or.inl (Or.inr h1)
      · rintro (h1 | ⟨h1, -⟩)
        · exact Or.inr h1
        · exact Or.inl h1
    · split
      · rename_i h1 h2
        simp only [List.mem_cons, ih hm.2, List.map_cons, not_or]
        constructor
        · rintro (h | h | ⟨h3, h4⟩)
          · exact Or.inl (Or.inl h)
          · exact Or.inl (Or.inr h)
          · exact Or.inr ⟨h3, ne_of_gt h2, h4⟩
        · rintro ((h | h) | ⟨h3, -, h4⟩)
          · exact Or.inl h
          · exact Or.inr (Or.inl h)
          · exact Or.inr (Or.inr ⟨h3, h4⟩)
      · rename_i h1 h2
        have : track = e.1 := le_antisymm (not_lt.mp h2) (not_lt.mp h1)
        simp only [List.mem_cons, List.map_cons, not_or]
        constructor
        · intro h
          exact Or.inl h
        · rintro (h | ⟨-, h3, -⟩)
          · exact h
          · exact absurd this h3

theorem keys_try_emplace {T : Type} [LinearOrder T] (m : sorted_tracks_t T) (track : T)
    (hm : (m.map (fun e => e.1)).Pairwise (fun a b => a < b)) (k : T) :
    k ∈ (try_emplace m track).map (fun e => e.1) ↔ k ∈ m.map (fun e => e.1) ∨ k = track := by
  simp only [List.mem_map, mem_try_emplace m track hm]
  constructor
  · rintro ⟨x, h | ⟨h1, -⟩, rfl⟩
    · exact Or.inl ⟨x, h, rfl⟩
    · rw [h1]
      exact Or.inr rfl
  · rintro (⟨x, h, rfl⟩ | h)
    · exact ⟨x, Or.inl h, rfl⟩
    · subst h
      by_cases hk : ∃ x ∈ m, x.1 = k
      · obtain ⟨x, hx, rfl⟩ := hk
        exact ⟨x, Or.inl hx, rfl⟩
      · exact ⟨(k, []), Or.inr ⟨rfl, by simpa using hk⟩, rfl⟩

theorem sorted_try_emplace {T : Type} [LinearOrder T] (m : sorted_tracks_t T) (track : T)
    (hm : (m.map (fun e => e.1)).Pairwise (fun a b => a < b)) :
    ((try_emplace m track).map (fun e => e.1)).Pairwise (fun a b => a < b) := by
  induction m with
  | nil => simp [try_emplace]
  | cons e m ih =>
    have hm' := hm
    rw [List.map_cons, List.pairwise_cons] at hm'
    unfold try_emplace
    split
    · rename_i h
      rw [List.map_cons, List.pairwise_cons]
      refine ⟨?_, hm⟩
      intro k hk
      rw [List.map_cons, List.mem_cons] at hk
      rcases hk with hk | hk
      · rw [hk]
        exact h
      · exact lt_trans h (hm'.1 k hk)
    · split
      · rename_i h1 h2
        rw [List.map_cons, List.pairwise_cons]
        refine ⟨?_, ih hm'.2⟩
        intro k hk
        rcases (keys_try_emplace m track hm'.2 k).mp hk with hk | hk
        · exact hm'.1 k hk
        · rw [hk]
          exact h2
      · exact hm

theorem keys_map_update {T : Type} [LinearOrder T] (m : sorted_tracks_t T) (track : T)
    (f : iter_set_t → iter_set_t) :
    (map_update m track f).map (fun e => e.1) = m.map (fun e => e.1) := by
  unfold map_update
  rw [List.map_map]
  apply List.map_congr_left
  intro e _
  simp only [Function.comp]
  split <;> rfl

theorem mem_map_update {T : Type} [LinearOrder T] (m : sorted_tracks_t T) (track : T)
    (f : iter_set_t → iter_set_t) (k : T) (s : iter_set_t) :
    (k, s) ∈ map_update m track f ↔
      ∃ s0, (k, s0) ∈ m ∧ s = if k = track then f s0 else s0 := by
  unfold map_update
  rw [List.mem_map]
  constructor
  · rintro ⟨⟨k0, s0⟩, h0, h1⟩
    simp only at h1
    split at h1
    · rename_i hk
      cases h1
      exact ⟨s0, h0, by rw [if_pos hk]⟩
    · rename_i hk
      cases h1
      exact ⟨s, h0, by rw [if_neg hk]⟩
  · rintro ⟨s0, h0, h1⟩
    refine ⟨(k, s0), h0, ?_⟩
    simp only
    split
    · rename_i hk
      rw [h1, if_pos hk]
    · rename_i hk
      rw [h1, if_neg hk]

theorem mem_map_erase {T : Type} [LinearOrder T] (m : sorted_tracks_t T) (track : T)
    (x : T × iter_set_t) : x ∈ map_erase m track ↔ x ∈ m ∧ x.1 ≠ track := by
  unfold map_erase
  simp [List.mem_filter]

theorem sorted_map_erase {T : Type} [LinearOrder T] (m : sorted_tracks_t T) (track : T)
    (hm : (m.map (fun e => e.1)).Pairwise (fun a b => a < b)) :
    ((map_erase m track).map (fun e => e.1)).Pairwise (fun a b => a < b) := by
  unfold map_erase
  exact hm.sublist (List.Sublist.map _ (List.filter_sublist _))

theorem unique_of_sorted {T : Type} [LinearOrder T] (m : sorted_tracks_t T)
    (hm : (m.map (fun e => e.1)).Pairwise (fun a b => a < b)) (k : T) (s s' : iter_set_t)
    (h : (k, s) ∈ m) (h' : (k, s') ∈ m) : s = s' := by
  induction m with
  | nil => cases h
  | cons e m ih =>
    rw [List.map_cons, List.pairwise_cons] at hm
    rcases List.mem_cons.mp h with h1 | h1 <;> rcases List.mem_cons.mp h' with h2 | h2
    · rw [← h1] at h2
      cases h2
      rfl
    · exfalso
      have := hm.1 k (List.mem_map.mpr ⟨(k, s'), h2, rfl⟩)
      rw [← h1] at this
      exact lt_irrefl _ this
    · exfalso
      have := hm.1 k (List.mem_map.mpr ⟨(k, s), h1, rfl⟩)
      rw [← h2] at this
      exact lt_irrefl _ this
    · exact ih hm.2 h1 h2

theorem map_find_some {T : Type} [LinearOrder T] {m : sorted_tracks_t T} {track : T}
    {s : iter_set_t} (h : map_find m track = some s) : (track, s) ∈ m := by
  unfold map_find at h
  cases hf : m.find? (fun e => decide (e.1 = track)) with
  | none => rw [hf] at h; cases h
  | some e =>
    rw [hf] at h
    simp only [Option.map_some', Option.some.injEq] at h
    have h1 := List.find?_some hf
    have h2 := List.mem_of_find?_eq_some hf
    simp only [decide_eq_true_eq] at h1
    rw [← h1, ← h]
    exact h2

theorem map_find_none {T : Type} [LinearOrder T] {m : sorted_tracks_t T} {track : T}
    (h : map_find m track = none) : track ∉ m.map (fun e => e.1) := by
  unfold map_find at h
  cases hf : m.find? (fun e => decide (e.1 = track)) with
  | some e => rw [hf] at h; cases h
  | none =>
    rw [List.find?_eq_none] at hf
    intro hm
    obtain ⟨e, he, hk⟩ := List.mem_map.mp hm
    have := hf e he
    simp only [decide_eq_true_eq] at this
    exact this hk

theorem map_find_of_mem {T : Type} [LinearOrder T] {m : sorted_tracks_t T} {track : T}
    {s : iter_set_t} (hm : (m.map (fun e => e.1)).Pairwise (fun a b => a < b))
    (h : (track, s) ∈ m) : map_find m track = some s := by
  cases hf : map_find m track with
  | none => exact absurd (List.mem_map.mpr ⟨(track, s), h, rfl⟩) (map_find_none hf)
  | some s' => rw [unique_of_sorted m hm track s s' h (map_find_some hf)]

/-! ## Consistency of the list and the map -/

theorem consistent_empty {T P : Type} [LinearOrder T] :
    Consistent (playlist_impl.empty : playlist_impl T P) :=
  ⟨List.nodup_nil, List.Pairwise.nil, fun _ _ h => (by cases h), fun _ h => (by cases h)⟩

theorem consistent_shareable {T P : Type} [LinearOrder T] {d : playlist_impl T P}
    (h : Consistent d) (b : Bool) : Consistent { d with shareable := b } :=
  ⟨h.addrs, h.keys, h.sets, h.tracks⟩

theorem addr_inj {T P : Type} {l : List (Entry T P)} (h : (l.map (fun e => e.addr)).Nodup)
    {e e' : Entry T P} (he : e ∈ l) (he' : e' ∈ l) (ha : e.addr = e'.addr) : e = e' :=
  List.inj_on_of_nodup_map h he he' ha

theorem consistent_push_back_impl {T P : Type} [LinearOrder T] (alloc : List Nat → Nat)
    (ha : fresh alloc) {d : playlist_impl T P} (h : Consistent d) (track : T) (params : P) :
    Consistent (push_back_impl alloc d track params) := by
  have hfresh := ha (d.play_tracks.map (fun e => e.addr))
  have hnot : ∀ e ∈ d.play_tracks, e.addr ≠ alloc (d.play_tracks.map (fun e => e.addr)) := by
    intro e he heq
    apply hfresh
    rw [← heq]
    exact List.mem_map.mpr ⟨e, he, rfl⟩
  have e1 : (push_back_impl alloc d track params).sorted_tracks =
      map_update (try_emplace d.sorted_tracks track) track
        (fun s => iter_set_insert s (alloc (d.play_tracks.map (fun e => e.addr)))) := rfl
  have e2 : (push_back_impl alloc d track params).play_tracks =
      d.play_tracks ++ [Entry.mk (alloc (d.play_tracks.map (fun e => e.addr))) params track] :=
    rfl
  refine ⟨?_, ?_, ?_, ?_⟩
  · rw [e2, List.map_append, List.nodup_append]
    refine ⟨h.addrs, by simp, ?_⟩
    intro a h1 h2
    simp only [List.map_cons, List.map_nil, List.mem_singleton] at h2
    rw [h2] at h1
    exact hfresh h1
  · rw [e1, keys_map_update]
    exact sorted_try_emplace _ _ h.keys
  · intro k s hks
    rw [e1, mem_map_update] at hks
    obtain ⟨s0, h0, hs⟩ := hks
    rw [mem_try_emplace _ _ h.keys] at h0
    have hmem : ∀ (a : Nat) (q : Entry T P → Prop),
        (∃ e ∈ (push_back_impl alloc d track params).play_tracks, e.addr = a ∧ q e) ↔
          ((∃ e ∈ d.play_tracks, e.addr = a ∧ q e) ∨
            (a = alloc (d.play_tracks.map (fun e => e.addr)) ∧
              q (Entry.mk (alloc (d.play_tracks.map (fun e => e.addr))) params track))) := by
      intro a q
      rw [e2]
      simp only [List.mem_append, List.mem_singleton]
      constructor
      · rintro ⟨e, he | he, h1, h2⟩
        · exact Or.inl ⟨e, he, h1, h2⟩
        · subst he
          exact Or.inr ⟨h1.symm, h2⟩
      · rintro (⟨e, he, h1, h2⟩ | ⟨h1, h2⟩)
        · exact ⟨e, Or.inl he, h1, h2⟩
        · exact ⟨_, Or.inr rfl, h1.symm, h2⟩
    by_cases hk : k = track
    · subst hk
      rw [if_pos rfl] at hs
      rcases h0 with h0 | ⟨h0, hnew⟩
      · obtain ⟨n1, n2, n3⟩ := h.sets k s0 h0
        have hns : alloc (d.play_tracks.map (fun e => e.addr)) ∉ s0 := by
          intro hin
          obtain ⟨e, he, hea, -⟩ := (n3 _).mp hin
          exact hnot e he hea
        subst hs
        refine ⟨nodup_iter_set_insert s0 _ n1 hns, ?_, ?_⟩
        · intro hnil
          have : alloc (d.play_tracks.map (fun e => e.addr)) ∈
              iter_set_insert s0 (alloc (d.play_tracks.map (fun e => e.addr))) :=
            (mem_iter_set_insert _ _ _).mpr (Or.inl rfl)
          rw [hnil] at this
          cases this
        · intro a
          rw [mem_iter_set_insert, hmem a (fun e => e.map_iter = k), n3 a]
          constructor
          · rintro (h1 | h1)
            · exact Or.inr ⟨h1, rfl⟩
            · exact Or.inl h1
          · rintro (h1 | ⟨h1, -⟩)
            · exact Or.inr h1
            · exact Or.inl h1
      · cases h0
        subst hs
        refine ⟨by simp [iter_set_insert], by simp [iter_set_insert], ?_⟩
        intro a
        rw [hmem a (fun e => e.map_iter = k)]
        simp only [iter_set_insert, List.mem_singleton]
        constructor
        · intro h1
          exact Or.inr ⟨h1, trivial⟩
        · rintro (⟨e, he, -, h2⟩ | ⟨h1, -⟩)
          · exfalso
            apply hnew
            rw [← h2]
            exact h.tracks e he
          · exact h1
    · rw [if_neg hk] at hs
      subst hs
      rcases h0 with h0 | ⟨h0, -⟩
      · obtain ⟨n1, n2, n3⟩ := h.sets k s h0
        refine ⟨n1, n2, ?_⟩
        intro a
        rw [hmem a (fun e => e.map_iter = k), n3 a]
        constructor
        · intro h1
          exact Or.inl h1
        · rintro (h1 | ⟨-, h1⟩)
          · exact h1
          · exact absurd h1.symm hk
      · cases h0
        exact absurd rfl hk
  · intro e he
    rw [e2] at he
    rw [e1, keys_map_update, keys_try_emplace _ _ h.keys]
    rcases List.mem_append.mp he with h1 | h1
    · exact Or.inl (h.tracks e h1)
    · rw [List.mem_singleton] at h1
      rw [h1]
      exact Or.inr rfl

theorem consistent_foldl_push_back {T P : Type} [LinearOrder T] (alloc : List Nat → Nat)
    (ha : fresh alloc) (l : List (Entry T P)) (d : playlist_impl T P) (h : Consistent d) :
    Consistent (l.foldl (fun plist e => push_back_impl alloc plist e.map_iter e.params) d) := by
  induction l generalizing d with
  | nil => exact h
  | cons e l ih => exact ih _ (consistent_push_back_impl alloc ha h _ _)

theorem consistent_rebuild {T P : Type} [LinearOrder T] (alloc : List Nat → Nat)
    (ha : fresh alloc) (d : playlist_impl T P) : Consistent (rebuild alloc d) :=
  consistent_foldl_push_back alloc ha d.play_tracks _ consistent_empty

theorem consistent_copy_on_write {T P : Type} [LinearOrder T] (alloc : List Nat → Nat)
    (ha : fresh alloc) (unique shareable : Bool) (pl : playlist T P)
    (h : ∀ d, pl.data = some d → Consistent d) :
    Consistent (copy_on_write alloc unique shareable pl) := by
  unfold copy_on_write
  split
  · exact consistent_shareable consistent_empty _
  · rename_i d hd
    split
    · exact consistent_shareable (h d hd) _
    · exact consistent_shareable (consistent_rebuild alloc ha d) _

theorem consistent_pop_front_impl {T P : Type} [LinearOrder T] {d : playlist_impl T P}
    (h : Consistent d) : Consistent (pop_front_impl d) := by
  unfold pop_front_impl
  cases hl : d.play_tracks with
  | nil =>
    simp only
    exact h
  | cons entry rest =>
    simp only
    have haddrs := h.addrs
    rw [hl, List.map_cons, List.nodup_cons] at haddrs
    have hkey := h.tracks entry (by rw [hl]; exact List.mem_cons_self _ _)
    obtain ⟨⟨k1, sk⟩, hsk, hentry.map_iter⟩ := List.mem_map.mp hkey
    simp only at hentry.map_iter
    rw [hentry.map_iter] at hsk
    obtain ⟨n1, n2, n3⟩ := h.sets _ sk hsk
    have hrest : ∀ e ∈ rest, e.addr ≠ entry.addr := by
      intro e he heq
      apply haddrs.1
      rw [← heq]
      exact List.mem_map.mpr ⟨e, he, rfl⟩
    have hm1 : (entry.map_iter, sk.erase entry.addr) ∈
        map_update d.sorted_tracks entry.map_iter (fun s => s.erase entry.addr) := by
      rw [mem_map_update]
      exact ⟨sk, hsk, by rw [if_pos rfl]⟩
    have hs1 : ((map_update d.sorted_tracks entry.map_iter (fun s => s.erase entry.addr)).map
        (fun e => e.1)).Pairwise (fun a b => a < b) := by
      rw [keys_map_update]
      exact h.keys
    have hfind := map_find_of_mem hs1 hm1
    have hsets : ∀ k s, (k, s) ∈ map_update d.sorted_tracks entry.map_iter (fun s => s.erase entry.addr) →
        s.Nodup ∧ (s ≠ [] ∨ (k = entry.map_iter ∧ sk.erase entry.addr = [])) ∧
          ∀ a, a ∈ s ↔ ∃ e ∈ rest, e.addr = a ∧ e.map_iter = k := by
      intro k s hks
      rw [mem_map_update] at hks
      obtain ⟨s0, h0, hs⟩ := hks
      obtain ⟨m1, m2, m3⟩ := h.sets k s0 h0
      by_cases hk : k = entry.map_iter
      · subst hk
        rw [if_pos rfl] at hs
        have : s0 = sk := unique_of_sorted _ h.keys _ _ _ h0 hsk
        subst this
        subst hs
        refine ⟨m1.erase _, ?_, ?_⟩
        · by_cases hnil : s0.erase entry.addr = []
          · exact Or.inr ⟨rfl, hnil⟩
          · exact Or.inl hnil
        · intro a
          rw [m1.mem_erase_iff, m3 a, hl]
          constructor
          · rintro ⟨hne, e, he, hea, het⟩
            rcases List.mem_cons.mp he with h1 | h1
            · subst h1
              exact absurd hea.symm hne
            · exact ⟨e, h1, hea, het⟩
          · rintro ⟨e, he, hea, het⟩
            refine ⟨?_, e, List.mem_cons_of_mem _ he, hea, het⟩
            rw [← hea]
            exact hrest e he
      · rw [if_neg hk] at hs
        subst hs
        refine ⟨m1, Or.inl m2, ?_⟩
        intro a
        rw [m3 a, hl]
        constructor
        · rintro ⟨e, he, hea, het⟩
          rcases List.mem_cons.mp he with h1 | h1
          · subst h1
            exact absurd het.symm hk
          · exact ⟨e, h1, hea, het⟩
        · rintro ⟨e, he, hea, het⟩
          exact ⟨e, List.mem_cons_of_mem _ he, hea, het⟩
    have htracks : ∀ e ∈ rest, e.map_iter ∈ d.sorted_tracks.map (fun e => e.1) := by
      intro e he
      exact h.tracks e (by rw [hl]; exact List.mem_cons_of_mem _ he)
    rw [hfind]
    by_cases hnil : sk.erase entry.addr = []
    · rw [hnil]
      simp only
      refine ⟨haddrs.2, sorted_map_erase _ _ hs1, ?_, ?_⟩
      · intro k s hks
        rw [mem_map_erase] at hks
        obtain ⟨q1, q2, q3⟩ := hsets k s hks.1
        refine ⟨q1, ?_, q3⟩
        rcases q2 with q2 | ⟨q2, -⟩
        · exact q2
        · exact absurd q2 hks.2
      · intro e he
        have hne : e.map_iter ≠ entry.map_iter := by
          intro heq
          have : e.addr ∈ sk := (n3 _).mpr ⟨e, by rw [hl]; exact List.mem_cons_of_mem _ he, rfl, heq⟩
          have h2 : e.addr ∈ sk.erase entry.addr := (n1.mem_erase_iff).mpr ⟨hrest e he, this⟩
          rw [hnil] at h2
          cases h2
        obtain ⟨x, hx, hxk⟩ := List.mem_map.mp (htracks e he)
        have hx' : (x.1, x.2) ∈ map_update d.sorted_tracks entry.map_iter (fun s => s.erase entry.addr) := by
          rw [mem_map_update]
          exact ⟨x.2, hx, by rw [if_neg (by rw [hxk]; exact hne)]⟩
        exact List.mem_map.mpr ⟨(x.1, x.2), (mem_map_erase _ _ _).mpr ⟨hx', by rw [hxk]; exact hne⟩,
          hxk⟩
    · have hmatch : (match (some (sk.erase entry.addr) : Option iter_set_t) with
          | some [] =>
            map_erase (map_update d.sorted_tracks entry.map_iter (fun s => s.erase entry.addr)) entry.map_iter
          | _ => map_update d.sorted_tracks entry.map_iter (fun s => s.erase entry.addr)) =
          map_update d.sorted_tracks entry.map_iter (fun s => s.erase entry.addr) := by
        cases he : sk.erase entry.addr with
        | nil => exact absurd he hnil
        | cons a l => rfl
      rw [hmatch]
      refine ⟨haddrs.2, hs1, ?_, ?_⟩
      · intro k s hks
        obtain ⟨q1, q2, q3⟩ := hsets k s hks
        refine ⟨q1, ?_, q3⟩
        rcases q2 with q2 | ⟨-, q2⟩
        · exact q2
        · exact absurd q2 hnil
      · intro e he
        rw [keys_map_update]
        exact htracks e he

theorem erase_node_eq_filter {T P : Type} (l : List (Entry T P)) (a : Nat)
    (h : (l.map (fun e => e.addr)).Nodup) :
    erase_node l a = l.filter (fun e => !decide (e.addr = a)) := by
  unfold erase_node
  induction l with
  | nil => rfl
  | cons e l ih =>
    rw [List.map_cons, List.nodup_cons] at h
    by_cases he : e.addr = a
    · rw [List.eraseP_cons_of_pos (by simpa using he), List.filter_cons_of_neg (by simpa using he)]
      symm
      rw [List.filter_eq_self]
      intro x hx
      have : x.addr ≠ a := by
        intro hxa
        apply h.1
        rw [he, ← hxa]
        exact List.mem_map.mpr ⟨x, hx, rfl⟩
      simpa using this
    · rw [List.eraseP_cons_of_neg (by simpa using he), List.filter_cons_of_pos (by simpa using he),
        ih h.2]

theorem foldl_erase_node {T P : Type} (s : iter_set_t) (l : List (Entry T P))
    (h : (l.map (fun e => e.addr)).Nodup) :
    s.foldl erase_node l = l.filter (fun e => !decide (e.addr ∈ s)) := by
  induction s generalizing l with
  | nil => simp
  | cons a s ih =>
    rw [List.foldl_cons, erase_node_eq_filter l a h, ih, List.filter_filter]
    · apply List.filter_congr
      intro e _
      simp only [List.mem_cons, not_or, Bool.and_eq_true, Bool.not_eq_true', decide_eq_false_iff_not,
        Bool.decide_or, Bool.not_or]
      by_cases h1 : e.addr = a <;> by_cases h2 : e.addr ∈ s <;> simp [h1, h2]
    · exact h.sublist (List.Sublist.map _ (List.filter_sublist _))

theorem remove_impl_play_tracks {T P : Type} [LinearOrder T] {d : playlist_impl T P}
    (h : Consistent d) (track : T) (s : iter_set_t) (hs : map_find d.sorted_tracks track = some s) :
    s.foldl erase_node d.play_tracks =
      d.play_tracks.filter (fun e => !decide (e.map_iter = track)) := by
  rw [foldl_erase_node s _ h.addrs]
  obtain ⟨-, -, n3⟩ := h.sets track s (map_find_some hs)
  apply List.filter_congr
  intro e he
  have : e.addr ∈ s ↔ e.map_iter = track := by
    rw [n3]
    constructor
    · rintro ⟨e', he', hea, het⟩
      rw [← addr_inj h.addrs he' he hea]
      exact het
    · intro het
      exact ⟨e, he, rfl, het⟩
  by_cases h1 : e.map_iter = track
  · simp [h1, this.mpr h1]
  · have h2 : e.addr ∉ s := fun h2 => h1 (this.mp h2)
    simp [h1, h2]

theorem consistent_remove_impl {T P : Type} [LinearOrder T] {d : playlist_impl T P}
    (h : Consistent d) (track : T) : Consistent (remove_impl d track) := by
  unfold remove_impl
  cases hs : map_find d.sorted_tracks track with
  | none =>
    simp only
    exact h
  | some s =>
    simp only
    rw [remove_impl_play_tracks h track s hs]
    refine ⟨?_, sorted_map_erase _ _ h.keys, ?_, ?_⟩
    · exact h.addrs.sublist (List.Sublist.map _ (List.filter_sublist _))
    · intro k s' hks
      rw [mem_map_erase] at hks
      obtain ⟨n1, n2, n3⟩ := h.sets k s' hks.1
      refine ⟨n1, n2, ?_⟩
      intro a
      rw [n3 a]
      constructor
      · rintro ⟨e, he, hea, het⟩
        refine ⟨e, ?_, hea, het⟩
        rw [List.mem_filter]
        refine ⟨he, ?_⟩
        have : e.map_iter ≠ track := by
          rw [het]
          exact hks.2
        simpa using this
      · rintro ⟨e, he, hea, het⟩
        exact ⟨e, (List.mem_filter.mp he).1, hea, het⟩
    · intro e he
      rw [List.mem_filter] at he
      have hne : e.map_iter ≠ track := by simpa using he.2
      obtain ⟨x, hx, hxk⟩ := List.mem_map.mp (h.tracks e he.1)
      exact List.mem_map.mpr ⟨x, (mem_map_erase _ _ _).mpr ⟨hx, by rw [hxk]; exact hne⟩, hxk⟩

theorem consistent_reachable {T P : Type} [LinearOrder T] {pl : playlist T P}
    (h : Reachable pl) : ∀ d, pl.data = some d → Consistent d := by
  induction h with
  | new =>
    intro d hd
    cases hd
    exact consistent_empty
  | push_back alloc unique pl track params ha _ ih =>
    intro d hd
    cases hd
    exact consistent_push_back_impl alloc ha
      (consistent_copy_on_write alloc ha unique true pl ih) track params
  | pop_front alloc unique pl ha _ ih =>
    intro d hd
    unfold pop_front at hd
    split at hd
    · rename_i h0
      rw [h0] at hd
      cases hd
    · rename_i d0 h0
      split at hd
      · exact ih d (by rw [← hd])
      · cases hd
        exact consistent_pop_front_impl (consistent_copy_on_write alloc ha unique true pl ih)
  | remove alloc unique pl track ha _ ih =>
    intro d hd
    unfold remove at hd
    split at hd
    · rename_i h0
      rw [h0] at hd
      cases hd
    · rename_i d0 h0
      split at hd
      · exact ih d (by rw [← hd])
      · cases hd
        exact consistent_remove_impl (consistent_copy_on_write alloc ha unique true pl ih) track
  | clear unique pl _ ih =>
    intro d hd
    unfold clear at hd
    split at hd
    · cases hd
    · rename_i d0 h0
      split at hd
      · cases hd
      · cases hd
        exact ⟨List.nodup_nil, List.Pairwise.nil, fun _ _ h => (by cases h),
          fun _ h => (by cases h)⟩

/-! ## What the iterations visit -/

theorem filterMap_range_getElem? {α β : Type} (l : List α) (f : α → β) :
    (List.range l.length).filterMap (fun i => (l[i]?).map f) = l.map f := by
  induction l with
  | nil => rfl
  | cons a l ih =>
    rw [List.length_cons, List.range_succ_eq_map, List.filterMap_cons]
    simp only [List.getElem?_cons_zero, Option.map_some', List.map_cons, List.filterMap_map]
    congr 1
    rw [← ih]
    apply List.filterMap_congr
    intro i _
    simp [Function.comp]

theorem records_eq {T P : Type} (pl : playlist T P) :
    records pl = (check_null_data pl).play_tracks.map (fun e => (e.map_iter, e.params)) := by
  unfold records play_end play check_null_data
  cases pl.data with
  | none => rfl
  | some d => exact filterMap_range_getElem? d.play_tracks _

theorem payments_eq {T P : Type} (pl : playlist T P) :
    payments pl = (check_null_data pl).sorted_tracks.map (fun e => (e.1, e.2.length)) := by
  unfold payments sorted_end pay check_null_data
  cases pl.data with
  | none => rfl
  | some d => exact filterMap_range_getElem? d.sorted_tracks _

theorem size_eq {T P : Type} (pl : playlist T P) :
    size pl = (check_null_data pl).play_tracks.length := by
  unfold size check_null_data
  cases pl.data <;> rfl

theorem consistent_check_null_data {T P : Type} [LinearOrder T] {pl : playlist T P}
    (h : Reachable pl) : Consistent (check_null_data pl) := by
  unfold check_null_data
  cases hd : pl.data with
  | none => exact consistent_empty
  | some d => exact consistent_reachable h d hd

theorem set_length_eq_countP {T P : Type} [LinearOrder T] {d : playlist_impl T P}
    (h : Consistent d) (k : T) (s : iter_set_t) (hks : (k, s) ∈ d.sorted_tracks) :
    s.length = d.play_tracks.countP (fun e => decide (e.map_iter = k)) := by
  obtain ⟨n1, -, n3⟩ := h.sets k s hks
  have hnd : ((d.play_tracks.filter (fun e => decide (e.map_iter = k))).map
      (fun e => e.addr)).Nodup :=
    h.addrs.sublist (List.Sublist.map _ (List.filter_sublist _))
  have hperm : s.Perm ((d.play_tracks.filter (fun e => decide (e.map_iter = k))).map
      (fun e => e.addr)) := by
    rw [List.perm_ext_iff_of_nodup n1 hnd]
    intro a
    rw [n3 a, List.mem_map]
    constructor
    · rintro ⟨e, he, hea, het⟩
      exact ⟨e, List.mem_filter.mpr ⟨he, by simpa using het⟩, hea⟩
    · rintro ⟨e, he, hea⟩
      rw [List.mem_filter] at he
      exact ⟨e, he.1, hea, by simpa using he.2⟩
  rw [hperm.length_eq, List.length_map, List.countP_eq_length_filter]

theorem sum_count_keys {T : Type} [DecidableEq T] (keys : List T) (hk : keys.Nodup)
    (tracks : List T) (ht : ∀ t ∈ tracks, t ∈ keys) :
    (keys.map (fun k => tracks.countP (fun t => decide (t = k)))).sum = tracks.length := by
  induction tracks with
  | nil => simp
  | cons t tracks ih =>
    have h1 : ∀ k, (t :: tracks).countP (fun x => decide (x = k)) =
        tracks.countP (fun x => decide (x = k)) + if t = k then 1 else 0 := by
      intro k
      rw [List.countP_cons]
      simp
    simp only [h1]
    rw [List.sum_map_add, ih (fun x hx => ht x (List.mem_cons_of_mem _ hx)), List.length_cons]
    congr 1
    have h2 : (keys.map (fun k => if t = k then 1 else 0)).sum = keys.count t := by
      clear ih h1 ht
      induction keys with
      | nil => rfl
      | cons k keys ih2 =>
        rw [List.nodup_cons] at hk
        rw [List.map_cons, List.sum_cons, ih2 hk.2, List.count_cons]
        by_cases e : t = k
        · subst e
          simp
          omega
        · have : ¬ (k == t) = true := by simpa using fun h => e h.symm
          simp [e, this]
    rw [h2]
    exact List.count_eq_one_of_mem hk (ht t (List.mem_cons_self _ _))

theorem nodup_of_sorted {T : Type} [LinearOrder T] (keys : List T)
    (h : keys.Pairwise (fun a b => a < b)) : keys.Nodup :=
  h.imp (fun hab => ne_of_lt hab)

theorem next_addr_ge (l : List Nat) (m x : Nat) (h : x ∈ l ∨ x ≤ m) : x ≤ l.foldl max m := by
  induction l generalizing m with
  | nil =>
    rcases h with h | h
    · cases h
    · exact h
  | cons a l ih =>
    rw [List.foldl_cons]
    apply ih
    rcases h with h | h
    · rcases List.mem_cons.mp h with h | h
      · right
        rw [h]
        exact le_max_right m a
      · exact Or.inl h
    · exact Or.inr (le_trans h (le_max_left m a))

theorem fresh_next_addr : fresh next_addr := by
  intro l h
  have := next_addr_ge l 0 (next_addr l) (Or.inl h)
  unfold next_addr at this
  omega

theorem reachable_four_tracks : Reachable four_tracks :=
  Reachable.push_back next_addr true _ 2 13 fresh_next_addr
    (Reachable.push_back next_addr true _ 3 12 fresh_next_addr
      (Reachable.push_back next_addr true _ 1 11 fresh_next_addr
        (Reachable.push_back next_addr true _ 3 10 fresh_next_addr Reachable.new)))

/-- C19: on a playlist with no records `front()` and `pop_front()` throw
`std::out_of_range`, and `remove(track)` throws `std::invalid_argument` whenever
no record of the playlist has that track; the object is the same after the
call as before, so the contents are unchanged. -/
theorem empty_playlist_throws {T P : Type} [LinearOrder T] (alloc : List Nat → Nat)
    (unique : Bool) (pl : playlist T P) :
    (size pl = 0 →
      front pl = .error .out_of_range ∧
        pop_front alloc unique pl = (some .out_of_range, pl)) ∧
    (∀ track, Reachable pl → (∀ r ∈ records pl, r.1 ≠ track) →
      remove alloc unique pl track = (some .invalid_argument, pl)) := by
  constructor
  · intro h
    unfold size at h
    unfold front pop_front
    cases hd : pl.data with
    | none => exact ⟨rfl, rfl⟩
    | some d =>
      rw [hd] at h
      simp only at h
      have : d.play_tracks = [] := List.length_eq_zero.mp h
      simp [this]
  · intro track hr hno
    unfold remove
    cases hd : pl.data with
    | none => rfl
    | some d =>
      simp only
      cases hf : map_find d.sorted_tracks track with
      | none => rfl
      | some s =>
        exfalso
        have hc := consistent_reachable hr d hd
        obtain ⟨-, n2, n3⟩ := hc.sets track s (map_find_some hf)
        cases s with
        | nil => exact n2 rfl
        | cons a s =>
          obtain ⟨e, he, -, het⟩ := (n3 a).mp (List.mem_cons_self _ _)
          apply hno (e.map_iter, e.params) _ het
          rw [records_eq]
          unfold check_null_data
          rw [hd]
          exact List.mem_map.mpr ⟨e, he, rfl⟩

theorem empty_playlist_throws_witness :
    (front (clear true four_tracks) = .error .out_of_range ∧
      pop_front next_addr true (clear true four_tracks) =
        (some .out_of_range, clear true four_tracks)) ∧
    remove next_addr true four_tracks 5 = (some .invalid_argument, four_tracks) :=
  ⟨(empty_playlist_throws next_addr true (clear true four_tracks)).1 (by decide),
    (empty_playlist_throws next_addr true four_tracks).2 5 reachable_four_tracks (by decide)⟩

/-- C20: after any sequence of `push_back`, `pop_front`, `remove` and `clear`
the iteration from `sorted_begin()` to `sorted_end()` yields a pair `pay(it)` at
every position; the tracks of these pairs ascend strictly, they are exactly the
tracks of the records of the playlist, every pair holds with its track the
number of records in play order that carry it, which is at least `1`, and the
numbers sum to `size()`. -/
theorem sorted_iteration_counts {T P : Type} [LinearOrder T] (pl : playlist T P)
    (h : Reachable pl) :
    (payments pl).length = sorted_end pl - sorted_begin pl ∧
    (∀ it, it < sorted_end pl → pay pl it = (payments pl)[it]?) ∧
    ((payments pl).map Prod.fst).Pairwise (fun a b => a < b) ∧
    (∀ track, track ∈ (payments pl).map Prod.fst ↔ track ∈ (records pl).map Prod.fst) ∧
    (∀ x ∈ payments pl,
      1 ≤ x.2 ∧ x.2 = (records pl).countP (fun r => decide (r.1 = x.1))) ∧
    ((payments pl).map Prod.snd).sum = size pl := by
  have hc := consistent_check_null_data h
  have hcount : ∀ k s, (k, s) ∈ (check_null_data pl).sorted_tracks →
      s.length = (records pl).countP (fun r => decide (r.1 = k)) := by
    intro k s hks
    rw [set_length_eq_countP hc k s hks, records_eq, List.countP_map]
    rfl
  refine ⟨?_, ?_, ?_, ?_, ?_, ?_⟩
  · rw [payments_eq, List.length_map]
    rfl
  · intro it hit
    rw [payments_eq, List.getElem?_map]
    unfold pay check_null_data
    unfold sorted_end check_null_data at hit
    cases hd : pl.data with
    | none =>
      rw [hd] at hit
      simp [playlist_impl.empty] at hit
    | some d => rfl
  · rw [payments_eq, List.map_map]
    exact hc.keys
  · intro track
    rw [payments_eq, records_eq, List.map_map, List.map_map]
    constructor
    · intro hk
      obtain ⟨x, hx, hxk⟩ := List.mem_map.mp hk
      obtain ⟨-, n2, n3⟩ := hc.sets x.1 x.2 hx
      cases hs : x.2 with
      | nil => exact absurd hs n2
      | cons a s =>
        obtain ⟨e, he, -, het⟩ := (n3 a).mp (by rw [hs]; exact List.mem_cons_self _ _)
        refine List.mem_map.mpr ⟨e, he, ?_⟩
        simp only [Function.comp] at hxk ⊢
        rw [het, ← hxk]
    · intro hk
      obtain ⟨e, he, het⟩ := List.mem_map.mp hk
      simp only [Function.comp] at het
      rw [← het]
      exact hc.tracks e he
  · intro x hx
    rw [payments_eq] at hx
    obtain ⟨y, hy, rfl⟩ := List.mem_map.mp hx
    obtain ⟨-, n2, -⟩ := hc.sets y.1 y.2 hy
    refine ⟨?_, hcount y.1 y.2 hy⟩
    simp only
    exact Nat.pos_of_ne_zero (fun h0 => n2 (List.length_eq_zero.mp h0))
  · rw [payments_eq, List.map_map, size_eq]
    have e1 : (check_null_data pl).sorted_tracks.map
        (Prod.snd ∘ fun e : T × iter_set_t => (e.1, e.2.length)) =
        ((check_null_data pl).sorted_tracks.map (fun e => e.1)).map
          (fun k => ((check_null_data pl).play_tracks.map (fun e => e.map_iter)).countP
            (fun t => decide (t = k))) := by
      rw [List.map_map]
      apply List.map_congr_left
      intro x hx
      simp only [Function.comp]
      rw [set_length_eq_countP hc x.1 x.2 hx, List.countP_map]
      rfl
    rw [e1, sum_count_keys _ (nodup_of_sorted _ hc.keys), List.length_map]
    intro t ht
    obtain ⟨e, he, rfl⟩ := List.mem_map.mp ht
    exact hc.tracks e he

theorem sorted_iteration_counts_witness :
    payments four_tracks = [(1, 1), (2, 1), (3, 2)] ∧
    ((payments four_tracks).map Prod.fst).Pairwise (fun a b => a < b) ∧
    ((payments four_tracks).map Prod.snd).sum = size four_tracks :=
  ⟨by decide, (sorted_iteration_counts four_tracks reachable_four_tracks).2.2.1,
    (sorted_iteration_counts four_tracks reachable_four_tracks).2.2.2.2.2⟩

/-! ### Removal -/

theorem records_foldl_push_back {T P : Type} [LinearOrder T] (alloc : List Nat → Nat)
    (l : List (Entry T P)) (d : playlist_impl T P) :
    (l.foldl (fun plist e => push_back_impl alloc plist e.map_iter e.params) d).play_tracks.map
        (fun e => (e.map_iter, e.params)) =
      d.play_tracks.map (fun e => (e.map_iter, e.params)) ++
        l.map (fun e => (e.map_iter, e.params)) := by
  induction l generalizing d with
  | nil => simp
  | cons e l ih =>
    rw [List.foldl_cons, ih]
    have e1 : (push_back_impl alloc d e.map_iter e.params).play_tracks =
        d.play_tracks ++ [Entry.mk (alloc (d.play_tracks.map (fun e => e.addr))) e.params
          e.map_iter] := rfl
    rw [e1]
    simp

theorem records_copy_on_write {T P : Type} [LinearOrder T] (alloc : List Nat → Nat)
    (unique shareable : Bool) (pl : playlist T P) :
    (copy_on_write alloc unique shareable pl).play_tracks.map (fun e => (e.map_iter, e.params)) =
      records pl := by
  rw [records_eq]
  unfold copy_on_write check_null_data
  cases hd : pl.data with
  | none => rfl
  | some d =>
    simp only
    cases unique with
    | true => rfl
    | false =>
      simp only [Bool.false_eq_true, if_false]
      unfold rebuild
      rw [records_foldl_push_back]
      simp [playlist_impl.empty]

theorem map_find_of_record {T P : Type} [LinearOrder T] {d : playlist_impl T P}
    (h : Consistent d) {track : T}
    (ht : track ∈ (d.play_tracks.map (fun e => (e.map_iter, e.params))).map Prod.fst) :
    ∃ s, map_find d.sorted_tracks track = some s := by
  rw [List.map_map] at ht
  obtain ⟨e, he, het⟩ := List.mem_map.mp ht
  have hk := h.tracks e he
  obtain ⟨x, hx, hxk⟩ := List.mem_map.mp hk
  refine ⟨x.2, map_find_of_mem h.keys ?_⟩
  have e2 : track = x.1 := by
    rw [hxk, ← het]
    rfl
  rw [e2]
  exact hx

/-- C21: `remove(track)` on a playlist that holds a record with that track
throws nothing; the records afterwards are the records before whose track
differs from `track`, in the same play order and with the same parameters;
`size()` drops by the number of records with that track, which is at least one;
and the sorted iteration no longer visits the track. -/
theorem remove_deletes_track {T P : Type} [LinearOrder T] (alloc : List Nat → Nat)
    (unique : Bool) (pl : playlist T P) (track : T) (ha : fresh alloc) (h : Reachable pl)
    (ht : track ∈ (records pl).map Prod.fst) :
    (remove alloc unique pl track).1 = none ∧
      records (remove alloc unique pl track).2 =
        (records pl).filter (fun r => !decide (r.1 = track)) ∧
      size (remove alloc unique pl track).2 +
          (records pl).countP (fun r => decide (r.1 = track)) = size pl ∧
      0 < (records pl).countP (fun r => decide (r.1 = track)) ∧
      track ∉ (payments (remove alloc unique pl track).2).map Prod.fst := by
  have hcons := consistent_reachable h
  cases hd : pl.data with
  | none =>
    rw [records_eq] at ht
    unfold check_null_data at ht
    rw [hd] at ht
    simp [playlist_impl.empty] at ht
  | some d =>
    have hrec : records pl = d.play_tracks.map (fun e => (e.map_iter, e.params)) := by
      rw [records_eq]; unfold check_null_data; rw [hd]
    obtain ⟨s0, hs0⟩ := map_find_of_record (hcons d hd) (by rw [← hrec]; exact ht)
    have hc := consistent_copy_on_write alloc ha unique true pl hcons
    have hcr := records_copy_on_write alloc unique true pl
    obtain ⟨s, hs⟩ := map_find_of_record hc (by rw [hcr]; exact ht)
    have hrem : remove alloc unique pl track =
        (none, { data := some (remove_impl (copy_on_write alloc unique true pl) track) }) := by
      unfold remove
      rw [hd]
      simp only [hs0]
    have himpl : remove_impl (copy_on_write alloc unique true pl) track =
        { copy_on_write alloc unique true pl with
          play_tracks := (copy_on_write alloc unique true pl).play_tracks.filter
            (fun e => !decide (e.map_iter = track))
          sorted_tracks := map_erase (copy_on_write alloc unique true pl).sorted_tracks track } := by
      unfold remove_impl
      rw [hs]
      simp only
      rw [remove_impl_play_tracks hc track s hs]
    have hrecs : records (remove alloc unique pl track).2 =
        (records pl).filter (fun r => !decide (r.1 = track)) := by
      rw [hrem, records_eq]
      show (remove_impl (copy_on_write alloc unique true pl) track).play_tracks.map _ = _
      rw [himpl, ← hcr, List.filter_map]
      rfl
    have hsize : ∀ q : playlist T P, size q = (records q).length := by
      intro q
      rw [size_eq, records_eq, List.length_map]
    refine ⟨by rw [hrem], hrecs, ?_, ?_, ?_⟩
    · rw [hsize, hsize, hrecs]
      have := List.length_eq_countP_add_countP (fun r : T × P => decide (r.1 = track)) (records pl)
      have key : ((records pl).filter (fun r => !decide (r.1 = track))).length =
          (records pl).countP (fun a => decide ¬decide (a.1 = track) = true) := by
        rw [← List.countP_eq_length_filter]
        congr 1
        funext a
        simp
      omega
    · rw [List.countP_pos_iff]
      obtain ⟨r, hr, hrt⟩ := List.mem_map.mp ht
      exact ⟨r, hr, by simpa using hrt⟩
    · rw [hrem, payments_eq]
      show track ∉ ((remove_impl (copy_on_write alloc unique true pl) track).sorted_tracks.map
        _).map Prod.fst
      rw [himpl, List.map_map]
      intro hmem
      obtain ⟨x, hx, hxk⟩ := List.mem_map.mp hmem
      exact ((mem_map_erase _ _ _).mp hx).2 hxk

theorem remove_deletes_track_witness :
    records four_tracks = [(3, 10), (1, 11), (3, 12), (2, 13)] ∧
      records (remove next_addr false four_tracks 3).2 = [(1, 11), (2, 13)] ∧
      size (remove next_addr false four_tracks 3).2 + 2 = size four_tracks ∧
      3 ∉ (payments (remove next_addr false four_tracks 3).2).map Prod.fst :=
  ⟨by decide,
    (remove_deletes_track next_addr false four_tracks 3 fresh_next_addr reachable_four_tracks
      (by decide)).2.1,
    (remove_deletes_track next_addr false four_tracks 3 fresh_next_addr reachable_four_tracks
      (by decide)).2.2.1,
    (remove_deletes_track next_addr false four_tracks 3 fresh_next_addr reachable_four_tracks
      (by decide)).2.2.2.2⟩

end Playlist

namespace NamedPosets

/-! ## The relation matrix -/

theorem getD_set_row (m : relation_matrix) (z : Nat) (r : bitset) (a : Nat) :
    (m.set z r).getD a [] = if a = z ∧ z < m.length then r else m.getD a [] := by
  simp only [List.getD_eq_getElem?_getD, List.getElem?_set]
  by_cases h : z = a
  · subst h
    by_cases hz : z < m.length
    · simp [hz]
    · simp [hz]
      rw [List.getElem?_eq_none (by omega)]
      rfl
  · have h' : ¬ a = z := fun e => h e.symm
    simp [h, h']

theorem test_set (m : relation_matrix) (z : Nat) (r : bitset) (a b : Nat) :
    test (m.set z r) a b = if a = z ∧ z < m.length then r.getD b false else test m a b := by
  unfold test
  rw [getD_set_row]
  split <;> rfl

theorem lt_length_of_test {m : relation_matrix} {a b : Nat} (h : test m a b = true) :
    a < m.length := by
  by_contra hlt
  have e : m.getD a [] = [] := by
    rw [List.getD_eq_getElem?_getD, List.getElem?_eq_none (by omega)]
    rfl
  unfold test at h
  rw [e] at h
  simp at h

theorem getD_bitset_or (N : Nat) (r1 r2 : bitset) (b : Nat) (hb : b < N) :
    (bitset_or N r1 r2).getD b false = (r1.getD b false || r2.getD b false) := by
  unfold bitset_or
  simp only [List.getD_eq_getElem?_getD, List.getElem?_map, List.getElem?_range hb,
    Option.map_some', Option.getD_some]

theorem add_relation_fold (N x y : Nat) (l : List Nat) (hl : l.Nodup) (m : relation_matrix)
    (hyx : test m y x = false) (a b : Nat) (hb : b < N) :
    test (l.foldl
      (fun m z => if test m z x then m.set z (bitset_or N (m.getD z []) (m.getD y [])) else m)
      m) a b =
      if a ∈ l then (test m a b || (test m a x && test m y b)) else test m a b := by
  induction l generalizing m with
  | nil => simp
  | cons z l ih =>
    rw [List.nodup_cons] at hl
    simp only [List.foldl_cons]
    by_cases hz : test m z x = true
    · have hzy : z ≠ y := by
        intro e
        rw [e, hyx] at hz
        cases hz
      have hzl := lt_length_of_test hz
      have hrow : ∀ a' b', b' < N →
          test (m.set z (bitset_or N (m.getD z []) (m.getD y []))) a' b' =
            if a' = z then (test m z b' || test m y b') else test m a' b' := by
        intro a' b' hb'
        rw [test_set]
        by_cases e : a' = z
        · rw [if_pos ⟨e, hzl⟩, if_pos e, getD_bitset_or N _ _ b' hb']
          rfl
        · rw [if_neg (fun h => e h.1), if_neg e]
      have hrow' : ∀ a' b', a' ≠ z →
          test (m.set z (bitset_or N (m.getD z []) (m.getD y []))) a' b' = test m a' b' := by
        intro a' b' e
        rw [test_set, if_neg (fun h => e h.1)]
      rw [if_pos hz, ih hl.2 _ (by rw [hrow' y x (fun e => hzy e.symm)]; exact hyx)]
      by_cases e : a = z
      · subst e
        rw [if_neg hl.1, if_pos (List.mem_cons_self _ _), hrow a b hb, if_pos rfl, hz]
        simp
      · rw [hrow' a b e, hrow' a x e, hrow' y b (fun e => hzy e.symm)]
        simp only [List.mem_cons, e, false_or]
    · rw [if_neg hz, ih hl.2 m hyx]
      by_cases e : a = z
      · subst e
        rw [if_neg hl.1, if_pos (List.mem_cons_self _ _)]
        have : test m a x = false := by simpa using hz
        rw [this]
        simp
      · simp only [List.mem_cons, e, false_or]

theorem add_relation_loop_spec (N x y : Nat) (m : relation_matrix) (hyx : test m y x = false)
    (a b : Nat) (ha : a < N) (hb : b < N) :
    test (add_relation_loop N x y m) a b = (test m a b || (test m a x && test m y b)) := by
  unfold add_relation_loop
  rw [add_relation_fold N x y (List.range N) (List.nodup_range N) m hyx a b hb,
    if_pos (List.mem_range.mpr ha)]

theorem lt_length_of_getElem? {α : Type} {l : List α} {i : Nat} {a : α} (h : l[i]? = some a) :
    i < l.length := by
  by_contra hlt
  rw [List.getElem?_eq_none (by omega)] at h
  cases h

/-! ## Iterators into the collections -/

theorem findIdx_modify_fst {α β : Type} [DecidableEq α] (l : List (α × β)) (f : α × β → α × β)
    (hf : ∀ e, (f e).1 = e.1) (n : Nat) (k : α) :
    (l.modify f n).findIdx (fun e => decide (e.1 = k)) =
      l.findIdx (fun e => decide (e.1 = k)) := by
  induction l generalizing n with
  | nil => simp
  | cons e l ih =>
    cases n with
    | zero =>
      simp only [List.modify_zero_cons, List.findIdx_cons, hf]
    | succ n =>
      simp only [List.modify_succ_cons, List.findIdx_cons, ih]

theorem find_collection_set_matrix (collections : npc) (it : Nat × Nat) (m : relation_matrix)
    (id : Int) : find_collection (set_matrix collections it m) id = find_collection collections id := by
  unfold find_collection set_matrix
  rw [findIdx_modify_fst collections (fun e => (e.1, e.2.modify (fun q => (q.1, m)) it.2))
    (fun _ => rfl), List.length_modify]

theorem posets_at_set_matrix (collections : npc) (it : Nat × Nat) (m : relation_matrix)
    (c : Nat) :
    posets_at (set_matrix collections it m) c =
      if c = it.1 then (posets_at collections c).modify (fun q => (q.1, m)) it.2
      else posets_at collections c := by
  unfold posets_at set_matrix
  simp only [List.getD_eq_getElem?_getD, List.getElem?_modify]
  by_cases h : it.1 = c
  · rw [if_pos h.symm]
    cases hc : collections[c]? with
    | none => simp [h]
    | some e => simp [h]
  · rw [if_neg (fun e => h e.symm)]
    cases hc : collections[c]? with
    | none => simp
    | some e => simp [h]

theorem find_poset_set_matrix (collections : npc) (it : Nat × Nat) (m : relation_matrix)
    (id : Int) (name : String) (next : Bool) :
    find_poset (set_matrix collections it m) id name next = find_poset collections id name next := by
  unfold find_poset
  rw [find_collection_set_matrix]
  cases find_collection collections id with
  | none => rfl
  | some c =>
    simp only
    rw [posets_at_set_matrix]
    by_cases h : c = it.1
    · rw [if_pos h]
      unfold poset_find step_if_next
      rw [findIdx_modify_fst (posets_at collections c) (fun q => (q.1, m)) (fun _ => rfl),
        List.length_modify]
    · rw [if_neg h]

/-- An iterator that points to a poset of the collections. -/
theorem find_poset_valid {collections : npc} {id : Int} {name : String} {it : Nat × Nat}
    (h : find_poset collections id name false = some it) :
    find_collection collections id = some it.1 ∧
    it.2 = poset_find (posets_at collections it.1) name ∧
    it.2 < (posets_at collections it.1).length := by
  unfold find_poset at h
  cases hc : find_collection collections id with
  | none => rw [hc] at h; cases h
  | some c =>
    rw [hc] at h
    simp only [step_if_next, Bool.false_and, Bool.false_eq_true, if_false] at h
    split at h
    · rename_i hne
      cases h
      refine ⟨rfl, rfl, ?_⟩
      have := @List.findIdx_le_length _ (fun e : String × relation_matrix => decide (e.1 = name))
        (posets_at collections c)
      unfold poset_find at hne ⊢
      simp only
      omega
    · cases h

theorem find_collection_some {collections : npc} {id : Int} {c : Nat}
    (h : find_collection collections id = some c) :
    ∃ e, collections[c]? = some e ∧ e.1 = id := by
  unfold find_collection at h
  split at h
  · cases h
  · rename_i hne
    cases h
    have hle := @List.findIdx_le_length _ (fun e : Int × poset => decide (e.1 = id))
      collections
    have hlt : collections.findIdx (fun e => decide (e.1 = id)) < collections.length := by omega
    refine ⟨collections[collections.findIdx (fun e => decide (e.1 = id))], 
      List.getElem?_eq_getElem hlt, ?_⟩
    have := List.findIdx_getElem (p := fun e : Int × poset => decide (e.1 = id)) (w := hlt)
    simpa using this

theorem poset_find_some {posets : poset} {name : String}
    (h : poset_find posets name < posets.length) :
    ∃ e, posets[poset_find posets name]? = some e ∧ e.1 = name := by
  unfold poset_find at h ⊢
  refine ⟨posets[posets.findIdx (fun e => decide (e.1 = name))], List.getElem?_eq_getElem h, ?_⟩
  have := List.findIdx_getElem (p := fun e : String × relation_matrix => decide (e.1 = name))
    (w := h)
  simpa using this

theorem matrix_at_set_matrix (collections : npc) (it it' : Nat × Nat) (m : relation_matrix)
    (h1 : it.1 < collections.length) (h2 : it.2 < (posets_at collections it.1).length) :
    matrix_at (set_matrix collections it m) it' =
      if it' = it then m else matrix_at collections it' := by
  unfold matrix_at
  rw [posets_at_set_matrix]
  by_cases hc : it'.1 = it.1
  · rw [if_pos hc]
    simp only [List.getD_eq_getElem?_getD, List.getElem?_modify]
    by_cases hp : it.2 = it'.2
    · have e : it' = it := Prod.ext hc hp.symm
      rw [if_pos e]
      subst e
      rw [List.getElem?_eq_getElem h2]
      simp
    · have e : ¬ it' = it := fun e => hp (by rw [e])
      rw [if_neg e]
      cases hq : (posets_at collections it'.1)[it'.2]? with
      | none => simp
      | some q => simp [hp]
  · rw [if_neg hc, if_neg (fun e => hc (by rw [e]))]

theorem find_poset_inj {collections : npc} {id id' : Int} {name name' : String}
    {it : Nat × Nat} (h : find_poset collections id name false = some it)
    (h' : find_poset collections id' name' false = some it) : id' = id ∧ name' = name := by
  obtain ⟨a1, a2, a3⟩ := find_poset_valid h
  obtain ⟨b1, b2, b3⟩ := find_poset_valid h'
  obtain ⟨e, he, he1⟩ := find_collection_some a1
  obtain ⟨e', he', he1'⟩ := find_collection_some b1
  rw [he] at he'
  cases he'
  refine ⟨he1'.symm.trans he1, ?_⟩
  obtain ⟨q, hq, hq1⟩ := poset_find_some (by rw [← a2]; exact a3)
  obtain ⟨q', hq', hq1'⟩ := poset_find_some (by rw [← b2]; exact b3)
  rw [← a2] at hq
  rw [← b2, hq] at hq'
  cases hq'
  exact hq1'.symm.trans hq1

theorem find_poset_lt {collections : npc} {id : Int} {name : String} {it : Nat × Nat}
    (h : find_poset collections id name false = some it) :
    it.1 < collections.length ∧ it.2 < (posets_at collections it.1).length := by
  obtain ⟨a1, -, a3⟩ := find_poset_valid h
  obtain ⟨e, he, -⟩ := find_collection_some a1
  exact ⟨lt_length_of_getElem? he, a3⟩

/-- What `npc_is_relation` reads after a matrix has been overwritten. -/
theorem is_relation_set_matrix (N : Nat) (collections : npc) (id : Int) (name : String)
    (it : Nat × Nat) (h : find_poset collections id name false = some it) (m : relation_matrix)
    (id' : Int) (name' : Option String) (a b : Nat) :
    npc_is_relation N (set_matrix collections it m) id' name' a b =
      if id' = id ∧ name' = some name then decide (max a b < N) && test m a b
      else npc_is_relation N collections id' name' a b := by
  obtain ⟨l1, l2⟩ := find_poset_lt h
  unfold npc_is_relation
  cases name' with
  | none => simp
  | some name' =>
    simp only [Option.some.injEq]
    by_cases hN : max a b ≥ N
    · rw [if_pos hN, if_pos hN]
      have : ¬ max a b < N := by omega
      simp [this]
    · rw [if_neg hN, if_neg hN, find_poset_set_matrix]
      have hN' : max a b < N := by omega
      by_cases hk : id' = id ∧ name' = name
      · rw [if_pos hk, hk.1, hk.2, h]
        simp only
        rw [matrix_at_set_matrix _ _ _ _ l1 l2, if_pos rfl]
        simp [hN']
      · rw [if_neg hk]
        cases h' : find_poset collections id' name' false with
        | none => rfl
        | some it' =>
          simp only
          rw [matrix_at_set_matrix _ _ _ _ l1 l2]
          by_cases e : it' = it
          · exfalso
            rw [e] at h'
            exact hk (find_poset_inj h h')
          · rw [if_neg e]

theorem is_relation_eq (N : Nat) {collections : npc} {id : Int} {name : String}
    {it : Nat × Nat} (h : find_poset collections id name false = some it) (a b : Nat) :
    npc_is_relation N collections id (some name) a b =
      (decide (max a b < N) && test (matrix_at collections it) a b) := by
  unfold npc_is_relation
  simp only [h]
  by_cases hN : max a b ≥ N
  · rw [if_pos hN]
    have : ¬ max a b < N := by omega
    simp [this]
  · rw [if_neg hN]
    have : max a b < N := by omega
    simp [this]

theorem lt_of_is_relation {N : Nat} {collections : npc} {id : Int} {name : Option String}
    {a b : Nat} (h : npc_is_relation N collections id name a b = true) : a < N ∧ b < N := by
  unfold npc_is_relation at h
  cases name with
  | none => simp at h
  | some name =>
    simp only at h
    split at h
    · cases h
    · rename_i hN
      have h1 := le_max_left a b
      have h2 := le_max_right a b
      omega

theorem trans_gen_of_closed {r : Nat → Nat → Prop} {x y : Nat}
    (hrefl : r x x ∧ r y y) (htrans : ∀ a b c, r a b → r b c → r a c) (hyx : ¬ r y x)
    (a b : Nat) :
    Relation.TransGen (fun u v => r u v ∨ (u = x ∧ v = y)) a b ↔ (r a b ∨ (r a x ∧ r y b)) := by
  constructor
  · intro h
    induction h with
    | single h =>
      rcases h with h | ⟨rfl, rfl⟩
      · exact Or.inl h
      · exact Or.inr hrefl
    | tail _ h ih =>
      rename_i b c
      rcases ih with h1 | ⟨h1, h2⟩
      · rcases h with h | ⟨rfl, rfl⟩
        · exact Or.inl (htrans _ _ _ h1 h)
        · exact Or.inr ⟨h1, hrefl.2⟩
      · rcases h with h | ⟨rfl, rfl⟩
        · exact Or.inr ⟨h1, htrans _ _ _ h2 h⟩
        · exact absurd h2 hyx
  · rintro (h | ⟨h1, h2⟩)
    · exact Relation.TransGen.single (Or.inl h)
    · exact Relation.TransGen.tail
        (Relation.TransGen.tail (Relation.TransGen.single (Or.inl h1)) (Or.inr ⟨rfl, rfl⟩))
        (Or.inl h2)

theorem add_relation_result (N : Nat) (collections : npc) (id : Int) (name : String)
    (x y : Nat) (it : Nat × Nat) (hit : find_poset collections id name false = some it)
    (hx : x < N) (hy : y < N)
    (hxy : npc_is_relation N collections id (some name) x y = false)
    (hyx : npc_is_relation N collections id (some name) y x = false) :
    test (matrix_at collections it) x y = false ∧ test (matrix_at collections it) y x = false ∧
    npc_add_relation N collections id (some name) x y =
      (true, set_matrix collections it (add_relation_loop N x y (matrix_at collections it))) := by
  have hm1 : max x y < N := max_lt hx hy
  have hm2 : max y x < N := max_lt hy hx
  rw [is_relation_eq N hit] at hxy hyx
  simp only [hm1, hm2, decide_True, Bool.true_and] at hxy hyx
  refine ⟨hxy, hyx, ?_⟩
  unfold npc_add_relation
  simp only [hit]
  rw [if_neg (by omega), hxy, hyx]
  simp

/-- C15: in an existing poset, for elements `x, y < N` related in neither
direction, `npc_add_relation(id, name, x, y)` returns `true`, and afterwards a
pair `(a, b)` is in the relation exactly when it was in it before or both
`(a, x)` and `(y, b)` were; no other poset changes. When the relation was
reflexive on the elements below `N` and transitive (as that of a partial order
is), the new relation is the transitive closure of the old one with the pair
`(x, y)` added. -/
theorem add_relation_closes (N : Nat) (collections : npc) (id : Int) (name : String)
    (x y : Nat) (hex : find_poset collections id name false ≠ none) (hx : x < N) (hy : y < N)
    (hxy : npc_is_relation N collections id (some name) x y = false)
    (hyx : npc_is_relation N collections id (some name) y x = false) :
    (npc_add_relation N collections id (some name) x y).1 = true ∧
    (∀ a b, a < N → b < N →
      npc_is_relation N (npc_add_relation N collections id (some name) x y).2 id (some name) a b =
        (npc_is_relation N collections id (some name) a b ||
          (npc_is_relation N collections id (some name) a x &&
            npc_is_relation N collections id (some name) y b))) ∧
    (∀ id' name' a b, ¬ (id' = id ∧ name' = some name) →
      npc_is_relation N (npc_add_relation N collections id (some name) x y).2 id' name' a b =
        npc_is_relation N collections id' name' a b) ∧
    ((∀ a, a < N → npc_is_relation N collections id (some name) a a = true) →
      (∀ a b c, npc_is_relation N collections id (some name) a b = true →
        npc_is_relation N collections id (some name) b c = true →
        npc_is_relation N collections id (some name) a c = true) →
      ∀ a b,
        npc_is_relation N (npc_add_relation N collections id (some name) x y).2 id (some name)
            a b = true ↔
          Relation.TransGen
            (fun u v => npc_is_relation N collections id (some name) u v = true ∨
              (u = x ∧ v = y)) a b) := by
  cases hit : find_poset collections id name false with
  | none => exact absurd hit hex
  | some it =>
    obtain ⟨t1, t2, hres⟩ := add_relation_result N collections id name x y it hit hx hy hxy hyx
    rw [hres]
    have hnew : ∀ a b, a < N → b < N →
        npc_is_relation N
          (set_matrix collections it (add_relation_loop N x y (matrix_at collections it))) id
          (some name) a b =
        (npc_is_relation N collections id (some name) a b ||
          (npc_is_relation N collections id (some name) a x &&
            npc_is_relation N collections id (some name) y b)) := by
      intro a b ha hb
      rw [is_relation_set_matrix N collections id name it hit, if_pos ⟨rfl, rfl⟩,
        add_relation_loop_spec N x y _ t2 a b ha hb, is_relation_eq N hit, is_relation_eq N hit,
        is_relation_eq N hit]
      simp [max_lt ha hb, max_lt ha hx, max_lt hy hb]
    refine ⟨rfl, hnew, ?_, ?_⟩
    · intro id' name' a b hne
      rw [is_relation_set_matrix N collections id name it hit, if_neg hne]
    · intro hrefl htrans a b
      rw [trans_gen_of_closed (r := fun u v => npc_is_relation N collections id (some name) u v = true)
        ⟨hrefl x hx, hrefl y hy⟩ htrans (by simp [hyx])]
      by_cases hab : a < N ∧ b < N
      · rw [hnew a b hab.1 hab.2]
        simp
      · constructor
        · intro h
          exact absurd (lt_of_is_relation h) hab
        · rintro (h | ⟨h1, h2⟩)
          · exact absurd (lt_of_is_relation h) hab
          · exact absurd ⟨(lt_of_is_relation h1).1, (lt_of_is_relation h2).2⟩ hab

set_option maxRecDepth 100000 in
theorem add_relation_closes_witness :
    (npc_add_relation 32 example_first 0 (some "abcd") 1 2).1 = true ∧
    npc_is_relation 32 example_added 0 (some "abcd") 0 2 = true :=
  ⟨(add_relation_closes 32 example_first 0 "abcd" 1 2 (by decide) (by decide) (by decide)
      (by decide) (by decide)).1,
    ((add_relation_closes 32 example_first 0 "abcd" 1 2 (by decide) (by decide) (by decide)
      (by decide) (by decide)).2.1 0 2 (by decide) (by decide)).trans (by decide)⟩

/-! ## `npc_remove_relation` -/

theorem test_reset (m : relation_matrix) (x y : Nat) (hx : x < m.length) (a b : Nat) :
    test (m.set x (bitset_reset (m.getD x []) y)) a b =
      (test m a b && !(decide (a = x) && decide (b = y))) := by
  rw [test_set]
  by_cases ha : a = x
  · subst ha
    rw [if_pos ⟨rfl, hx⟩]
    unfold bitset_reset test
    simp only [List.getD_eq_getElem?_getD, List.getElem?_set]
    by_cases hb : y = b
    · subst hb
      by_cases hl : y < ((m[a]?).getD []).length
      · simp [hl]
      · simp [hl]
    · have hb' : ¬ b = y := fun e => hb e.symm
      simp [hb, hb']
  · rw [if_neg (fun h => ha h.1)]
    simp [ha]

theorem indirectly_related_iff (N x y : Nat) (m : relation_matrix) :
    indirectly_related N x y m = true ↔
      ∃ z, z < N ∧ z ≠ x ∧ z ≠ y ∧ test m x z = true ∧ test m z y = true := by
  unfold indirectly_related
  simp only [List.any_eq_true, List.mem_range, Bool.and_eq_true, decide_eq_true_eq]
  constructor
  · rintro ⟨z, hz, ⟨⟨h1, h2⟩, h3⟩, h4⟩
    exact ⟨z, hz, h1, h2, h3, h4⟩
  · rintro ⟨z, hz, h1, h2, h3, h4⟩
    exact ⟨z, hz, ⟨⟨h1, h2⟩, h3⟩, h4⟩

/-- C16: `npc_remove_relation(id, name, x, y)` returns `true` exactly when the
collection and the poset exist, `x ≠ y`, `x, y < N`, the pair `(x, y)` is in the
relation and no `z` other than `x` and `y` has both `(x, z)` and `(z, y)` in
it. When it returns `true` the pair `(x, y)` has left the relation of that
poset and every other pair, of this poset and of every other one, is in its
relation exactly when it was before; when it returns `false` the collections
are as they were. -/
theorem remove_relation_contract (N : Nat) (collections : npc) (id : Int)
    (name : Option String) (x y : Nat) :
    ((npc_remove_relation N collections id name x y).1 = true ↔
      ((∃ nm, name = some nm ∧ find_poset collections id nm false ≠ none) ∧ x ≠ y ∧ x < N ∧
        y < N ∧ npc_is_relation N collections id name x y = true ∧
        ¬ ∃ z, z ≠ x ∧ z ≠ y ∧ npc_is_relation N collections id name x z = true ∧
          npc_is_relation N collections id name z y = true)) ∧
    ((npc_remove_relation N collections id name x y).1 = true →
      ∀ id' name' a b,
        npc_is_relation N (npc_remove_relation N collections id name x y).2 id' name' a b =
          if id' = id ∧ name' = name ∧ a = x ∧ b = y then false
          else npc_is_relation N collections id' name' a b) ∧
    ((npc_remove_relation N collections id name x y).1 = false →
      (npc_remove_relation N collections id name x y).2 = collections) := by
  cases name with
  | none =>
    refine ⟨?_, ?_, fun _ => rfl⟩
    · simp [npc_remove_relation]
    · intro h
      simp [npc_remove_relation] at h
  | some nm =>
    unfold npc_remove_relation
    simp only
    by_cases hg : x = y ∨ max x y ≥ N
    · rw [if_pos hg]
      refine ⟨?_, ?_, fun _ => rfl⟩
      · simp only [Bool.false_eq_true, false_iff, not_and]
        intro _ h1 h2 h3
        rcases hg with hg | hg
        · exact absurd hg h1
        · have := max_lt h2 h3
          omega
      · intro h
        cases h
    · rw [if_neg hg]
      simp only [not_or, not_le, ge_iff_le] at hg
      obtain ⟨hne, hmax⟩ := hg
      have hx : x < N := lt_of_le_of_lt (le_max_left x y) hmax
      have hy : y < N := lt_of_le_of_lt (le_max_right x y) hmax
      cases hit : find_poset collections id nm false with
      | none =>
        simp only
        refine ⟨?_, ?_, fun _ => trivial⟩
        · simp only [Bool.false_eq_true, false_iff, not_and]
          rintro ⟨nm', h1, h2⟩
          cases h1
          exact absurd hit h2
        · intro h
          cases h
      | some it =>
        simp only
        have hrel : ∀ a b, npc_is_relation N collections id (some nm) a b =
            (decide (max a b < N) && test (matrix_at collections it) a b) :=
          is_relation_eq N hit
        by_cases ht : test (matrix_at collections it) x y = true
        · rw [ht]
          simp only [Bool.not_true, Bool.false_eq_true, if_false]
          by_cases hind : indirectly_related N x y (matrix_at collections it) = true
          · rw [if_pos hind]
            refine ⟨?_, ?_, fun _ => rfl⟩
            · simp only [Bool.false_eq_true, false_iff, not_and, not_not]
              intro _ _ _ _ _
              obtain ⟨z, hz, h1, h2, h3, h4⟩ := (indirectly_related_iff N x y _).mp hind
              refine ⟨z, h1, h2, ?_, ?_⟩
              · rw [hrel]
                simp [max_lt hx hz, h3]
              · rw [hrel]
                simp [max_lt hz hy, h4]
            · intro h
              cases h
          · rw [if_neg hind]
            refine ⟨?_, ?_, ?_⟩
            · simp only [true_iff]
              refine ⟨⟨nm, rfl, by rw [hit]; simp⟩, hne, hx, hy, ?_, ?_⟩
              · rw [hrel]
                simp [hmax, ht]
              · rintro ⟨z, h1, h2, h3, h4⟩
                apply hind
                rw [indirectly_related_iff]
                have hz := (lt_of_is_relation h3).2
                rw [hrel] at h3 h4
                simp only [Bool.and_eq_true, decide_eq_true_eq] at h3 h4
                exact ⟨z, hz, h1, h2, h3.2, h4.2⟩
            · intro _ id' name' a b
              simp only
              rw [is_relation_set_matrix N collections id nm it hit]
              by_cases hk : id' = id ∧ name' = some nm
              · rw [if_pos hk, test_reset _ _ _ (lt_length_of_test ht)]
                obtain ⟨rfl, rfl⟩ := hk
                rw [hrel]
                by_cases hab : a = x ∧ b = y
                · rw [if_pos ⟨rfl, rfl, hab.1, hab.2⟩]
                  simp [hab.1, hab.2]
                · rw [if_neg (fun h => hab ⟨h.2.2.1, h.2.2.2⟩)]
                  have : (decide (a = x) && decide (b = y)) = false := by
                    simpa using hab
                  rw [this]
                  simp
              · rw [if_neg hk, if_neg (fun h => hk ⟨h.1, h.2.1⟩)]
            · intro h
              cases h
        · have ht' : test (matrix_at collections it) x y = false := by simpa using ht
          rw [ht']
          simp only [Bool.not_false, if_true]
          refine ⟨?_, ?_, fun _ => trivial⟩
          · simp only [Bool.false_eq_true, false_iff, not_and]
            intro _ _ _ _ h
            rw [hrel, ht'] at h
            simp at h
          · intro h
            cases h

set_option maxRecDepth 100000 in
theorem remove_relation_contract_witness :
    npc_is_relation 32 example_added 0 (some "abcd") 0 1 = true ∧
    npc_is_relation 32 example_removed 0 (some "abcd") 0 1 = false ∧
    npc_is_relation 32 example_removed 0 (some "abcd") 0 2 = true ∧
    npc_is_relation 32 example_removed 0 (some "abcd") 1 2 = true ∧
    (npc_remove_relation 32 example_added 0 (some "abcd") 0 2).2 = example_added :=
  ⟨((remove_relation_contract 32 example_added 0 (some "abcd") 0 1).1.mp
      (by decide)).2.2.2.2.1,
    ((remove_relation_contract 32 example_added 0 (some "abcd") 0 1).2.1 (by decide) 0
      (some "abcd") 0 1).trans (by decide),
    ((remove_relation_contract 32 example_added 0 (some "abcd") 0 1).2.1 (by decide) 0
      (some "abcd") 0 2).trans (by decide),
    ((remove_relation_contract 32 example_added 0 (some "abcd") 0 1).2.1 (by decide) 0
      (some "abcd") 1 2).trans (by decide),
    (remove_relation_contract 32 example_added 0 (some "abcd") 0 2).2.2 (by decide)⟩

/-! ## The order of the names -/

theorem mem_poset_emplace (posets : poset) (name : String) (m : relation_matrix)
    (q : String × relation_matrix) :
    q ∈ poset_emplace posets name m ↔ q = (name, m) ∨ q ∈ posets := by
  induction posets with
  | nil => simp [poset_emplace]
  | cons e posets ih =>
    unfold poset_emplace
    split
    · simp
    · rw [List.mem_cons, ih, List.mem_cons]
      constructor
      · rintro (h | h | h)
        · exact Or.inr (Or.inl h)
        · exact Or.inl h
        · exact Or.inr (Or.inr h)
      · rintro (h | h | h)
        · exact Or.inr (Or.inl h)
        · exact Or.inl h
        · exact Or.inr (Or.inr h)

theorem length_poset_emplace (posets : poset) (name : String) (m : relation_matrix) :
    (poset_emplace posets name m).length = posets.length + 1 := by
  induction posets with
  | nil => rfl
  | cons e posets ih =>
    unfold poset_emplace
    split
    · rfl
    · simp [ih]

theorem sorted_poset_emplace (posets : poset) (name : String) (m : relation_matrix)
    (h : (posets.map (fun q => q.1)).Pairwise (fun a b => a < b))
    (hn : name ∉ posets.map (fun q => q.1)) :
    ((poset_emplace posets name m).map (fun q => q.1)).Pairwise (fun a b => a < b) := by
  induction posets with
  | nil => simp [poset_emplace]
  | cons e posets ih =>
    rw [List.map_cons, List.pairwise_cons] at h
    rw [List.map_cons, List.mem_cons, not_or] at hn
    unfold poset_emplace
    split
    · rename_i hlt
      rw [List.map_cons, List.pairwise_cons, List.map_cons, List.pairwise_cons]
      refine ⟨?_, h⟩
      intro k hk
      rcases List.mem_cons.mp hk with e1 | hk
      · rw [e1]; exact hlt
      · exact lt_trans hlt (h.1 k hk)
    · rename_i hlt
      rw [List.map_cons, List.pairwise_cons]
      refine ⟨?_, ih h.2 hn.2⟩
      intro k hk
      obtain ⟨q, hq, rfl⟩ := List.mem_map.mp hk
      rcases (mem_poset_emplace _ _ _ _).mp hq with e1 | hq
      · rw [e1]
        exact lt_of_le_of_ne (not_lt.mp hlt) (fun e2 => hn.1 e2.symm)
      · exact h.1 _ (List.mem_map.mpr ⟨q, hq, rfl⟩)

theorem map_fst_modify (posets : poset) (m : relation_matrix) (i : Nat) :
    (posets.modify (fun q => (q.1, m)) i).map (fun q => q.1) = posets.map (fun q => q.1) := by
  induction posets generalizing i with
  | nil => simp
  | cons e posets ih =>
    cases i with
    | zero => simp
    | succ i => simp [ih]

theorem not_mem_of_poset_find {posets : poset} {name : String}
    (h : poset_find posets name = posets.length) : name ∉ posets.map (fun q => q.1) := by
  unfold poset_find at h
  rw [List.findIdx_eq_length] at h
  intro hmem
  obtain ⟨q, hq, hqn⟩ := List.mem_map.mp hmem
  have := h q hq
  simp only [decide_eq_false_iff_not] at this
  exact this hqn

theorem sorted_poset_assign (posets : poset) (name : String) (m : relation_matrix)
    (h : (posets.map (fun q => q.1)).Pairwise (fun a b => a < b)) :
    ((poset_assign posets name m).map (fun q => q.1)).Pairwise (fun a b => a < b) := by
  unfold poset_assign
  split
  · rename_i hf
    exact sorted_poset_emplace _ _ _ h (not_mem_of_poset_find hf)
  · rw [map_fst_modify]
    exact h

theorem sorted_poset_erase (posets : poset) (name : String)
    (h : (posets.map (fun q => q.1)).Pairwise (fun a b => a < b)) :
    ((poset_erase posets name).map (fun q => q.1)).Pairwise (fun a b => a < b) :=
  h.sublist (List.Sublist.map _ (List.eraseIdx_sublist _ _))

theorem sorted_names_modify (collections : npc) (f : Int × poset → Int × poset) (c : Nat)
    (hf : ∀ e, collections[c]? = some e →
      (e.2.map (fun q => q.1)).Pairwise (fun a b => a < b) →
      ((f e).2.map (fun q => q.1)).Pairwise (fun a b => a < b))
    (h : SortedNames collections) : SortedNames (collections.modify f c) := by
  intro e he
  obtain ⟨i, hi⟩ := List.getElem?_of_mem he
  rw [List.getElem?_modify] at hi
  cases hc : collections[i]? with
  | none => rw [hc] at hi; cases hi
  | some e0 =>
    rw [hc] at hi
    have hmem : e0 ∈ collections := List.getElem?_mem hc
    simp only [Option.map_eq_map, Option.map_some', Option.some.injEq] at hi
    split at hi
    · rename_i hci
      rw [← hi]
      exact hf e0 (by rw [hci]; exact hc) (h e0 hmem)
    · rw [← hi]; exact h e0 hmem

theorem sorted_names_set_matrix (collections : npc) (it : Nat × Nat) (m : relation_matrix)
    (h : SortedNames collections) : SortedNames (set_matrix collections it m) := by
  unfold set_matrix
  apply sorted_names_modify _ _ _ _ h
  intro e _ he
  simp only
  rw [map_fst_modify]
  exact he

theorem sorted_names_reachable {N : Nat} {s : Int × npc} (h : Reachable N s) :
    SortedNames s.2 := by
  induction h with
  | init => intro e he; cases he
  | new_collection s _ ih =>
    unfold npc_new_collection
    split
    · simp only
      split
      · apply sorted_names_modify _ _ _ _ ih
        intro e _ _
        exact List.Pairwise.nil
      · intro e he
        rcases List.mem_append.mp he with he | he
        · exact ih e he
        · rw [List.mem_singleton] at he
          rw [he]
          exact List.Pairwise.nil
    · exact ih
  | delete_collection s id _ ih =>
    simp only
    unfold npc_delete_collection
    split
    · intro e he
      exact ih e (List.mem_of_mem_eraseIdx he)
    · exact ih
  | new_poset s id name _ ih =>
    simp only
    unfold npc_new_poset
    split
    · exact ih
    · rename_i name
      split
      · exact ih
      · split
        · rename_i c hc
          split
          · rename_i hany
            simp only
            apply sorted_names_modify _ _ _ _ ih
            intro e he hs
            refine sorted_poset_emplace _ _ _ hs ?_
            have e1 : posets_at s.2 c = e.2 := by
              unfold posets_at
              rw [List.getD_eq_getElem?_getD, he]
              rfl
            rw [e1] at hany
            intro hmem
            obtain ⟨q, hq, hqn⟩ := List.mem_map.mp hmem
            have : e.2.any (fun e => decide (e.1 = name)) = true :=
              List.any_eq_true.mpr ⟨q, hq, by simpa using hqn⟩
            rw [this] at hany
            cases hany
          · exact ih
        · exact ih
  | delete_poset s id name _ ih =>
    simp only
    unfold npc_delete_poset
    split
    · exact ih
    · split
      · apply sorted_names_modify _ _ _ _ ih
        intro e _ he
        exact sorted_poset_erase _ _ he
      · exact ih
  | copy_poset s id name_dst name_src _ ih =>
    simp only
    unfold npc_copy_poset
    split
    · split
      · exact ih
      · split
        · apply sorted_names_modify _ _ _ _ ih
          intro e _ he
          exact sorted_poset_assign _ _ _ he
        · exact ih
    · exact ih
  | add_relation s id name x y _ ih =>
    simp only
    unfold npc_add_relation
    split
    · exact ih
    · split
      · exact ih
      · split
        · exact ih
        · split
          · exact ih
          · exact sorted_names_set_matrix _ _ _ ih
  | remove_relation s id name x y _ ih =>
    simp only
    unfold npc_remove_relation
    split
    · exact ih
    · split
      · exact ih
      · split
        · exact ih
        · split
          · exact ih
          · split
            · exact ih
            · exact sorted_names_set_matrix _ _ _ ih

/-! ## The iteration over the names of a collection -/

theorem poset_find_of_sorted {posets : poset}
    (h : (posets.map (fun q => q.1)).Pairwise (fun a b => a < b))
    {i : Nat} {q : String × relation_matrix} (hi : posets[i]? = some q) :
    poset_find posets q.1 = i := by
  have hlt := lt_length_of_getElem? hi
  have ei : posets[i] = q := by
    rw [List.getElem?_eq_getElem hlt] at hi
    exact Option.some.inj hi
  unfold poset_find
  rw [List.findIdx_eq hlt]
  refine ⟨by simp [ei], ?_⟩
  intro j hji
  have hp := List.pairwise_iff_getElem.mp h j i (by rw [List.length_map]; omega)
    (by rw [List.length_map]; exact hlt) hji
  rw [List.getElem_map, List.getElem_map, ei] at hp
  simp only [decide_eq_false_iff_not]
  exact ne_of_lt hp

theorem next_poset_of_sorted {collections : npc} {id : Int} {c : Nat}
    (hc : find_collection collections id = some c)
    (h : ((posets_at collections c).map (fun q => q.1)).Pairwise (fun a b => a < b))
    {i : Nat} {q : String × relation_matrix} (hi : (posets_at collections c)[i]? = some q) :
    npc_next_poset collections id (some q.1) =
      ((posets_at collections c).map (fun q => q.1))[i + 1]? := by
  have hlt := lt_length_of_getElem? hi
  unfold npc_next_poset find_poset
  simp only [hc, poset_find_of_sorted h hi]
  have e1 : step_if_next (posets_at collections c) i true = i + 1 := by
    unfold step_if_next
    rw [if_pos]
    simp only [Bool.true_and, decide_eq_true_eq]
    omega
  rw [e1]
  by_cases hn : i + 1 = (posets_at collections c).length
  · rw [if_neg (fun h' => h' hn)]
    simp only
    rw [List.getElem?_eq_none (by rw [List.length_map]; omega)]
  · rw [if_pos hn]
    simp only
    have hlt2 : i + 1 < (posets_at collections c).length := by omega
    unfold name_at
    simp only
    rw [List.getElem?_map, List.getD_eq_getElem?_getD, List.getElem?_eq_getElem hlt2]
    rfl

theorem visit_posets_of_sorted {collections : npc} {id : Int} {c : Nat}
    (hc : find_collection collections id = some c)
    (h : ((posets_at collections c).map (fun q => q.1)).Pairwise (fun a b => a < b)) :
    ∀ (fuel i : Nat), (posets_at collections c).length - i ≤ fuel →
      visit_posets collections id fuel (((posets_at collections c).map (fun q => q.1))[i]?) =
        (((posets_at collections c).map (fun q => q.1)).drop i, true) := by
  intro fuel
  induction fuel with
  | zero =>
    intro i hi
    rw [List.getElem?_eq_none (by rw [List.length_map]; omega),
      List.drop_eq_nil_of_le (by rw [List.length_map]; omega)]
    rfl
  | succ fuel ih =>
    intro i hi
    rcases Nat.lt_or_ge i (posets_at collections c).length with hlt | hge
    · have hq : (posets_at collections c)[i]? = some (posets_at collections c)[i] :=
        List.getElem?_eq_getElem hlt
      have e1 : ((posets_at collections c).map (fun q => q.1))[i]? =
          some (posets_at collections c)[i].1 := by
        rw [List.getElem?_map, hq]
        rfl
      rw [e1]
      unfold visit_posets
      rw [next_poset_of_sorted hc h hq, ih (i + 1) (by omega)]
      have e2 : ((posets_at collections c).map (fun q => q.1)).drop i =
          (posets_at collections c)[i].1 ::
            ((posets_at collections c).map (fun q => q.1)).drop (i + 1) := by
        rw [List.drop_eq_getElem_cons (by rw [List.length_map]; exact hlt), List.getElem_map]
      rw [e2]
    · rw [List.getElem?_eq_none (by rw [List.length_map]; omega),
        List.drop_eq_nil_of_le (by rw [List.length_map]; omega)]
      rfl

theorem first_poset_eq {collections : npc} {id : Int} {c : Nat}
    (hc : find_collection collections id = some c) :
    npc_first_poset collections id = ((posets_at collections c).map (fun q => q.1))[0]? := by
  unfold npc_first_poset
  rw [hc]
  simp only
  cases hp : posets_at collections c with
  | nil => rfl
  | cons e l =>
    unfold name_at
    simp [hp]

/-- C22: in every state the module reaches, for a collection `id` that exists,
the loop that starts at `npc_first_poset(id)` and goes on with
`npc_next_poset(id, name)` reaches `NULL` after visiting exactly the keys of the
collection, in the order of the map; these names ascend strictly, so no name is
visited twice, and their number is `npc_collection_size(id)`. In any state,
`npc_first_poset(id)` is `NULL` iff the collection does not exist or holds no
poset. -/
theorem poset_iteration_visits_names (N : Nat) (s : Int × npc) (id : Int) (c : Nat)
    (h : Reachable N s) (hc : find_collection s.2 id = some c) :
    (∀ fuel, npc_collection_size s.2 id ≤ fuel →
      visit_posets s.2 id fuel (npc_first_poset s.2 id) =
        ((posets_at s.2 c).map (fun q => q.1), true)) ∧
    ((posets_at s.2 c).map (fun q => q.1)).Pairwise (fun a b => a < b) ∧
    ((posets_at s.2 c).map (fun q => q.1)).Nodup ∧
    ((posets_at s.2 c).map (fun q => q.1)).length = npc_collection_size s.2 id ∧
    ∀ (collections : npc) (id1 : Int),
      npc_first_poset collections id1 = none ↔
        (find_collection collections id1 = none ∨
          ∃ c1, find_collection collections id1 = some c1 ∧ posets_at collections c1 = []) := by
  have hsize : npc_collection_size s.2 id = (posets_at s.2 c).length := by
    unfold npc_collection_size
    rw [hc]
  have hsorted : ((posets_at s.2 c).map (fun q => q.1)).Pairwise (fun a b => a < b) := by
    obtain ⟨e, he, -⟩ := find_collection_some hc
    have e1 : posets_at s.2 c = e.2 := by
      unfold posets_at
      rw [List.getD_eq_getElem?_getD, he]
      rfl
    rw [e1]
    exact sorted_names_reachable h e (List.getElem?_mem he)
  refine ⟨?_, hsorted, hsorted.imp (fun hab => ne_of_lt hab), by rw [hsize, List.length_map], ?_⟩
  · intro fuel hf
    rw [first_poset_eq hc, visit_posets_of_sorted hc hsorted fuel 0 (by omega), List.drop_zero]
  · intro collections id1
    unfold npc_first_poset
    cases hc1 : find_collection collections id1 with
    | none => simp
    | some c1 =>
      by_cases hp : posets_at collections c1 = []
      · simp [hp]
      · simp [hp]

theorem reachable_example_two_names : Reachable 32 example_two_names :=
  Reachable.new_poset _ 0 (some "xyz")
    (Reachable.new_poset _ 0 (some "abcd")
      (Reachable.new_poset _ 0 (some "xyz")
        (Reachable.new_collection _ Reachable.init)))

theorem example_two_names_eq :
    example_two_names.2 =
      [(0, [("abcd", get_diagonal_matrix 32), ("xyz", get_diagonal_matrix 32)])] := by
  have h1 : (npc_new_poset 32 (npc_new_collection 0 []).2.2 0 (some "xyz")).2 =
      [(0, [("xyz", get_diagonal_matrix 32)])] := by decide
  have h2 : (npc_new_poset 32 [(0, [("xyz", get_diagonal_matrix 32)])] 0 (some "abcd")).2 =
      [(0, [("abcd", get_diagonal_matrix 32), ("xyz", get_diagonal_matrix 32)])] := by
    have hv : is_valid_name "abcd" = true := by decide
    have hf : find_collection [(0, [("xyz", get_diagonal_matrix 32)])] 0 = some 0 := by decide
    have ha : (posets_at [(0, [("xyz", get_diagonal_matrix 32)])] 0).any
        (fun e => decide (e.1 = "abcd")) = false := by decide
    have hlt : ("abcd" : String) < "xyz" := by rw [String.lt_iff_toList_lt]; decide
    simp only [npc_new_poset, hv, hf, ha, Bool.not_true, Bool.not_false, Bool.false_eq_true,
      if_false, if_true, List.modify_zero_cons, poset_emplace, hlt]
  have h3 : (npc_new_poset 32
      [(0, [("abcd", get_diagonal_matrix 32), ("xyz", get_diagonal_matrix 32)])] 0
      (some "xyz")).2 =
      [(0, [("abcd", get_diagonal_matrix 32), ("xyz", get_diagonal_matrix 32)])] := by decide
  show (npc_new_poset 32 (npc_new_poset 32
    (npc_new_poset 32 (npc_new_collection 0 []).2.2 0 (some "xyz")).2 0 (some "abcd")).2 0
    (some "xyz")).2 = _
  rw [h1, h2, h3]

theorem poset_iteration_visits_names_witness :
    Reachable 32 example_two_names ∧ find_collection example_two_names.2 0 = some 0 ∧
      npc_collection_size example_two_names.2 0 = 2 ∧
      visit_posets example_two_names.2 0 2 (npc_first_poset example_two_names.2 0) =
        ((posets_at example_two_names.2 0).map (fun q => q.1), true) ∧
      (posets_at example_two_names.2 0).map (fun q => q.1) = ["abcd", "xyz"] :=
  ⟨reachable_example_two_names, by rw [example_two_names_eq]; decide,
    by rw [example_two_names_eq]; decide,
    (poset_iteration_visits_names 32 example_two_names 0 0 reachable_example_two_names
      (by rw [example_two_names_eq]; decide)).1 2 (by rw [example_two_names_eq]; decide),
    by rw [example_two_names_eq]; decide⟩

/-! ## New posets -/

theorem test_diagonal (N x y : Nat) (hx : x < N) (hy : y < N) :
    test (get_diagonal_matrix N) x y = decide (x = y) := by
  unfold test get_diagonal_matrix bitset_set
  simp only [List.getD_eq_getElem?_getD, List.getElem?_map, List.getElem?_range hx,
    Option.map_some', Option.getD_some, List.getElem?_set]
  by_cases h : x = y
  · simp [h, hy]
  · simp [h, hy]

theorem is_valid_name_iff (name : String) :
    is_valid_name name = true ↔
      name.data ≠ [] ∧
        ∀ ch ∈ name.data, ('a' ≤ ch ∧ ch ≤ 'z') ∨ ('A' ≤ ch ∧ ch ≤ 'Z') ∨
          ('0' ≤ ch ∧ ch ≤ '9') ∨ ch = '_' := by
  unfold is_valid_name
  rw [Bool.and_eq_true, List.all_eq_true]
  constructor
  · rintro ⟨h1, h2⟩
    refine ⟨by simpa using h1, ?_⟩
    intro ch hch
    have := h2 ch hch
    simp only [is_name_char, Bool.or_eq_true, Bool.and_eq_true, decide_eq_true_eq] at this
    rcases this with ((h | h) | h) | h
    · exact Or.inl h
    · exact Or.inr (Or.inl h)
    · exact Or.inr (Or.inr (Or.inl h))
    · exact Or.inr (Or.inr (Or.inr h))
  · rintro ⟨h1, h2⟩
    refine ⟨by simpa using h1, ?_⟩
    intro ch hch
    simp only [is_name_char, Bool.or_eq_true, Bool.and_eq_true, decide_eq_true_eq]
    rcases h2 ch hch with h | h | h | h
    · exact Or.inl (Or.inl (Or.inl h))
    · exact Or.inl (Or.inl (Or.inr h))
    · exact Or.inl (Or.inr h)
    · exact Or.inr h

theorem posets_at_eq {collections : npc} {c : Nat} {e : Int × poset}
    (h : collections[c]? = some e) : posets_at collections c = e.2 := by
  unfold posets_at
  rw [List.getD_eq_getElem?_getD, h]
  rfl

theorem any_name_iff (posets : poset) (name : String) :
    posets.any (fun e => decide (e.1 = name)) = true ↔ name ∈ posets.map (fun q => q.1) := by
  rw [List.any_eq_true, List.mem_map]
  constructor
  · rintro ⟨q, hq, h⟩
    exact ⟨q, hq, by simpa using h⟩
  · rintro ⟨q, hq, h⟩
    exact ⟨q, hq, by simpa using h⟩

/-- What `npc_new_poset` returns and leaves when it succeeds. -/
theorem new_poset_success (N : Nat) (collections : npc) (id : Int) (name : String) (c : Nat)
    (hv : is_valid_name name = true) (hc : find_collection collections id = some c)
    (hn : name ∉ (posets_at collections c).map (fun q => q.1)) :
    npc_new_poset N collections id (some name) =
      (true,
        collections.modify (fun e => (e.1, poset_emplace e.2 name (get_diagonal_matrix N))) c) := by
  have ha : (posets_at collections c).any (fun e => decide (e.1 = name)) = false := by
    rw [Bool.eq_false_iff]
    intro h
    exact hn ((any_name_iff _ _).mp h)
  simp [npc_new_poset, hv, hc, ha]

theorem new_poset_cases (N : Nat) (collections : npc) (id : Int) (name : Option String) :
    (∃ c n, find_collection collections id = some c ∧ name = some n ∧
        is_valid_name n = true ∧ n ∉ (posets_at collections c).map (fun q => q.1)) ∨
      npc_new_poset N collections id name = (false, collections) := by
  cases name with
  | none => exact Or.inr rfl
  | some n =>
    by_cases hv : is_valid_name n = true
    · cases hc : find_collection collections id with
      | none =>
        refine Or.inr ?_
        simp [npc_new_poset, hv, hc]
      | some c =>
        by_cases hn : n ∈ (posets_at collections c).map (fun q => q.1)
        · refine Or.inr ?_
          have ha := (any_name_iff _ _).mpr hn
          simp [npc_new_poset, hv, hc, ha]
        · exact Or.inl ⟨c, n, rfl, rfl, hv, hn⟩
    · refine Or.inr ?_
      have hv' : is_valid_name n = false := by simpa using hv
      simp [npc_new_poset, hv']

theorem posets_at_new_poset (N : Nat) (collections : npc) (name : String) (c : Nat)
    (hc : c < collections.length) :
    posets_at (collections.modify
        (fun e => (e.1, poset_emplace e.2 name (get_diagonal_matrix N))) c) c =
      poset_emplace (posets_at collections c) name (get_diagonal_matrix N) := by
  unfold posets_at
  simp only [List.getD_eq_getElem?_getD, List.getElem?_modify, List.getElem?_eq_getElem hc]
  simp

theorem find_collection_new_poset (N : Nat) (collections : npc) (name : String) (c : Nat)
    (id : Int) :
    find_collection (collections.modify
        (fun e => (e.1, poset_emplace e.2 name (get_diagonal_matrix N))) c) id =
      find_collection collections id := by
  unfold find_collection
  rw [findIdx_modify_fst collections
    (fun e => (e.1, poset_emplace e.2 name (get_diagonal_matrix N))) (fun _ => rfl),
    List.length_modify]

theorem find_emplaced (posets : poset) (name : String) (m : relation_matrix)
    (hn : name ∉ posets.map (fun q => q.1)) :
    poset_find (poset_emplace posets name m) name < (poset_emplace posets name m).length ∧
      (poset_emplace posets name m)[poset_find (poset_emplace posets name m) name]? =
        some (name, m) := by
  have hlt : poset_find (poset_emplace posets name m) name <
      (poset_emplace posets name m).length := by
    unfold poset_find
    rw [List.findIdx_lt_length]
    exact ⟨(name, m), (mem_poset_emplace _ _ _ _).mpr (Or.inl rfl), by simp⟩
  refine ⟨hlt, ?_⟩
  obtain ⟨e, he, hen⟩ := poset_find_some hlt
  rw [he]
  rcases (mem_poset_emplace _ _ _ _).mp (List.getElem?_mem he) with h | h
  · rw [h]
  · exfalso
    exact hn (List.mem_map.mpr ⟨e, h, hen⟩)

/-- C23: `npc_new_poset(id, name)` returns `true` iff a collection `id` exists,
`name` is not `NULL`, is not empty, consists of characters of `[a-zA-Z0-9_]`
and is not a key of the collection; after a call that returned `true` the poset
`name` of the collection holds exactly the pairs `(x, x)` with `x < N` and
`npc_collection_size(id)` is one more than before; a call that returned `false`
has changed nothing. -/
theorem new_poset_contract (N : Nat) (collections : npc) (id : Int) (name : Option String) :
    ((npc_new_poset N collections id name).1 = true ↔
      ∃ c n, find_collection collections id = some c ∧ name = some n ∧ n.data ≠ [] ∧
        (∀ ch ∈ n.data, ('a' ≤ ch ∧ ch ≤ 'z') ∨ ('A' ≤ ch ∧ ch ≤ 'Z') ∨
          ('0' ≤ ch ∧ ch ≤ '9') ∨ ch = '_') ∧
        n ∉ (posets_at collections c).map (fun q => q.1)) ∧
    ((npc_new_poset N collections id name).1 = true →
      (∀ x y, npc_is_relation N (npc_new_poset N collections id name).2 id name x y = true ↔
        x = y ∧ x < N) ∧
      npc_collection_size (npc_new_poset N collections id name).2 id =
        npc_collection_size collections id + 1) ∧
    ((npc_new_poset N collections id name).1 = false →
      (npc_new_poset N collections id name).2 = collections) := by
  rcases new_poset_cases N collections id name with ⟨c, n, hc, hname, hv, hn⟩ | hfail
  · have hres := new_poset_success N collections id n c hv hc hn
    rw [hname, hres]
    obtain ⟨e, he, -⟩ := find_collection_some hc
    have hclt : c < collections.length := lt_length_of_getElem? he
    refine ⟨⟨fun _ => ⟨c, n, hc, rfl, ((is_valid_name_iff n).mp hv).1,
      ((is_valid_name_iff n).mp hv).2, hn⟩, fun _ => rfl⟩, fun _ => ⟨?_, ?_⟩, ?_⟩
    · intro x y
      simp only
      obtain ⟨f1, f2⟩ := find_emplaced (posets_at collections c) n (get_diagonal_matrix N) hn
      have hfind : find_poset (collections.modify
          (fun e => (e.1, poset_emplace e.2 n (get_diagonal_matrix N))) c) id n false =
          some (c, poset_find (poset_emplace (posets_at collections c) n
            (get_diagonal_matrix N)) n) := by
        unfold find_poset
        rw [find_collection_new_poset, hc]
        simp only [posets_at_new_poset N collections n c hclt, step_if_next, Bool.false_and,
          Bool.false_eq_true, if_false]
        rw [if_pos (by omega)]
      have hmat : matrix_at (collections.modify
          (fun e => (e.1, poset_emplace e.2 n (get_diagonal_matrix N))) c)
          (c, poset_find (poset_emplace (posets_at collections c) n
            (get_diagonal_matrix N)) n) = get_diagonal_matrix N := by
        unfold matrix_at
        simp only [posets_at_new_poset N collections n c hclt, List.getD_eq_getElem?_getD, f2]
        rfl
      rw [is_relation_eq N hfind, hmat, Bool.and_eq_true, decide_eq_true_eq]
      constructor
      · rintro ⟨h1, h2⟩
        have hx : x < N := lt_of_le_of_lt (le_max_left x y) h1
        have hy : y < N := lt_of_le_of_lt (le_max_right x y) h1
        rw [test_diagonal N x y hx hy, decide_eq_true_eq] at h2
        exact ⟨h2, hx⟩
      · rintro ⟨h1, h2⟩
        subst h1
        refine ⟨by simpa using h2, ?_⟩
        rw [test_diagonal N x x h2 h2]
        simp
    · simp only
      unfold npc_collection_size
      rw [find_collection_new_poset, hc]
      simp only
      rw [posets_at_new_poset N collections n c hclt, length_poset_emplace]
    · intro h
      cases h
  · rw [hfail]
    refine ⟨⟨fun h => (by cases h), ?_⟩, fun h => (by cases h), fun _ => rfl⟩
    rintro ⟨c, n, hc, hname, h1, h2, hn⟩
    have hv : is_valid_name n = true := (is_valid_name_iff n).mpr ⟨h1, h2⟩
    have hres := new_poset_success N collections id n c hv hc hn
    rw [hname, hres] at hfail
    cases hfail

end NamedPosets
